import Mathlib

/-!
# Verification of the overlook maze animator core

A shallow embedding of the maze data model and the generation / solving /
walking algorithms of the overlook repository (src/maze.rs, src/state.rs,
src/generate/*, src/solve/*, src/walk.rs, src/fade.rs), together with proofs
of the behavioural properties claimed by its specification.

Modelling conventions:
* Rust usize arithmetic is modelled on Nat.  Where the source relies on
  wrapping subtraction followed by a bounds check (Maze::edge), the model
  tests the underflow condition directly, which is extensionally equal for
  all dimensions below 2^64 (the program constructs mazes from u16 values).
* Randomness is modelled by explicit choice arguments: every call to the
  thread rng becomes a Nat (or Node) parameter, quantified universally.
* Buffers indexed through MazeIndex::normalise become functions Nat to
  values, updated pointwise.
-/

set_option maxHeartbeats 1000000

namespace Overlook

/-- A lattice node, Rust `Node(pub usize, pub usize)`: an (x, y) pair. -/
abbrev Node := Nat × Nat

/-- Rust `Direction`. -/
inductive Direction where
  | north
  | south
  | east
  | west
deriving DecidableEq, Repr

/-- `Direction::clockwise`. -/
def Direction.clockwise : Direction → Direction
  | .north => .east
  | .south => .west
  | .east => .south
  | .west => .north

/-- `Direction::reverse`. -/
def Direction.reverse : Direction → Direction
  | .north => .south
  | .south => .north
  | .east => .west
  | .west => .east

/-- `Direction::anti_clockwise` (defined in the source as clockwise then reverse). -/
def Direction.anti_clockwise (d : Direction) : Direction :=
  d.clockwise.reverse

/-- `Direction::ALL`, in source order. -/
def Direction.all : List Direction :=
  [.north, .east, .south, .west]

/-- Rust `Edge { from, to, direction }`.  Field names are adjusted because
`from` is reserved in Lean. -/
structure Edge where
  efrom : Node
  eto : Node
  edir : Direction
deriving DecidableEq, Repr

/-- `Edge::identity`: the self edge used as a sentinel, direction North. -/
def identityE (n : Node) : Edge :=
  ⟨n, n, .north⟩

/-- `Edge::reverse`. -/
def Edge.reverseE (e : Edge) : Edge :=
  ⟨e.eto, e.efrom, e.edir.reverse⟩

/-- The Rust `impl PartialEq for Edge`: undirected equality on the endpoint
pair, ignoring the direction field. -/
def edgeEqB (a b : Edge) : Bool :=
  ((a.efrom, a.eto) = (b.efrom, b.eto) : Bool) ||
  ((a.efrom, a.eto) = (b.eto, b.efrom) : Bool)

/-- The data stream fed to the hasher by the derived `Hash` instance of
`Edge`: the fields in declaration order (from.0, from.1, to.0, to.1,
direction discriminant).  The Hash contract of Rust requires that two keys
comparing equal feed identical data to every hasher. -/
def hashStream (e : Edge) : List Nat :=
  [e.efrom.1, e.efrom.2, e.eto.1, e.eto.2,
    match e.edir with
    | .north => 0
    | .south => 1
    | .east => 2
    | .west => 3]

/-- `Maze::node`: bounds check. -/
def validNode (w h : Nat) (n : Node) : Bool :=
  n.1 < w && n.2 < h

/-- `Maze::edge`: the neighbour of `n` in direction `d`, if it is in bounds.
The source computes the neighbour with `wrapping_sub` and then bounds-checks
it; for the sizes representable in the program (u16 dimensions) the wrapped
value always fails the bounds check, which the model expresses by testing
the underflow condition directly. -/
def mazeEdge (w h : Nat) (n : Node) (d : Direction) : Option Edge :=
  let c : Option Node :=
    match d with
    | .north => if n.2 = 0 then none else some (n.1, n.2 - 1)
    | .south => some (n.1, n.2 + 1)
    | .east => some (n.1 + 1, n.2)
    | .west => if n.1 = 0 then none else some (n.1 - 1, n.2)
  match c with
  | none => none
  | some m => if validNode w h m then some ⟨n, m, d⟩ else none

/-- `Node::normalise`: x + y * width. -/
def nodeSlot (w : Nat) (n : Node) : Nat :=
  n.1 + n.2 * w

/-- `Edge::normalise`, on Nat (truncated subtraction stands in for the usize
subtraction; `normaliseChecked` below models the partiality). -/
def normaliseE (w : Nat) (e : Edge) : Nat :=
  let (x, y, z) :=
    match e.edir with
    | .north => (e.efrom.1, e.efrom.2 - 1, 0)
    | .south => (e.efrom.1, e.efrom.2, 0)
    | .east => (e.efrom.1, e.efrom.2, 1)
    | .west => (e.efrom.1 - 1, e.efrom.2, 1)
  2 * nodeSlot w (x, y) + z

/-- `Edge::normalise` with the usize subtractions made explicit: `none`
models the panic (debug) / wildly out-of-bounds index (release) produced
when `y - 1` (North) or `x - 1` (West) underflows. -/
def normaliseChecked (w : Nat) (e : Edge) : Option Nat :=
  match e.edir with
  | .north => if e.efrom.2 = 0 then none else some (2 * nodeSlot w (e.efrom.1, e.efrom.2 - 1))
  | .south => some (2 * nodeSlot w (e.efrom.1, e.efrom.2))
  | .east => some (2 * nodeSlot w (e.efrom.1, e.efrom.2) + 1)
  | .west => if e.efrom.1 = 0 then none else some (2 * nodeSlot w (e.efrom.1 - 1, e.efrom.2) + 1)

/-- `Maze::nodes_iter`: row-major enumeration of all nodes. -/
def nodesList (w h : Nat) : List Node :=
  (List.range h).flatMap fun y => (List.range w).map fun x => (x, y)

/-- `Maze::edges_iter`: for every node its East and South edges, so each
physical edge appears exactly once. -/
def edgesList (w h : Nat) : List Edge :=
  (nodesList w h).flatMap fun n =>
    ((mazeEdge w h n .east).toList) ++ ((mazeEdge w h n .south).toList)

/-- `Maze::neighbours`: the in-bounds edges in `Direction::ALL` order. -/
def neighboursL (w h : Nat) (n : Node) : List Edge :=
  Direction.all.filterMap fun d => mazeEdge w h n d

/-- `SliceRandom::choose` on a possibly empty list: a random element, the
randomness supplied as the Nat argument `c`. -/
def chooseL {α : Type} (l : List α) (c : Nat) : Option α :=
  l.get? (c % l.length)

/-- Pointwise update of a Bool buffer (EdgeBuffer of bool). -/
def updB (f : Nat → Bool) (i : Nat) (b : Bool) : Nat → Bool :=
  fun j => if j = i then b else f j

/-- Pointwise update of an Option buffer (NodeBuffer of Option u8 etc.). -/
def updO {α : Type} (f : Nat → Option α) (i : Nat) (v : Option α) : Nat → Option α :=
  fun j => if j = i then v else f j

/-- Pointwise update of a plain buffer. -/
def updP {α : Type} (f : Nat → α) (i : Nat) (v : α) : Nat → α :=
  fun j => if j = i then v else f j

/-- The phase-independent part of `state::State`: the maze's open-edge
buffer (indexed by `Edge::normalise`), the per-node age buffer (indexed by
`Node::normalise`) and `visited_count`. -/
structure GState where
  openb : Nat → Bool
  age : Nat → Option Nat
  count : Nat

/-- `State::set_age`: replace the age with `some a`, bumping
`visited_count` when the slot was absent. -/
def setAge (w : Nat) (s : GState) (n : Node) (a : Nat) : GState :=
  { s with
    age := updO s.age (nodeSlot w n) (some a)
    count := if s.age (nodeSlot w n) = none then s.count + 1 else s.count }

/-- `State::visit`. -/
def visitG (w : Nat) (s : GState) (n : Node) : GState :=
  setAge w s n 0

/-- `State::unvisit`. -/
def unvisitG (w : Nat) (s : GState) (n : Node) : GState :=
  { s with
    age := updO s.age (nodeSlot w n) none
    count := if (s.age (nodeSlot w n)).isSome then s.count - 1 else s.count }

/-- `State::is_visited`. -/
def isVisitedG (w : Nat) (s : GState) (n : Node) : Bool :=
  (s.age (nodeSlot w n)).isSome

/-- `State::all_visited`: the count reaching `width * height`. -/
def allVisitedG (w h : Nat) (s : GState) : Bool :=
  s.count = w * h

/-- `State::step`: saturating increment (u8 saturation at 255) of every
present age. -/
def ageTickG (s : GState) : GState :=
  { s with age := fun i => (s.age i).map (fun a => min (a + 1) 255) }

/-- `Buffer::fill` on the age buffer: note that it does NOT touch
`visited_count`. -/
def fillAge (s : GState) (v : Option Nat) : GState :=
  { s with age := fun _ => v }

/-- Writing `state.maze.open[e] = b`. -/
def setOpen (w : Nat) (s : GState) (e : Edge) (b : Bool) : GState :=
  { s with openb := updB s.openb (normaliseE w e) b }

/-- `Maze::open_neighbours`: the in-bounds neighbour edges whose edge slot
is open. -/
def openNeighboursL (w h : Nat) (f : Nat → Bool) (n : Node) : List Edge :=
  (neighboursL w h n).filter fun e => f (normaliseE w e)

/-- `Signal`. -/
inductive Signal where
  | cont
  | done
deriving DecidableEq, Repr

/-- The generic animation loop (`Animation::run`): drive `step` with the
given choice stream, applying the aging tick after every `Continue`, until
`Done` is signalled (`true`) or the stream runs out (`false`). -/
def runAlg {S C : Type} (step : S → C → S × Signal) (tick : S → S) :
    S → List C → S × Bool
  | s, [] => (s, false)
  | s, c :: cs =>
    match step s c with
    | (s', .done) => (s', true)
    | (s', .cont) => runAlg step tick (tick s') cs

/-! ### Generation algorithms -/

/-- State of `AldousBroder`. -/
structure ABState where
  gs : GState
  head : Node

/-- `AldousBroder::step`.  The choice `c` selects the random neighbour.
The unreachable case of an empty neighbour list (impossible for a node of a
maze with at least two nodes, witness the `Neighbours<true>` type state)
leaves the state unchanged. -/
def abStep (w h : Nat) (s : ABState) (c : Nat) : ABState × Signal :=
  if allVisitedG w h s.gs then (s, .done)
  else
    let gs1 := visitG w s.gs s.head
    match chooseL (neighboursL w h s.head) c with
    | none => ({ s with gs := gs1 }, .cont)
    | some e =>
      let gs2 := if isVisitedG w gs1 e.eto then gs1 else setOpen w gs1 e true
      (⟨gs2, e.eto⟩, .cont)

def abTick (s : ABState) : ABState :=
  { s with gs := ageTickG s.gs }

/-- State of `Dfs`: explicit stack, top at the list head. -/
structure DfsState where
  gs : GState
  stack : List Node

/-- `Dfs::step`. -/
def dfsStep (w h : Nat) (s : DfsState) (c : Nat) : DfsState × Signal :=
  match s.stack with
  | [] => (s, .done)
  | head :: rest =>
    let gs1 := visitG w s.gs head
    let cand := (neighboursL w h head).filter fun e => !isVisitedG w gs1 e.eto
    match chooseL cand c with
    | none => (⟨gs1, rest⟩, .cont)
    | some e => (⟨setOpen w gs1 e true, e.eto :: head :: rest⟩, .cont)

def dfsTick (s : DfsState) : DfsState :=
  { s with gs := ageTickG s.gs }

/-- `Vec::swap_remove`: replace position `i` with the last element and pop
the last. -/
def swapRemoveL {α : Type} (l : List α) (i : Nat) : List α :=
  match l.getLast? with
  | none => l
  | some last => (l.set i last).dropLast

/-- State of `Prim`: the frontier of candidate edges. -/
structure PrimState where
  gs : GState
  queue : List Edge

/-- `Prim::step`.  The choice selects the random frontier index. -/
def primStep (w h : Nat) (s : PrimState) (c : Nat) : PrimState × Signal :=
  if s.queue = [] then (s, .done)
  else
    let i := c % s.queue.length
    let e := s.queue.getD i (identityE (0, 0))
    let q1 := swapRemoveL s.queue i
    let unvisited : Option Node :=
      match isVisitedG w s.gs e.efrom, isVisitedG w s.gs e.eto with
      | true, false => some e.eto
      | false, true => some e.efrom
      | _, _ => none
    let gs1 := visitG w (visitG w s.gs e.efrom) e.eto
    match unvisited with
    | some u => (⟨setOpen w gs1 e true, q1 ++ neighboursL w h u⟩, .cont)
    | none => (⟨gs1, q1⟩, .cont)

def primTick (s : PrimState) : PrimState :=
  { s with gs := ageTickG s.gs }

/-- State of `Kruskal`: the shuffled queue (popped from the head in the
model; the initial shuffle is universally quantified, so this is the same
set of behaviours as popping the Vec from its back) and the union-find
parent buffer, indexed by `Node::normalise`. -/
structure KrusState where
  gs : GState
  queue : List Edge
  pars : Nat → Node

/-- `Kruskal::find_root` with explicit fuel: follows the parent chain and
path-compresses every node on it.  Under the forest invariant a fuel of
`w * h` always suffices, so the fuel-exhausted base case (which returns the
queried node) is never taken on reachable states. -/
def findRootF (w : Nat) : Nat → (Nat → Node) → Node → ((Nat → Node) × Node)
  | 0, pars, n => (pars, n)
  | fuel + 1, pars, n =>
    let p := pars (nodeSlot w n)
    if n = p then (pars, n)
    else
      let r := findRootF w fuel pars p
      (updP r.1 (nodeSlot w n) r.2, r.2)

/-- The recursive retry of `Kruskal::step`: keep popping until an edge
joins two distinct trees or the queue empties. -/
def kruskalGo (w h : Nat) (gs : GState) (pars : Nat → Node) :
    List Edge → GState × (Nat → Node) × List Edge × Signal
  | [] => (gs, pars, [], .done)
  | e :: rest =>
    let fa := findRootF w (w * h) pars e.efrom
    let fb := findRootF w (w * h) fa.1 e.eto
    if fb.2 = fa.2 then
      kruskalGo w h gs fb.1 rest
    else
      let gs1 := visitG w (visitG w gs e.efrom) e.eto
      let pars3 := updP fb.1 (nodeSlot w fa.2) fb.2
      (setOpen w gs1 e true, pars3, rest, .cont)

/-- `Kruskal::step` (no choice argument: the randomness is entirely in the
initial shuffle). -/
def kruskalStep (w h : Nat) (s : KrusState) (_ : Unit) : KrusState × Signal :=
  let r := kruskalGo w h s.gs s.pars s.queue
  (⟨r.1, r.2.2.1, r.2.1⟩, r.2.2.2)

def krusTick (s : KrusState) : KrusState :=
  { s with gs := ageTickG s.gs }

/-- State of `Wilson`: the current loop-erased path (in Vec order, newest
edge last) and the path-index buffer. -/
structure WilState where
  gs : GState
  path : List Edge
  idx : Nat → Option Nat

/-- One erasure action for a drained edge: clear its path index, close its
edge slot and unvisit its target. -/
def wilErase1 (w : Nat) (s : GState × (Nat → Option Nat)) (e : Edge) :
    GState × (Nat → Option Nat) :=
  (setOpen w (unvisitG w s.1 e.eto) e false, updO s.2 (nodeSlot w e.eto) none)

/-- `Wilson::step`.  `c1` picks the random unvisited node when a new walk
begins, `c2` picks the random neighbour. -/
def wilsonStep (w h : Nat) (s : WilState) (c : Nat × Nat) : WilState × Signal :=
  let start : Option (WilState × Node) :=
    match s.path.getLast? with
    | some last => some (s, last.eto)
    | none =>
      let unv := (nodesList w h).filter fun n => !isVisitedG w s.gs n
      match chooseL unv c.1 with
      | none => none
      | some first => some ({ s with path := [identityE first] }, first)
  match start with
  | none => (s, .done)
  | some (s0, head) =>
    let gs1 := visitG w s0.gs head
    let idx1 := updO s0.idx (nodeSlot w head) (some s0.path.length)
    match chooseL (neighboursL w h head) c.2 with
    | none => ({ s0 with gs := gs1, idx := idx1 }, .cont)
    | some e =>
      match idx1 (nodeSlot w e.eto), isVisitedG w gs1 e.eto with
      | some loopStart, _ =>
        let kept := s0.path.take loopStart
        let erased := s0.path.drop loopStart
        let r := erased.foldl (wilErase1 w) (gs1, idx1)
        (⟨r.1, kept, r.2⟩, .cont)
      | none, true =>
        (⟨setOpen w gs1 e true, [], fun _ => none⟩, .cont)
      | none, false =>
        (⟨setOpen w gs1 e true, s0.path ++ [e], idx1⟩, .cont)

def wilTick (s : WilState) : WilState :=
  { s with gs := ageTickG s.gs }

/-! ### The solve phase -/

/-- The solve-phase state: shared state plus `start`, `goal` and the
parent buffer. -/
structure SState where
  gs : GState
  start : Node
  goal : Node
  parents : Nat → Option Node

/-- The inner loop of `solve::find_dead_end`, with explicit fuel (the
source loop always terminates on the tree mazes it is run on; fuel
exhaustion returns the origin, like queue exhaustion does). -/
def fdeGo (w h : Nat) (f : Nat → Bool) (origin : Node) :
    Nat → List Edge → Node
  | 0, _ => origin
  | _ + 1, [] => origin
  | fuel + 1, e :: rest =>
    let ns := openNeighboursL w h f e.eto
    if ns.length = 1 then e.eto
    else fdeGo w h f origin fuel (rest ++ ns)

/-- `solve::find_dead_end`. -/
def findDeadEnd (w h : Nat) (f : Nat → Bool) (origin : Node) (fuel : Nat) : Node :=
  fdeGo w h f origin fuel [identityE origin]

/-- `solve::state`: fresh age and parent buffers, start/goal by dead-end
search from the two corners. -/
def solveInit (w h : Nat) (gs : GState) (fuel : Nat) : SState :=
  { gs := { openb := gs.openb, age := fun _ => none, count := 0 }
    start := findDeadEnd w h gs.openb (0, 0) fuel
    goal := findDeadEnd w h gs.openb (w - 1, h - 1) fuel
    parents := fun _ => none }

/-- `parents[next].get_or_insert(head)`: write only when unset. -/
def parInsert (w : Nat) (p : Nat → Option Node) (n : Node) (v : Node) :
    Nat → Option Node :=
  match p (nodeSlot w n) with
  | some _ => p
  | none => updO p (nodeSlot w n) (some v)

/-- State of `Mouse`. -/
structure MouseState where
  ss : SState
  head : Node

/-- `Mouse::step`.  The unreachable empty-neighbour case (the source
panics: a maze node is never isolated) leaves the state unchanged. -/
def mouseStep (w h : Nat) (s : MouseState) (c : Nat) : MouseState × Signal :=
  let gs1 := visitG w s.ss.gs s.head
  if s.head = s.ss.goal then ({ s with ss := { s.ss with gs := gs1 } }, .done)
  else
    match chooseL (openNeighboursL w h gs1.openb s.head) c with
    | none => ({ s with ss := { s.ss with gs := gs1 } }, .cont)
    | some e =>
      let ps := parInsert w s.ss.parents e.eto s.head
      (⟨{ s.ss with gs := gs1, parents := ps }, e.eto⟩, .cont)

def mouseTick (s : MouseState) : MouseState :=
  { s with ss := { s.ss with gs := ageTickG s.ss.gs } }

/-- State of `RightHand`. -/
structure RHState where
  ss : SState
  head : Node
  dir : Direction

/-- The direction scan of `RightHand::step`: rotate anti-clockwise until an
open edge is found.  Four attempts exhaust the rotation; if none is open
the source recurses forever, which the model maps to a stuttering step. -/
def rhFind (w h : Nat) (f : Nat → Bool) (n : Node) : Direction → Nat → Option Edge
  | _, 0 => none
  | d, fuel + 1 =>
    match mazeEdge w h n d with
    | some e => if f (normaliseE w e) then some e else rhFind w h f n d.anti_clockwise fuel
    | none => rhFind w h f n d.anti_clockwise fuel

/-- `RightHand::step` (deterministic). -/
def rhStep (w h : Nat) (s : RHState) (_ : Unit) : RHState × Signal :=
  let gs1 := visitG w s.ss.gs s.head
  if s.head = s.ss.goal then ({ s with ss := { s.ss with gs := gs1 } }, .done)
  else
    match rhFind w h gs1.openb s.head s.dir 4 with
    | none => ({ s with ss := { s.ss with gs := gs1 } }, .cont)
    | some e =>
      let ps := parInsert w s.ss.parents e.eto e.efrom
      (⟨{ s.ss with gs := gs1, parents := ps }, e.eto, e.edir.clockwise⟩, .cont)

def rhTick (s : RHState) : RHState :=
  { s with ss := { s.ss with gs := ageTickG s.ss.gs } }

/-- State of `Flood`: the double buffer of edge queues (fronts at the list
heads). -/
structure FloodState where
  ss : SState
  qa : List Edge
  qb : List Edge

/-- The recursive drain of `Flood::step`: processes all of queue A within
one animation tick.  Also returns, as instrumentation, the list of nodes
visited during the call, in visit order. -/
def floodGo (w h : Nat) : List Edge → List Edge → SState →
    SState × List Edge × List Edge × Signal × List Node
  | [], qb, ss =>
    if qb = [] then (ss, [], [], .done, [])
    else (ss, qb, [], .cont, [])
  | e :: rest, qb, ss =>
    let gs1 := visitG w ss.gs e.eto
    let ss1 : SState :=
      { ss with gs := gs1, parents := updO ss.parents (nodeSlot w e.eto) (some e.efrom) }
    if e.eto = ss.goal then (ss1, rest, qb, .done, [e.eto])
    else
      let ns := (openNeighboursL w h gs1.openb e.eto).filter fun e2 => !isVisitedG w gs1 e2.eto
      let r := floodGo w h rest (qb ++ ns) ss1
      (r.1, r.2.1, r.2.2.1, r.2.2.2.1, e.eto :: r.2.2.2.2)

/-- `Flood::step` (deterministic). -/
def floodStep (w h : Nat) (s : FloodState) (_ : Unit) : FloodState × Signal :=
  let r := floodGo w h s.qa s.qb s.ss
  (⟨r.1, r.2.1, r.2.2.1⟩, r.2.2.2.1)

/-- `Flood::new`: queue A seeded with the identity edge at start. -/
def floodInit (ss : SState) : FloodState :=
  ⟨ss, [identityE ss.start], []⟩

/-! ### The walk phase -/

/-- State of `Walker` together with the walk-phase payload it mutates:
`parents` is carried over from the solve phase, `on_path` is fresh. -/
structure WalkState where
  parents : Nat → Option Node
  onPath : Nat → Bool
  start : Node
  head : Node

/-- `Walker::step`. -/
def walkStep (w : Nat) (s : WalkState) : WalkState × Signal :=
  match s.parents (nodeSlot w s.head) with
  | none => (s, .done)
  | some p =>
    let s1 := { s with onPath := updB s.onPath (nodeSlot w p) true }
    if p = s.start then (s1, .done)
    else ({ s1 with head := p }, .cont)

/-- Iterated `Walker::step`: returns the state after at most `k` steps and
whether `Done` was signalled within them. -/
def walkRun (w : Nat) : Nat → WalkState → WalkState × Bool
  | 0, s => (s, false)
  | k + 1, s =>
    match walkStep w s with
    | (s', .done) => (s', true)
    | (s', .cont) => walkRun w k s'

/-! ### The fade transition (fade.rs), restricted to its state effects -/

/-- The age-buffer actions of `fade::flash_between` after the phase switch,
in source order, for the non-ansi path: fill all ages with `Some(0)`, run
the fade animation (255 aging ticks), fill all ages with `None`.  The first
stage alone, exposed so intermediate states can be inspected. -/
def flashFill (s : SState) : SState :=
  { s with gs := fillAge s.gs (some 0) }

/-- Iterated aging ticks, as performed by the animation loop while a fade
runs. -/
def iterTickG : Nat → GState → GState
  | 0, g => g
  | k + 1, g => iterTickG k (ageTickG g)

/-- The full sequence of state effects of `fade::flash_between` from the
already-switched solve state onward (non-ansi path): fill `Some(0)`, age
255 times while the fade animation runs, fill `None`. -/
def flashRest (s : SState) : SState :=
  { s with gs := fillAge (iterTickG 255 (flashFill s).gs) none }

/-- A concrete completed 2 by 2 generation state: the spanning tree whose
open edges are (0,0)-(1,0), (0,0)-(0,1) and (1,0)-(1,1) (edge slots 0, 1
and 2), all four nodes visited at age 5. -/
def genDone22 : GState :=
  { openb := fun i => decide (i < 3)
    age := fun i => if i < 4 then some 5 else none
    count := 4 }

/-- The solve state derived from `genDone22` (dead-end search fuel 32). -/
def solve22 : SState :=
  solveInit 2 2 genDone22 32

/-! ### Graph-level definitions -/

/-- Whether the maze has an open edge between `u` and `v` (an in-bounds
edge from `u` to `v` whose slot is open). -/
def openAdjB (w h : Nat) (f : Nat → Bool) (u v : Node) : Bool :=
  (neighboursL w h u).any fun e => e.eto = v && f (normaliseE w e)

/-- Lattice adjacency regardless of openness. -/
def latAdjB (w h : Nat) (u v : Node) : Bool :=
  (neighboursL w h u).any fun e => e.eto = v

/-- `walkB w h f s n t`: there is a walk of exactly `n` open edges from `s`
to `t`. -/
def walkB (w h : Nat) (f : Nat → Bool) (s : Node) : Nat → Node → Bool
  | 0, t => t = s
  | n + 1, t => (neighboursL w h t).any fun e => f (normaliseE w e) && walkB w h f s n e.eto

/-- `t` is reachable from `s` through open edges. -/
def ReachO (w h : Nat) (f : Nat → Bool) (s t : Node) : Prop :=
  ∃ n, walkB w h f s n t = true

/-- The number of open edges of the maze (each physical edge counted once,
by the `edges_iter` enumeration). -/
def openCount (w h : Nat) (f : Nat → Bool) : Nat :=
  ((edgesList w h).filter fun e => f (normaliseE w e)).length

/-- A simple cycle in the open-edge graph: at least three pairwise distinct
nodes, consecutively open-adjacent, closing back around. -/
def IsCycleL (w h : Nat) (f : Nat → Bool) (l : List Node) : Prop :=
  3 ≤ l.length ∧ l.Nodup ∧
  List.Chain' (fun a b => openAdjB w h f a b = true) l ∧
  openAdjB w h f (l.getLastD (0, 0)) (l.headD (0, 0)) = true

/-- The open-edge graph contains no cycle. -/
def AcyclicG (w h : Nat) (f : Nat → Bool) : Prop :=
  ∀ l : List Node, ¬ IsCycleL w h f l

/-- The three terminal properties claimed of every completed generation:
exactly `w*h - 1` open edges, all nodes mutually reachable through open
edges, and no cycle. -/
def SpanningTreeG (w h : Nat) (f : Nat → Bool) : Prop :=
  openCount w h f = w * h - 1 ∧
  (∀ u v : Node, validNode w h u = true → validNode w h v = true → ReachO w h f u v) ∧
  AcyclicG w h f

/-- Bounded boolean connectivity-from-start test (every valid node is
reached within `w*h` steps); used to state decidable connectivity
hypotheses. -/
def connFromB (w h : Nat) (f : Nat → Bool) (s : Node) : Bool :=
  (nodesList w h).all fun n =>
    (List.range (w * h + 1)).any fun k => walkB w h f s k n

/-- Linear search for the least open-walk length: `distGo w h f s t i fuel`
returns the least `j` with `i ≤ j < i + fuel` admitting a walk of exactly
`j` open edges from `s` to `t`, or the sentinel `i + fuel` when there is
none. -/
def distGo (w h : Nat) (f : Nat → Bool) (s t : Node) : Nat → Nat → Nat
  | i, 0 => i
  | i, fuel + 1 => if walkB w h f s i t then i else distGo w h f s t (i + 1) fuel

/-- The graph distance from `s` to `t` through open edges: the least walk
length, searched up to the bound `w * h` (ample for any reachable node);
`w * h + 1` acts as an unreachable sentinel. -/
def distB (w h : Nat) (f : Nat → Bool) (s t : Node) : Nat :=
  distGo w h f s t 0 (w * h + 1)

/-- The aging tick applied to a flood state between animation steps. -/
def floodTick (s : FloodState) : FloodState :=
  { s with ss := { s.ss with gs := ageTickG s.ss.gs } }

/-- `k` outer animation steps of the flood solver: the final state, whether
`Done` was signalled within them, and the concatenated visit log. -/
def floodRunL (w h : Nat) : Nat → FloodState → FloodState × Bool × List Node
  | 0, s => (s, false, [])
  | k + 1, s =>
    let r := floodGo w h s.qa s.qb s.ss
    match r.2.2.2.1 with
    | .done => (⟨r.1, r.2.1, r.2.2.1⟩, true, r.2.2.2.2)
    | .cont =>
      let q := floodRunL w h k (floodTick ⟨r.1, r.2.1, r.2.2.1⟩)
      (q.1, q.2.1, r.2.2.2.2 ++ q.2.2)

/-- The breadth-layer invariant of the flood solver at layer `d`: queue B
is empty, queue A holds exactly edges targeting valid layer-`d` nodes, the
visited set is exactly the valid nodes of the layers below `d`, and every
layer-`d` node is covered (already visited or targeted by queue A). -/
def FloodTickInv (w h : Nat) (start : Node) (f : Nat → Bool) (d : Nat)
    (s : FloodState) : Prop :=
  s.ss.gs.openb = f ∧ s.qb = [] ∧
  (∀ e ∈ s.qa, validNode w h e.eto = true ∧ distB w h f start e.eto = d) ∧
  (∀ n : Node, validNode w h n = true →
    (isVisitedG w s.ss.gs n = true ↔ distB w h f start n < d)) ∧
  (∀ n : Node, validNode w h n = true → distB w h f start n = d →
    isVisitedG w s.ss.gs n = true ∨ n ∈ s.qa.map Edge.eto)

/-- The C9 invariant: `visited_count` equals the number of nodes whose age
entry is present. -/
def CountInv (w h : Nat) (s : GState) : Prop :=
  s.count = ((nodesList w h).filter fun n => (s.age (nodeSlot w n)).isSome).length

/-! ### Ghost structure: rooted spanning forests

The generation invariants are phrased through a parent-and-depth witness:
`par` orients every open edge towards a root, `dpt` certifies the absence
of cycles.  These are proof artefacts, not part of the modelled program
state. -/

/-- `ForestW w h f V par dpt`: the open edges of `f` are exactly the parent
links of `par`, the parent links stay inside `V`, are lattice edges, and
strictly decrease `dpt`. -/
def ForestW (w h : Nat) (f : Nat → Bool) (V : Finset Node)
    (par : Node → Option Node) (dpt : Node → Nat) : Prop :=
  (∀ n ∈ V, validNode w h n = true) ∧
  (∀ n p, par n = some p → n ∈ V ∧ p ∈ V ∧ openAdjB w h f p n = true ∧ dpt p < dpt n) ∧
  (∀ u v, openAdjB w h f u v = true → par u = some v ∨ par v = some u)

/-- Following parent links. -/
def ParReach (par : Node → Option Node) : Node → Node → Prop :=
  Relation.ReflTransGen fun a b => par a = some b

/-- A spanning arborescence: a forest witness over the full node set whose
links all lead to the single root `r`. -/
def SpanArb (w h : Nat) (f : Nat → Bool) (par : Node → Option Node)
    (dpt : Node → Nat) (r : Node) : Prop :=
  ForestW w h f (nodesList w h).toFinset par dpt ∧
  validNode w h r = true ∧ par r = none ∧
  (∀ n, validNode w h n = true → ParReach par n r)

/-! ### Algorithm constructors -/

/-- `generate::state`: fresh open, age and count fields. -/
def genInit : GState :=
  { openb := fun _ => false, age := fun _ => none, count := 0 }

/-- `AldousBroder::new` (the random start node is the argument). -/
def abInit (gs : GState) (start : Node) : ABState :=
  ⟨gs, start⟩

/-- `Dfs::new`. -/
def dfsInit (gs : GState) (start : Node) : DfsState :=
  ⟨gs, [start]⟩

/-- `Prim::new`: visit the start node and seed the frontier with its
neighbour edges. -/
def primInit (w h : Nat) (gs : GState) (start : Node) : PrimState :=
  ⟨visitG w gs start, neighboursL w h start⟩

/-- The node stored at a node-buffer slot (inverse of `Node::normalise` on
valid slots); used for the identity initialisation of the Kruskal
union-find buffer. -/
def unslot (w : Nat) (i : Nat) : Node :=
  (i % w, i / w)

/-- `Kruskal::new` (the shuffled queue is the argument). -/
def kruskalInit (w : Nat) (gs : GState) (queue : List Edge) : KrusState :=
  ⟨gs, queue, fun i => unslot w i⟩

/-- `Wilson::new`: pre-visit the goal seed node. -/
def wilsonInit (w : Nat) (gs : GState) (goal : Node) : WilState :=
  ⟨visitG w gs goal, [], fun _ => none⟩

/-- `Mouse::new`. -/
def mouseInit (ss : SState) : MouseState :=
  ⟨ss, ss.start⟩

/-- `RightHand::new`: starts facing North. -/
def rhInit (ss : SState) : RHState :=
  ⟨ss, ss.start, .north⟩

/-- A concrete Prim run on the empty 2 by 2 maze: start (0,0); the first
step opens the East edge towards (1,0), then an aging tick passes; the
second step (choice 2) pops the frontier edge from (1,0) back to (0,0),
whose endpoints are both visited. -/
def primEx1 : PrimState :=
  primTick (primStep 2 2 (primInit 2 2 genInit (0, 0)) 0).1

/-- The state after the discarding second step. -/
def primEx2 : PrimState :=
  (primStep 2 2 primEx1 2).1

/-- A concrete parent buffer on the 2 by 2 maze, as a completed solve run
leaves it: (1,1) -> (0,1) -> (0,0) -> (1,0), with start (1,0) parentless. -/
def walkPar22 : Nat → Option Node := fun i =>
  if i = 3 then some (0, 1)
  else if i = 2 then some (0, 0)
  else if i = 0 then some (1, 0)
  else none

/-- A cycle in the parent-pointer relation: consecutive entries are linked
by parent pointers, closing back around from the last to the first. -/
def CycLinks (w : Nat) (par : Nat → Option Node) (l : List Node) : Prop :=
  List.Chain' (fun a b => par (nodeSlot w a) = some b) l ∧
  ∃ lst fst, l.getLast? = some lst ∧ l.head? = some fst ∧
    par (nodeSlot w lst) = some fst

/-- Ghost invariant for the Mouse and Right-hand solvers: a first-entry
time stamp per node slot that orients every parent link (except a link out
of `start`) from later-entered to earlier-entered nodes.  The existential
witness is a proof artefact, not program state. -/
def MInv (w h : Nat) (start head : Node) (par : Nat → Option Node) : Prop :=
  validNode w h head = true ∧
  ∃ (time : Nat → Option Nat) (clock : Nat),
    (∀ i t, time i = some t → t < clock) ∧
    (time (nodeSlot w head)).isSome = true ∧
    (time (nodeSlot w start)).isSome = true ∧
    (∀ i, (time i).isSome = true → par i ≠ none ∨ i = nodeSlot w start) ∧
    (∀ i p, par i = some p →
      ∃ ti tp, time i = some ti ∧ time (nodeSlot w p) = some tp ∧
        (i ≠ nodeSlot w start → tp < ti))

/-- A full Mouse run from the solve state under the given choices. -/
def mouseRun (w h : Nat) (ss : SState) (cs : List Nat) : MouseState :=
  (runAlg (mouseStep w h) mouseTick (mouseInit ss) cs).1

/-- A full Right-hand run from the solve state. -/
def rhRun (w h : Nat) (ss : SState) (cs : List Unit) : RHState :=
  (runAlg (rhStep w h) rhTick (rhInit ss) cs).1

/-- A concrete Mouse run on the solve state of the completed 2 by 2 maze:
from start (0,1) the mouse steps to (0,0) and then back to (0,1), giving
(0,0) the parent (0,1) and then (0,1) the parent (0,0). -/
def mouseEx2 : MouseState :=
  (mouseStep 2 2 (mouseTick (mouseStep 2 2 (mouseInit solve22) 0).1) 1).1

/-! ### Union-find notions (Kruskal) -/

/-- A union-find root: its own parent. -/
def IsRootP (w : Nat) (pars : Nat → Node) (n : Node) : Prop :=
  pars (nodeSlot w n) = n

/-- The parent chain of a node up to its root. -/
inductive PChain (w : Nat) (pars : Nat → Node) : Node → List Node → Prop where
  | root (n : Node) : IsRootP w pars n → PChain w pars n [n]
  | step (n p : Node) (l : List Node) : pars (nodeSlot w n) = p → n ≠ p →
      PChain w pars p l → PChain w pars n (n :: l)

/-- Path compression: every listed slot is redirected to the root. -/
def compressP (pars : Nat → Node) (slots : List Nat) (r : Node) : Nat → Node :=
  fun i => if i ∈ slots then r else pars i

/-- Reachability along proper parent links (ghost notion for the union
re-ranking argument). -/
def ReachesP (w : Nat) (pars : Nat → Node) : Node → Node → Prop :=
  Relation.ReflTransGen fun a b => pars (nodeSlot w a) = b ∧ a ≠ b

/-- The union-find forest invariant: parents of valid nodes are valid, and
some depth measure strictly decreases along proper parent links. -/
def UFInvD (w h : Nat) (pars : Nat → Node) : Prop :=
  ∃ dpt : Node → Nat, ∀ n : Node, validNode w h n = true →
    validNode w h (pars (nodeSlot w n)) = true ∧
    (pars (nodeSlot w n) = n ∨ dpt (pars (nodeSlot w n)) < dpt n)

/-- An edge producible by `Maze::edge` from an in-bounds node. -/
def EdgeOK (w h : Nat) (e : Edge) : Prop :=
  ∃ n d, validNode w h n = true ∧ mazeEdge w h n d = some e

/-- An operation on a Kruskal instance: a `find_root` call or a `step`. -/
inductive KOp where
  | find (n : Node)
  | step

/-- Apply one operation to a Kruskal instance. -/
def applyKOp (w h : Nat) (s : KrusState) : KOp → KrusState
  | .find n => { s with pars := (findRootF w (w * h) s.pars n).1 }
  | .step => (kruskalStep w h s ()).1

/-- Apply a finite sequence of operations. -/
def applyKOps (w h : Nat) : KrusState → List KOp → KrusState
  | s, [] => s
  | s, op :: ops => applyKOps w h (applyKOp w h s op) ops

/-- Validity of an operation: `find_root` is only invoked on maze nodes. -/
def KOpOK (w h : Nat) : KOp → Prop
  | .find n => validNode w h n = true
  | .step => True

/-! ### Ghost structure for the spanning-tree claim -/

/-- The set of visited valid nodes. -/
def visitedF (w h : Nat) (gs : GState) : Finset Node :=
  ((nodesList w h).filter fun n => isVisitedG w gs n).toFinset

/-- Well-formed open-edge buffers: only slots of actual maze edges (the
`edges_iter` enumeration) are ever set. -/
def OpenWF (w h : Nat) (f : Nat → Bool) : Prop :=
  ∀ i, f i = true → ∃ e ∈ edgesList w h, normaliseE w e = i

/-- A rooted spanning forest witness over the vertex set `V` with root set
`R`: the open edges are exactly the parent links (`ForestW`), the roots
are the link-free members of `V`, and every member reaches a root. -/
def GhostForest (w h : Nat) (f : Nat → Bool) (V : Finset Node)
    (par : Node → Option Node) (dpt : Node → Nat) (R : Finset Node) : Prop :=
  ForestW w h f V par dpt ∧ R ⊆ V ∧
  (∀ n ∈ V, (par n = none ↔ n ∈ R)) ∧
  (∀ n ∈ V, ∃ r ∈ R, ParReach par n r)

/-- The Aldous-Broder invariant: the head is a maze node, the count
invariant holds, the open buffer is well-formed, and the open edges form a
tree over the visited nodes plus the head, rooted at the start node. -/
def ABInv (w h : Nat) (start : Node) (s : ABState) : Prop :=
  validNode w h s.head = true ∧ CountInv w h s.gs ∧ OpenWF w h s.gs.openb ∧
  ∃ par dpt, GhostForest w h s.gs.openb
    (insert s.head (visitedF w h s.gs)) par dpt {start}

/-- The DFS invariant: the stack holds distinct maze nodes, all visited
except possibly the top; a node retired from the stack has all its
neighbours visited; an empty stack means every node is visited; and the
open edges form a tree over the visited nodes plus the stack, rooted at
the start node. -/
def DfsInv (w h : Nat) (start : Node) (s : DfsState) : Prop :=
  (∀ n ∈ s.stack, validNode w h n = true) ∧
  s.stack.Nodup ∧
  (∀ n ∈ s.stack.drop 1, isVisitedG w s.gs n = true) ∧
  OpenWF w h s.gs.openb ∧
  (∀ v : Node, validNode w h v = true → isVisitedG w s.gs v = true →
    v ∉ s.stack → ∀ e2 ∈ neighboursL w h v, isVisitedG w s.gs e2.eto = true) ∧
  (s.stack = [] → ∀ n : Node, validNode w h n = true → isVisitedG w s.gs n = true) ∧
  ∃ par dpt, GhostForest w h s.gs.openb
    (visitedF w h s.gs ∪ s.stack.toFinset) par dpt {start}

/-- The Prim invariant: frontier edges are maze edges whose origin is
visited; every neighbour edge of a visited node is either targeted at a
visited node or still on the frontier; an empty frontier means every node
is visited; and the open edges form a tree over the visited nodes rooted
at the start node. -/
def PrimInv (w h : Nat) (start : Node) (s : PrimState) : Prop :=
  (∀ e ∈ s.queue, EdgeOK w h e ∧ validNode w h e.efrom = true ∧
    isVisitedG w s.gs e.efrom = true) ∧
  OpenWF w h s.gs.openb ∧
  (∀ v : Node, validNode w h v = true → isVisitedG w s.gs v = true →
    ∀ e2 ∈ neighboursL w h v, isVisitedG w s.gs e2.eto = true ∨ e2 ∈ s.queue) ∧
  (s.queue = [] → ∀ n : Node, validNode w h n = true → isVisitedG w s.gs n = true) ∧
  ∃ par dpt, GhostForest w h s.gs.openb (visitedF w h s.gs) par dpt {start}

/-- The per-node root of a union-find buffer: the last element of the
parent chain. -/
def RootOf (w : Nat) (pars : Nat → Node) (n r : Node) : Prop :=
  ∃ l, PChain w pars n l ∧ l.getLast? = some r

/-- Two nodes lie in the same union-find component. -/
def UFSame (w : Nat) (pars : Nat → Node) (u v : Node) : Prop :=
  ∃ r, RootOf w pars u r ∧ RootOf w pars v r

/-- Two nodes lie in the same ghost tree. -/
def GhostSame (par : Node → Option Node) (u v : Node) : Prop :=
  ∃ g, ParReach par u g ∧ ParReach par v g ∧ par g = none

/-- The Kruskal invariant: the union-find forest invariant holds, the
queue holds maze edges, the open buffer is well-formed, every maze edge is
still queued or has union-joined endpoints, the open edges form a spanning
forest over all nodes, and its trees are exactly the union-find
components. -/
def KrusInv (w h : Nat) (s : KrusState) : Prop :=
  UFInvD w h s.pars ∧
  (∀ e ∈ s.queue, EdgeOK w h e) ∧
  OpenWF w h s.gs.openb ∧
  (∀ pe ∈ edgesList w h, pe ∈ s.queue ∨ UFSame w s.pars pe.efrom pe.eto) ∧
  ∃ par dpt R, GhostForest w h s.gs.openb (nodesList w h).toFinset par dpt R ∧
    (∀ u v : Node, validNode w h u = true → validNode w h v = true →
      (UFSame w s.pars u v ↔ GhostSame par u v))

/-- The node list walked by the current Wilson path (the targets of its
edges; the identity head edge contributes the walk's first node). -/
def wilNodes (s : WilState) : List Node :=
  s.path.map Edge.eto

/-- The Wilson invariant.  `treeV` is the committed tree (seeded at the
goal node `r`); the current path is a self-avoiding walk of open edges
disjoint from the tree; `idx` marks exactly the processed path nodes with
their successor position; visited nodes are the tree plus the processed
path nodes; and the open edges form a forest over tree and path whose
roots are the goal seed and the pending path end. -/
def WilInv (w h : Nat) (r : Node) (s : WilState) : Prop :=
  ∃ treeV : Finset Node,
    (∀ n ∈ treeV, validNode w h n = true ∧ isVisitedG w s.gs n = true) ∧
    (∀ n : Node, validNode w h n = true → isVisitedG w s.gs n = true →
      n ∈ treeV ∨ n ∈ wilNodes s) ∧
    (∀ n ∈ wilNodes s, validNode w h n = true ∧ n ∉ treeV) ∧
    (wilNodes s).Nodup ∧
    OpenWF w h s.gs.openb ∧
    (s.path.length ≥ 1 → (s.path.getD 0 (identityE (0, 0))).efrom =
      (s.path.getD 0 (identityE (0, 0))).eto) ∧
    (∀ j, 1 ≤ j → j < s.path.length →
      EdgeOK w h (s.path.getD j (identityE (0, 0))) ∧
      s.gs.openb (normaliseE w (s.path.getD j (identityE (0, 0)))) = true) ∧
    (∀ j, j + 1 < s.path.length →
      (s.path.getD j (identityE (0, 0))).eto =
        (s.path.getD (j + 1) (identityE (0, 0))).efrom) ∧
    (∀ (n : Node) (j : Nat), validNode w h n = true →
      s.idx (nodeSlot w n) = some j →
      1 ≤ j ∧ j ≤ s.path.length ∧ (s.path.getD (j - 1) (identityE (0, 0))).eto = n) ∧
    (∀ j, 1 ≤ j → j + 1 ≤ s.path.length →
      s.idx (nodeSlot w ((s.path.getD (j - 1) (identityE (0, 0))).eto)) = some j) ∧
    (∀ j, 1 ≤ j → j + 1 ≤ s.path.length →
      isVisitedG w s.gs ((s.path.getD (j - 1) (identityE (0, 0))).eto) = true) ∧
    (validNode w h r = true ∧ r ∈ treeV) ∧
    ∃ par dpt, GhostForest w h s.gs.openb
      ((treeV ∪ (wilNodes s).toFinset)) par dpt
      (match s.path.getLast? with
       | none => {r}
       | some lst => {r, lst.eto}) ∧
      (∀ n ∈ treeV, ∀ p, par n = some p → p ∈ treeV) ∧
      (∀ t, t + 1 < s.path.length →
        par ((s.path.getD t (identityE (0, 0))).eto) =
          some ((s.path.getD (t + 1) (identityE (0, 0))).eto)) ∧
      (∀ lst, s.path.getLast? = some lst → par lst.eto = none)

/-! ## Theorems -/

/-! ### Slot arithmetic -/

theorem nodeSlot_lt {w h : Nat} {n : Node} (h1 : n.1 < w) (h2 : n.2 < h) :
    nodeSlot w n < w * h := by
  simp only [nodeSlot]
  calc n.1 + n.2 * w < w + n.2 * w := by omega
    _ = (n.2 + 1) * w := by ring
    _ ≤ h * w := Nat.mul_le_mul_right w h2
    _ = w * h := Nat.mul_comm h w

theorem nodeSlot_inj {w : Nat} {n m : Node} (h1 : n.1 < w) (h2 : m.1 < w)
    (he : nodeSlot w n = nodeSlot w m) : n = m := by
  have hw : 0 < w := Nat.lt_of_le_of_lt (Nat.zero_le _) h1
  simp only [nodeSlot] at he
  have hx : n.1 = m.1 := by
    have hmod := congrArg (· % w) he
    simpa [Nat.add_mul_mod_self_right, Nat.mod_eq_of_lt h1, Nat.mod_eq_of_lt h2] using hmod
  have hy : n.2 = m.2 := by
    have h' : n.2 * w = m.2 * w := by omega
    exact Nat.eq_of_mul_eq_mul_right hw h'
  exact Prod.ext hx hy

theorem valid_fst {w h : Nat} {n : Node} (hv : validNode w h n = true) : n.1 < w := by
  simp [validNode] at hv; exact hv.1

theorem valid_snd {w h : Nat} {n : Node} (hv : validNode w h n = true) : n.2 < h := by
  simp [validNode] at hv; exact hv.2

theorem nodeSlot_lt_of_valid {w h : Nat} {n : Node} (hv : validNode w h n = true) :
    nodeSlot w n < w * h :=
  nodeSlot_lt (valid_fst hv) (valid_snd hv)

/-- Basic facts about an edge produced by `Maze::edge`. -/
theorem mazeEdge_fields {w h : Nat} {n : Node} {d : Direction} {e : Edge}
    (hme : mazeEdge w h n d = some e) :
    e.efrom = n ∧ e.edir = d ∧ validNode w h e.eto = true := by
  cases d <;> simp only [mazeEdge] at hme <;> split at hme <;> simp_all
  case north =>
    obtain ⟨hv, he⟩ := hme
    subst he
    exact ⟨rfl, rfl, hv⟩
  case west =>
    obtain ⟨hv, he⟩ := hme
    subst he
    exact ⟨rfl, rfl, hv⟩
  case south.isTrue =>
    rename_i hv
    subst hme
    exact ⟨rfl, rfl, hv⟩
  case east.isTrue =>
    rename_i hv
    subst hme
    exact ⟨rfl, rfl, hv⟩

theorem mazeEdge_north {w h : Nat} {n : Node} {e : Edge} :
    mazeEdge w h n .north = some e ↔
      n.2 ≠ 0 ∧ validNode w h (n.1, n.2 - 1) = true ∧ e = ⟨n, (n.1, n.2 - 1), .north⟩ := by
  simp only [mazeEdge]
  by_cases h0 : n.2 = 0 <;> simp [h0] <;>
    by_cases hv : validNode w h (n.1, n.2 - 1) = true <;> simp [hv, eq_comm]

theorem mazeEdge_south {w h : Nat} {n : Node} {e : Edge} :
    mazeEdge w h n .south = some e ↔
      validNode w h (n.1, n.2 + 1) = true ∧ e = ⟨n, (n.1, n.2 + 1), .south⟩ := by
  simp only [mazeEdge]
  by_cases hv : validNode w h (n.1, n.2 + 1) = true <;> simp [hv, eq_comm]

theorem mazeEdge_east {w h : Nat} {n : Node} {e : Edge} :
    mazeEdge w h n .east = some e ↔
      validNode w h (n.1 + 1, n.2) = true ∧ e = ⟨n, (n.1 + 1, n.2), .east⟩ := by
  simp only [mazeEdge]
  by_cases hv : validNode w h (n.1 + 1, n.2) = true <;> simp [hv, eq_comm]

theorem mazeEdge_west {w h : Nat} {n : Node} {e : Edge} :
    mazeEdge w h n .west = some e ↔
      n.1 ≠ 0 ∧ validNode w h (n.1 - 1, n.2) = true ∧ e = ⟨n, (n.1 - 1, n.2), .west⟩ := by
  simp only [mazeEdge]
  by_cases h0 : n.1 = 0 <;> simp [h0] <;>
    by_cases hv : validNode w h (n.1 - 1, n.2) = true <;> simp [hv, eq_comm]

/-- Canonical description of a produced edge: its slot is `2 * owner + z`
for a valid owner node, and its endpoints are the owner and the owner's
South (z = 0) or East (z = 1) neighbour, in one of the two orders. -/
theorem edge_canon {w h : Nat} {n : Node} {d : Direction} {e : Edge}
    (hme : mazeEdge w h n d = some e) :
    ∃ a : Node, validNode w h a = true ∧
      ((normaliseE w e = 2 * nodeSlot w a ∧
        ((e.efrom = a ∧ e.eto = (a.1, a.2 + 1)) ∨ (e.efrom = (a.1, a.2 + 1) ∧ e.eto = a))) ∨
      (normaliseE w e = 2 * nodeSlot w a + 1 ∧
        ((e.efrom = a ∧ e.eto = (a.1 + 1, a.2)) ∨ (e.efrom = (a.1 + 1, a.2) ∧ e.eto = a)))) := by
  cases d
  case north =>
    obtain ⟨h0, hv, rfl⟩ := mazeEdge_north.mp hme
    refine ⟨(n.1, n.2 - 1), hv, Or.inl ⟨by simp [normaliseE], Or.inr ⟨?_, rfl⟩⟩⟩
    show n = (n.1, n.2 - 1 + 1)
    exact Prod.ext rfl (by omega)
  case south =>
    obtain ⟨hv, rfl⟩ := mazeEdge_south.mp hme
    have hv' : validNode w h (n.1, n.2) = true := by
      simp [validNode] at hv ⊢; omega
    exact ⟨(n.1, n.2), hv', Or.inl ⟨by simp [normaliseE], Or.inl ⟨rfl, rfl⟩⟩⟩
  case east =>
    obtain ⟨hv, rfl⟩ := mazeEdge_east.mp hme
    have hv' : validNode w h (n.1, n.2) = true := by
      simp [validNode] at hv ⊢; omega
    exact ⟨(n.1, n.2), hv', Or.inr ⟨by simp [normaliseE], Or.inl ⟨rfl, rfl⟩⟩⟩
  case west =>
    obtain ⟨h0, hv, rfl⟩ := mazeEdge_west.mp hme
    refine ⟨(n.1 - 1, n.2), hv, Or.inr ⟨by simp [normaliseE], Or.inr ⟨?_, rfl⟩⟩⟩
    show n = (n.1 - 1 + 1, n.2)
    exact Prod.ext (by omega) rfl

/-- The slot of every produced edge is below `2 * w * h`. -/
theorem normaliseE_lt {w h : Nat} {n : Node} {d : Direction} {e : Edge}
    (hme : mazeEdge w h n d = some e) : normaliseE w e < 2 * (w * h) := by
  obtain ⟨a, hav, hc⟩ := edge_canon hme
  have := nodeSlot_lt_of_valid hav
  rcases hc with ⟨hs, _⟩ | ⟨hs, _⟩ <;> omega

/-- Both directed representations of a physical edge normalise alike. -/
theorem normaliseE_reverse {w h : Nat} {n : Node} {d : Direction} {e : Edge}
    (hme : mazeEdge w h n d = some e) :
    normaliseE w e.reverseE = normaliseE w e := by
  cases d
  case north =>
    obtain ⟨h0, _, rfl⟩ := mazeEdge_north.mp hme
    simp [Edge.reverseE, Direction.reverse, normaliseE]
  case south =>
    obtain ⟨_, rfl⟩ := mazeEdge_south.mp hme
    simp [Edge.reverseE, Direction.reverse, normaliseE]
  case east =>
    obtain ⟨_, rfl⟩ := mazeEdge_east.mp hme
    simp [Edge.reverseE, Direction.reverse, normaliseE]
  case west =>
    obtain ⟨h0, _, rfl⟩ := mazeEdge_west.mp hme
    simp [Edge.reverseE, Direction.reverse, normaliseE]

/-- `Edge::normalise` separates distinct physical edges: equal slots force
equal unordered endpoint pairs. -/
theorem normaliseE_phys_inj {w h : Nat} {n₁ n₂ : Node} {d₁ d₂ : Direction}
    {e₁ e₂ : Edge} (h1 : mazeEdge w h n₁ d₁ = some e₁)
    (h2 : mazeEdge w h n₂ d₂ = some e₂)
    (heq : normaliseE w e₁ = normaliseE w e₂) :
    (e₁.efrom = e₂.efrom ∧ e₁.eto = e₂.eto) ∨
    (e₁.efrom = e₂.eto ∧ e₁.eto = e₂.efrom) := by
  obtain ⟨a, hav, hca⟩ := edge_canon h1
  obtain ⟨b, hbv, hcb⟩ := edge_canon h2
  rcases hca with ⟨hsa, hea⟩ | ⟨hsa, hea⟩ <;> rcases hcb with ⟨hsb, heb⟩ | ⟨hsb, heb⟩ <;>
    first
    | (exfalso; omega)
    | (have hab : a = b := nodeSlot_inj (valid_fst hav) (valid_fst hbv) (by omega)
       subst hab
       rcases hea with ⟨hf1, ht1⟩ | ⟨hf1, ht1⟩ <;> rcases heb with ⟨hf2, ht2⟩ | ⟨hf2, ht2⟩ <;>
         rw [hf1, ht1, hf2, ht2] <;> simp)

/-- The checked normalisation succeeds on every produced edge and agrees
with the truncated one. -/
theorem normaliseChecked_eq {w h : Nat} {n : Node} {d : Direction} {e : Edge}
    (hme : mazeEdge w h n d = some e) :
    normaliseChecked w e = some (normaliseE w e) := by
  cases d
  case north =>
    obtain ⟨h0, _, rfl⟩ := mazeEdge_north.mp hme
    simp [normaliseChecked, normaliseE, h0]
  case south =>
    obtain ⟨_, rfl⟩ := mazeEdge_south.mp hme
    simp [normaliseChecked, normaliseE]
  case east =>
    obtain ⟨_, rfl⟩ := mazeEdge_east.mp hme
    simp [normaliseChecked, normaliseE]
  case west =>
    obtain ⟨h0, _, rfl⟩ := mazeEdge_west.mp hme
    simp [normaliseChecked, normaliseE, h0]

/-! ### Claim C2: index bijection -/

/-- C2: on a `w by h` maze, `Node::normalise` sends every in-bounds node
`(x, y)` to `x + y * w`, which lies in `[0, w * h)` and is injective over
in-bounds nodes; `Edge::normalise` sends every edge built by `Maze::edge`
into `[0, 2 * w * h)`, is injective up to physical identity (equal slots
force equal unordered endpoint pairs), and gives both directed
representations of one physical edge (`e` and `Edge(b, a, reverse d)`,
i.e. `e.reverseE`) the same index. -/
theorem index_bijection (w h : Nat) :
    (∀ n : Node, validNode w h n = true →
      nodeSlot w n < w * h ∧
      ∀ m : Node, validNode w h m = true → nodeSlot w n = nodeSlot w m → n = m) ∧
    (∀ (n₁ : Node) (d₁ : Direction) (e₁ : Edge),
      mazeEdge w h n₁ d₁ = some e₁ →
      normaliseE w e₁ < 2 * (w * h) ∧
      normaliseE w (Edge.reverseE e₁) = normaliseE w e₁ ∧
      ∀ (n₂ : Node) (d₂ : Direction) (e₂ : Edge), mazeEdge w h n₂ d₂ = some e₂ →
        normaliseE w e₁ = normaliseE w e₂ →
        (e₁.efrom = e₂.efrom ∧ e₁.eto = e₂.eto) ∨
        (e₁.efrom = e₂.eto ∧ e₁.eto = e₂.efrom)) := by
  refine ⟨fun n hn => ⟨nodeSlot_lt_of_valid hn, fun m hm => nodeSlot_inj (valid_fst hn) (valid_fst hm)⟩,
    fun n₁ d₁ e₁ h1 => ⟨normaliseE_lt h1, normaliseE_reverse h1,
      fun n₂ d₂ e₂ h2 => normaliseE_phys_inj h1 h2⟩⟩

theorem index_bijection_witness :
    nodeSlot 2 (1, 1) < 2 * 2 ∧ normaliseE 2 ⟨(0, 0), (1, 0), .east⟩ < 2 * (2 * 2) := by
  have H := index_bijection 2 2
  exact ⟨(H.1 (1, 1) (by decide)).1,
    (H.2 (0, 0) .east ⟨(0, 0), (1, 0), .east⟩ (by decide)).1⟩

/-! ### Claim C10: partiality of Edge::normalise -/

/-- C10: for every edge produced by `Maze::edge` the usize subtractions in
`Edge::normalise` do not underflow (the checked normalisation succeeds and
agrees with the total model) and the result is below `2 * w * h`, so
`EdgeBuffer` indexing stays in bounds; for an arbitrarily constructed
edge such as `Edge::identity` of a top-row node (direction North with
`y = 0`), `y - 1` underflows, so indexing an `EdgeBuffer` with it is not
total. -/
theorem edge_normalise_totality (w h : Nat) :
    (∀ (n : Node) (d : Direction) (e : Edge), mazeEdge w h n d = some e →
      normaliseChecked w e = some (normaliseE w e) ∧ normaliseE w e < 2 * (w * h)) ∧
    (∀ x : Nat, normaliseChecked w (identityE (x, 0)) = none) := by
  refine ⟨fun n d e hme => ⟨normaliseChecked_eq hme, normaliseE_lt hme⟩, fun x => ?_⟩
  simp [normaliseChecked, identityE]

theorem edge_normalise_totality_witness :
    normaliseChecked 2 ⟨(0, 0), (1, 0), .east⟩ = some 1 ∧
    normaliseChecked 2 (identityE (1, 0)) = none := by
  have H := edge_normalise_totality 2 2
  refine ⟨?_, H.2 1⟩
  have h1 := (H.1 (0, 0) .east ⟨(0, 0), (1, 0), .east⟩ (by decide)).1
  exact h1.trans (by decide)

/-! ### Claim C3: Edge equality versus the derived hash -/

/-- C3 (code bug): `Edge` equality is indeed undirected
(`Edge(a,b,d) == Edge(b,a,reverse d)` for all nodes and directions, by the
manual `PartialEq`), but the `#[derive(Hash)]` instance feeds the raw
fields (from, to, direction) to the hasher, so the two equal directed
representations of one physical maze edge feed different data, violating
the `Hash`/`Eq` contract the spec asks for.  Witnessed on the physical
edge between (0,0) and (1,0) of a 2 by 2 maze. -/
theorem edge_hash_breaks_equality :
    (∀ (a b : Node) (d : Direction), edgeEqB ⟨a, b, d⟩ ⟨b, a, d.reverse⟩ = true) ∧
    edgeEqB ⟨(0, 0), (1, 0), .east⟩ ⟨(1, 0), (0, 0), .west⟩ = true ∧
    hashStream ⟨(0, 0), (1, 0), .east⟩ ≠ hashStream ⟨(1, 0), (0, 0), .west⟩ ∧
    mazeEdge 2 2 (0, 0) .east = some ⟨(0, 0), (1, 0), .east⟩ ∧
    mazeEdge 2 2 (1, 0) .west = some ⟨(1, 0), (0, 0), .west⟩ := by
  refine ⟨fun a b d => ?_, by decide, by decide, by decide, by decide⟩
  simp [edgeEqB]

/-! ### Node enumeration -/

theorem nodesList_mem {w h : Nat} {n : Node} :
    n ∈ nodesList w h ↔ validNode w h n = true := by
  simp only [nodesList, List.mem_flatMap, List.mem_map, List.mem_range, validNode,
    Bool.and_eq_true, decide_eq_true_eq]
  constructor
  · rintro ⟨y, hy, x, hx, rfl⟩; exact ⟨hx, hy⟩
  · rintro ⟨h1, h2⟩; exact ⟨n.2, h2, n.1, h1, (by simp : (n.1, n.2) = n)⟩

theorem nodesList_nodup (w h : Nat) : (nodesList w h).Nodup := by
  refine List.nodup_flatMap.2 ⟨fun y _ => ?_, ?_⟩
  · exact (List.nodup_range w).map fun a b hab => congrArg Prod.fst hab
  · refine (List.pairwise_lt_range h).imp ?_
    intro y₁ y₂ hlt a ha₁ ha₂
    obtain ⟨x₁, _, rfl⟩ := List.mem_map.mp ha₁
    obtain ⟨x₂, _, hx⟩ := List.mem_map.mp ha₂
    exact absurd (congrArg Prod.snd hx).symm (Nat.ne_of_lt hlt)

theorem nodesList_length (w h : Nat) : (nodesList w h).length = w * h := by
  simp [nodesList, Function.comp_def, Nat.mul_comm]

/-- Updating the value at one element of a duplicate-free list changes the
filter length by the difference of the predicate at that element. -/
theorem filter_length_update {α : Type} [DecidableEq α] {l : List α} (hn : l.Nodup)
    {x : α} (hx : x ∈ l) {p q : α → Bool}
    (hagree : ∀ y ∈ l, y ≠ x → p y = q y) :
    (l.filter q).length + (if p x then 1 else 0) =
    (l.filter p).length + (if q x then 1 else 0) := by
  have hperm : List.Perm l (x :: l.erase x) := List.perm_cons_erase hx
  have hq := (hperm.filter q).length_eq
  have hp := (hperm.filter p).length_eq
  have herase : (l.erase x).filter q = (l.erase x).filter p := by
    apply List.filter_congr
    intro y hy
    have hmem := (hn.mem_erase_iff).mp hy
    exact (hagree y hmem.2 hmem.1).symm
  rw [hq, hp, List.filter_cons, List.filter_cons]
  by_cases hpx : p x <;> by_cases hqx : q x <;> simp [hpx, hqx, herase]

/-! ### Claim C9: the visited-count invariant -/

theorem countInv_setAge {w h : Nat} {s : GState} {n : Node} (hv : validNode w h n = true)
    (a : Nat) (hinv : CountInv w h s) : CountInv w h (setAge w s n a) := by
  unfold CountInv at *
  have hx : n ∈ nodesList w h := nodesList_mem.mpr hv
  have hagree : ∀ y ∈ nodesList w h, y ≠ n →
      ((s.age (nodeSlot w y)).isSome = ((setAge w s n a).age (nodeSlot w y)).isSome) := by
    intro y hy hyn
    have hns : nodeSlot w y ≠ nodeSlot w n := fun hc =>
      hyn (nodeSlot_inj (valid_fst (nodesList_mem.mp hy)) (valid_fst hv) hc)
    simp [setAge, updO, hns]
  have H := filter_length_update (nodesList_nodup w h) hx hagree
  have hnew : ((setAge w s n a).age (nodeSlot w n)).isSome = true := by
    simp [setAge, updO]
  rw [hnew] at H
  cases hcase : s.age (nodeSlot w n) with
  | none =>
    have : (setAge w s n a).count = s.count + 1 := by simp [setAge, hcase]
    rw [this, hinv]
    simp [hcase] at H
    omega
  | some b =>
    have : (setAge w s n a).count = s.count := by simp [setAge, hcase]
    rw [this, hinv]
    simp [hcase] at H
    omega

theorem countInv_visit {w h : Nat} {s : GState} {n : Node} (hv : validNode w h n = true)
    (hinv : CountInv w h s) : CountInv w h (visitG w s n) :=
  countInv_setAge hv 0 hinv

theorem countInv_unvisit {w h : Nat} {s : GState} {n : Node} (hv : validNode w h n = true)
    (hinv : CountInv w h s) : CountInv w h (unvisitG w s n) := by
  unfold CountInv at *
  have hx : n ∈ nodesList w h := nodesList_mem.mpr hv
  have hagree : ∀ y ∈ nodesList w h, y ≠ n →
      ((s.age (nodeSlot w y)).isSome = ((unvisitG w s n).age (nodeSlot w y)).isSome) := by
    intro y hy hyn
    have hns : nodeSlot w y ≠ nodeSlot w n := fun hc =>
      hyn (nodeSlot_inj (valid_fst (nodesList_mem.mp hy)) (valid_fst hv) hc)
    simp [unvisitG, updO, hns]
  have H := filter_length_update (nodesList_nodup w h) hx hagree
  have hnew : ((unvisitG w s n).age (nodeSlot w n)).isSome = false := by
    simp [unvisitG, updO]
  rw [hnew] at H
  cases hcase : s.age (nodeSlot w n) with
  | none =>
    have : (unvisitG w s n).count = s.count := by simp [unvisitG, hcase]
    rw [this, hinv]
    simp [hcase] at H
    omega
  | some b =>
    have : (unvisitG w s n).count = s.count - 1 := by simp [unvisitG, hcase]
    rw [this, hinv]
    simp [hcase] at H
    omega

theorem countInv_ageTick {w h : Nat} {s : GState} (hinv : CountInv w h s) :
    CountInv w h (ageTickG s) := by
  unfold CountInv at *
  have : ∀ y : Node, ((ageTickG s).age (nodeSlot w y)).isSome = (s.age (nodeSlot w y)).isSome := by
    intro y
    simp [ageTickG]
  simpa [this] using hinv

theorem countInv_iterTick {w h : Nat} {s : GState} (hinv : CountInv w h s) :
    ∀ k, CountInv w h (iterTickG k s) := by
  intro k
  induction k generalizing s with
  | zero => exact hinv
  | succ k ih => exact ih (countInv_ageTick hinv)

theorem countInv_solveInit (w h : Nat) (gs : GState) (fuel : Nat) :
    CountInv w h (solveInit w h gs fuel).gs := by
  unfold CountInv solveInit
  simp

theorem countInv_flashRest (w h : Nat) (s : SState) :
    CountInv w h (flashRest s).gs ↔ s.gs.count = 0 := by
  have hcnt : (iterTickG 255 (flashFill s).gs).count = s.gs.count := by
    have : ∀ k (g : GState), (iterTickG k g).count = g.count := by
      intro k
      induction k with
      | zero => intro g; rfl
      | succ k ih => intro g; simpa [iterTickG, ageTickG] using ih (ageTickG g)
    simpa [flashFill, fillAge] using this 255 (flashFill s).gs
  unfold CountInv
  simp [flashRest, fillAge, hcnt]

/-- C9 (amended): `visited_count` equals the number of present ages in the
states the core commits: the invariant holds for fresh phase states and is
preserved by `set_age` (hence `visit`), `unvisit` and the aging tick, and
`flash_between` restores it by the time it returns; but, as the
counterexample records, it is temporarily violated inside `flash_between`,
whose `age.fill(Some(0))` changes the buffer without touching
`visited_count`. -/
theorem visited_count_invariant :
    (∀ (w h : Nat) (s : GState) (n : Node) (a : Nat), validNode w h n = true →
      CountInv w h s → CountInv w h (setAge w s n a)) ∧
    (∀ (w h : Nat) (s : GState) (n : Node), validNode w h n = true →
      CountInv w h s → CountInv w h (unvisitG w s n)) ∧
    (∀ (w h : Nat) (s : GState), CountInv w h s → CountInv w h (ageTickG s)) ∧
    (∀ (w h : Nat) (gs : GState) (fuel : Nat), CountInv w h (solveInit w h gs fuel).gs) ∧
    (∀ (w h : Nat) (gs : GState) (fuel : Nat),
      CountInv w h (flashRest (solveInit w h gs fuel)).gs) :=
  ⟨fun _ _ _ _ a hv hi => countInv_setAge hv a hi,
   fun _ _ _ _ hv hi => countInv_unvisit hv hi,
   fun _ _ _ hi => countInv_ageTick hi,
   fun w h gs fuel => countInv_solveInit w h gs fuel,
   fun w h gs fuel => (countInv_flashRest w h (solveInit w h gs fuel)).mpr (by simp [solveInit])⟩

theorem visited_count_invariant_witness :
    CountInv 2 2 (setAge 2 genDone22 (0, 1) 7) ∧ CountInv 2 2 (flashRest solve22).gs :=
  ⟨visited_count_invariant.1 2 2 genDone22 (0, 1) 7 (by decide) (by unfold CountInv; decide),
   visited_count_invariant.2.2.2.2 2 2 genDone22 32⟩

/-- C9 counterexample: inside `flash_between`, right after
`state.age.fill(Some(0))` on the freshly built solve state (a point of the
solve phase of a concrete completed 2 by 2 run), `visited_count` is 0 while
all four age entries are present, so the claimed always-holding equality
fails. -/
theorem flash_fill_breaks_count : ¬ CountInv 2 2 (flashFill solve22).gs := by
  unfold CountInv
  decide

/-! ### Claim C7: the frame effect of Prim's discard case -/

/-- C7 (amended): when the popped frontier edge has both endpoints already
visited, the edge is removed from the frontier and discarded: no edge is
opened, the frontier is not extended, no visited status changes and
`visited_count` is unchanged; but the state is not otherwise untouched:
`step` calls `visit` on both endpoints before the case split, so both
endpoints' ages are reset to 0. -/
theorem prim_discard_frame (w h : Nat) (s : PrimState) (c : Nat) (e : Edge)
    (hq : s.queue ≠ [])
    (he : s.queue.getD (c % s.queue.length) (identityE (0, 0)) = e)
    (hf : isVisitedG w s.gs e.efrom = true)
    (ht : isVisitedG w s.gs e.eto = true) :
    (primStep w h s c).2 = .cont ∧
    (primStep w h s c).1.queue = swapRemoveL s.queue (c % s.queue.length) ∧
    (primStep w h s c).1.gs.openb = s.gs.openb ∧
    (primStep w h s c).1.gs.count = s.gs.count ∧
    (∀ n : Node, isVisitedG w (primStep w h s c).1.gs n = isVisitedG w s.gs n) ∧
    (primStep w h s c).1.gs.age =
      updO (updO s.gs.age (nodeSlot w e.efrom) (some 0)) (nodeSlot w e.eto) (some 0) := by
  have hfne : s.gs.age (nodeSlot w e.efrom) ≠ none := by
    simp only [isVisitedG, Option.isSome_iff_ne_none] at hf
    exact hf
  have htne : s.gs.age (nodeSlot w e.eto) ≠ none := by
    simp only [isVisitedG, Option.isSome_iff_ne_none] at ht
    exact ht
  have hstep : primStep w h s c =
      (⟨visitG w (visitG w s.gs e.efrom) e.eto,
        swapRemoveL s.queue (c % s.queue.length)⟩, .cont) := by
    unfold primStep
    rw [if_neg hq]
    simp only [he, hf, ht]
  rw [hstep]
  refine ⟨rfl, rfl, rfl, ?_, ?_, rfl⟩
  · simp only [visitG, setAge, updO]
    by_cases hss : nodeSlot w e.eto = nodeSlot w e.efrom <;> simp [hss, hfne, htne]
  · intro n
    simp only [visitG, setAge, updO, isVisitedG]
    by_cases h1 : nodeSlot w n = nodeSlot w e.eto
    · simp [h1, Option.isSome_iff_ne_none, htne]
    · by_cases h2 : nodeSlot w n = nodeSlot w e.efrom <;>
        simp [h1, h2, Option.isSome_iff_ne_none, hfne]

theorem prim_discard_frame_witness :
    (primStep 2 2 primEx1 2).1.gs.count = primEx1.gs.count ∧
    (primStep 2 2 primEx1 2).2 = .cont := by
  have H := prim_discard_frame 2 2 primEx1 2 ⟨(1, 0), (0, 0), .west⟩
    (by decide) (by decide) (by decide) (by decide)
  exact ⟨H.2.2.2.1, H.1⟩

/-- C7 counterexample: in a concrete Prim run on a 2 by 2 maze, the second
step pops the frontier edge from (1,0) back to (0,0) whose endpoints are
both visited; the claim says the state is unchanged apart from the
frontier removal, but the age of (0,0) is reset from 1 to 0 by the
unconditional `visit` calls. -/
theorem prim_discard_resets_age :
    isVisitedG 2 primEx1.gs (1, 0) = true ∧
    isVisitedG 2 primEx1.gs (0, 0) = true ∧
    primEx1.queue.getD (2 % primEx1.queue.length) (identityE (0, 0)) =
      ⟨(1, 0), (0, 0), .west⟩ ∧
    (primStep 2 2 primEx1 2).2 = .cont ∧
    primEx1.gs.age (nodeSlot 2 (0, 0)) = some 1 ∧
    primEx2.gs.age (nodeSlot 2 (0, 0)) = some 0 := by
  decide

/-! ### Claim C4: walk termination -/

theorem walkStep_mono {w : Nat} {s : WalkState} {i : Nat}
    (hi : s.onPath i = true) : (walkStep w s).1.onPath i = true := by
  unfold walkStep
  cases hp : s.parents (nodeSlot w s.head) with
  | none => exact hi
  | some p =>
    by_cases hst : p = s.start <;> simp [hst, updB, hi]

theorem walkRun_mono {w : Nat} {i : Nat} :
    ∀ (k : Nat) (s : WalkState), s.onPath i = true → (walkRun w k s).1.onPath i = true := by
  intro k
  induction k with
  | zero => intro s hi; exact hi
  | succ k ih =>
    intro s hi
    unfold walkRun
    cases hstep : walkStep w s with
    | mk s' sig =>
      have hs' : s'.onPath i = true := by
        have := walkStep_mono (w := w) (s := s) hi
        rw [hstep] at this
        exact this
      cases sig with
      | done => exact hs'
      | cont => exact ih s' hs'

/-- The chain-following core of the walker: if the parent links trace a
chain from the current head to `start`, with `start` occurring only at the
end, the walker signals Done within the step budget and has marked every
node of the chain after its head. -/
theorem walk_chain {w : Nat} :
    ∀ (c : List Node) (k : Nat) (s : WalkState),
      c.head? = some s.head → c.getLast? = some s.start →
      List.Chain' (fun a b => s.parents (nodeSlot w a) = some b) c →
      (∀ n ∈ c.dropLast, n ≠ s.start) →
      (c.length = 1 →
        s.parents (nodeSlot w s.start) = none ∨
        s.parents (nodeSlot w s.start) = some s.start) →
      1 ≤ k → c.length - 1 ≤ k →
      (walkRun w k s).2 = true ∧
      ∀ n ∈ c.tail, (walkRun w k s).1.onPath (nodeSlot w n) = true := by
  intro c
  induction c with
  | nil => intro k s hfirst; simp at hfirst
  | cons a rest ih =>
    intro k s hfirst hlast hchain hmid hdeg hk1 hkl
    have ha : a = s.head := by simpa using hfirst
    cases rest with
    | nil =>
      -- single node: the head is start itself
      have hastart : a = s.start := by simpa using hlast
      obtain ⟨k', rfl⟩ : ∃ k', k = k' + 1 := ⟨k - 1, by omega⟩
      have hhead : s.head = s.start := by rw [← ha, hastart]
      rcases hdeg rfl with hnone | hself
      · have hh' : s.parents (nodeSlot w s.head) = none := by rw [hhead]; exact hnone
        have hstep : walkStep w s = (s, .done) := by
          unfold walkStep
          simp [hh']
        unfold walkRun
        rw [hstep]
        exact ⟨rfl, by simp⟩
      · have hh' : s.parents (nodeSlot w s.head) = some s.start := by rw [hhead]; exact hself
        have hstep : walkStep w s =
            ({ s with onPath := updB s.onPath (nodeSlot w s.start) true }, .done) := by
          unfold walkStep
          simp [hh']
        unfold walkRun
        rw [hstep]
        exact ⟨rfl, by simp⟩
    | cons b rest' =>
      have hab : s.parents (nodeSlot w s.head) = some b := by rw [← ha]; exact hchain.rel_head
      obtain ⟨k', rfl⟩ : ∃ k', k = k' + 1 := ⟨k - 1, by omega⟩
      by_cases hbstart : b = s.start
      · -- the next node is start: Done in one step, marking it
        have hrest' : rest' = [] := by
          cases rest' with
          | nil => rfl
          | cons x xs =>
            exfalso
            exact hmid b (by simp) hbstart
        subst hrest'
        have hstep : walkStep w s =
            ({ s with onPath := updB s.onPath (nodeSlot w b) true }, .done) := by
          unfold walkStep
          simp [hab, hbstart]
        unfold walkRun
        rw [hstep]
        refine ⟨rfl, ?_⟩
        intro n hn
        simp at hn
        subst hn
        simp [updB]
      · -- continue walking from b
        have hstep : walkStep w s =
            ({ s with onPath := updB s.onPath (nodeSlot w b) true, head := b }, .cont) := by
          unfold walkStep
          simp [hab, hbstart]
        have hrest' : rest' ≠ [] := by
          intro hcon
          subst hcon
          exact hbstart (by simpa using hlast)
        have hlen : (b :: rest').length - 1 ≤ k' := by
          simp at hkl ⊢
          omega
        have hk1' : 1 ≤ k' := by
          have : 2 ≤ (b :: rest').length := by
            cases rest' with
            | nil => exact absurd rfl hrest'
            | cons _ _ => simp
          simp at hkl
          omega
        set s1 : WalkState :=
          { s with onPath := updB s.onPath (nodeSlot w b) true, head := b } with hs1
        have H := ih k' s1 (by simp [hs1]) (by simpa using hlast)
          (by simpa [hs1] using hchain.tail)
          (by
            intro n hn
            exact hmid n (by simp [List.dropLast_cons_of_ne_nil (l := b :: rest') (by simp), hn]) )
          (by
            intro hcon
            simp at hcon
            exact absurd hcon hrest')
          hk1' hlen
        unfold walkRun
        rw [hstep]
        refine ⟨H.1, ?_⟩
        intro n hn
        simp at hn
        rcases hn with rfl | hn
        · exact walkRun_mono k' s1 (by simp [hs1, updB])
        · exact H.2 n (by simp [hn])

/-- C4: on a maze whose parent buffer (as produced by a completed solving
run on a spanning tree) traces a duplicate-free chain of valid nodes from
`goal` to `start`, the walking algorithm starting at `goal` signals Done
within `w * h - 1` steps, and every node it visited during the
reconstruction (every chain node after `goal`) has `on_path = true`
afterwards. -/
theorem walker_reaches_start (w h : Nat) (hw : 2 ≤ w) (hh : 2 ≤ h)
    (par : Nat → Option Node) (start goal : Node) (c : List Node)
    (hfirst : c.head? = some goal) (hlast : c.getLast? = some start)
    (hnodup : c.Nodup) (hvalid : ∀ n ∈ c, validNode w h n = true)
    (hlinks : List.Chain' (fun a b => par (nodeSlot w a) = some b) c)
    (hdeg : c.length = 1 →
      par (nodeSlot w start) = none ∨ par (nodeSlot w start) = some start) :
    (walkRun w (w * h - 1) ⟨par, fun _ => false, start, goal⟩).2 = true ∧
    ∀ n ∈ c.tail,
      (walkRun w (w * h - 1) ⟨par, fun _ => false, start, goal⟩).1.onPath (nodeSlot w n) =
        true := by
  have hclen : c.length ≤ w * h := by
    have hsub : c.toFinset ⊆ (nodesList w h).toFinset := by
      intro x hx
      rw [List.mem_toFinset] at hx ⊢
      exact nodesList_mem.mpr (hvalid x hx)
    have hcard := Finset.card_le_card hsub
    rw [List.toFinset_card_of_nodup hnodup,
      List.toFinset_card_of_nodup (nodesList_nodup w h), nodesList_length] at hcard
    exact hcard
  have hmid : ∀ n ∈ c.dropLast, n ≠ start := by
    intro n hn hcon
    have hdecomp : c.dropLast ++ [start] = c :=
      List.dropLast_append_getLast? start (by simpa using hlast)
    have hnd : (c.dropLast ++ [start]).Nodup := by rw [hdecomp]; exact hnodup
    exact (List.nodup_append.mp hnd).2.2 hn (by simp [hcon])
  have h4 : 4 ≤ w * h := by
    calc 4 = 2 * 2 := rfl
      _ ≤ w * h := Nat.mul_le_mul hw hh
  exact walk_chain c (w * h - 1) ⟨par, fun _ => false, start, goal⟩
    (by simpa using hfirst) (by simpa using hlast) hlinks hmid
    (fun h1 => hdeg h1) (by omega) (by omega)

theorem walker_reaches_start_witness :
    (walkRun 2 (2 * 2 - 1) ⟨walkPar22, fun _ => false, (1, 0), (1, 1)⟩).2 = true ∧
    (walkRun 2 (2 * 2 - 1) ⟨walkPar22, fun _ => false, (1, 0), (1, 1)⟩).1.onPath
      (nodeSlot 2 (0, 0)) = true := by
  have H := walker_reaches_start 2 2 (by omega) (by omega) walkPar22 (1, 0) (1, 1)
    [(1, 1), (0, 1), (0, 0), (1, 0)]
    (by decide) (by decide) (by decide) (by decide)
    (by simp only [List.chain'_cons, List.chain'_singleton, and_true]; decide)
    (by decide)
  exact ⟨H.1, H.2 (0, 0) (by decide)⟩

/-! ### Claim C6: solver parent pointers -/

theorem chooseL_mem {α : Type} {l : List α} {c : Nat} {x : α}
    (hc : chooseL l c = some x) : x ∈ l := by
  unfold chooseL at hc
  exact List.get?_mem hc

theorem neighboursL_mem {w h : Nat} {n : Node} {e : Edge} :
    e ∈ neighboursL w h n ↔ ∃ d, mazeEdge w h n d = some e := by
  unfold neighboursL
  rw [List.mem_filterMap]
  constructor
  · rintro ⟨d, -, hd⟩
    exact ⟨d, hd⟩
  · rintro ⟨d, hd⟩
    refine ⟨d, ?_, hd⟩
    cases d <;> simp [Direction.all]

theorem openNeighboursL_mem {w h : Nat} {f : Nat → Bool} {n : Node} {e : Edge}
    (he : e ∈ openNeighboursL w h f n) :
    (∃ d, mazeEdge w h n d = some e) ∧ f (normaliseE w e) = true := by
  unfold openNeighboursL at he
  have := List.of_mem_filter he
  exact ⟨neighboursL_mem.mp (List.mem_of_mem_filter he), by simpa using this⟩

theorem mazeEdge_eto_ne {w h : Nat} {n : Node} {d : Direction} {e : Edge}
    (hme : mazeEdge w h n d = some e) : e.eto ≠ e.efrom := by
  cases d
  case north =>
    obtain ⟨h0, _, rfl⟩ := mazeEdge_north.mp hme
    simp [Prod.ext_iff]; omega
  case south =>
    obtain ⟨_, rfl⟩ := mazeEdge_south.mp hme
    simp [Prod.ext_iff]
  case east =>
    obtain ⟨_, rfl⟩ := mazeEdge_east.mp hme
    simp [Prod.ext_iff]
  case west =>
    obtain ⟨h0, _, rfl⟩ := mazeEdge_west.mp hme
    simp [Prod.ext_iff]; omega

theorem rhFind_spec {w h : Nat} {f : Nat → Bool} {n : Node} {e : Edge} :
    ∀ {d : Direction} {fuel : Nat}, rhFind w h f n d fuel = some e →
      (∃ d', mazeEdge w h n d' = some e) ∧ f (normaliseE w e) = true := by
  intro d fuel
  induction fuel generalizing d with
  | zero => intro hc; simp [rhFind] at hc
  | succ fuel ih =>
    intro hc
    unfold rhFind at hc
    split at hc
    · rename_i e' heq
      split at hc
      · rename_i hopen
        obtain rfl := Option.some.inj hc
        exact ⟨⟨_, heq⟩, hopen⟩
      · exact ih hc
    · exact ih hc

theorem parInsert_mono {w : Nat} {par : Nat → Option Node} {n v : Node} {i : Nat} {p : Node}
    (hp : par i = some p) : parInsert w par n v i = some p := by
  unfold parInsert
  cases hn : par (nodeSlot w n) with
  | some q => exact hp
  | none =>
    unfold updO
    by_cases hi : i = nodeSlot w n
    · rw [hi] at hp
      rw [hp] at hn
      exact absurd hn (by simp)
    · simp [hi, hp]

/-- Case analysis on one Mouse step: either the parent buffer and head are
unchanged, or the mouse moved along an open neighbour edge, conditionally
writing the parent of its target. -/
theorem mouseStep_cases (w h : Nat) (s : MouseState) (c : Nat) :
    (mouseStep w h s c).1.ss.start = s.ss.start ∧
    ((((mouseStep w h s c).1.ss.parents = s.ss.parents ∧
       (mouseStep w h s c).1.head = s.head)) ∨
     (∃ e, e ∈ openNeighboursL w h s.ss.gs.openb s.head ∧
       (mouseStep w h s c).1.head = e.eto ∧
       (mouseStep w h s c).1.ss.parents = parInsert w s.ss.parents e.eto s.head)) := by
  simp only [mouseStep]
  by_cases hgoal : s.head = s.ss.goal
  · simp [hgoal]
  · rw [if_neg hgoal]
    split
    · exact ⟨rfl, Or.inl ⟨rfl, rfl⟩⟩
    · rename_i e hch
      exact ⟨rfl, Or.inr ⟨e, chooseL_mem hch, rfl, rfl⟩⟩

/-- Case analysis on one Right-hand step. -/
theorem rhStep_cases (w h : Nat) (s : RHState) :
    (rhStep w h s ()).1.ss.start = s.ss.start ∧
    ((((rhStep w h s ()).1.ss.parents = s.ss.parents ∧
       (rhStep w h s ()).1.head = s.head)) ∨
     (∃ e d', mazeEdge w h s.head d' = some e ∧
       (rhStep w h s ()).1.head = e.eto ∧
       (rhStep w h s ()).1.ss.parents = parInsert w s.ss.parents e.eto e.efrom)) := by
  simp only [rhStep]
  by_cases hgoal : s.head = s.ss.goal
  · simp [hgoal]
  · rw [if_neg hgoal]
    split
    · exact ⟨rfl, Or.inl ⟨rfl, rfl⟩⟩
    · rename_i e hch
      obtain ⟨⟨d', hd'⟩, -⟩ := rhFind_spec hch
      exact ⟨rfl, Or.inr ⟨e, d', hd', rfl, rfl⟩⟩

/-- `parInsert` of a newly reached node preserves the ghost invariant. -/
theorem parInsert_MInv {w h : Nat} {start head next : Node} {par : Nat → Option Node}
    (hnextv : validNode w h next = true)
    (hne : nodeSlot w next ≠ nodeSlot w head)
    (hinv : MInv w h start head par) :
    MInv w h start next (parInsert w par next head) := by
  obtain ⟨hheadv, time, clock, hclk, hth, hts, honly, hlink⟩ := hinv
  unfold parInsert
  cases hpn : par (nodeSlot w next) with
  | some q =>
    obtain ⟨ti, tp, hti, -, -⟩ := hlink _ _ hpn
    exact ⟨hnextv, time, clock, hclk, by simp [hti], hts, honly, hlink⟩
  | none =>
    by_cases hns : nodeSlot w next = nodeSlot w start
    · -- re-entering (the slot of) start: the time stamps need no change
      refine ⟨hnextv, time, clock, hclk, by rw [hns]; exact hts, hts, ?_, ?_⟩
      · intro i hi
        rcases honly i hi with hpar | hstart
        · by_cases hin : i = nodeSlot w next
          · exact Or.inr (hin.trans hns)
          · left; simpa [updO, hin] using hpar
        · exact Or.inr hstart
      · intro i p hp
        by_cases hin : i = nodeSlot w next
        · subst hin
          simp only [updO, if_pos rfl] at hp
          have hpe : p = head := (Option.some.inj hp).symm
          obtain ⟨ts, hts'⟩ := Option.isSome_iff_exists.mp hts
          obtain ⟨tph, htph⟩ := Option.isSome_iff_exists.mp hth
          refine ⟨ts, tph, by rw [hns]; exact hts', ?_, fun hcon => absurd hns hcon⟩
          rw [hpe]
          exact htph
        · simp only [updO, if_neg hin] at hp
          exact hlink i p hp
    · -- first entry of a fresh node: stamp it with the current clock
      have htn : time (nodeSlot w next) = none := by
        cases htn : time (nodeSlot w next) with
        | none => rfl
        | some t =>
          rcases honly _ (by rw [htn]; rfl) with hpar | hstart
          · exact absurd hpn hpar
          · exact absurd hstart hns
      refine ⟨hnextv, updO time (nodeSlot w next) (some clock), clock + 1, ?_, ?_, ?_, ?_, ?_⟩
      · intro i t hit
        unfold updO at hit
        by_cases hin : i = nodeSlot w next
        · rw [if_pos hin] at hit
          obtain rfl := Option.some.inj hit
          omega
        · rw [if_neg hin] at hit
          exact Nat.lt_succ_of_lt (hclk i t hit)
      · simp [updO]
      · have : nodeSlot w start ≠ nodeSlot w next := fun hc => hns hc.symm
        simpa [updO, this] using hts
      · intro i hi
        by_cases hin : i = nodeSlot w next
        · subst hin
          left
          simp [updO]
        · simp only [updO, if_neg hin] at hi
          rcases honly i hi with hpar | hstart
          · left
            simpa [updO, hin] using hpar
          · exact Or.inr hstart
      · intro i p hp
        by_cases hin : i = nodeSlot w next
        · subst hin
          simp only [updO, if_pos rfl] at hp
          have hpe : p = head := (Option.some.inj hp).symm
          obtain ⟨tph, htph⟩ := Option.isSome_iff_exists.mp hth
          have hps : nodeSlot w p ≠ nodeSlot w next := by
            rw [hpe]
            exact fun hc => hne hc.symm
          refine ⟨clock, tph, by simp [updO], ?_, fun _ => hclk _ _ htph⟩
          simp only [updO, if_neg hps]
          rw [hpe]
          exact htph
        · simp only [updO, if_neg hin] at hp
          obtain ⟨ti, tp, hti, htp, hrel⟩ := hlink i p hp
          have hpslot : nodeSlot w p ≠ nodeSlot w next := by
            intro hc
            rw [hc, htn] at htp
            exact absurd htp (by simp)
          exact ⟨ti, tp, by simpa [updO, hin] using hti,
            by simpa [updO, hpslot] using htp, hrel⟩

/-- The initial ghost invariant: fresh parents, head at start. -/
theorem MInv_init {w h : Nat} {start : Node} (hv : validNode w h start = true) :
    MInv w h start start (fun _ => none) := by
  refine ⟨hv, fun i => if i = nodeSlot w start then some 0 else none, 1, ?_, ?_, ?_, ?_, ?_⟩
  · intro i t hit
    by_cases hi : i = nodeSlot w start <;> simp [hi] at hit <;> omega
  · simp
  · simp
  · intro i hi
    by_cases hi' : i = nodeSlot w start <;> simp [hi'] at hi ⊢
  · intro i p hp
    simp at hp

/-- One Mouse step preserves the ghost invariant. -/
theorem mouseStep_MInv {w h : Nat} {s : MouseState} (c : Nat)
    (hinv : MInv w h s.ss.start s.head s.ss.parents) :
    MInv w h s.ss.start (mouseStep w h s c).1.head (mouseStep w h s c).1.ss.parents := by
  rcases (mouseStep_cases w h s c).2 with ⟨hp, hh⟩ | ⟨e, hmem, hh, hp⟩
  · rw [hp, hh]; exact hinv
  · rw [hp, hh]
    obtain ⟨⟨d, hme⟩, -⟩ := openNeighboursL_mem hmem
    obtain ⟨hef, -, hval⟩ := mazeEdge_fields hme
    have hne : e.eto ≠ e.efrom := mazeEdge_eto_ne hme
    refine parInsert_MInv hval ?_ hinv
    intro hc
    have : e.eto = s.head := nodeSlot_inj (valid_fst hval) (valid_fst hinv.1) hc
    exact hne (this.trans hef.symm)

/-- One Right-hand step preserves the ghost invariant. -/
theorem rhStep_MInv {w h : Nat} {s : RHState}
    (hinv : MInv w h s.ss.start s.head s.ss.parents) :
    MInv w h s.ss.start (rhStep w h s ()).1.head (rhStep w h s ()).1.ss.parents := by
  rcases (rhStep_cases w h s).2 with ⟨hp, hh⟩ | ⟨e, d', hme, hh, hp⟩
  · rw [hp, hh]; exact hinv
  · obtain ⟨hef, -, hval⟩ := mazeEdge_fields hme
    have hne : e.eto ≠ e.efrom := mazeEdge_eto_ne hme
    rw [hp, hh, hef]
    refine parInsert_MInv hval ?_ hinv
    intro hc
    have : e.eto = s.head := nodeSlot_inj (valid_fst hval) (valid_fst hinv.1) hc
    exact hne (this.trans hef.symm)

/-- Invariant preservation along the generic animation loop. -/
theorem runAlg_inv {S C : Type} {step : S → C → S × Signal} {tick : S → S} {P : S → Prop}
    (hstep : ∀ s c, P s → P (step s c).1)
    (htick : ∀ s, P s → P (tick s)) :
    ∀ (cs : List C) (s : S), P s → P (runAlg step tick s cs).1 := by
  intro cs
  induction cs with
  | nil => intro s hs; exact hs
  | cons c cs ih =>
    intro s hs
    unfold runAlg
    cases hstep' : step s c with
    | mk s' sig =>
      have hP : P s' := by
        have := hstep s c hs
        rw [hstep'] at this
        exact this
      cases sig with
      | done => exact hP
      | cont => exact ih (tick s') (htick s' hP)

theorem mouseRun_MInv {w h : Nat} {ss : SState} (hv : validNode w h ss.start = true)
    (hpar : ss.parents = fun _ => none) (cs : List Nat) :
    (mouseRun w h ss cs).ss.start = ss.start ∧
    MInv w h (mouseRun w h ss cs).ss.start (mouseRun w h ss cs).head
      (mouseRun w h ss cs).ss.parents := by
  have := @runAlg_inv MouseState Nat (mouseStep w h) mouseTick
    (fun s : MouseState =>
      s.ss.start = ss.start ∧ MInv w h s.ss.start s.head s.ss.parents)
    (fun s c hP => by
      have h1 := (mouseStep_cases w h s c).1
      refine ⟨h1.trans hP.1, ?_⟩
      rw [h1]
      exact mouseStep_MInv c hP.2)
    (fun s hP => hP) cs (mouseInit ss) ⟨rfl, by
      show MInv w h ss.start ss.start ss.parents
      rw [hpar]
      exact MInv_init hv⟩
  exact this

theorem rhRun_MInv {w h : Nat} {ss : SState} (hv : validNode w h ss.start = true)
    (hpar : ss.parents = fun _ => none) (cs : List Unit) :
    (rhRun w h ss cs).ss.start = ss.start ∧
    MInv w h (rhRun w h ss cs).ss.start (rhRun w h ss cs).head
      (rhRun w h ss cs).ss.parents := by
  have := @runAlg_inv RHState Unit (rhStep w h) rhTick
    (fun s : RHState =>
      s.ss.start = ss.start ∧ MInv w h s.ss.start s.head s.ss.parents)
    (fun s c hP => by
      have h1 := (rhStep_cases w h s).1
      refine ⟨h1.trans hP.1, ?_⟩
      rw [h1]
      exact rhStep_MInv hP.2)
    (fun s hP => hP) cs (rhInit ss) ⟨rfl, by
      show MInv w h ss.start ss.start ss.parents
      rw [hpar]
      exact MInv_init hv⟩
  exact this

/-- Along a parent chain that avoids (the slot of) start, the ghost time
stamps weakly decrease from head to last. -/
theorem chain_time_le {w : Nat} {par : Nat → Option Node} {time : Nat → Option Nat}
    {start : Node}
    (hlink : ∀ i p, par i = some p →
      ∃ ti tp, time i = some ti ∧ time (nodeSlot w p) = some tp ∧
        (i ≠ nodeSlot w start → tp < ti)) :
    ∀ (l : List Node) (a lst : Node) (ta : Nat),
      l.head? = some a → l.getLast? = some lst →
      List.Chain' (fun x y => par (nodeSlot w x) = some y) l →
      (∀ n ∈ l, nodeSlot w n ≠ nodeSlot w start) →
      time (nodeSlot w a) = some ta →
      ∃ tl, time (nodeSlot w lst) = some tl ∧ tl ≤ ta := by
  intro l
  induction l with
  | nil => intro a lst ta h1; simp at h1
  | cons x rest ih =>
    intro a lst ta h1 h2 hchain hs hta
    have hxa : x = a := by simpa using h1
    subst hxa
    cases rest with
    | nil =>
      have hla : x = lst := by simpa using h2
      subst hla
      exact ⟨ta, hta, le_refl ta⟩
    | cons y rest' =>
      have hxy : par (nodeSlot w x) = some y := hchain.rel_head
      obtain ⟨ti, tp, hti, htp, hrel⟩ := hlink _ _ hxy
      have hti' : ti = ta := by rw [hta] at hti; exact (Option.some.inj hti).symm
      have hlt : tp < ta := hti' ▸ hrel (hs x (by simp))
      obtain ⟨tl, htl, hle⟩ := ih y lst tp (by simp) (by simpa using h2) hchain.tail
        (fun n hn => hs n (by simp [hn])) htp
      exact ⟨tl, htl, by omega⟩

/-- Under the ghost invariant every parent-pointer cycle over valid nodes
passes through start. -/
theorem MInv_no_cycle {w h : Nat} {start head : Node} {par : Nat → Option Node}
    (hsv : validNode w h start = true)
    (hinv : MInv w h start head par)
    (l : List Node)
    (hval : ∀ n ∈ l, validNode w h n = true)
    (hcyc : CycLinks w par l) : start ∈ l := by
  by_contra hnot
  obtain ⟨-, time, clock, hclk, -, -, -, hlink⟩ := hinv
  have hslot : ∀ n ∈ l, nodeSlot w n ≠ nodeSlot w start := by
    intro n hn hc
    exact hnot ((nodeSlot_inj (valid_fst (hval n hn)) (valid_fst hsv) hc) ▸ hn)
  obtain ⟨hchain, lst, fst, hlst, hfst, hclose⟩ := hcyc
  obtain ⟨tlst, tfst, htlst, htfst, hrel⟩ := hlink _ _ hclose
  have hlstmem : lst ∈ l := by
    obtain ⟨hh, heq⟩ := List.mem_getLast?_eq_getLast (show lst ∈ l.getLast? from hlst)
    rw [heq]
    exact List.getLast_mem hh
  have hstrict : tfst < tlst := hrel (hslot lst hlstmem)
  obtain ⟨tl, htl, hle⟩ := chain_time_le hlink l fst lst tfst hfst hlst hchain hslot htfst
  rw [htlst] at htl
  obtain rfl := Option.some.inj htl
  omega

/-- C6 (amended): in the Mouse and Right-hand solvers a node's parent
pointer is assigned only if it is currently unset (never overwritten); as
a consequence, in every run started from a fresh solve state, any cycle of
valid nodes in the parent-pointer relation must pass through `start` (so
the path derived by following parents from `goal`, which terminates on
reaching `start`, is acyclic).  Cycles through `start` itself do occur (the
walk can re-enter `start` and give it a parent), as the counterexample
records, so the relation is not literally cycle-free. -/
theorem solver_parent_acyclic_outside_start :
    (∀ (w h : Nat) (s : MouseState) (c : Nat) (i : Nat) (p : Node),
      s.ss.parents i = some p → (mouseStep w h s c).1.ss.parents i = some p) ∧
    (∀ (w h : Nat) (s : RHState) (i : Nat) (p : Node),
      s.ss.parents i = some p → (rhStep w h s ()).1.ss.parents i = some p) ∧
    (∀ (w h : Nat) (ss : SState) (cs : List Nat) (l : List Node),
      validNode w h ss.start = true → ss.parents = (fun _ => none) →
      (∀ n ∈ l, validNode w h n = true) →
      CycLinks w ((mouseRun w h ss cs).ss.parents) l → ss.start ∈ l) ∧
    (∀ (w h : Nat) (ss : SState) (cs : List Unit) (l : List Node),
      validNode w h ss.start = true → ss.parents = (fun _ => none) →
      (∀ n ∈ l, validNode w h n = true) →
      CycLinks w ((rhRun w h ss cs).ss.parents) l → ss.start ∈ l) := by
  refine ⟨?_, ?_, ?_, ?_⟩
  · intro w h s c i p hp
    rcases (mouseStep_cases w h s c).2 with ⟨hpar, -⟩ | ⟨e, -, -, hpar⟩
    · rw [hpar]; exact hp
    · rw [hpar]; exact parInsert_mono hp
  · intro w h s i p hp
    rcases (rhStep_cases w h s).2 with ⟨hpar, -⟩ | ⟨e, d', -, -, hpar⟩
    · rw [hpar]; exact hp
    · rw [hpar]; exact parInsert_mono hp
  · intro w h ss cs l hv hpar hval hcyc
    obtain ⟨hst, hinv⟩ := mouseRun_MInv hv hpar cs
    rw [hst] at hinv
    exact MInv_no_cycle hv hinv l hval hcyc
  · intro w h ss cs l hv hpar hval hcyc
    obtain ⟨hst, hinv⟩ := rhRun_MInv hv hpar cs
    rw [hst] at hinv
    exact MInv_no_cycle hv hinv l hval hcyc

theorem solver_parent_acyclic_outside_start_witness :
    solve22.start ∈ [((0 : Nat), (0 : Nat)), ((0 : Nat), (1 : Nat))] := by
  refine solver_parent_acyclic_outside_start.2.2.1 2 2 solve22 [0, 1]
    [(0, 0), (0, 1)] (by decide) rfl (by decide)
    ⟨List.chain'_cons.mpr ⟨by decide, List.chain'_singleton _⟩,
      (0, 1), (0, 0), rfl, rfl, by decide⟩

/-- C6 counterexample: in a concrete Mouse run on the solved 2 by 2 maze
(start (0,1), goal (1,1)), the mouse walks to (0,0) and back; afterwards
`parents[(0,0)] = Some((0,1))` and `parents[(0,1)] = Some((0,0))` — a
two-node cycle in the parent-pointer relation (through start), refuting
the claim that the relation never contains a cycle at any point. -/
theorem mouse_parent_cycle :
    solve22.start = (0, 1) ∧
    mouseEx2.ss.parents (nodeSlot 2 (0, 0)) = some (0, 1) ∧
    mouseEx2.ss.parents (nodeSlot 2 (0, 1)) = some (0, 0) ∧
    CycLinks 2 mouseEx2.ss.parents [(0, 0), (0, 1)] := by
  refine ⟨by decide, by decide, by decide,
    List.chain'_cons.mpr ⟨by decide, List.chain'_singleton _⟩,
    (0, 1), (0, 0), rfl, rfl, by decide⟩

/-! ### Claim C8: union-find idempotence -/

theorem unslot_nodeSlot {w : Nat} {n : Node} (h1 : n.1 < w) :
    unslot w (nodeSlot w n) = n := by
  have hw : 0 < w := Nat.lt_of_le_of_lt (Nat.zero_le _) h1
  unfold unslot nodeSlot
  refine Prod.ext ?_ ?_
  · simp [Nat.add_mul_mod_self_right, Nat.mod_eq_of_lt h1]
  · simp [Nat.add_mul_div_right _ _ hw, Nat.div_eq_of_lt h1]

theorem valid_list_length_le {w h : Nat} {l : List Node} (hnd : l.Nodup)
    (hval : ∀ n ∈ l, validNode w h n = true) : l.length ≤ w * h := by
  have hsub : l.toFinset ⊆ (nodesList w h).toFinset := by
    intro x hx
    rw [List.mem_toFinset] at hx ⊢
    exact nodesList_mem.mpr (hval x hx)
  have hcard := Finset.card_le_card hsub
  rw [List.toFinset_card_of_nodup hnd,
    List.toFinset_card_of_nodup (nodesList_nodup w h), nodesList_length] at hcard
  exact hcard

theorem pchain_ne_nil {w : Nat} {pars : Nat → Node} {n : Node} {l : List Node}
    (hc : PChain w pars n l) : l ≠ [] := by
  cases hc <;> simp

theorem pchain_head {w : Nat} {pars : Nat → Node} {n : Node} {l : List Node}
    (hc : PChain w pars n l) : ∃ t, l = n :: t := by
  cases hc with
  | root => exact ⟨[], rfl⟩
  | step _ p t _ _ _ => exact ⟨t, rfl⟩

theorem pchain_getLast_root {w : Nat} {pars : Nat → Node} {n : Node} {l : List Node}
    (hc : PChain w pars n l) :
    ∃ r, l.getLast? = some r ∧ IsRootP w pars r := by
  induction hc with
  | root n hr => exact ⟨n, rfl, hr⟩
  | step n p l hp hne hc ih =>
    obtain ⟨r, hr1, hr2⟩ := ih
    obtain ⟨t, rfl⟩ := pchain_head hc
    exact ⟨r, by simpa using hr1, hr2⟩

theorem pchain_unique {w : Nat} {pars : Nat → Node} {n : Node} {l₁ l₂ : List Node}
    (h1 : PChain w pars n l₁) (h2 : PChain w pars n l₂) : l₁ = l₂ := by
  induction h1 generalizing l₂ with
  | root n hr =>
    cases h2 with
    | root => rfl
    | step _ p l hp hne _ =>
      have hr2 : pars (nodeSlot w n) = n := hr
      rw [hr2] at hp
      exact absurd hp hne
  | step n p l hp hne hc ih =>
    cases h2 with
    | root _ hr =>
      have hr2 : pars (nodeSlot w n) = n := hr
      rw [hr2] at hp
      exact absurd hp hne
    | step _ p' l' hp' hne' hc' =>
      obtain rfl : p = p' := by rw [hp] at hp'; exact hp'
      rw [ih hc']

/-- Every chain element is valid and strictly deeper predecessors. -/
theorem pchain_dpt {w h : Nat} {pars : Nat → Node} {dpt : Node → Nat}
    (hdpt : ∀ n : Node, validNode w h n = true →
      validNode w h (pars (nodeSlot w n)) = true ∧
      (pars (nodeSlot w n) = n ∨ dpt (pars (nodeSlot w n)) < dpt n))
    {n : Node} {l : List Node} (hc : PChain w pars n l)
    (hv : validNode w h n = true) :
    ∀ m ∈ l, validNode w h m = true ∧ (m = n ∨ dpt m < dpt n) := by
  induction hc with
  | root n hr =>
    intro m hm
    simp at hm
    subst hm
    exact ⟨hv, Or.inl rfl⟩
  | step n p l hp hne hc ih =>
    obtain ⟨hpv, hrel⟩ := hdpt n hv
    rw [hp] at hpv hrel
    have hlt : dpt p < dpt n := by
      rcases hrel with hcon | hlt
      · exact absurd hcon.symm hne
      · exact hlt
    intro m hm
    rcases List.mem_cons.mp hm with rfl | hm
    · exact ⟨hv, Or.inl rfl⟩
    · obtain ⟨hmv, hrel'⟩ := ih hpv m hm
      refine ⟨hmv, Or.inr ?_⟩
      rcases hrel' with rfl | hlt'
      · exact hlt
      · omega

theorem pchain_nodup {w h : Nat} {pars : Nat → Node} {dpt : Node → Nat}
    (hdpt : ∀ n : Node, validNode w h n = true →
      validNode w h (pars (nodeSlot w n)) = true ∧
      (pars (nodeSlot w n) = n ∨ dpt (pars (nodeSlot w n)) < dpt n))
    {n : Node} {l : List Node} (hc : PChain w pars n l)
    (hv : validNode w h n = true) : l.Nodup := by
  induction hc with
  | root => simp
  | step n p l hp hne hc ih =>
    obtain ⟨hpv, hrel⟩ := hdpt n hv
    rw [hp] at hpv hrel
    have hlt : dpt p < dpt n := by
      rcases hrel with hcon | hlt
      · exact absurd hcon.symm hne
      · exact hlt
    refine List.nodup_cons.mpr ⟨?_, ih hpv⟩
    intro hmem
    obtain ⟨-, hrel'⟩ := pchain_dpt hdpt hc hpv n hmem
    rcases hrel' with rfl | hlt'
    · exact hne rfl
    · omega

theorem chain_exists {w h : Nat} {pars : Nat → Node} {dpt : Node → Nat}
    (hdpt : ∀ n : Node, validNode w h n = true →
      validNode w h (pars (nodeSlot w n)) = true ∧
      (pars (nodeSlot w n) = n ∨ dpt (pars (nodeSlot w n)) < dpt n)) :
    ∀ (k : Nat) (n : Node), validNode w h n = true → dpt n ≤ k →
      ∃ l, PChain w pars n l := by
  intro k
  induction k with
  | zero =>
    intro n hv hk
    obtain ⟨hpv, hrel⟩ := hdpt n hv
    rcases hrel with hroot | hlt
    · exact ⟨[n], .root n hroot⟩
    · omega
  | succ k ih =>
    intro n hv hk
    obtain ⟨hpv, hrel⟩ := hdpt n hv
    rcases hrel with hroot | hlt
    · exact ⟨[n], .root n hroot⟩
    · obtain ⟨l, hl⟩ := ih (pars (nodeSlot w n)) hpv (by omega)
      refine ⟨n :: l, .step n _ l rfl ?_ hl⟩
      intro he
      rw [← he] at hlt
      omega

/-- `find_root` follows the chain to its root and compresses every chain
slot (the root's slot excluded) directly onto the root. -/
theorem findRootF_eq {w : Nat} {pars : Nat → Node} {n : Node} {l : List Node}
    (hc : PChain w pars n l) :
    ∀ (fuel : Nat), l.length ≤ fuel → ∀ r, l.getLast? = some r →
      findRootF w fuel pars n =
        (compressP pars (l.dropLast.map (nodeSlot w)) r, r) := by
  induction hc with
  | root n hr =>
    intro fuel hfuel r hr'
    obtain rfl : n = r := by simpa using hr'
    obtain ⟨f, rfl⟩ : ∃ f, fuel = f + 1 := ⟨fuel - 1, by simp at hfuel; omega⟩
    have hr2 : pars (nodeSlot w n) = n := hr
    unfold findRootF
    rw [hr2]
    simp only [if_pos rfl]
    refine congrArg (·, n) ?_
    funext i
    simp [compressP]
  | step n p l hp hne hc ih =>
    intro fuel hfuel r hr'
    obtain ⟨f, rfl⟩ : ∃ f, fuel = f + 1 := ⟨fuel - 1, by simp at hfuel; omega⟩
    obtain ⟨t, rfl⟩ := pchain_head hc
    have hr'' : (p :: t).getLast? = some r := by simpa using hr'
    have := ih f (by simp at hfuel ⊢; omega) r hr''
    unfold findRootF
    rw [hp, if_neg hne, this]
    refine congrArg (·, r) ?_
    funext i
    simp only [updP, compressP, List.dropLast_cons₂, List.map_cons, List.mem_cons]
    by_cases h1 : i = nodeSlot w n <;> simp [h1]

theorem findRootF_root {w : Nat} {pars : Nat → Node} {n : Node} {fuel : Nat}
    (hr : IsRootP w pars n) (hfuel : 0 < fuel) :
    findRootF w fuel pars n = (pars, n) := by
  obtain ⟨f, rfl⟩ : ∃ f, fuel = f + 1 := ⟨fuel - 1, by omega⟩
  rw [IsRootP] at hr
  unfold findRootF
  rw [hr]
  simp

theorem getLast_not_mem_dropLast {α : Type} {l : List α} (hnd : l.Nodup) {r : α}
    (hr : l.getLast? = some r) : r ∉ l.dropLast := by
  intro hmem
  have hdecomp := List.dropLast_append_getLast? r hr
  have hnd' : (l.dropLast ++ [r]).Nodup := by rw [hdecomp]; exact hnd
  exact (List.nodup_append.mp hnd').2.2 hmem (by simp)

theorem pchain_mem_chain {w : Nat} {pars : Nat → Node} {n : Node} {l : List Node}
    (hc : PChain w pars n l) :
    ∀ m ∈ l, ∃ lm, PChain w pars m lm ∧ lm.getLast? = l.getLast? := by
  induction hc with
  | root n hr =>
    intro m hm
    simp at hm
    subst hm
    exact ⟨[m], .root m hr, rfl⟩
  | step n p l hp hne hc ih =>
    intro m hm
    obtain ⟨t, rfl⟩ := pchain_head hc
    rcases List.mem_cons.mp hm with rfl | hm
    · exact ⟨m :: p :: t, .step m p (p :: t) hp hne hc, rfl⟩
    · obtain ⟨lm, h1, h2⟩ := ih m hm
      exact ⟨lm, h1, by simpa using h2⟩

/-- The full specification of one `find_root` call on a valid node: the
invariant is preserved, the result is a root, valid, and every existing
root stays a root. -/
theorem findRoot_spec {w h : Nat} {pars : Nat → Node} {n : Node}
    (hinv : UFInvD w h pars) (hv : validNode w h n = true) :
    UFInvD w h (findRootF w (w * h) pars n).1 ∧
    IsRootP w (findRootF w (w * h) pars n).1 (findRootF w (w * h) pars n).2 ∧
    validNode w h (findRootF w (w * h) pars n).2 = true ∧
    (∀ m, validNode w h m = true → IsRootP w pars m →
      IsRootP w (findRootF w (w * h) pars n).1 m) := by
  obtain ⟨dpt, hdpt⟩ := hinv
  obtain ⟨l, hl⟩ := chain_exists hdpt (dpt n) n hv le_rfl
  have hnodup : l.Nodup := pchain_nodup hdpt hl hv
  have hlval : ∀ m ∈ l, validNode w h m = true := fun m hm => (pchain_dpt hdpt hl hv m hm).1
  obtain ⟨r, hr, hrroot⟩ := pchain_getLast_root hl
  have hlen : l.length ≤ w * h := valid_list_length_le hnodup hlval
  have heq := findRootF_eq hl (w * h) hlen r hr
  have hrmem : r ∈ l := by
    obtain ⟨hh, he⟩ := List.mem_getLast?_eq_getLast (show r ∈ l.getLast? from hr)
    rw [he]
    exact List.getLast_mem hh
  have hrval : validNode w h r = true := hlval r hrmem
  have hrnd : r ∉ l.dropLast := getLast_not_mem_dropLast hnodup hr
  have hdlval : ∀ m ∈ l.dropLast, validNode w h m = true := fun m hm =>
    hlval m (List.dropLast_subset l hm)
  -- membership of a valid node's slot in the compressed slots
  have hslotmem : ∀ m : Node, validNode w h m = true →
      (nodeSlot w m ∈ l.dropLast.map (nodeSlot w) ↔ m ∈ l.dropLast) := by
    intro m hmv
    constructor
    · intro hmem
      obtain ⟨m', hm', hs⟩ := List.mem_map.mp hmem
      obtain rfl : m' = m := nodeSlot_inj (valid_fst (hdlval m' hm')) (valid_fst hmv) hs
      exact hm'
    · intro hmem
      exact List.mem_map.mpr ⟨m, hmem, rfl⟩
  rw [heq]
  have hrootkeep : ∀ m, validNode w h m = true → IsRootP w pars m →
      IsRootP w (compressP pars (l.dropLast.map (nodeSlot w)) r) m := by
    intro m hmv hmroot
    have hmnot : nodeSlot w m ∉ l.dropLast.map (nodeSlot w) := by
      rw [hslotmem m hmv]
      intro hmem
      obtain ⟨lm, hlm, hlast⟩ := pchain_mem_chain hl m (List.dropLast_subset l hmem)
      have := pchain_unique hlm (.root m hmroot)
      subst this
      simp at hlast
      rw [hr] at hlast
      obtain rfl := Option.some.inj hlast
      exact hrnd hmem
    show compressP pars (l.dropLast.map (nodeSlot w)) r (nodeSlot w m) = m
    simp only [compressP]
    rw [if_neg hmnot]
    exact hmroot
  refine ⟨⟨dpt, ?_⟩, ?_, hrval, hrootkeep⟩
  · -- invariant preservation under compression
    intro m hmv
    by_cases hmem : nodeSlot w m ∈ l.dropLast.map (nodeSlot w)
    · have hm : m ∈ l.dropLast := (hslotmem m hmv).mp hmem
      have hmr : m ≠ r := fun hc => hrnd (hc ▸ hm)
      obtain ⟨lm, hlm, hlast⟩ := pchain_mem_chain hl m (List.dropLast_subset l hm)
      have hrm : r ∈ lm := by
        rw [hr] at hlast
        obtain ⟨hh, he⟩ := List.mem_getLast?_eq_getLast (show r ∈ lm.getLast? from hlast)
        rw [he]
        exact List.getLast_mem hh
      obtain ⟨-, hrel⟩ := pchain_dpt hdpt hlm hmv r hrm
      rcases hrel with rfl | hlt
      · exact absurd rfl hmr
      · simp only [compressP]
        rw [if_pos hmem]
        exact ⟨hrval, Or.inr hlt⟩
    · simp only [compressP]
      rw [if_neg hmem]
      exact hdpt m hmv
  · -- the result is a root of the compressed buffer
    exact hrootkeep r hrval hrroot

theorem reachesP_root {w : Nat} {pars : Nat → Node} {r x : Node}
    (hr : IsRootP w pars r) (hrx : ReachesP w pars r x) : x = r := by
  rcases Relation.ReflTransGen.cases_head hrx with heq | ⟨c, ⟨hc1, hc2⟩, -⟩
  · exact heq.symm
  · have hr2 : pars (nodeSlot w r) = r := hr
    rw [hr2] at hc1
    exact absurd hc1 hc2

/-- Joining two distinct roots preserves the forest invariant. -/
theorem union_UFInv {w h : Nat} {pars : Nat → Node} {ra rb : Node}
    (hinv : UFInvD w h pars) (hrav : validNode w h ra = true)
    (hrbv : validNode w h rb = true) (hra : IsRootP w pars ra)
    (hrb : IsRootP w pars rb) (hne : ra ≠ rb) :
    UFInvD w h (updP pars (nodeSlot w ra) rb) := by
  classical
  obtain ⟨dpt, hdpt⟩ := hinv
  refine ⟨fun m => dpt m + (if ReachesP w pars m ra then dpt rb + 1 else 0), ?_⟩
  intro n hv
  by_cases hslot : nodeSlot w n = nodeSlot w ra
  · obtain rfl : n = ra := nodeSlot_inj (valid_fst hv) (valid_fst hrav) hslot
    have hval : updP pars (nodeSlot w n) rb (nodeSlot w n) = rb := by simp [updP]
    refine ⟨by rw [hval]; exact hrbv, Or.inr ?_⟩
    rw [hval]
    have h1 : ¬ ReachesP w pars rb n := fun hrch => hne (reachesP_root hrb hrch)
    have h2 : ReachesP w pars n n := Relation.ReflTransGen.refl
    simp [h1, h2]
    omega
  · have hval : updP pars (nodeSlot w ra) rb (nodeSlot w n) = pars (nodeSlot w n) := by
      simp [updP, hslot]
    obtain ⟨hv1, hv2⟩ := hdpt n hv
    rw [hval]
    refine ⟨hv1, ?_⟩
    rcases hv2 with hroot | hlt
    · exact Or.inl hroot
    · refine Or.inr ?_
      have hnp : n ≠ pars (nodeSlot w n) := by
        intro he
        rw [← he] at hlt
        omega
      have hiff : ReachesP w pars n ra ↔ ReachesP w pars (pars (nodeSlot w n)) ra := by
        constructor
        · intro hr
          rcases Relation.ReflTransGen.cases_head hr with heq | ⟨c, ⟨hc1, -⟩, hrest⟩
          · exact absurd (congrArg (nodeSlot w) heq) hslot
          · rwa [hc1]
        · intro hr
          exact Relation.ReflTransGen.head ⟨rfl, hnp⟩ hr
      by_cases hreach : ReachesP w pars n ra
      · have := hiff.mp hreach
        simp [hreach, this]
        omega
      · have : ¬ ReachesP w pars (pars (nodeSlot w n)) ra := fun hc => hreach (hiff.mpr hc)
        simp [hreach, this]
        omega

theorem edgesList_mem_ok {w h : Nat} {e : Edge} (he : e ∈ edgesList w h) :
    EdgeOK w h e := by
  unfold edgesList at he
  rw [List.mem_flatMap] at he
  obtain ⟨n, hn, he'⟩ := he
  have hnv := nodesList_mem.mp hn
  rw [List.mem_append] at he'
  rcases he' with h1 | h1
  · refine ⟨n, .east, hnv, ?_⟩
    cases hme : mazeEdge w h n .east with
    | none => rw [hme] at h1; simp at h1
    | some e' => rw [hme] at h1; simp at h1; rw [h1]
  · refine ⟨n, .south, hnv, ?_⟩
    cases hme : mazeEdge w h n .south with
    | none => rw [hme] at h1; simp at h1
    | some e' => rw [hme] at h1; simp at h1; rw [h1]

/-- The recursive retry of `Kruskal::step` preserves the forest invariant
and queue validity. -/
theorem kruskalGo_inv {w h : Nat} :
    ∀ (q : List Edge) (gs : GState) (pars : Nat → Node),
      UFInvD w h pars → (∀ e ∈ q, EdgeOK w h e) →
      UFInvD w h (kruskalGo w h gs pars q).2.1 ∧
      (∀ e ∈ (kruskalGo w h gs pars q).2.2.1, EdgeOK w h e) := by
  intro q
  induction q with
  | nil =>
    intro gs pars hinv hq
    exact ⟨hinv, by simp [kruskalGo]⟩
  | cons e rest ih =>
    intro gs pars hinv hq
    obtain ⟨n, d, hnv, hme⟩ := hq e (by simp)
    obtain ⟨hef, -, hetov⟩ := mazeEdge_fields hme
    have hefv : validNode w h e.efrom = true := by rw [hef]; exact hnv
    obtain ⟨hinv1, hroot1, hval1, hpres1⟩ := findRoot_spec hinv hefv
    obtain ⟨hinv2, hroot2, hval2, hpres2⟩ := findRoot_spec hinv1 hetov
    have hrest : ∀ e' ∈ rest, EdgeOK w h e' := fun e' he' => hq e' (by simp [he'])
    unfold kruskalGo
    by_cases heq : (findRootF w (w * h) (findRootF w (w * h) pars e.efrom).1 e.eto).2 =
        (findRootF w (w * h) pars e.efrom).2
    · rw [if_pos heq]
      exact ih gs _ hinv2 hrest
    · rw [if_neg heq]
      refine ⟨?_, hrest⟩
      exact union_UFInv hinv2 hval1 hval2
        (hpres2 _ hval1 hroot1) hroot2 (fun hc => heq hc.symm)

/-- One operation preserves the forest invariant and queue validity. -/
theorem applyKOp_inv {w h : Nat} {s : KrusState} {op : KOp}
    (hop : KOpOK w h op)
    (hinv : UFInvD w h s.pars) (hq : ∀ e ∈ s.queue, EdgeOK w h e) :
    UFInvD w h (applyKOp w h s op).pars ∧
    (∀ e ∈ (applyKOp w h s op).queue, EdgeOK w h e) := by
  cases op with
  | find n => exact ⟨(findRoot_spec hinv hop).1, hq⟩
  | step =>
    have := kruskalGo_inv s.queue s.gs s.pars hinv hq
    exact this

theorem applyKOps_inv {w h : Nat} :
    ∀ (ops : List KOp) (s : KrusState), (∀ op ∈ ops, KOpOK w h op) →
      UFInvD w h s.pars → (∀ e ∈ s.queue, EdgeOK w h e) →
      UFInvD w h (applyKOps w h s ops).pars ∧
      (∀ e ∈ (applyKOps w h s ops).queue, EdgeOK w h e) := by
  intro ops
  induction ops with
  | nil => intro s _ hinv hq; exact ⟨hinv, hq⟩
  | cons op ops ih =>
    intro s hops hinv hq
    obtain ⟨hinv', hq'⟩ := applyKOp_inv (hops op (by simp)) hinv hq
    exact ih _ (fun op' hop' => hops op' (by simp [hop'])) hinv' hq'

theorem kruskalInit_inv {w h : Nat} (gs : GState) (queue0 : List Edge) :
    UFInvD w h (kruskalInit w gs queue0).pars := by
  refine ⟨fun _ => 0, ?_⟩
  intro n hv
  have heq : (kruskalInit w gs queue0).pars (nodeSlot w n) = n :=
    unslot_nodeSlot (valid_fst hv)
  rw [heq]
  exact ⟨hv, Or.inl rfl⟩

/-- C8: on every Kruskal instance (any shuffle of the full edge list),
after any finite sequence of `find_root` calls interleaved with Kruskal
steps, `find_root` is idempotent: calling it again on the node it just
returned yields the same node (path compression keeps every queried
node's chain rooted, so the returned representative is its own parent). -/
theorem kruskal_find_root_idempotent (w h : Nat) (gs : GState) (queue0 : List Edge)
    (hq : List.Perm queue0 (edgesList w h)) (ops : List KOp)
    (hops : ∀ op ∈ ops, KOpOK w h op) (x : Node) (hx : validNode w h x = true) :
    (findRootF w (w * h)
      (findRootF w (w * h) (applyKOps w h (kruskalInit w gs queue0) ops).pars x).1
      (findRootF w (w * h) (applyKOps w h (kruskalInit w gs queue0) ops).pars x).2).2
    = (findRootF w (w * h) (applyKOps w h (kruskalInit w gs queue0) ops).pars x).2 := by
  have hq0 : ∀ e ∈ (kruskalInit w gs queue0).queue, EdgeOK w h e := by
    intro e he
    exact edgesList_mem_ok (hq.mem_iff.mp he)
  obtain ⟨hinv, -⟩ := applyKOps_inv ops (kruskalInit w gs queue0) hops
    (kruskalInit_inv gs queue0) hq0
  obtain ⟨-, hroot, -, -⟩ := findRoot_spec hinv hx
  have hwh : 0 < w * h :=
    Nat.mul_pos (Nat.lt_of_le_of_lt (Nat.zero_le _) (valid_fst hx))
      (Nat.lt_of_le_of_lt (Nat.zero_le _) (valid_snd hx))
  rw [findRootF_root hroot hwh]

theorem kruskal_find_root_idempotent_witness :
    (findRootF 2 (2 * 2)
      (findRootF 2 (2 * 2)
        (applyKOps 2 2 (kruskalInit 2 genInit (edgesList 2 2))
          [KOp.step, KOp.find (0, 0)]).pars (1, 1)).1
      (findRootF 2 (2 * 2)
        (applyKOps 2 2 (kruskalInit 2 genInit (edgesList 2 2))
          [KOp.step, KOp.find (0, 0)]).pars (1, 1)).2).2
    = (findRootF 2 (2 * 2)
        (applyKOps 2 2 (kruskalInit 2 genInit (edgesList 2 2))
          [KOp.step, KOp.find (0, 0)]).pars (1, 1)).2 := by
  refine kruskal_find_root_idempotent 2 2 genInit (edgesList 2 2) (List.Perm.refl _)
    [KOp.step, KOp.find (0, 0)] ?_ (1, 1) (by decide)
  intro op hop
  rcases List.mem_cons.mp hop with rfl | hop
  · exact trivial
  · rcases List.mem_cons.mp hop with rfl | hop
    · show validNode 2 2 (0, 0) = true
      decide
    · simp at hop

/-! ### C5: flood breadth-first layering -/

theorem distGo_bounds {w h : Nat} {f : Nat → Bool} {s t : Node} :
    ∀ (fuel i : Nat), i ≤ distGo w h f s t i fuel ∧ distGo w h f s t i fuel ≤ i + fuel := by
  intro fuel
  induction fuel with
  | zero => intro i; simp [distGo]
  | succ k ihf =>
    intro i
    simp only [distGo]
    split
    · omega
    · have := ihf (i + 1)
      omega

theorem distGo_found {w h : Nat} {f : Nat → Bool} {s t : Node} :
    ∀ (fuel i : Nat), walkB w h f s (distGo w h f s t i fuel) t = true ∨
      distGo w h f s t i fuel = i + fuel := by
  intro fuel
  induction fuel with
  | zero => intro i; right; simp [distGo]
  | succ k ihf =>
    intro i
    simp only [distGo]
    split
    · left; assumption
    · rcases ihf (i + 1) with hw | he
      · left; exact hw
      · right; omega

theorem distGo_min {w h : Nat} {f : Nat → Bool} {s t : Node} :
    ∀ (fuel i j : Nat), i ≤ j → j < distGo w h f s t i fuel →
      walkB w h f s j t = false := by
  intro fuel
  induction fuel with
  | zero => intro i j hij hj; simp [distGo] at hj; omega
  | succ k ihf =>
    intro i j hij hj
    simp only [distGo] at hj
    split at hj
    · omega
    · rename_i hw
      rcases Nat.eq_or_lt_of_le hij with rfl | hlt
      · exact Bool.eq_false_iff.mpr hw
      · exact ihf (i + 1) j hlt hj

theorem distB_le {w h : Nat} {f : Nat → Bool} {s t : Node} {k : Nat}
    (hw : walkB w h f s k t = true) : distB w h f s t ≤ k := by
  by_contra hgt
  push_neg at hgt
  have hgt2 : k < distGo w h f s t 0 (w * h + 1) := hgt
  have := distGo_min (w * h + 1) 0 k (Nat.zero_le k) hgt2
  rw [this] at hw
  exact Bool.false_ne_true hw

theorem distB_walk {w h : Nat} {f : Nat → Bool} {s t : Node} {k : Nat}
    (hk : k ≤ w * h) (hw : walkB w h f s k t = true) :
    walkB w h f s (distB w h f s t) t = true := by
  rcases distGo_found (w := w) (h := h) (f := f) (s := s) (t := t) (w * h + 1) 0 with hgood | hbad
  · exact hgood
  · exfalso
    have h1 : distB w h f s t ≤ k := distB_le hw
    have h2 : distB w h f s t = 0 + (w * h + 1) := hbad
    omega

theorem distB_self {w h : Nat} {f : Nat → Bool} {s : Node} : distB w h f s s = 0 := by
  have h0 : walkB w h f s 0 s = true := by simp [walkB]
  have := distB_le h0
  omega

theorem mazeEdge_sum {w h : Nat} {n : Node} {d : Direction} {e : Edge}
    (hme : mazeEdge w h n d = some e) :
    e.eto.1 + e.eto.2 + 1 = n.1 + n.2 ∨ n.1 + n.2 + 1 = e.eto.1 + e.eto.2 := by
  cases d
  case north =>
    obtain ⟨h0, _, rfl⟩ := mazeEdge_north.mp hme
    left
    show n.1 + (n.2 - 1) + 1 = n.1 + n.2
    omega
  case south =>
    obtain ⟨_, rfl⟩ := mazeEdge_south.mp hme
    right
    show n.1 + n.2 + 1 = n.1 + (n.2 + 1)
    omega
  case east =>
    obtain ⟨_, rfl⟩ := mazeEdge_east.mp hme
    right
    show n.1 + n.2 + 1 = (n.1 + 1) + n.2
    omega
  case west =>
    obtain ⟨h0, _, rfl⟩ := mazeEdge_west.mp hme
    left
    show (n.1 - 1) + n.2 + 1 = n.1 + n.2
    omega

theorem walkB_parity {w h : Nat} {f : Nat → Bool} {s : Node} :
    ∀ (k : Nat) (t : Node), walkB w h f s k t = true →
      (s.1 + s.2 + k) % 2 = (t.1 + t.2) % 2 := by
  intro k
  induction k with
  | zero =>
    intro t hw
    have ht : t = s := by simpa [walkB] using hw
    subst ht
    rfl
  | succ m ihm =>
    intro t hw
    simp only [walkB, List.any_eq_true, Bool.and_eq_true] at hw
    obtain ⟨e, he, hf, hwm⟩ := hw
    obtain ⟨d, hme⟩ := neighboursL_mem.mp he
    have hsum := mazeEdge_sum hme
    have hih := ihm e.eto hwm
    omega

/-- The reverse of a produced edge is itself produced, from the opposite
endpoint (which requires the original origin to be in bounds). -/
theorem mazeEdge_symm {w h : Nat} {n : Node} {d : Direction} {e : Edge}
    (hme : mazeEdge w h n d = some e) (hn : validNode w h n = true) :
    mazeEdge w h e.eto e.edir.reverse = some e.reverseE := by
  cases d
  case north =>
    obtain ⟨h0, hv, rfl⟩ := mazeEdge_north.mp hme
    show mazeEdge w h (n.1, n.2 - 1) Direction.south = some _
    rw [mazeEdge_south]
    constructor
    · show validNode w h (n.1, n.2 - 1 + 1) = true
      rw [show n.2 - 1 + 1 = n.2 from by omega]
      exact hn
    · show (⟨(n.1, n.2 - 1), n, Direction.south⟩ : Edge) = _
      congr 1
      exact Prod.ext rfl (by omega)
  case south =>
    obtain ⟨hv, rfl⟩ := mazeEdge_south.mp hme
    show mazeEdge w h (n.1, n.2 + 1) Direction.north = some _
    rw [mazeEdge_north]
    refine ⟨by omega, ?_, ?_⟩
    · show validNode w h (n.1, n.2 + 1 - 1) = true
      rw [show n.2 + 1 - 1 = n.2 from by omega]
      exact hn
    · show (⟨(n.1, n.2 + 1), n, Direction.north⟩ : Edge) = _
      congr 1
  case east =>
    obtain ⟨hv, rfl⟩ := mazeEdge_east.mp hme
    show mazeEdge w h (n.1 + 1, n.2) Direction.west = some _
    rw [mazeEdge_west]
    refine ⟨by omega, ?_, ?_⟩
    · show validNode w h (n.1 + 1 - 1, n.2) = true
      rw [show n.1 + 1 - 1 = n.1 from by omega]
      exact hn
    · show (⟨(n.1 + 1, n.2), n, Direction.west⟩ : Edge) = _
      congr 1
  case west =>
    obtain ⟨h0, hv, rfl⟩ := mazeEdge_west.mp hme
    show mazeEdge w h (n.1 - 1, n.2) Direction.east = some _
    rw [mazeEdge_east]
    constructor
    · show validNode w h (n.1 - 1 + 1, n.2) = true
      rw [show n.1 - 1 + 1 = n.1 from by omega]
      exact hn
    · show (⟨(n.1 - 1, n.2), n, Direction.east⟩ : Edge) = _
      congr 1
      exact Prod.ext (by omega) rfl

/-- An open produced edge witnesses open adjacency from its target back to
its origin. -/
theorem openAdj_rev {w h : Nat} {f : Nat → Bool} {n : Node} {d : Direction} {e : Edge}
    (hme : mazeEdge w h n d = some e) (hn : validNode w h n = true)
    (hopen : f (normaliseE w e) = true) :
    openAdjB w h f e.eto n = true := by
  have hsym := mazeEdge_symm hme hn
  have hmem : e.reverseE ∈ neighboursL w h e.eto :=
    neighboursL_mem.mpr ⟨e.edir.reverse, hsym⟩
  have hfrom : e.efrom = n := (mazeEdge_fields hme).1
  unfold openAdjB
  rw [List.any_eq_true]
  refine ⟨e.reverseE, hmem, ?_⟩
  rw [Bool.and_eq_true]
  constructor
  · show (decide (e.reverseE.eto = n)) = true
    rw [decide_eq_true_eq]
    show e.efrom = n
    exact hfrom
  · rw [normaliseE_reverse hme]
    exact hopen

theorem walkB_succ {w h : Nat} {f : Nat → Bool} {s t : Node} {k : Nat} :
    walkB w h f s (k + 1) t = true ↔
      ∃ e ∈ neighboursL w h t, f (normaliseE w e) = true ∧
        walkB w h f s k e.eto = true := by
  simp [walkB, List.any_eq_true, Bool.and_eq_true]

/-- Extending a walk by one open edge leaving its endpoint. -/
theorem walkB_extend {w h : Nat} {f : Nat → Bool} {s u : Node} {d : Direction} {e : Edge}
    (hme : mazeEdge w h u d = some e) (hu : validNode w h u = true)
    (hopen : f (normaliseE w e) = true) {k : Nat}
    (hw : walkB w h f s k u = true) : walkB w h f s (k + 1) e.eto = true := by
  rw [walkB_succ]
  have hsym := mazeEdge_symm hme hu
  refine ⟨e.reverseE, neighboursL_mem.mpr ⟨e.edir.reverse, hsym⟩, ?_, ?_⟩
  · rw [normaliseE_reverse hme]
    exact hopen
  · show walkB w h f s k e.reverseE.eto = true
    have hh : e.reverseE.eto = u := (mazeEdge_fields hme).1
    rw [hh]
    exact hw

/-- Nodes joined by an open edge are never equidistant from any source:
each edge flips the parity of x + y. -/
theorem dist_adj_ne {w h : Nat} {f : Nat → Bool} {s u : Node} {d : Direction} {e : Edge}
    (hme : mazeEdge w h u d = some e)
    (hwu : walkB w h f s (distB w h f s u) u = true)
    (hwv : walkB w h f s (distB w h f s e.eto) e.eto = true) :
    distB w h f s u ≠ distB w h f s e.eto := by
  have h1 := walkB_parity _ _ hwu
  have h2 := walkB_parity _ _ hwv
  have h3 := mazeEdge_sum hme
  intro heq
  omega

/-- On a maze connected from `s`, every valid node carries a walk of
exactly its distance. -/
theorem connFromB_reach {w h : Nat} {f : Nat → Bool} {s : Node}
    (hc : connFromB w h f s = true) {n : Node} (hn : validNode w h n = true) :
    walkB w h f s (distB w h f s n) n = true := by
  unfold connFromB at hc
  rw [List.all_eq_true] at hc
  have hcn := hc n (nodesList_mem.mpr hn)
  rw [List.any_eq_true] at hcn
  obtain ⟨k, hk, hw⟩ := hcn
  rw [List.mem_range] at hk
  exact distB_walk (by omega) hw

theorem visitG_isVisited {w : Nat} {g : GState} {m n : Node} :
    isVisitedG w (visitG w g m) n = true ↔
      isVisitedG w g n = true ∨ nodeSlot w n = nodeSlot w m := by
  unfold isVisitedG visitG setAge updO
  by_cases hc : nodeSlot w n = nodeSlot w m <;> simp [hc]

theorem ageTick_visited {w : Nat} {g : GState} {n : Node} :
    isVisitedG w (ageTickG g) n = isVisitedG w g n := by
  simp [isVisitedG, ageTickG]

theorem sorted_const {l : List Nat} {d : Nat} (hl : ∀ x ∈ l, x = d) :
    l.Sorted (· ≤ ·) := by
  induction l with
  | nil => exact List.sorted_nil
  | cons a t iht =>
    rw [List.sorted_cons]
    refine ⟨?_, iht fun x hx => hl x (List.mem_cons_of_mem a hx)⟩
    intro b hb
    rw [hl a (List.mem_cons_self a t), hl b (List.mem_cons_of_mem a hb)]

theorem floodGo_nil {w h : Nat} {qb : List Edge} {ss : SState} :
    floodGo w h [] qb ss =
      if qb = [] then (ss, [], [], Signal.done, [])
      else (ss, qb, [], Signal.cont, []) := rfl

theorem floodGo_cons_goal {w h : Nat} {e : Edge} {rest qb : List Edge} {ss : SState}
    (hg : e.eto = ss.goal) :
    floodGo w h (e :: rest) qb ss =
      ({ ss with
          gs := visitG w ss.gs e.eto,
          parents := updO ss.parents (nodeSlot w e.eto) (some e.efrom) },
       rest, qb, Signal.done, [e.eto]) := by
  simp only [floodGo]
  rw [if_pos hg]

theorem floodGo_cons_go {w h : Nat} {e : Edge} {rest qb : List Edge} {ss : SState}
    (hg : ¬ e.eto = ss.goal) :
    floodGo w h (e :: rest) qb ss =
      ((fun r : SState × List Edge × List Edge × Signal × List Node =>
          (r.1, r.2.1, r.2.2.1, r.2.2.2.1, e.eto :: r.2.2.2.2))
        (floodGo w h rest
          (qb ++ (openNeighboursL w h (visitG w ss.gs e.eto).openb e.eto).filter
            fun e2 => !isVisitedG w (visitG w ss.gs e.eto) e2.eto)
          { ss with
              gs := visitG w ss.gs e.eto,
              parents := updO ss.parents (nodeSlot w e.eto) (some e.efrom) })) := by
  simp only [floodGo]
  rw [if_neg hg]

/-- The one-tick drain of the flood solver: processing a layer-`d` queue A
(queue B collecting layer `d + 1`) preserves the maze and the endpoints,
visits exactly the queue-A targets, logs only layer-`d` nodes, and on
`Continue` empties queue B into a complete layer-`d + 1` queue A. -/
theorem floodGo_spec {w h : Nat} {f : Nat → Bool} {start : Node} {d : Nat}
    (hconn : connFromB w h f start = true) :
    ∀ (qa qb : List Edge) (ss : SState),
      ss.gs.openb = f →
      (∀ e ∈ qa, validNode w h e.eto = true ∧ distB w h f start e.eto = d) →
      (∀ e ∈ qb, validNode w h e.eto = true ∧ distB w h f start e.eto = d + 1) →
      (∀ n : Node, validNode w h n = true → isVisitedG w ss.gs n = true →
        distB w h f start n ≤ d) →
      (∀ n : Node, validNode w h n = true → distB w h f start n < d →
        isVisitedG w ss.gs n = true) →
      (∀ n : Node, validNode w h n = true → distB w h f start n = d + 1 →
        (n ∈ qb.map Edge.eto ∨
          ∃ p, p ∈ qa.map Edge.eto ∧ validNode w h p = true ∧
            openAdjB w h f p n = true)) →
      ((floodGo w h qa qb ss).1.gs.openb = f ∧
       (floodGo w h qa qb ss).1.start = ss.start ∧
       (floodGo w h qa qb ss).1.goal = ss.goal ∧
       (∀ n : Node, isVisitedG w ss.gs n = true →
         isVisitedG w (floodGo w h qa qb ss).1.gs n = true) ∧
       (∀ n ∈ (floodGo w h qa qb ss).2.2.2.2,
         validNode w h n = true ∧ distB w h f start n = d ∧
           isVisitedG w (floodGo w h qa qb ss).1.gs n = true) ∧
       (∀ n : Node, validNode w h n = true →
         isVisitedG w (floodGo w h qa qb ss).1.gs n = true →
         isVisitedG w ss.gs n = true ∨ n ∈ qa.map Edge.eto) ∧
       ((floodGo w h qa qb ss).2.2.2.1 = Signal.cont →
         (floodGo w h qa qb ss).2.2.1 = [] ∧
         (∀ n : Node, validNode w h n = true →
           (isVisitedG w (floodGo w h qa qb ss).1.gs n = true ↔
             isVisitedG w ss.gs n = true ∨ n ∈ qa.map Edge.eto)) ∧
         (∀ e2 ∈ (floodGo w h qa qb ss).2.1,
           validNode w h e2.eto = true ∧ distB w h f start e2.eto = d + 1) ∧
         (∀ n : Node, validNode w h n = true → distB w h f start n = d + 1 →
           n ∈ (floodGo w h qa qb ss).2.1.map Edge.eto) ∧
         (floodGo w h qa qb ss).2.2.2.2 = qa.map Edge.eto)) := by
  intro qa
  induction qa with
  | nil =>
    intro qb ss hopen hA hB hVle hVlt hCov
    by_cases hq : qb = []
    · subst hq
      rw [floodGo_nil, if_pos rfl]
      dsimp only
      refine ⟨hopen, rfl, rfl, fun n hn => hn, ?_, ?_, ?_⟩
      · intro n hn
        simp at hn
      · intro n _ hv
        exact Or.inl hv
      · intro hc
        exact Signal.noConfusion hc
    · rw [floodGo_nil, if_neg hq]
      dsimp only
      refine ⟨hopen, rfl, rfl, fun n hn => hn, ?_, ?_, ?_⟩
      · intro n hn
        simp at hn
      · intro n _ hv
        exact Or.inl hv
      · intro _
        refine ⟨rfl, ?_, hB, ?_, rfl⟩
        · intro n _
          simp
        · intro n hn hd
          rcases hCov n hn hd with hmem | ⟨p, hp, _, _⟩
          · exact hmem
          · simp at hp
  | cons e rest ih =>
    intro qb ss hopen hA hB hVle hVlt hCov
    obtain ⟨hev, hed⟩ := hA e (List.mem_cons_self e rest)
    by_cases hg : e.eto = ss.goal
    · rw [floodGo_cons_goal hg]
      dsimp only
      refine ⟨hopen, rfl, rfl, ?_, ?_, ?_, ?_⟩
      · intro n hn
        exact visitG_isVisited.mpr (Or.inl hn)
      · intro n hn
        rw [List.mem_singleton] at hn
        subst hn
        exact ⟨hev, hed, visitG_isVisited.mpr (Or.inr rfl)⟩
      · intro n hnv hvis
        rcases visitG_isVisited.mp hvis with hh | hh
        · exact Or.inl hh
        · have hne : n = e.eto := nodeSlot_inj (valid_fst hnv) (valid_fst hev) hh
          subst hne
          exact Or.inr (List.mem_map_of_mem _ (List.mem_cons_self e rest))
      · intro hc
        exact Signal.noConfusion hc
    · rw [floodGo_cons_go hg]
      dsimp only
      have hopen1 : (visitG w ss.gs e.eto).openb = f := hopen
      have hns : ∀ e2 ∈ (openNeighboursL w h (visitG w ss.gs e.eto).openb e.eto).filter
          (fun e2 => !isVisitedG w (visitG w ss.gs e.eto) e2.eto),
          validNode w h e2.eto = true ∧ distB w h f start e2.eto = d + 1 := by
        intro e2 he2
        have hmemo := List.mem_of_mem_filter he2
        have hunv0 := List.of_mem_filter he2
        obtain ⟨⟨d2, hme2⟩, hopen2⟩ := openNeighboursL_mem hmemo
        rw [hopen1] at hopen2
        have hv2 : validNode w h e2.eto = true := (mazeEdge_fields hme2).2.2
        refine ⟨hv2, ?_⟩
        have hunv1 : isVisitedG w (visitG w ss.gs e.eto) e2.eto = false := by
          simpa using hunv0
        have hunv2 : isVisitedG w ss.gs e2.eto = false := by
          cases hb : isVisitedG w ss.gs e2.eto
          · rfl
          · exfalso
            have hvv : isVisitedG w (visitG w ss.gs e.eto) e2.eto = true :=
              visitG_isVisited.mpr (Or.inl hb)
            rw [hunv1] at hvv
            cases hvv
        have hwu : walkB w h f start (distB w h f start e.eto) e.eto = true :=
          connFromB_reach hconn hev
        have hwz : walkB w h f start (distB w h f start e2.eto) e2.eto = true :=
          connFromB_reach hconn hv2
        have hle : distB w h f start e2.eto ≤ distB w h f start e.eto + 1 :=
          distB_le (walkB_extend hme2 hev hopen2 hwu)
        have hnlt : ¬ distB w h f start e2.eto < d := by
          intro hlt
          have := hVlt e2.eto hv2 hlt
          rw [hunv2] at this
          cases this
        have hne := dist_adj_ne hme2 hwu hwz
        omega
      have hB2 : ∀ e2 ∈ qb ++ (openNeighboursL w h (visitG w ss.gs e.eto).openb e.eto).filter
          (fun e2 => !isVisitedG w (visitG w ss.gs e.eto) e2.eto),
          validNode w h e2.eto = true ∧ distB w h f start e2.eto = d + 1 := by
        intro e2 he2
        rcases List.mem_append.mp he2 with hq | hf2
        · exact hB e2 hq
        · exact hns e2 hf2
      have hVle2 : ∀ n : Node, validNode w h n = true →
          isVisitedG w (visitG w ss.gs e.eto) n = true → distB w h f start n ≤ d := by
        intro n hn hv
        rcases visitG_isVisited.mp hv with hh | hh
        · exact hVle n hn hh
        · have hne : n = e.eto := nodeSlot_inj (valid_fst hn) (valid_fst hev) hh
          subst hne
          exact le_of_eq hed
      have hVlt2 : ∀ n : Node, validNode w h n = true → distB w h f start n < d →
          isVisitedG w (visitG w ss.gs e.eto) n = true := fun n hn hlt =>
        visitG_isVisited.mpr (Or.inl (hVlt n hn hlt))
      have hCov2 : ∀ n : Node, validNode w h n = true → distB w h f start n = d + 1 →
          (n ∈ (qb ++ (openNeighboursL w h (visitG w ss.gs e.eto).openb e.eto).filter
              (fun e2 => !isVisitedG w (visitG w ss.gs e.eto) e2.eto)).map Edge.eto ∨
            ∃ p, p ∈ rest.map Edge.eto ∧ validNode w h p = true ∧
              openAdjB w h f p n = true) := by
        intro n hn hd1
        rcases hCov n hn hd1 with hmem | ⟨p, hp, hpv, hadj⟩
        · exact Or.inl (by rw [List.map_append]; exact List.mem_append_left _ hmem)
        · rcases List.mem_map.mp hp with ⟨pe, hpe, hpeq⟩
          rcases List.mem_cons.mp hpe with hpe1 | hpe2
          · have hp2 : p = e.eto := by rw [← hpeq, hpe1]
            subst hp2
            left
            rw [List.map_append]
            refine List.mem_append_right _ ?_
            unfold openAdjB at hadj
            rw [List.any_eq_true] at hadj
            obtain ⟨e3, he3, hcond⟩ := hadj
            rw [Bool.and_eq_true, decide_eq_true_eq] at hcond
            obtain ⟨he3to, he3op⟩ := hcond
            have he3mem : e3 ∈ openNeighboursL w h (visitG w ss.gs e.eto).openb e.eto := by
              unfold openNeighboursL
              refine List.mem_filter.mpr ⟨he3, ?_⟩
              rw [hopen1]
              exact he3op
            have hnunv : isVisitedG w (visitG w ss.gs e.eto) e3.eto = false := by
              rw [he3to]
              cases hb : isVisitedG w (visitG w ss.gs e.eto) n
              · rfl
              · exfalso
                have := hVle2 n hn hb
                omega
            have he3f : e3 ∈ (openNeighboursL w h (visitG w ss.gs e.eto).openb e.eto).filter
                (fun e2 => !isVisitedG w (visitG w ss.gs e.eto) e2.eto) :=
              List.mem_filter.mpr ⟨he3mem, by rw [hnunv]; rfl⟩
            rw [← he3to]
            exact List.mem_map_of_mem _ he3f
          · exact Or.inr ⟨p, hpeq ▸ List.mem_map_of_mem _ hpe2, hpv, hadj⟩
      obtain ⟨k1, k2, k3, k4, k5, k6, k7⟩ :=
        ih (qb ++ (openNeighboursL w h (visitG w ss.gs e.eto).openb e.eto).filter
            (fun e2 => !isVisitedG w (visitG w ss.gs e.eto) e2.eto))
          { ss with
              gs := visitG w ss.gs e.eto,
              parents := updO ss.parents (nodeSlot w e.eto) (some e.efrom) }
          hopen1 (fun e2 he2 => hA e2 (List.mem_cons_of_mem e he2)) hB2 hVle2 hVlt2 hCov2
      refine ⟨k1, k2, k3, ?_, ?_, ?_, ?_⟩
      · intro n hn
        exact k4 n (visitG_isVisited.mpr (Or.inl hn))
      · intro n hn
        rcases List.mem_cons.mp hn with rfl | hn2
        · exact ⟨hev, hed, k4 e.eto (visitG_isVisited.mpr (Or.inr rfl))⟩
        · exact k5 n hn2
      · intro n hn hv
        rcases k6 n hn hv with hss1 | hrest
        · rcases visitG_isVisited.mp hss1 with hh | hh
          · exact Or.inl hh
          · have hne : n = e.eto := nodeSlot_inj (valid_fst hn) (valid_fst hev) hh
            subst hne
            exact Or.inr (List.mem_map_of_mem _ (List.mem_cons_self e rest))
        · exact Or.inr (by rw [List.map_cons]; exact List.mem_cons_of_mem _ hrest)
      · intro hc
        obtain ⟨c1, c2, c3, c4, c5⟩ := k7 hc
        refine ⟨c1, ?_, c3, c4, ?_⟩
        · intro n hn
          rw [c2 n hn]
          constructor
          · rintro (hss1 | hr)
            · rcases visitG_isVisited.mp hss1 with hh | hh
              · exact Or.inl hh
              · have hne : n = e.eto := nodeSlot_inj (valid_fst hn) (valid_fst hev) hh
                subst hne
                exact Or.inr (List.mem_map_of_mem _ (List.mem_cons_self e rest))
            · exact Or.inr (by rw [List.map_cons]; exact List.mem_cons_of_mem _ hr)
          · rintro (hss | hmem)
            · exact Or.inl (visitG_isVisited.mpr (Or.inl hss))
            · rw [List.map_cons] at hmem
              rcases List.mem_cons.mp hmem with rfl | hr
              · exact Or.inl (visitG_isVisited.mpr (Or.inr rfl))
              · exact Or.inr hr
        · rw [List.map_cons, c5]

/-- A state satisfying the layer-`d` invariant fulfils all hypotheses of
the one-tick lemma, so its conclusions hold for the next `Flood::step`. -/
theorem floodTickInv_go {w h : Nat} {start : Node} {f : Nat → Bool} {d : Nat}
    (hconn : connFromB w h f start = true) (s : FloodState)
    (hinv : FloodTickInv w h start f d s) :
    ((floodGo w h s.qa s.qb s.ss).1.gs.openb = f ∧
     (floodGo w h s.qa s.qb s.ss).1.start = s.ss.start ∧
     (floodGo w h s.qa s.qb s.ss).1.goal = s.ss.goal ∧
     (∀ n : Node, isVisitedG w s.ss.gs n = true →
       isVisitedG w (floodGo w h s.qa s.qb s.ss).1.gs n = true) ∧
     (∀ n ∈ (floodGo w h s.qa s.qb s.ss).2.2.2.2,
       validNode w h n = true ∧ distB w h f start n = d ∧
         isVisitedG w (floodGo w h s.qa s.qb s.ss).1.gs n = true) ∧
     (∀ n : Node, validNode w h n = true →
       isVisitedG w (floodGo w h s.qa s.qb s.ss).1.gs n = true →
       isVisitedG w s.ss.gs n = true ∨ n ∈ s.qa.map Edge.eto) ∧
     ((floodGo w h s.qa s.qb s.ss).2.2.2.1 = Signal.cont →
       (floodGo w h s.qa s.qb s.ss).2.2.1 = [] ∧
       (∀ n : Node, validNode w h n = true →
         (isVisitedG w (floodGo w h s.qa s.qb s.ss).1.gs n = true ↔
           isVisitedG w s.ss.gs n = true ∨ n ∈ s.qa.map Edge.eto)) ∧
       (∀ e2 ∈ (floodGo w h s.qa s.qb s.ss).2.1,
         validNode w h e2.eto = true ∧ distB w h f start e2.eto = d + 1) ∧
       (∀ n : Node, validNode w h n = true → distB w h f start n = d + 1 →
         n ∈ (floodGo w h s.qa s.qb s.ss).2.1.map Edge.eto) ∧
       (floodGo w h s.qa s.qb s.ss).2.2.2.2 = s.qa.map Edge.eto)) := by
  unfold FloodTickInv at hinv
  obtain ⟨hopen, hqb, hA, hIV, hCov0⟩ := hinv
  have hBnil : ∀ e ∈ s.qb, validNode w h e.eto = true ∧
      distB w h f start e.eto = d + 1 := by
    rw [hqb]
    intro e he
    simp at he
  have hVle : ∀ n : Node, validNode w h n = true → isVisitedG w s.ss.gs n = true →
      distB w h f start n ≤ d := by
    intro n hn hv
    have := (hIV n hn).mp hv
    omega
  have hVlt : ∀ n : Node, validNode w h n = true → distB w h f start n < d →
      isVisitedG w s.ss.gs n = true := fun n hn hlt => (hIV n hn).mpr hlt
  have hCov1 : ∀ n : Node, validNode w h n = true → distB w h f start n = d + 1 →
      (n ∈ s.qb.map Edge.eto ∨
        ∃ p, p ∈ s.qa.map Edge.eto ∧ validNode w h p = true ∧
          openAdjB w h f p n = true) := by
    intro n hn hd1
    right
    have hwn : walkB w h f start (distB w h f start n) n = true :=
      connFromB_reach hconn hn
    rw [hd1, walkB_succ] at hwn
    obtain ⟨e3, he3, hop3, hw3⟩ := hwn
    obtain ⟨d3, hme3⟩ := neighboursL_mem.mp he3
    have hpv : validNode w h e3.eto = true := (mazeEdge_fields hme3).2.2
    have hfrom3 : e3.efrom = n := (mazeEdge_fields hme3).1
    have hple : distB w h f start e3.eto ≤ d := distB_le hw3
    have hwp : walkB w h f start (distB w h f start e3.eto) e3.eto = true :=
      connFromB_reach hconn hpv
    have hsym := mazeEdge_symm hme3 hn
    have hrevopen : f (normaliseE w e3.reverseE) = true := by
      rw [normaliseE_reverse hme3]
      exact hop3
    have hnext : walkB w h f start (distB w h f start e3.eto + 1)
        e3.reverseE.eto = true :=
      walkB_extend hsym hpv hrevopen hwp
    have hton : e3.reverseE.eto = n := hfrom3
    rw [hton] at hnext
    have hlow : d + 1 ≤ distB w h f start e3.eto + 1 := by
      have := distB_le hnext
      omega
    have hpd : distB w h f start e3.eto = d := by omega
    have hadj : openAdjB w h f e3.eto n = true := openAdj_rev hme3 hn hop3
    refine ⟨e3.eto, ?_, hpv, hadj⟩
    rcases hCov0 e3.eto hpv hpd with hvis | hmem
    · exfalso
      have := (hIV e3.eto hpv).mp hvis
      omega
    · exact hmem
  exact floodGo_spec hconn s.qa s.qb s.ss hopen hA hBnil hVle hVlt hCov1

/-- Iterating flood ticks from a state satisfying the layer invariant: the
visit log stays within the layers from `d` on, its distances are
non-decreasing, and while the run continues some higher layer invariant
holds with all logged nodes strictly below it. -/
theorem floodRun_spec {w h : Nat} {start : Node} {f : Nat → Bool}
    (hconn : connFromB w h f start = true) :
    ∀ (k : Nat) (s : FloodState) (d : Nat),
      FloodTickInv w h start f d s →
      ((∀ n ∈ (floodRunL w h k s).2.2, validNode w h n = true ∧
          d ≤ distB w h f start n) ∧
       ((floodRunL w h k s).2.2.map (distB w h f start)).Sorted (· ≤ ·) ∧
       ((floodRunL w h k s).2.1 = false →
         ∃ d2, d ≤ d2 ∧ FloodTickInv w h start f d2 (floodRunL w h k s).1 ∧
           ∀ n ∈ (floodRunL w h k s).2.2, distB w h f start n < d2)) := by
  intro k
  induction k with
  | zero =>
    intro s d hinv
    have h0 : floodRunL w h 0 s = (s, false, []) := rfl
    rw [h0]
    dsimp only
    refine ⟨?_, ?_, ?_⟩
    · intro n hn
      simp at hn
    · simp
    · intro _
      exact ⟨d, le_refl d, hinv, fun n hn => by simp at hn⟩
  | succ k ihk =>
    intro s d hinv
    obtain ⟨g1, g2, g3, g4, g5, g6, g7⟩ := floodTickInv_go hconn s hinv
    unfold FloodTickInv at hinv
    obtain ⟨hopen, hqb, hA, hIV, hCov0⟩ := hinv
    cases hsig : (floodGo w h s.qa s.qb s.ss).2.2.2.1 with
    | done =>
      have hrun : floodRunL w h (k + 1) s =
          (⟨(floodGo w h s.qa s.qb s.ss).1, (floodGo w h s.qa s.qb s.ss).2.1,
            (floodGo w h s.qa s.qb s.ss).2.2.1⟩, true,
           (floodGo w h s.qa s.qb s.ss).2.2.2.2) := by
        simp only [floodRunL, hsig]
      rw [hrun]
      dsimp only
      refine ⟨?_, ?_, ?_⟩
      · intro n hn
        obtain ⟨hv, hdn, -⟩ := g5 n hn
        exact ⟨hv, le_of_eq hdn.symm⟩
      · have hconst : ∀ x ∈ (floodGo w h s.qa s.qb s.ss).2.2.2.2.map
            (distB w h f start), x = d := by
          intro x hx
          rw [List.mem_map] at hx
          obtain ⟨n, hn, rfl⟩ := hx
          exact (g5 n hn).2.1
        exact sorted_const hconst
      · intro hfalse
        exact Bool.noConfusion hfalse
    | cont =>
      obtain ⟨c1, c2, c3, c4, c5⟩ := g7 hsig
      have hinv2 : FloodTickInv w h start f (d + 1)
          (floodTick ⟨(floodGo w h s.qa s.qb s.ss).1, (floodGo w h s.qa s.qb s.ss).2.1,
            (floodGo w h s.qa s.qb s.ss).2.2.1⟩) := by
        unfold FloodTickInv
        refine ⟨?_, ?_, ?_, ?_, ?_⟩
        · show (ageTickG (floodGo w h s.qa s.qb s.ss).1.gs).openb = f
          exact g1
        · show (floodGo w h s.qa s.qb s.ss).2.2.1 = []
          exact c1
        · exact c3
        · intro n hn
          show isVisitedG w (ageTickG (floodGo w h s.qa s.qb s.ss).1.gs) n = true ↔ _
          rw [ageTick_visited, c2 n hn]
          constructor
          · rintro (hvis | hmem)
            · have := (hIV n hn).mp hvis
              omega
            · rw [List.mem_map] at hmem
              obtain ⟨e4, he4, he4eq⟩ := hmem
              have hde4 := (hA e4 he4).2
              rw [he4eq] at hde4
              omega
          · intro hlt
            rcases Nat.lt_succ_iff_lt_or_eq.mp hlt with hlt2 | heq
            · exact Or.inl ((hIV n hn).mpr hlt2)
            · rcases hCov0 n hn heq with hvis | hmem
              · exact Or.inl hvis
              · exact Or.inr hmem
        · intro n hn hdn
          right
          show n ∈ (floodGo w h s.qa s.qb s.ss).2.1.map Edge.eto
          exact c4 n hn hdn
      obtain ⟨L1, L2, L3⟩ := ihk (floodTick ⟨(floodGo w h s.qa s.qb s.ss).1,
          (floodGo w h s.qa s.qb s.ss).2.1, (floodGo w h s.qa s.qb s.ss).2.2.1⟩)
        (d + 1) hinv2
      have hrun : floodRunL w h (k + 1) s =
          ((floodRunL w h k (floodTick ⟨(floodGo w h s.qa s.qb s.ss).1,
              (floodGo w h s.qa s.qb s.ss).2.1, (floodGo w h s.qa s.qb s.ss).2.2.1⟩)).1,
           (floodRunL w h k (floodTick ⟨(floodGo w h s.qa s.qb s.ss).1,
              (floodGo w h s.qa s.qb s.ss).2.1, (floodGo w h s.qa s.qb s.ss).2.2.1⟩)).2.1,
           (floodGo w h s.qa s.qb s.ss).2.2.2.2 ++
             (floodRunL w h k (floodTick ⟨(floodGo w h s.qa s.qb s.ss).1,
               (floodGo w h s.qa s.qb s.ss).2.1,
               (floodGo w h s.qa s.qb s.ss).2.2.1⟩)).2.2) := by
        simp only [floodRunL, hsig]
      rw [hrun]
      dsimp only
      refine ⟨?_, ?_, ?_⟩
      · intro n hn
        rcases List.mem_append.mp hn with hn1 | hn2
        · obtain ⟨hv, hdn, -⟩ := g5 n hn1
          exact ⟨hv, le_of_eq hdn.symm⟩
        · obtain ⟨hv, hdn⟩ := L1 n hn2
          exact ⟨hv, by omega⟩
      · rw [List.map_append]
        unfold List.Sorted at L2 ⊢
        rw [List.pairwise_append]
        refine ⟨?_, L2, ?_⟩
        · have hconst : ∀ x ∈ (floodGo w h s.qa s.qb s.ss).2.2.2.2.map
              (distB w h f start), x = d := by
            intro x hx
            rw [List.mem_map] at hx
            obtain ⟨n, hn, rfl⟩ := hx
            exact (g5 n hn).2.1
          exact sorted_const hconst
        · intro x hx y hy
          rw [List.mem_map] at hx hy
          obtain ⟨n1, hn1, rfl⟩ := hx
          obtain ⟨n2, hn2, rfl⟩ := hy
          have hd1 := (g5 n1 hn1).2.1
          have hd2 := (L1 n2 hn2).2
          omega
      · intro hfalse
        obtain ⟨d2, hd2, hinv3, hbound⟩ := L3 hfalse
        refine ⟨d2, by omega, hinv3, ?_⟩
        intro n hn
        rcases List.mem_append.mp hn with hn1 | hn2
        · have := (g5 n hn1).2.1
          omega
        · exact hbound n hn2

/-- **C5**: In every run of the Flood (BFS) solver on a maze whose open
edges connect every node to `start` (in particular on a spanning-tree
maze), nodes are visited in non-decreasing order of their true open-graph
distance from `start`; and every outer `Flood::step` call that returns
`Continue` drains all of queue A (its targets are all visited, queue B is
left empty), with all nodes visited during that tick lying in one single
breadth layer, which is completely visited by the end of the tick. -/
theorem flood_layering (w h : Nat) (ss : SState)
    (hsv : validNode w h ss.start = true)
    (hage : ss.gs.age = fun _ => none)
    (hconn : connFromB w h ss.gs.openb ss.start = true)
    (k : Nat) (S : FloodState) (fin1 : Bool) (log : List Node)
    (hrun : floodRunL w h k (floodInit ss) = (S, fin1, log)) :
    (log.map (distB w h ss.gs.openb ss.start)).Sorted (· ≤ ·) ∧
    (fin1 = false →
      ∀ ss2 qa2 qb2 sig tlog,
        floodGo w h S.qa S.qb S.ss = (ss2, qa2, qb2, sig, tlog) →
        sig = Signal.cont →
        qb2 = [] ∧
        (∀ e ∈ S.qa, isVisitedG w ss2.gs e.eto = true) ∧
        ∃ d, (∀ n ∈ tlog, distB w h ss.gs.openb ss.start n = d) ∧
          (∀ n : Node, validNode w h n = true →
            distB w h ss.gs.openb ss.start n = d →
            isVisitedG w ss2.gs n = true)) := by
  have hinv0 : FloodTickInv w h ss.start ss.gs.openb 0 (floodInit ss) := by
    unfold FloodTickInv
    refine ⟨rfl, rfl, ?_, ?_, ?_⟩
    · intro e he
      have he2 : e ∈ [identityE ss.start] := he
      rw [List.mem_singleton] at he2
      subst he2
      exact ⟨hsv, distB_self⟩
    · intro n hn
      constructor
      · intro hvv
        exfalso
        have hvv2 : (ss.gs.age (nodeSlot w n)).isSome = true := hvv
        rw [hage] at hvv2
        simp at hvv2
      · intro hlt
        exact absurd hlt (Nat.not_lt_zero _)
    · intro n hn hd0
      have hwn := connFromB_reach hconn hn
      rw [hd0] at hwn
      have hns : n = ss.start := by simpa [walkB] using hwn
      subst hns
      right
      show ss.start ∈ [identityE ss.start].map Edge.eto
      simp [identityE]
  obtain ⟨L1, L2, L3⟩ := floodRun_spec hconn k (floodInit ss) 0 hinv0
  rw [hrun] at L1 L2 L3
  dsimp only at L1 L2 L3
  refine ⟨L2, ?_⟩
  intro hfin ss2 qa2 qb2 sig tlog hfg hsig
  obtain ⟨d2, -, hinv2, -⟩ := L3 hfin
  obtain ⟨-, -, -, -, -, -, g7⟩ := floodTickInv_go hconn S hinv2
  unfold FloodTickInv at hinv2
  obtain ⟨-, -, hA2, -, hCov2⟩ := hinv2
  have hsig2 : (floodGo w h S.qa S.qb S.ss).2.2.2.1 = Signal.cont := by
    rw [hfg]
    exact hsig
  obtain ⟨c1, c2, c3, c4, c5⟩ := g7 hsig2
  rw [hfg] at c1 c2 c5
  refine ⟨c1, ?_, d2, ?_, ?_⟩
  · intro e he
    have hv := (hA2 e he).1
    have hmem : e.eto ∈ S.qa.map Edge.eto := List.mem_map_of_mem _ he
    exact (c2 e.eto hv).mpr (Or.inr hmem)
  · intro n hn
    have hlog : tlog = S.qa.map Edge.eto := c5
    rw [hlog] at hn
    rcases List.mem_map.mp hn with ⟨e4, he4, he4eq⟩
    have hde := (hA2 e4 he4).2
    rw [he4eq] at hde
    exact hde
  · intro n hn hdn
    rcases hCov2 n hn hdn with hvis0 | hmem
    · exact (c2 n hn).mpr (Or.inl hvis0)
    · exact (c2 n hn).mpr (Or.inr hmem)

/-! ### C1: shared graph machinery -/

theorem openAdj_ne {w h : Nat} {f : Nat → Bool} {u v : Node}
    (hadj : openAdjB w h f u v = true) : u ≠ v := by
  unfold openAdjB at hadj
  rw [List.any_eq_true] at hadj
  obtain ⟨e, he, hc⟩ := hadj
  rw [Bool.and_eq_true, decide_eq_true_eq] at hc
  obtain ⟨d, hme⟩ := neighboursL_mem.mp he
  have hne := mazeEdge_eto_ne hme
  have hfrom := (mazeEdge_fields hme).1
  rw [hc.1.symm, ← hfrom]
  exact fun hc2 => hne hc2.symm

theorem openAdj_symmB {w h : Nat} {f : Nat → Bool} {u v : Node}
    (hadj : openAdjB w h f u v = true) (hu : validNode w h u = true) :
    openAdjB w h f v u = true := by
  unfold openAdjB at hadj
  rw [List.any_eq_true] at hadj
  obtain ⟨e, he, hc⟩ := hadj
  rw [Bool.and_eq_true, decide_eq_true_eq] at hc
  obtain ⟨d, hme⟩ := neighboursL_mem.mp he
  have := openAdj_rev hme hu hc.2
  rw [hc.1] at this
  exact this

theorem walkB_one {w h : Nat} {f : Nat → Bool} {u v : Node}
    (hadj : openAdjB w h f u v = true) : walkB w h f v 1 u = true := by
  unfold openAdjB at hadj
  rw [List.any_eq_true] at hadj
  obtain ⟨e, he, hc⟩ := hadj
  rw [Bool.and_eq_true, decide_eq_true_eq] at hc
  rw [walkB_succ]
  refine ⟨e, he, hc.2, ?_⟩
  rw [hc.1]
  simp [walkB]

theorem walkB_append {w h : Nat} {f : Nat → Bool} {s : Node} :
    ∀ (n : Nat) (t : Node), walkB w h f s n t = true →
      ∀ (m : Nat) (s2 : Node), walkB w h f s2 m s = true →
        walkB w h f s2 (m + n) t = true := by
  intro n
  induction n with
  | zero =>
    intro t hw m s2 hw2
    have ht : t = s := by simpa [walkB] using hw
    subst ht
    exact hw2
  | succ k ihk =>
    intro t hw m s2 hw2
    rw [walkB_succ] at hw
    obtain ⟨e, he, hf, hwk⟩ := hw
    rw [show m + (k + 1) = (m + k) + 1 from rfl, walkB_succ]
    exact ⟨e, he, hf, ihk e.eto hwk m s2 hw2⟩

theorem walkB_symm {w h : Nat} {f : Nat → Bool} {s : Node} :
    ∀ (k : Nat) (t : Node), validNode w h t = true →
      walkB w h f s k t = true → walkB w h f t k s = true := by
  intro k
  induction k with
  | zero =>
    intro t _ hw
    have ht : t = s := by simpa [walkB] using hw
    subst ht
    simp [walkB]
  | succ m ihm =>
    intro t hv hw
    rw [walkB_succ] at hw
    obtain ⟨e, he, hf, hwm⟩ := hw
    obtain ⟨d, hme⟩ := neighboursL_mem.mp he
    have hev : validNode w h e.eto = true := (mazeEdge_fields hme).2.2
    have hrev := ihm e.eto hev hwm
    -- one open step from t to e.eto
    have hadj : openAdjB w h f t e.eto = true := by
      unfold openAdjB
      rw [List.any_eq_true]
      refine ⟨e, he, ?_⟩
      rw [Bool.and_eq_true, decide_eq_true_eq]
      exact ⟨rfl, hf⟩
    have hone : walkB w h f t 1 e.eto = true :=
      walkB_one (openAdj_symmB hadj hv)
    have := walkB_append m s hrev 1 t hone
    rw [show 1 + m = m + 1 from by omega] at this
    exact this

theorem parReach_congr {par par2 : Node → Option Node}
    (hagree : ∀ a b, par a = some b → par2 a = some b) {x r : Node}
    (hr : ParReach par x r) : ParReach par2 x r := by
  induction hr with
  | refl => exact Relation.ReflTransGen.refl
  | tail hstep hlink ih =>
    exact Relation.ReflTransGen.tail ih (hagree _ _ hlink)

theorem parReach_walk {w h : Nat} {f : Nat → Bool} {par : Node → Option Node}
    (hF2 : ∀ n p, par n = some p → openAdjB w h f p n = true) {x r : Node}
    (hr : ParReach par x r) : ∃ k, walkB w h f x k r = true := by
  induction hr using Relation.ReflTransGen.head_induction_on with
  | refl => exact ⟨0, by simp [walkB]⟩
  | head hlink hrest ih =>
    rename_i a b
    obtain ⟨k, hk⟩ := ih
    have hadj := hF2 a b hlink
    have hone : walkB w h f a 1 b = true := walkB_one hadj
    have := walkB_append k _ hk 1 a hone
    exact ⟨1 + k, this⟩

theorem parReach_none {par : Node → Option Node} {n r : Node}
    (hr : ParReach par n r) (hn : par n = none) : r = n := by
  rcases Relation.ReflTransGen.cases_head hr with heq | ⟨c, hc, -⟩
  · exact heq.symm
  · rw [hn] at hc
    cases hc

theorem parReach_unique {par : Node → Option Node} :
    ∀ (n r1 r2 : Node), ParReach par n r1 → par r1 = none →
      ParReach par n r2 → par r2 = none → r1 = r2 := by
  intro n r1 r2 h1
  induction h1 using Relation.ReflTransGen.head_induction_on with
  | refl =>
    intro hr1 h2 hr2
    exact (parReach_none h2 hr1).symm
  | head hlink hrest ih =>
    rename_i a b
    intro hr1 h2 hr2
    rcases Relation.ReflTransGen.cases_head h2 with heq | ⟨c, hc, hc2⟩
    · subst heq
      rw [hr2] at hlink
      cases hlink
    · rw [hlink] at hc
      obtain rfl := Option.some.inj hc
      exact ih hr1 hc2 hr2

/-- Spreading through the lattice: a set closed under taking in-bounds
neighbours and containing one valid node contains every valid node. -/
theorem lattice_fill {w h : Nat} {S : Node → Prop}
    (hclosed : ∀ v : Node, validNode w h v = true → S v →
      ∀ e2 ∈ neighboursL w h v, S e2.eto) :
    ∀ (m : Nat) (u : Node), validNode w h u = true → S u →
      ∀ v : Node, validNode w h v = true →
        (v.1 - u.1) + (u.1 - v.1) + (v.2 - u.2) + (u.2 - v.2) ≤ m → S v := by
  intro m
  induction m with
  | zero =>
    intro u hu hS v hv hm
    have : v = u := Prod.ext (by omega) (by omega)
    subst this
    exact hS
  | succ k ihk =>
    intro u hu hS v hv hm
    by_cases hx1 : u.1 < v.1
    · have hvalid : validNode w h (u.1 + 1, u.2) = true := by
        have h1 := valid_fst hv
        have h2 := valid_snd hu
        simp [validNode] at *
        omega
      have hme : mazeEdge w h u .east = some ⟨u, (u.1 + 1, u.2), .east⟩ :=
        mazeEdge_east.mpr ⟨hvalid, rfl⟩
      have hS2 : S (u.1 + 1, u.2) :=
        hclosed u hu hS _ (neighboursL_mem.mpr ⟨.east, hme⟩)
      exact ihk (u.1 + 1, u.2) hvalid hS2 v hv (by omega)
    · by_cases hx2 : v.1 < u.1
      · have hvalid : validNode w h (u.1 - 1, u.2) = true := by
          have h1 := valid_fst hu
          have h2 := valid_snd hu
          simp [validNode] at *
          omega
        have hme : mazeEdge w h u .west = some ⟨u, (u.1 - 1, u.2), .west⟩ :=
          mazeEdge_west.mpr ⟨by omega, hvalid, rfl⟩
        have hS2 : S (u.1 - 1, u.2) :=
          hclosed u hu hS _ (neighboursL_mem.mpr ⟨.west, hme⟩)
        exact ihk (u.1 - 1, u.2) hvalid hS2 v hv (by omega)
      · by_cases hy1 : u.2 < v.2
        · have hvalid : validNode w h (u.1, u.2 + 1) = true := by
            have h1 := valid_fst hu
            have h2 := valid_snd hv
            simp [validNode] at *
            omega
          have hme : mazeEdge w h u .south = some ⟨u, (u.1, u.2 + 1), .south⟩ :=
            mazeEdge_south.mpr ⟨hvalid, rfl⟩
          have hS2 : S (u.1, u.2 + 1) :=
            hclosed u hu hS _ (neighboursL_mem.mpr ⟨.south, hme⟩)
          exact ihk (u.1, u.2 + 1) hvalid hS2 v hv (by omega)
        · by_cases hy2 : v.2 < u.2
          · have hvalid : validNode w h (u.1, u.2 - 1) = true := by
              have h1 := valid_fst hu
              have h2 := valid_snd hu
              simp [validNode] at *
              omega
            have hme : mazeEdge w h u .north = some ⟨u, (u.1, u.2 - 1), .north⟩ :=
              mazeEdge_north.mpr ⟨by omega, hvalid, rfl⟩
            have hS2 : S (u.1, u.2 - 1) :=
              hclosed u hu hS _ (neighboursL_mem.mpr ⟨.north, hme⟩)
            exact ihk (u.1, u.2 - 1) hvalid hS2 v hv (by omega)
          · have : v = u := Prod.ext (by omega) (by omega)
            subst this
            exact hS

theorem flood_layering_witness :
    validNode 2 2 solve22.start = true ∧
    connFromB 2 2 solve22.gs.openb solve22.start = true ∧
    (((floodRunL 2 2 4 (floodInit solve22)).2.2).map
      (distB 2 2 solve22.gs.openb solve22.start)).Sorted (· ≤ ·) :=
  ⟨by decide, by decide,
    (flood_layering 2 2 solve22 (by decide) rfl (by decide) 4
      (floodRunL 2 2 4 (floodInit solve22)).1
      (floodRunL 2 2 4 (floodInit solve22)).2.1
      (floodRunL 2 2 4 (floodInit solve22)).2.2 rfl).1⟩

/-- The slot of a produced edge as a symmetric function of its endpoint
pair: the owner is the coordinate-wise minimum, the orientation flag marks
horizontal edges. -/
theorem slot_formula {w h : Nat} {n : Node} {d : Direction} {e : Edge}
    (hme : mazeEdge w h n d = some e) :
    normaliseE w e =
      2 * nodeSlot w (min e.efrom.1 e.eto.1, min e.efrom.2 e.eto.2) +
        (if e.efrom.2 = e.eto.2 then 1 else 0) := by
  cases d
  case north =>
    obtain ⟨h0, -, rfl⟩ := mazeEdge_north.mp hme
    show 2 * nodeSlot w (n.1, n.2 - 1) + 0 =
      2 * nodeSlot w (min n.1 n.1, min n.2 (n.2 - 1)) + _
    rw [Nat.min_self, show min n.2 (n.2 - 1) = n.2 - 1 from by omega,
      if_neg (show ¬ n.2 = n.2 - 1 from by omega)]
  case south =>
    obtain ⟨-, rfl⟩ := mazeEdge_south.mp hme
    show 2 * nodeSlot w (n.1, n.2) + 0 =
      2 * nodeSlot w (min n.1 n.1, min n.2 (n.2 + 1)) + _
    rw [Nat.min_self, show min n.2 (n.2 + 1) = n.2 from by omega,
      if_neg (show ¬ n.2 = n.2 + 1 from by omega)]
  case east =>
    obtain ⟨-, rfl⟩ := mazeEdge_east.mp hme
    show 2 * nodeSlot w (n.1, n.2) + 1 =
      2 * nodeSlot w (min n.1 (n.1 + 1), min n.2 n.2) + _
    rw [Nat.min_self, show min n.1 (n.1 + 1) = n.1 from by omega, if_pos rfl]
  case west =>
    obtain ⟨h0, -, rfl⟩ := mazeEdge_west.mp hme
    show 2 * nodeSlot w (n.1 - 1, n.2) + 1 =
      2 * nodeSlot w (min n.1 (n.1 - 1), min n.2 n.2) + _
    rw [Nat.min_self, show min n.1 (n.1 - 1) = n.1 - 1 from by omega, if_pos rfl]

/-- Two produced edges joining the same unordered node pair receive the
same slot. -/
theorem pair_slot_eq {w h : Nat} {n1 n2 : Node} {d1 d2 : Direction} {e1 e2 : Edge}
    (h1 : mazeEdge w h n1 d1 = some e1) (h2 : mazeEdge w h n2 d2 = some e2)
    (hpair : (e1.efrom = e2.efrom ∧ e1.eto = e2.eto) ∨
      (e1.efrom = e2.eto ∧ e1.eto = e2.efrom)) :
    normaliseE w e1 = normaliseE w e2 := by
  rw [slot_formula h1, slot_formula h2]
  rcases hpair with ⟨ha, hb⟩ | ⟨ha, hb⟩
  · rw [ha, hb]
  · rw [ha, hb]
    rw [Nat.min_comm e2.eto.1, Nat.min_comm e2.eto.2]
    by_cases hc : e2.efrom.2 = e2.eto.2
    · rw [if_pos hc.symm, if_pos hc]
    · rw [if_neg (fun hcon => hc hcon.symm), if_neg hc]

/-- Membership constructors for `edges_iter`. -/
theorem edgesList_mem_intro {w h : Nat} {a : Node} {d : Direction} {e : Edge}
    (hav : validNode w h a = true) (hd : d = Direction.east ∨ d = Direction.south)
    (hme : mazeEdge w h a d = some e) : e ∈ edgesList w h := by
  unfold edgesList
  rw [List.mem_flatMap]
  refine ⟨a, nodesList_mem.mpr hav, ?_⟩
  rw [List.mem_append]
  rcases hd with rfl | rfl
  · left
    simp [hme]
  · right
    simp [hme]

/-- The shape of an `edges_iter` element: its `from` field is the owner
node and it is that owner's East or South edge. -/
theorem edgesList_shape {w h : Nat} {e : Edge} (he : e ∈ edgesList w h) :
    validNode w h e.efrom = true ∧
    (mazeEdge w h e.efrom .east = some e ∨ mazeEdge w h e.efrom .south = some e) := by
  unfold edgesList at he
  rw [List.mem_flatMap] at he
  obtain ⟨n, hn, he'⟩ := he
  have hnv := nodesList_mem.mp hn
  rw [List.mem_append] at he'
  rcases he' with h1 | h1
  · cases hme : mazeEdge w h n .east with
    | none => rw [hme] at h1; simp at h1
    | some e' =>
      rw [hme] at h1
      simp at h1
      subst h1
      have hfrom : e.efrom = n := (mazeEdge_fields hme).1
      rw [hfrom]
      exact ⟨hnv, Or.inl hme⟩
  · cases hme : mazeEdge w h n .south with
    | none => rw [hme] at h1; simp at h1
    | some e' =>
      rw [hme] at h1
      simp at h1
      subst h1
      have hfrom : e.efrom = n := (mazeEdge_fields hme).1
      rw [hfrom]
      exact ⟨hnv, Or.inr hme⟩

/-- Canonical representative: every produced edge from an in-bounds node
has an `edges_iter` element with the same slot and endpoint pair. -/
theorem edgesList_canon {w h : Nat} {n : Node} {d : Direction} {e : Edge}
    (hme : mazeEdge w h n d = some e) (hn : validNode w h n = true) :
    ∃ e2 ∈ edgesList w h, normaliseE w e2 = normaliseE w e ∧
      ((e2.efrom = e.efrom ∧ e2.eto = e.eto) ∨
       (e2.efrom = e.eto ∧ e2.eto = e.efrom)) := by
  cases d
  case north =>
    obtain ⟨h0, hv, rfl⟩ := mazeEdge_north.mp hme
    have hsym := mazeEdge_symm hme hn
    refine ⟨Edge.reverseE ⟨n, (n.1, n.2 - 1), .north⟩, ?_, ?_, Or.inr ⟨rfl, rfl⟩⟩
    · exact edgesList_mem_intro hv (Or.inr rfl) hsym
    · exact normaliseE_reverse hme
  case south =>
    obtain ⟨hv, rfl⟩ := mazeEdge_south.mp hme
    exact ⟨_, edgesList_mem_intro hn (Or.inr rfl) hme, rfl, Or.inl ⟨rfl, rfl⟩⟩
  case east =>
    obtain ⟨hv, rfl⟩ := mazeEdge_east.mp hme
    exact ⟨_, edgesList_mem_intro hn (Or.inl rfl) hme, rfl, Or.inl ⟨rfl, rfl⟩⟩
  case west =>
    obtain ⟨h0, hv, rfl⟩ := mazeEdge_west.mp hme
    have hsym := mazeEdge_symm hme hn
    refine ⟨Edge.reverseE ⟨n, (n.1 - 1, n.2), .west⟩, ?_, ?_, Or.inr ⟨rfl, rfl⟩⟩
    · exact edgesList_mem_intro hv (Or.inl rfl) hsym
    · exact normaliseE_reverse hme

/-- Distinct `edges_iter` elements join distinct node pairs. -/
theorem edgesList_pair_inj {w h : Nat} {e1 e2 : Edge}
    (h1 : e1 ∈ edgesList w h) (h2 : e2 ∈ edgesList w h)
    (hpair : (e1.efrom = e2.efrom ∧ e1.eto = e2.eto) ∨
      (e1.efrom = e2.eto ∧ e1.eto = e2.efrom)) : e1 = e2 := by
  obtain ⟨hv1, hs1⟩ := edgesList_shape h1
  obtain ⟨hv2, hs2⟩ := edgesList_shape h2
  rcases hs1 with hm1 | hm1 <;> rcases hs2 with hm2 | hm2 <;>
    [obtain ⟨hva, he1⟩ := mazeEdge_east.mp hm1;
     obtain ⟨hva, he1⟩ := mazeEdge_east.mp hm1;
     obtain ⟨hva, he1⟩ := mazeEdge_south.mp hm1;
     obtain ⟨hva, he1⟩ := mazeEdge_south.mp hm1] <;>
    [obtain ⟨hvb, he2⟩ := mazeEdge_east.mp hm2;
     obtain ⟨hvb, he2⟩ := mazeEdge_south.mp hm2;
     obtain ⟨hvb, he2⟩ := mazeEdge_east.mp hm2;
     obtain ⟨hvb, he2⟩ := mazeEdge_south.mp hm2] <;>
    rw [he1, he2] <;> rw [he1, he2] at hpair <;>
    (simp only [Prod.ext_iff] at hpair) <;>
    rcases hpair with ⟨⟨a1, a2⟩, b1, b2⟩ | ⟨⟨a1, a2⟩, b1, b2⟩ <;>
    (first
      | rfl
      | (exfalso; omega)
      | (have hfst : e1.efrom.1 = e2.efrom.1 := by omega
         have hsnd : e1.efrom.2 = e2.efrom.2 := by omega
         congr 1 <;> [exact Prod.ext hfst hsnd; exact Prod.ext (by omega) (by omega)]))

/-- Pairwise-disjoint flat maps of duplicate-free blocks are
duplicate-free. -/
theorem nodup_flatMap_disjoint {α β : Type} [DecidableEq β] {l : List α}
    {g : α → List β} (hl : l.Nodup) (hg : ∀ a ∈ l, (g a).Nodup)
    (hdisj : ∀ a ∈ l, ∀ b ∈ l, a ≠ b → ∀ x ∈ g a, x ∉ g b) :
    (l.flatMap g).Nodup := by
  induction l with
  | nil => simp
  | cons a t ih =>
    rw [List.flatMap_cons, List.nodup_append]
    obtain ⟨hna, hnt⟩ := List.nodup_cons.mp hl
    refine ⟨hg a (by simp), ?_, ?_⟩
    · exact ih hnt (fun x hx => hg x (by simp [hx]))
        (fun x hx y hy hxy => hdisj x (by simp [hx]) y (by simp [hy]) hxy)
    · intro x hx hx2
      rw [List.mem_flatMap] at hx2
      obtain ⟨b, hb, hxb⟩ := hx2
      have hab : a ≠ b := fun hc => hna (hc ▸ hb)
      exact hdisj a (by simp) b (by simp [hb]) hab x hx hxb

theorem edgesList_nodup (w h : Nat) : (edgesList w h).Nodup := by
  unfold edgesList
  refine nodup_flatMap_disjoint (nodesList_nodup w h) ?_ ?_
  · intro a ha
    cases he : mazeEdge w h a .east with
    | none =>
      cases hs : mazeEdge w h a .south with
      | none => simp
      | some e2 => simp
    | some e1 =>
      cases hs : mazeEdge w h a .south with
      | none => simp
      | some e2 =>
        show (e1 :: [e2]).Nodup
        refine List.nodup_cons.mpr ⟨?_, List.nodup_singleton _⟩
        intro hc
        rw [List.mem_singleton] at hc
        subst hc
        have d1 : e1.edir = Direction.east := (mazeEdge_fields he).2.1
        have d2 : e1.edir = Direction.south := (mazeEdge_fields hs).2.1
        rw [d1] at d2
        cases d2
  · intro a ha b hb hab x hx hxb
    have hxa : x.efrom = a := by
      rw [List.mem_append] at hx
      rcases hx with hx2 | hx2
      · cases he : mazeEdge w h a .east with
        | none => rw [he] at hx2; simp at hx2
        | some e1 =>
          rw [he] at hx2
          simp at hx2
          subst hx2
          exact (mazeEdge_fields he).1
      · cases hs : mazeEdge w h a .south with
        | none => rw [hs] at hx2; simp at hx2
        | some e1 =>
          rw [hs] at hx2
          simp at hx2
          subst hx2
          exact (mazeEdge_fields hs).1
    have hxb2 : x.efrom = b := by
      rw [List.mem_append] at hxb
      rcases hxb with hx2 | hx2
      · cases he : mazeEdge w h b .east with
        | none => rw [he] at hx2; simp at hx2
        | some e1 =>
          rw [he] at hx2
          simp at hx2
          subst hx2
          exact (mazeEdge_fields he).1
      · cases hs : mazeEdge w h b .south with
        | none => rw [hs] at hx2; simp at hx2
        | some e1 =>
          rw [hs] at hx2
          simp at hx2
          subst hx2
          exact (mazeEdge_fields hs).1
    exact hab (by rw [← hxa, hxb2])

theorem list_argmax (dpt : Node → Nat) :
    ∀ (l : List Node), l ≠ [] →
      ∃ i, ∃ hi : i < l.length, ∀ j, ∀ hj : j < l.length,
        dpt (l.get ⟨j, hj⟩) ≤ dpt (l.get ⟨i, hi⟩) := by
  intro l
  induction l with
  | nil => intro hc; exact absurd rfl hc
  | cons x t ih =>
    intro _
    cases t with
    | nil =>
      refine ⟨0, by simp, ?_⟩
      intro j hj
      cases j with
      | zero => exact le_refl _
      | succ j2 => simp at hj
    | cons y t2 =>
      obtain ⟨i, hi, hmax⟩ := ih (by simp)
      by_cases hcmp : dpt x ≤ dpt ((y :: t2).get ⟨i, hi⟩)
      · refine ⟨i + 1, by simpa using Nat.succ_lt_succ hi, ?_⟩
        intro j hj
        cases j with
        | zero =>
          show dpt x ≤ dpt ((y :: t2).get ⟨i, hi⟩)
          exact hcmp
        | succ j2 =>
          have hj2 : j2 < (y :: t2).length := by simpa using hj
          show dpt ((y :: t2).get ⟨j2, hj2⟩) ≤ dpt ((y :: t2).get ⟨i, hi⟩)
          exact hmax j2 hj2
      · refine ⟨0, by simp, ?_⟩
        intro j hj
        cases j with
        | zero => exact le_refl _
        | succ j2 =>
          have hj2 : j2 < (y :: t2).length := by simpa using hj
          have h1 := hmax j2 hj2
          show dpt ((y :: t2).get ⟨j2, hj2⟩) ≤ dpt x
          omega

/-- Parent links exclude each other: the depth certificate forbids mutual
parenthood. -/
theorem forest_excl {w h : Nat} {f : Nat → Bool} {V : Finset Node}
    {par : Node → Option Node} {dpt : Node → Nat}
    (hF : ForestW w h f V par dpt) {u v : Node}
    (h1 : par u = some v) (h2 : par v = some u) : False := by
  obtain ⟨-, hF2, -⟩ := hF
  have := (hF2 u v h1).2.2.2
  have := (hF2 v u h2).2.2.2
  omega

/-- A forest witness rules out cycles in the open-edge graph: the deepest
node of a cycle would need two distinct parents. -/
theorem forest_acyclic {w h : Nat} {f : Nat → Bool} {V : Finset Node}
    {par : Node → Option Node} {dpt : Node → Nat}
    (hF : ForestW w h f V par dpt) : AcyclicG w h f := by
  intro l hcyc
  obtain ⟨hlen, hnodup, hchain, hclose⟩ := hcyc
  obtain ⟨-, hF2, hF3⟩ := hF
  have hne : l ≠ [] := by
    intro hc
    rw [hc] at hlen
    simp at hlen
  obtain ⟨i, hi, hmax⟩ := list_argmax dpt l hne
  rw [List.chain'_iff_get] at hchain
  -- the closing adjacency in get form
  have hlast : l.getLastD (0, 0) = l.get ⟨l.length - 1, by omega⟩ := by
    cases l with
    | nil => exact absurd rfl hne
    | cons c t =>
      rw [List.getLastD_eq_getLast?, List.getLast?_eq_getLast (c :: t) (by simp),
        Option.getD_some, List.getLast_eq_get]
  have hhead : l.headD (0, 0) = l.get ⟨0, by omega⟩ := by
    cases l with
    | nil => exact absurd rfl hne
    | cons c t => rfl
  rw [hlast, hhead] at hclose
  -- pick the cyclic neighbours of the deepest node
  have hkey : ∀ ia ib : Nat, ∀ hia : ia < l.length, ∀ hib : ib < l.length,
      ia ≠ ib →
      openAdjB w h f (l.get ⟨ia, hia⟩) (l.get ⟨i, hi⟩) = true →
      openAdjB w h f (l.get ⟨i, hi⟩) (l.get ⟨ib, hib⟩) = true → False := by
    intro ia ib hia hib hne2 hadj1 hadj2
    have hpa : par (l.get ⟨i, hi⟩) = some (l.get ⟨ia, hia⟩) := by
      rcases hF3 _ _ hadj1 with hc | hc
      · have := (hF2 _ _ hc).2.2.2
        have := hmax ia hia
        omega
      · exact hc
    have hpb : par (l.get ⟨i, hi⟩) = some (l.get ⟨ib, hib⟩) := by
      rcases hF3 _ _ hadj2 with hc | hc
      · exact hc
      · have := (hF2 _ _ hc).2.2.2
        have := hmax ib hib
        omega
    rw [hpa] at hpb
    have heq := Option.some.inj hpb
    have := (List.Nodup.get_inj_iff hnodup).mp heq
    rw [Fin.mk.injEq] at this
    exact hne2 this
  by_cases hi0 : i = 0
  · subst hi0
    have hadj1 : openAdjB w h f (l.get ⟨l.length - 1, by omega⟩)
        (l.get ⟨0, hi⟩) = true := hclose
    have hadj2 : openAdjB w h f (l.get ⟨0, hi⟩)
        (l.get ⟨1, by omega⟩) = true := by
      have := hchain 0 (by omega)
      exact this
    exact hkey (l.length - 1) 1 (by omega) (by omega) (by omega) hadj1 hadj2
  · by_cases hiL : i = l.length - 1
    · subst hiL
      have hadj1 : openAdjB w h f (l.get ⟨l.length - 1 - 1, by omega⟩)
          (l.get ⟨l.length - 1, hi⟩) = true := by
        have := hchain (l.length - 1 - 1) (by omega)
        have hid : l.length - 1 - 1 + 1 = l.length - 1 := by omega
        rw [show (⟨l.length - 1 - 1 + 1, by omega⟩ : Fin l.length) =
            ⟨l.length - 1, hi⟩ from Fin.ext hid] at this
        exact this
      have hadj2 : openAdjB w h f (l.get ⟨l.length - 1, hi⟩)
          (l.get ⟨0, by omega⟩) = true := hclose
      exact hkey (l.length - 1 - 1) 0 (by omega) (by omega) (by omega) hadj1 hadj2
    · have hadj1 : openAdjB w h f (l.get ⟨i - 1, by omega⟩)
          (l.get ⟨i, hi⟩) = true := by
        have := hchain (i - 1) (by omega)
        have hid : i - 1 + 1 = i := by omega
        rw [show (⟨i - 1 + 1, by omega⟩ : Fin l.length) = ⟨i, hi⟩ from
          Fin.ext hid] at this
        exact this
      have hadj2 : openAdjB w h f (l.get ⟨i, hi⟩)
          (l.get ⟨i + 1, by omega⟩) = true := hchain i (by omega)
      exact hkey (i - 1) (i + 1) (by omega) (by omega) (by omega) hadj1 hadj2

/-- Spanning connectivity from a single-root ghost forest. -/
theorem ghost_connected {w h : Nat} {f : Nat → Bool} {par : Node → Option Node}
    {dpt : Node → Nat} {r : Node}
    (hg : GhostForest w h f (nodesList w h).toFinset par dpt {r}) :
    ∀ u v : Node, validNode w h u = true → validNode w h v = true →
      ReachO w h f u v := by
  obtain ⟨hF, hRV, hroot, hreach⟩ := hg
  have hrv : validNode w h r = true :=
    hF.1 r (hRV (Finset.mem_singleton_self r))
  intro u v hu hv
  have hu2 : u ∈ (nodesList w h).toFinset :=
    List.mem_toFinset.mpr (nodesList_mem.mpr hu)
  have hv2 : v ∈ (nodesList w h).toFinset :=
    List.mem_toFinset.mpr (nodesList_mem.mpr hv)
  obtain ⟨r1, hr1, hru⟩ := hreach u hu2
  obtain ⟨r2, hr2, hrv2⟩ := hreach v hv2
  rw [Finset.mem_singleton] at hr1 hr2
  rw [hr1] at hru
  rw [hr2] at hrv2
  have hF2adj : ∀ n p, par n = some p → openAdjB w h f p n = true :=
    fun n p hnp => (hF.2.1 n p hnp).2.2.1
  obtain ⟨ku, hku⟩ := parReach_walk hF2adj hru
  obtain ⟨kv, hkv⟩ := parReach_walk hF2adj hrv2
  have hsym := walkB_symm kv r hrv hkv
  exact ⟨ku + kv, walkB_append kv v hsym ku u hku⟩

/-- The edge count of a single-root ghost forest over all nodes: each open
edge is the parent link of exactly one non-root node. -/
theorem ghost_count {w h : Nat} {f : Nat → Bool} {par : Node → Option Node}
    {dpt : Node → Nat} {r : Node}
    (hg : GhostForest w h f (nodesList w h).toFinset par dpt {r}) :
    openCount w h f = w * h - 1 := by
  classical
  obtain ⟨hF, hRV, hroot, hreach⟩ := hg
  have hrmem : r ∈ (nodesList w h).toFinset := hRV (Finset.mem_singleton_self r)
  have hCeq : (nodesList w h).toFinset.filter (fun n => (par n).isSome) =
      (nodesList w h).toFinset.erase r := by
    ext x
    rw [Finset.mem_filter, Finset.mem_erase]
    constructor
    · rintro ⟨hx, hsome⟩
      refine ⟨?_, hx⟩
      intro hc
      subst hc
      rw [(hroot x hx).mpr (Finset.mem_singleton_self x)] at hsome
      cases hsome
    · rintro ⟨hne, hx⟩
      refine ⟨hx, ?_⟩
      rw [Option.isSome_iff_ne_none]
      intro hc
      exact hne (Finset.mem_singleton.mp ((hroot x hx).mp hc))
  have hCcard : ((nodesList w h).toFinset.filter
      (fun n => (par n).isSome)).card = w * h - 1 := by
    rw [hCeq, Finset.card_erase_of_mem hrmem,
      List.toFinset_card_of_nodup (nodesList_nodup w h), nodesList_length]
  have hLnodup : ((edgesList w h).filter
      (fun e => f (normaliseE w e))).Nodup :=
    (edgesList_nodup w h).filter _
  have hmemL : ∀ e : Edge, e ∈ ((edgesList w h).filter
      (fun e => f (normaliseE w e))).toFinset ↔
      e ∈ edgesList w h ∧ f (normaliseE w e) = true := by
    intro e
    rw [List.mem_toFinset, List.mem_filter]
  -- each listed open edge is openly adjacent from its owner
  have hadjL : ∀ e : Edge, e ∈ edgesList w h → f (normaliseE w e) = true →
      openAdjB w h f e.efrom e.eto = true := by
    intro e he hf
    obtain ⟨hv, hs⟩ := edgesList_shape he
    unfold openAdjB
    rw [List.any_eq_true]
    have hmem : e ∈ neighboursL w h e.efrom := by
      rcases hs with hs | hs
      · exact neighboursL_mem.mpr ⟨.east, hs⟩
      · exact neighboursL_mem.mpr ⟨.south, hs⟩
    exact ⟨e, hmem, by rw [Bool.and_eq_true, decide_eq_true_eq]; exact ⟨rfl, hf⟩⟩
  -- the child map
  have hchild : ∀ e : Edge, e ∈ edgesList w h → f (normaliseE w e) = true →
      ∃ c p : Node, par c = some p ∧
        (if par e.efrom = some e.eto then e.efrom else e.eto) = c ∧
        ((e.efrom = c ∧ e.eto = p) ∨ (e.efrom = p ∧ e.eto = c)) := by
    intro e he hf
    rcases hF.2.2 _ _ (hadjL e he hf) with hc | hc
    · exact ⟨e.efrom, e.eto, hc, by rw [if_pos hc], Or.inl ⟨rfl, rfl⟩⟩
    · have hnot : ¬ par e.efrom = some e.eto := by
        intro hcon
        exact forest_excl hF hcon hc
      exact ⟨e.eto, e.efrom, hc, by rw [if_neg hnot], Or.inr ⟨rfl, rfl⟩⟩
  have hbij : ((edgesList w h).filter (fun e => f (normaliseE w e))).toFinset.card
      = ((nodesList w h).toFinset.filter (fun n => (par n).isSome)).card := by
    refine Finset.card_bij
      (fun e _ => if par e.efrom = some e.eto then e.efrom else e.eto) ?_ ?_ ?_
    · intro e he
      dsimp only
      rw [hmemL] at he
      obtain ⟨c, p, hcp, hphi, hpair⟩ := hchild e he.1 he.2
      rw [hphi, Finset.mem_filter]
      refine ⟨?_, by rw [hcp]; rfl⟩
      have := hF.2.1 c p hcp
      exact this.1
    · intro e1 h1 e2 h2 heq
      dsimp only at heq
      rw [hmemL] at h1 h2
      obtain ⟨c1, p1, hcp1, hphi1, hpair1⟩ := hchild e1 h1.1 h1.2
      obtain ⟨c2, p2, hcp2, hphi2, hpair2⟩ := hchild e2 h2.1 h2.2
      rw [hphi1, hphi2] at heq
      subst heq
      rw [hcp1] at hcp2
      obtain rfl := Option.some.inj hcp2
      refine edgesList_pair_inj h1.1 h2.1 ?_
      rcases hpair1 with ⟨ha1, hb1⟩ | ⟨ha1, hb1⟩ <;>
        rcases hpair2 with ⟨ha2, hb2⟩ | ⟨ha2, hb2⟩
      · exact Or.inl ⟨by rw [ha1, ha2], by rw [hb1, hb2]⟩
      · exact Or.inr ⟨by rw [ha1, hb2], by rw [hb1, ha2]⟩
      · exact Or.inr ⟨by rw [ha1, hb2], by rw [hb1, ha2]⟩
      · exact Or.inl ⟨by rw [ha1, ha2], by rw [hb1, hb2]⟩
    · intro c hc
      rw [Finset.mem_filter] at hc
      obtain ⟨hcV, hcsome⟩ := hc
      obtain ⟨p, hp⟩ := Option.isSome_iff_exists.mp hcsome
      have hF2c := hF.2.1 c p hp
      obtain ⟨hcV2, hpV, hadj, hdpt⟩ := hF2c
      -- the adjacency yields a witness edge from p
      unfold openAdjB at hadj
      rw [List.any_eq_true] at hadj
      obtain ⟨e0, he0, hcond⟩ := hadj
      rw [Bool.and_eq_true, decide_eq_true_eq] at hcond
      obtain ⟨d0, hme0⟩ := neighboursL_mem.mp he0
      have hpv : validNode w h p = true := hF.1 p hpV
      obtain ⟨e2, he2, hslot, hpair⟩ := edgesList_canon hme0 hpv
      have hopen2 : f (normaliseE w e2) = true := by rw [hslot]; exact hcond.2
      refine ⟨e2, ?_, ?_⟩
      · rw [hmemL]
        exact ⟨he2, hopen2⟩
      · dsimp only
        have hfrom0 : e0.efrom = p := (mazeEdge_fields hme0).1
        have hcases : (e2.efrom = p ∧ e2.eto = c) ∨ (e2.efrom = c ∧ e2.eto = p) := by
          rcases hpair with ⟨ha, hb⟩ | ⟨ha, hb⟩
          · exact Or.inl ⟨by rw [ha, hfrom0], by rw [hb, hcond.1]⟩
          · exact Or.inr ⟨by rw [ha, hcond.1], by rw [hb, hfrom0]⟩
        rcases hcases with ⟨ha, hb⟩ | ⟨ha, hb⟩
        · have hnot : ¬ par e2.efrom = some e2.eto := by
            rw [ha, hb]
            intro hcon
            exact forest_excl hF hcon hp
          rw [if_neg hnot]
          exact hb
        · rw [if_pos (by rw [ha, hb]; exact hp)]
          exact ha
  unfold openCount
  rw [← List.toFinset_card_of_nodup hLnodup, hbij, hCcard]

/-- A single-root ghost forest over all nodes with a well-formed open
buffer establishes the full spanning-tree property. -/
theorem ghost_spanning {w h : Nat} {f : Nat → Bool} {par : Node → Option Node}
    {dpt : Node → Nat} {r : Node}
    (hg : GhostForest w h f (nodesList w h).toFinset par dpt {r}) :
    SpanningTreeG w h f :=
  ⟨ghost_count hg, ghost_connected hg, forest_acyclic hg.1⟩

theorem openAdj_mono {w h : Nat} {f f2 : Nat → Bool}
    (hmono : ∀ i, f i = true → f2 i = true) {u v : Node}
    (hadj : openAdjB w h f u v = true) : openAdjB w h f2 u v = true := by
  unfold openAdjB at *
  rw [List.any_eq_true] at *
  obtain ⟨e, he, hc⟩ := hadj
  rw [Bool.and_eq_true, decide_eq_true_eq] at hc
  refine ⟨e, he, ?_⟩
  rw [Bool.and_eq_true, decide_eq_true_eq]
  exact ⟨hc.1, hmono _ hc.2⟩

theorem updB_mono {f : Nat → Bool} {i0 : Nat} :
    ∀ i, f i = true → updB f i0 true i = true := by
  intro i hi
  unfold updB
  split <;> [rfl; exact hi]

/-- Adjacency after opening one produced edge: either an old adjacency or
the opened edge's endpoint pair. -/
theorem setOpen_adj_cases {w h : Nat} {f : Nat → Bool} {n0 : Node}
    {d0 : Direction} {e : Edge} (hme : mazeEdge w h n0 d0 = some e) {u v : Node}
    (hadj : openAdjB w h (updB f (normaliseE w e) true) u v = true) :
    openAdjB w h f u v = true ∨
      ((u = e.efrom ∧ v = e.eto) ∨ (u = e.eto ∧ v = e.efrom)) := by
  unfold openAdjB at hadj
  rw [List.any_eq_true] at hadj
  obtain ⟨e2, he2, hc⟩ := hadj
  rw [Bool.and_eq_true, decide_eq_true_eq] at hc
  obtain ⟨d2, hme2⟩ := neighboursL_mem.mp he2
  by_cases hslot : normaliseE w e2 = normaliseE w e
  · right
    have hpair := normaliseE_phys_inj hme2 hme hslot
    have hfrom : e2.efrom = u := (mazeEdge_fields hme2).1
    rcases hpair with ⟨ha, hb⟩ | ⟨ha, hb⟩
    · exact Or.inl ⟨by rw [← ha, hfrom], by rw [← hb, hc.1]⟩
    · exact Or.inr ⟨by rw [← ha, hfrom], by rw [← hb, hc.1]⟩
  · left
    have hold : f (normaliseE w e2) = true := by
      have := hc.2
      unfold updB at this
      rw [if_neg hslot] at this
      exact this
    unfold openAdjB
    rw [List.any_eq_true]
    refine ⟨e2, he2, ?_⟩
    rw [Bool.and_eq_true, decide_eq_true_eq]
    exact ⟨hc.1, hold⟩

/-- The opened edge is adjacent in the updated buffer, in both
directions. -/
theorem setOpen_adj_self {w h : Nat} {f : Nat → Bool} {n0 : Node}
    {d0 : Direction} {e : Edge} (hme : mazeEdge w h n0 d0 = some e)
    (hn0 : validNode w h n0 = true) :
    openAdjB w h (updB f (normaliseE w e) true) e.efrom e.eto = true ∧
    openAdjB w h (updB f (normaliseE w e) true) e.eto e.efrom = true := by
  have hfrom : e.efrom = n0 := (mazeEdge_fields hme).1
  have hmem : e ∈ neighboursL w h e.efrom := by
    rw [hfrom]
    exact neighboursL_mem.mpr ⟨d0, hme⟩
  have h1 : openAdjB w h (updB f (normaliseE w e) true) e.efrom e.eto = true := by
    unfold openAdjB
    rw [List.any_eq_true]
    refine ⟨e, hmem, ?_⟩
    rw [Bool.and_eq_true, decide_eq_true_eq]
    refine ⟨rfl, ?_⟩
    unfold updB
    rw [if_pos rfl]
  exact ⟨h1, openAdj_symmB h1 (hfrom ▸ hn0)⟩

theorem openWF_setOpen {w h : Nat} {f : Nat → Bool} (hwf : OpenWF w h f)
    {n0 : Node} {d0 : Direction} {e : Edge} (hme : mazeEdge w h n0 d0 = some e)
    (hn0 : validNode w h n0 = true) :
    OpenWF w h (updB f (normaliseE w e) true) := by
  intro i hi
  unfold updB at hi
  by_cases hie : i = normaliseE w e
  · subst hie
    obtain ⟨e2, he2, hs2, -⟩ := edgesList_canon hme hn0
    exact ⟨e2, he2, hs2⟩
  · rw [if_neg hie] at hi
    exact hwf i hi

/-- Attaching a fresh leaf to a ghost forest along a newly opened edge. -/
theorem ghost_attach {w h : Nat} {f : Nat → Bool} {V : Finset Node}
    {par : Node → Option Node} {dpt : Node → Nat} {R : Finset Node}
    (hg : GhostForest w h f V par dpt R)
    {n0 : Node} {d0 : Direction} {e : Edge}
    (hme : mazeEdge w h n0 d0 = some e) (hn0 : validNode w h n0 = true)
    {y z : Node}
    (hyz : (y = e.efrom ∧ z = e.eto) ∨ (y = e.eto ∧ z = e.efrom))
    (hyV : y ∈ V) (hzV : z ∉ V) (hzval : validNode w h z = true) :
    GhostForest w h (updB f (normaliseE w e) true) (insert z V)
      (fun x => if x = z then some y else par x)
      (fun x => if x = z then dpt y + 1 else dpt x) R := by
  obtain ⟨⟨hF1, hF2, hF3⟩, hRV, hroot, hreach⟩ := hg
  have hyz2 : y ≠ z := fun hc => hzV (hc ▸ hyV)
  have hlinks : ∀ a b, par a = some b →
      (fun x => if x = z then some y else par x) a = some b := by
    intro a b hab
    have haV : a ∈ V := (hF2 a b hab).1
    have haz : a ≠ z := fun hc => hzV (hc ▸ haV)
    simp only [if_neg haz]
    exact hab
  have hadjself := @setOpen_adj_self w h f n0 d0 e hme hn0
  have hadjyz : openAdjB w h (updB f (normaliseE w e) true) y z = true := by
    rcases hyz with ⟨rfl, rfl⟩ | ⟨rfl, rfl⟩
    · exact hadjself.1
    · exact hadjself.2
  refine ⟨⟨?_, ?_, ?_⟩, ?_, ?_, ?_⟩
  · intro n hn
    rcases Finset.mem_insert.mp hn with rfl | hn
    · exact hzval
    · exact hF1 n hn
  · intro n p hnp
    dsimp only at hnp ⊢
    by_cases hnz : n = z
    · subst hnz
      rw [if_pos rfl] at hnp
      obtain rfl := Option.some.inj hnp
      refine ⟨Finset.mem_insert_self _ _, Finset.mem_insert_of_mem hyV,
        hadjyz, ?_⟩
      rw [if_neg hyz2, if_pos rfl]
      omega
    · rw [if_neg hnz] at hnp
      obtain ⟨hnV, hpV, hadj, hlt⟩ := hF2 n p hnp
      have hpz : p ≠ z := fun hc => hzV (hc ▸ hpV)
      refine ⟨Finset.mem_insert_of_mem hnV, Finset.mem_insert_of_mem hpV,
        openAdj_mono updB_mono hadj, ?_⟩
      rw [if_neg hnz, if_neg hpz]
      exact hlt
  · intro u v hadj
    dsimp only
    rcases setOpen_adj_cases hme hadj with hold | hnew
    · rcases hF3 u v hold with hc | hc
      · have huV : u ∈ V := (hF2 u v hc).1
        have huz : u ≠ z := fun h2 => hzV (h2 ▸ huV)
        left
        rw [if_neg huz]
        exact hc
      · have hvV : v ∈ V := (hF2 v u hc).1
        have hvz : v ≠ z := fun h2 => hzV (h2 ▸ hvV)
        right
        rw [if_neg hvz]
        exact hc
    · have hcases : (u = y ∧ v = z) ∨ (u = z ∧ v = y) := by
        rcases hyz with ⟨hy2, hz2⟩ | ⟨hy2, hz2⟩ <;>
          rcases hnew with ⟨hu2, hv2⟩ | ⟨hu2, hv2⟩
        · exact Or.inl ⟨by rw [hu2, hy2], by rw [hv2, hz2]⟩
        · exact Or.inr ⟨by rw [hu2, hz2], by rw [hv2, hy2]⟩
        · exact Or.inr ⟨by rw [hu2, hz2], by rw [hv2, hy2]⟩
        · exact Or.inl ⟨by rw [hu2, hy2], by rw [hv2, hz2]⟩
      rcases hcases with ⟨rfl, rfl⟩ | ⟨rfl, rfl⟩
      · right
        rw [if_pos rfl]
      · left
        rw [if_pos rfl]
  · exact hRV.trans (Finset.subset_insert _ _)
  · intro n hn
    dsimp only
    rcases Finset.mem_insert.mp hn with rfl | hn
    · rw [if_pos rfl]
      constructor
      · intro hc
        cases hc
      · intro hc
        exact absurd (hRV hc) hzV
    · have hnz : n ≠ z := fun hc => hzV (hc ▸ hn)
      rw [if_neg hnz]
      exact hroot n hn
  · intro n hn
    rcases Finset.mem_insert.mp hn with rfl | hn
    · obtain ⟨r0, hr0, hreach0⟩ := hreach y hyV
      refine ⟨r0, hr0,
        Relation.ReflTransGen.head ?_ (parReach_congr hlinks hreach0)⟩
      dsimp only
      rw [if_pos rfl]
    · obtain ⟨r0, hr0, hreach0⟩ := hreach n hn
      exact ⟨r0, hr0, parReach_congr hlinks hreach0⟩

/-- If a run reaches `Done`, some invariant-satisfying state took the
final step. -/
theorem runAlg_done {S C : Type} {step : S → C → S × Signal} {tick : S → S}
    {P : S → Prop}
    (hstep : ∀ s c, P s → P (step s c).1) (htick : ∀ s, P s → P (tick s)) :
    ∀ (cs : List C) (s : S), P s → (runAlg step tick s cs).2 = true →
      ∃ s0 c, P s0 ∧ (step s0 c).2 = Signal.done ∧
        (runAlg step tick s cs).1 = (step s0 c).1 := by
  intro cs
  induction cs with
  | nil =>
    intro s hs hdone
    rw [show runAlg step tick s [] = (s, false) from rfl] at hdone
    cases hdone
  | cons c cs ih =>
    intro s hs hdone
    cases hstep2 : step s c with
    | mk s2 sig =>
      have hP2 : P s2 := by
        have := hstep s c hs
        rw [hstep2] at this
        exact this
      have hrun : runAlg step tick s (c :: cs) =
          (match (s2, sig) with
            | (s2, Signal.done) => (s2, true)
            | (s2, Signal.cont) => runAlg step tick (tick s2) cs) := by
        conv_lhs => rw [runAlg, hstep2]
      cases sig with
      | done =>
        rw [hrun] at hdone ⊢
        exact ⟨s, c, hs, by rw [hstep2], by rw [hstep2]⟩
      | cont =>
        rw [hrun] at hdone ⊢
        exact ih (tick s2) (htick s2 hP2) hdone

theorem filter_all {α : Type} {p : α → Bool} :
    ∀ l : List α, (l.filter p).length = l.length → ∀ x ∈ l, p x = true := by
  intro l hlen
  rw [List.filter_length_eq_length] at hlen
  exact hlen

theorem mem_visitedF {w h : Nat} {gs : GState} {n : Node} :
    n ∈ visitedF w h gs ↔ validNode w h n = true ∧ isVisitedG w gs n = true := by
  unfold visitedF
  rw [List.mem_toFinset, List.mem_filter, nodesList_mem]

theorem visitedF_visit {w h : Nat} {gs : GState} {m : Node}
    (hm : validNode w h m = true) :
    visitedF w h (visitG w gs m) = insert m (visitedF w h gs) := by
  ext x
  rw [mem_visitedF, Finset.mem_insert, mem_visitedF]
  constructor
  · rintro ⟨hv, hvis⟩
    rcases visitG_isVisited.mp hvis with hvis2 | hslot
    · exact Or.inr ⟨hv, hvis2⟩
    · exact Or.inl (nodeSlot_inj (valid_fst hv) (valid_fst hm) hslot)
  · rintro (rfl | ⟨hv, hvis⟩)
    · exact ⟨hm, visitG_isVisited.mpr (Or.inr rfl)⟩
    · exact ⟨hv, visitG_isVisited.mpr (Or.inl hvis)⟩

theorem visitedF_ageTick {w h : Nat} {gs : GState} :
    visitedF w h (ageTickG gs) = visitedF w h gs := by
  ext x
  rw [mem_visitedF, mem_visitedF, ageTick_visited]

theorem allvisited_of_count {w h : Nat} {gs : GState} (hinv : CountInv w h gs)
    (hcount : gs.count = w * h) :
    ∀ n : Node, validNode w h n = true → isVisitedG w gs n = true := by
  unfold CountInv at hinv
  intro n hn
  have hlen : (((nodesList w h).filter
      fun n => (gs.age (nodeSlot w n)).isSome)).length = (nodesList w h).length := by
    rw [← hinv, hcount, nodesList_length]
  exact filter_all (nodesList w h) hlen n (nodesList_mem.mpr hn)

theorem visitedF_all {w h : Nat} {gs : GState}
    (hall : ∀ n : Node, validNode w h n = true → isVisitedG w gs n = true) :
    visitedF w h gs = (nodesList w h).toFinset := by
  ext x
  rw [mem_visitedF, List.mem_toFinset, nodesList_mem]
  exact ⟨fun hx => hx.1, fun hx => ⟨hx, hall x hx⟩⟩

theorem countInv_genInit (w h : Nat) : CountInv w h genInit := by
  unfold CountInv genInit
  simp

theorem visitedF_setOpen {w h : Nat} {gs : GState} {e : Edge} {b : Bool} :
    visitedF w h (setOpen w gs e b) = visitedF w h gs := rfl

theorem countInv_setOpen {w h : Nat} {gs : GState} {e : Edge} {b : Bool}
    (hc : CountInv w h gs) : CountInv w h (setOpen w gs e b) := hc

/-! #### Aldous-Broder -/

theorem abInit_inv {w h : Nat} {start : Node}
    (hstart : validNode w h start = true) :
    ABInv w h start (abInit genInit start) := by
  refine ⟨hstart, countInv_genInit w h, ?_, fun _ => none, fun _ => 0, ?_⟩
  · intro i hi
    exact absurd hi (by exact Bool.noConfusion)
  · have hvF : visitedF w h genInit = ∅ := by
      ext x
      rw [mem_visitedF]
      simp [genInit, isVisitedG]
    show GhostForest w h genInit.openb (insert start (visitedF w h genInit)) _ _ _
    rw [hvF]
    refine ⟨⟨?_, ?_, ?_⟩, ?_, ?_, ?_⟩
    · intro n hn
      rcases Finset.mem_insert.mp hn with rfl | hn
      · exact hstart
      · exact absurd hn (Finset.not_mem_empty n)
    · intro n p hnp
      cases hnp
    · intro u v hadj
      exfalso
      unfold openAdjB at hadj
      rw [List.any_eq_true] at hadj
      obtain ⟨e, he, hc⟩ := hadj
      rw [Bool.and_eq_true] at hc
      have := hc.2
      simp [genInit] at this
    · intro x hx
      rw [Finset.mem_singleton] at hx
      subst hx
      exact Finset.mem_insert_self _ _
    · intro n hn
      constructor
      · intro _
        rcases Finset.mem_insert.mp hn with rfl | hn2
        · exact Finset.mem_singleton_self _
        · exact absurd hn2 (Finset.not_mem_empty n)
      · intro _
        rfl
    · intro n hn
      rcases Finset.mem_insert.mp hn with rfl | hn2
      · exact ⟨n, Finset.mem_singleton_self n, Relation.ReflTransGen.refl⟩
      · exact absurd hn2 (Finset.not_mem_empty n)

theorem abStep_inv {w h : Nat} {start : Node} {s : ABState} {c : Nat}
    (hs : ABInv w h start s) : ABInv w h start (abStep w h s c).1 := by
  obtain ⟨hhead, hcount, hwf, par, dpt, hg⟩ := hs
  unfold abStep
  by_cases hall : allVisitedG w h s.gs = true
  · rw [if_pos hall]
    exact ⟨hhead, hcount, hwf, par, dpt, hg⟩
  · rw [if_neg hall]
    cases hch : chooseL (neighboursL w h s.head) c with
    | none =>
      dsimp only
      refine ⟨hhead, countInv_visit hhead hcount, hwf, par, dpt, ?_⟩
      show GhostForest w h (visitG w s.gs s.head).openb
        (insert s.head (visitedF w h (visitG w s.gs s.head))) par dpt {start}
      rw [visitedF_visit hhead, Finset.insert_idem]
      exact hg
    | some e =>
      obtain ⟨d0, hme⟩ := neighboursL_mem.mp (chooseL_mem hch)
      have hev : validNode w h e.eto = true := (mazeEdge_fields hme).2.2
      have hfrom : e.efrom = s.head := (mazeEdge_fields hme).1
      dsimp only
      by_cases hvis : isVisitedG w (visitG w s.gs s.head) e.eto = true
      · rw [if_pos hvis]
        refine ⟨hev, countInv_visit hhead hcount, hwf, par, dpt, ?_⟩
        have hmem2 : e.eto ∈ insert s.head (visitedF w h s.gs) := by
          rw [← visitedF_visit hhead]
          exact mem_visitedF.mpr ⟨hev, hvis⟩
        show GhostForest w h (visitG w s.gs s.head).openb
          (insert e.eto (visitedF w h (visitG w s.gs s.head))) par dpt {start}
        rw [visitedF_visit hhead, Finset.insert_eq_self.mpr hmem2]
        exact hg
      · rw [if_neg hvis]
        have hzV : e.eto ∉ insert s.head (visitedF w h s.gs) := by
          intro hc2
          rcases Finset.mem_insert.mp hc2 with hc3 | hc3
          · exact (mazeEdge_eto_ne hme) (hc3.trans hfrom.symm)
          · exact hvis (visitG_isVisited.mpr (Or.inl (mem_visitedF.mp hc3).2))
        have hattach := ghost_attach hg hme (hfrom ▸ hhead)
          (Or.inl ⟨hfrom.symm, rfl⟩) (Finset.mem_insert_self _ _) hzV hev
        refine ⟨hev, countInv_setOpen (countInv_visit hhead hcount),
          openWF_setOpen hwf hme (hfrom ▸ hhead),
          (fun x => if x = e.eto then some s.head else par x),
          (fun x => if x = e.eto then dpt s.head + 1 else dpt x), ?_⟩
        show GhostForest w h (setOpen w (visitG w s.gs s.head) e true).openb
          (insert e.eto (visitedF w h (setOpen w (visitG w s.gs s.head) e true)))
          _ _ {start}
        rw [visitedF_setOpen, visitedF_visit hhead]
        exact hattach

theorem abTick_inv {w h : Nat} {start : Node} {s : ABState}
    (hs : ABInv w h start s) : ABInv w h start (abTick s) := by
  obtain ⟨hhead, hcount, hwf, par, dpt, hg⟩ := hs
  refine ⟨hhead, countInv_ageTick hcount, hwf, par, dpt, ?_⟩
  show GhostForest w h (ageTickG s.gs).openb
    (insert s.head (visitedF w h (ageTickG s.gs))) par dpt {start}
  rw [visitedF_ageTick]
  exact hg

theorem abStep_done {w h : Nat} {start : Node} {s : ABState} {c : Nat}
    {s1 : ABState} (hs : ABInv w h start s)
    (hdone : abStep w h s c = (s1, Signal.done)) :
    SpanningTreeG w h s1.gs.openb := by
  unfold abStep at hdone
  by_cases hall : allVisitedG w h s.gs = true
  · rw [if_pos hall] at hdone
    injection hdone with h1 h2
    subst h1
    obtain ⟨hhead, hcount, hwf, par, dpt, hg⟩ := hs
    have hcnt : s.gs.count = w * h := by
      unfold allVisitedG at hall
      exact decide_eq_true_eq.mp hall
    have hall2 := allvisited_of_count hcount hcnt
    have hW : insert s.head (visitedF w h s.gs) = (nodesList w h).toFinset := by
      rw [visitedF_all hall2]
      exact Finset.insert_eq_self.mpr
        (List.mem_toFinset.mpr (nodesList_mem.mpr hhead))
    rw [hW] at hg
    exact ghost_spanning hg
  · exfalso
    rw [if_neg hall] at hdone
    cases hch : chooseL (neighboursL w h s.head) c with
    | none =>
      rw [hch] at hdone
      dsimp only at hdone
      injection hdone with h1 h2
      exact Signal.noConfusion h2
    | some e =>
      rw [hch] at hdone
      dsimp only at hdone
      injection hdone with h1 h2
      exact Signal.noConfusion h2

theorem ab_run_spanning {w h : Nat} {start : Node}
    (hstart : validNode w h start = true) (cs : List Nat) {s1 : ABState}
    (hrun : runAlg (abStep w h) abTick (abInit genInit start) cs = (s1, true)) :
    SpanningTreeG w h s1.gs.openb := by
  obtain ⟨s0, c, hP0, hdone, heq⟩ :=
    runAlg_done (fun s c hs => abStep_inv hs) (fun s hs => abTick_inv hs) cs
      (abInit genInit start) (abInit_inv hstart) (by rw [hrun])
  have hstep_eq : abStep w h s0 c = ((abStep w h s0 c).1, Signal.done) :=
    Prod.ext rfl hdone
  have hspan := abStep_done hP0 hstep_eq
  have hs1 : s1 = (abStep w h s0 c).1 := by
    have h2 := heq.symm
    rw [hrun] at h2
    exact h2.symm
  rw [hs1]
  exact hspan

/-! #### Depth-first search -/

theorem chooseL_none {α : Type} {l : List α} {c : Nat}
    (hch : chooseL l c = none) : l = [] := by
  cases l with
  | nil => rfl
  | cons a t =>
    exfalso
    unfold chooseL at hch
    have hlt : c % (a :: t).length < (a :: t).length :=
      Nat.mod_lt _ (by simp)
    rw [List.get?_eq_get hlt] at hch
    cases hch

theorem dfsInit_inv {w h : Nat} {start : Node}
    (hstart : validNode w h start = true) :
    DfsInv w h start (dfsInit genInit start) := by
  have hvF : visitedF w h genInit = ∅ := by
    ext x
    rw [mem_visitedF]
    simp [genInit, isVisitedG]
  refine ⟨?_, by simp [dfsInit], by simp [dfsInit], ?_, ?_, by simp [dfsInit],
    fun _ => none, fun _ => 0, ?_⟩
  · intro n hn
    simp only [dfsInit] at hn
    rw [List.mem_singleton] at hn
    subst hn
    exact hstart
  · intro i hi
    exact absurd hi (by exact Bool.noConfusion)
  · intro v hv hvis
    exfalso
    have : isVisitedG w genInit v = true := hvis
    simp [genInit, isVisitedG] at this
  · show GhostForest w h genInit.openb
      (visitedF w h genInit ∪ [start].toFinset) _ _ _
    rw [hvF]
    refine ⟨⟨?_, ?_, ?_⟩, ?_, ?_, ?_⟩
    · intro n hn
      simp at hn
      subst hn
      exact hstart
    · intro n p hnp
      cases hnp
    · intro u v hadj
      exfalso
      unfold openAdjB at hadj
      rw [List.any_eq_true] at hadj
      obtain ⟨e, he, hc⟩ := hadj
      rw [Bool.and_eq_true] at hc
      have := hc.2
      simp [genInit] at this
    · intro x hx
      rw [Finset.mem_singleton] at hx
      subst hx
      simp
    · intro n hn
      simp at hn
      subst hn
      refine ⟨fun _ => by simp, fun _ => rfl⟩
    · intro n hn
      simp at hn
      subst hn
      exact ⟨n, Finset.mem_singleton_self n, Relation.ReflTransGen.refl⟩

theorem dfsStep_inv {w h : Nat} {start : Node} {s : DfsState} {c : Nat}
    (hs : DfsInv w h start s) : DfsInv w h start (dfsStep w h s c).1 := by
  obtain ⟨hval, hnd, htail, hwf, hcl, hemp, par, dpt, hg⟩ := hs
  unfold dfsStep
  cases hstk : s.stack with
  | nil => exact ⟨hval, hnd, htail, hwf, hcl, hemp, par, dpt, hg⟩
  | cons head rest =>
    dsimp only
    have hheadv : validNode w h head = true := hval head (by rw [hstk]; simp)
    have hrestvis : ∀ n ∈ rest, isVisitedG w s.gs n = true := by
      intro n hn
      exact htail n (by rw [hstk]; simpa using hn)
    cases hch : chooseL ((neighboursL w h head).filter
        fun e => !isVisitedG w (visitG w s.gs head) e.eto) c with
    | none =>
      have hcand : ((neighboursL w h head).filter
          fun e => !isVisitedG w (visitG w s.gs head) e.eto) = [] :=
        chooseL_none hch
      rw [List.filter_eq_nil_iff] at hcand
      have hnbvis : ∀ e2 ∈ neighboursL w h head,
          isVisitedG w (visitG w s.gs head) e2.eto = true := by
        intro e2 he2
        have := hcand e2 he2
        simp at this
        exact this
      refine ⟨?_, ?_, ?_, hwf, ?_, ?_, par, dpt, ?_⟩
      · intro n hn
        exact hval n (by rw [hstk]; simp [hn])
      · exact ((hstk ▸ hnd : (head :: rest).Nodup).of_cons)
      · intro n hn
        have hn2 : n ∈ rest := List.mem_of_mem_drop hn
        exact visitG_isVisited.mpr (Or.inl (hrestvis n hn2))
      · intro v hv hvis hnotin e2 he2
        rcases visitG_isVisited.mp hvis with hold | hslot
        · by_cases hvh : v = head
          · subst hvh
            exact hnbvis e2 he2
          · have hvnotin : v ∉ s.stack := by
              rw [hstk]
              intro hc2
              rcases List.mem_cons.mp hc2 with hc3 | hc3
              · exact hvh hc3
              · exact hnotin hc3
            exact visitG_isVisited.mpr
              (Or.inl (hcl v hv hold hvnotin e2 he2))
        · have hvh : v = head := nodeSlot_inj (valid_fst hv) (valid_fst hheadv) hslot
          subst hvh
          exact hnbvis e2 he2
      · intro hrest_nil0
        have hrest_nil : rest = [] := hrest_nil0
        have hclosed : ∀ v : Node, validNode w h v = true →
            isVisitedG w (visitG w s.gs head) v = true →
            ∀ e2 ∈ neighboursL w h v,
              isVisitedG w (visitG w s.gs head) e2.eto = true := by
          intro v hv hvis e2 he2
          rcases visitG_isVisited.mp hvis with hold | hslot
          · by_cases hvh : v = head
            · subst hvh
              exact hnbvis e2 he2
            · have hvnotin : v ∉ s.stack := by
                rw [hstk, hrest_nil]
                intro hc2
                rw [List.mem_singleton] at hc2
                exact hvh hc2
              exact visitG_isVisited.mpr
                (Or.inl (hcl v hv hold hvnotin e2 he2))
          · have hvh : v = head :=
              nodeSlot_inj (valid_fst hv) (valid_fst hheadv) hslot
            subst hvh
            exact hnbvis e2 he2
        intro n hn
        refine lattice_fill
          (S := fun v => isVisitedG w (visitG w s.gs head) v = true)
          (fun v hv hS e2 he2 => ?_) (w + w + h + h) head hheadv
          (visitG_isVisited.mpr (Or.inr rfl)) n hn ?_
        · have hv2 : validNode w h e2.eto = true := by
            obtain ⟨d2, hme2⟩ := neighboursL_mem.mp he2
            exact (mazeEdge_fields hme2).2.2
          exact hclosed v hv hS e2 he2
        · have h1 := valid_fst hn
          have h2 := valid_snd hn
          have h3 := valid_fst hheadv
          have h4 := valid_snd hheadv
          omega
      · show GhostForest w h (visitG w s.gs head).openb
          (visitedF w h (visitG w s.gs head) ∪ rest.toFinset) par dpt {start}
        rw [visitedF_visit hheadv]
        have hVeq : insert head (visitedF w h s.gs) ∪ rest.toFinset =
            visitedF w h s.gs ∪ s.stack.toFinset := by
          rw [hstk, List.toFinset_cons, Finset.union_insert, Finset.insert_union]
        rw [hVeq]
        exact hg
    | some e =>
      have hmem := chooseL_mem hch
      rw [List.mem_filter] at hmem
      obtain ⟨hnb, hunvis⟩ := hmem
      have hunvis2 : isVisitedG w (visitG w s.gs head) e.eto = false := by
        simpa using hunvis
      obtain ⟨d0, hme⟩ := neighboursL_mem.mp hnb
      have hev : validNode w h e.eto = true := (mazeEdge_fields hme).2.2
      have hfrom : e.efrom = head := (mazeEdge_fields hme).1
      have hetoh : e.eto ≠ head := fun hc =>
        mazeEdge_eto_ne hme (hc.trans hfrom.symm)
      have hetovis : isVisitedG w s.gs e.eto = false := by
        cases hb : isVisitedG w s.gs e.eto
        · rfl
        · exfalso
          have hvv : isVisitedG w (visitG w s.gs head) e.eto = true :=
            visitG_isVisited.mpr (Or.inl hb)
          rw [hunvis2] at hvv
          cases hvv
      have hetorest : e.eto ∉ rest := by
        intro hc
        rw [hrestvis e.eto hc] at hetovis
        cases hetovis
      refine ⟨?_, ?_, ?_, ?_, ?_, by simp, ?_, ?_, ?_⟩
      · intro n hn
        rcases List.mem_cons.mp hn with rfl | hn2
        · exact hev
        · exact hval n (by rw [hstk]; exact hn2)
      · refine List.nodup_cons.mpr ⟨?_, hstk ▸ hnd⟩
        intro hc
        rcases List.mem_cons.mp hc with hc2 | hc2
        · exact hetoh hc2
        · exact hetorest hc2
      · intro n hn
        have hn2 : n ∈ head :: rest := by simpa using hn
        rcases List.mem_cons.mp hn2 with rfl | hn3
        · exact visitG_isVisited.mpr (Or.inr rfl)
        · exact visitG_isVisited.mpr (Or.inl (hrestvis n hn3))
      · show OpenWF w h (setOpen w (visitG w s.gs head) e true).openb
        exact openWF_setOpen hwf hme (hfrom ▸ hheadv)
      · intro v hv hvis hnotin e2 he2
        have hvnh : v ≠ head := by
          intro hc
          subst hc
          exact hnotin (by simp)
        rcases visitG_isVisited.mp hvis with hold | hslot
        · have hvnotin : v ∉ s.stack := by
            rw [hstk]
            intro hc2
            rcases List.mem_cons.mp hc2 with hc3 | hc3
            · exact hvnh hc3
            · exact hnotin (by simp [hc3])
          exact visitG_isVisited.mpr (Or.inl (hcl v hv hold hvnotin e2 he2))
        · exact absurd (nodeSlot_inj (valid_fst hv) (valid_fst hheadv) hslot) hvnh
      · exact fun x => if x = e.eto then some head else par x
      · exact fun x => if x = e.eto then dpt head + 1 else dpt x
      · have hheadV : head ∈ visitedF w h s.gs ∪ s.stack.toFinset := by
          rw [hstk]
          refine Finset.mem_union_right _ ?_
          simp
        have hzV : e.eto ∉ visitedF w h s.gs ∪ s.stack.toFinset := by
          intro hc
          rcases Finset.mem_union.mp hc with hc2 | hc2
          · rw [(mem_visitedF.mp hc2).2] at hetovis
            cases hetovis
          · rw [hstk] at hc2
            simp at hc2
            rcases hc2 with hc3 | hc3
            · exact hetoh hc3
            · exact hetorest hc3
        have hattach := ghost_attach hg hme (hfrom ▸ hheadv)
          (Or.inl ⟨hfrom.symm, rfl⟩) hheadV hzV hev
        show GhostForest w h (setOpen w (visitG w s.gs head) e true).openb
          (visitedF w h (setOpen w (visitG w s.gs head) e true) ∪
            (e.eto :: head :: rest).toFinset) _ _ {start}
        rw [visitedF_setOpen, visitedF_visit hheadv]
        have hVeq : insert head (visitedF w h s.gs) ∪
            (e.eto :: head :: rest).toFinset =
            insert e.eto (visitedF w h s.gs ∪ s.stack.toFinset) := by
          rw [hstk]
          ext x
          simp only [Finset.mem_union, Finset.mem_insert, List.mem_toFinset,
            List.mem_cons]
          tauto
        rw [hVeq]
        exact hattach

theorem dfsTick_inv {w h : Nat} {start : Node} {s : DfsState}
    (hs : DfsInv w h start s) : DfsInv w h start (dfsTick s) := by
  obtain ⟨hval, hnd, htail, hwf, hcl, hemp, par, dpt, hg⟩ := hs
  refine ⟨hval, hnd, ?_, hwf, ?_, ?_, par, dpt, ?_⟩
  · intro n hn
    rw [show isVisitedG w (dfsTick s).gs n = isVisitedG w s.gs n from
      ageTick_visited]
    exact htail n hn
  · intro v hv hvis hnotin e2 he2
    rw [show isVisitedG w (dfsTick s).gs e2.eto = isVisitedG w s.gs e2.eto from
      ageTick_visited]
    have hvis2 : isVisitedG w s.gs v = true := by
      rw [show isVisitedG w s.gs v = isVisitedG w (dfsTick s).gs v from
        ageTick_visited.symm]
      exact hvis
    exact hcl v hv hvis2 hnotin e2 he2
  · intro hnil n hn
    rw [show isVisitedG w (dfsTick s).gs n = isVisitedG w s.gs n from
      ageTick_visited]
    exact hemp hnil n hn
  · show GhostForest w h (ageTickG s.gs).openb
      (visitedF w h (ageTickG s.gs) ∪ s.stack.toFinset) par dpt {start}
    rw [visitedF_ageTick]
    exact hg

theorem dfsStep_done {w h : Nat} {start : Node} {s : DfsState} {c : Nat}
    {s1 : DfsState} (hs : DfsInv w h start s)
    (hdone : dfsStep w h s c = (s1, Signal.done)) :
    SpanningTreeG w h s1.gs.openb := by
  obtain ⟨hval, hnd, htail, hwf, hcl, hemp, par, dpt, hg⟩ := hs
  unfold dfsStep at hdone
  cases hstk : s.stack with
  | nil =>
    rw [hstk] at hdone
    dsimp only at hdone
    injection hdone with h1 h2
    subst h1
    have hall := hemp hstk
    have hW : visitedF w h s.gs ∪ s.stack.toFinset = (nodesList w h).toFinset := by
      rw [hstk, visitedF_all hall]
      simp
    rw [hW] at hg
    exact ghost_spanning hg
  | cons head rest =>
    exfalso
    rw [hstk] at hdone
    dsimp only at hdone
    cases hch : chooseL ((neighboursL w h head).filter
        fun e => !isVisitedG w (visitG w s.gs head) e.eto) c with
    | none =>
      rw [hch] at hdone
      dsimp only at hdone
      injection hdone with h1 h2
      exact Signal.noConfusion h2
    | some e =>
      rw [hch] at hdone
      dsimp only at hdone
      injection hdone with h1 h2
      exact Signal.noConfusion h2

theorem dfs_run_spanning {w h : Nat} {start : Node}
    (hstart : validNode w h start = true) (cs : List Nat) {s1 : DfsState}
    (hrun : runAlg (dfsStep w h) dfsTick (dfsInit genInit start) cs = (s1, true)) :
    SpanningTreeG w h s1.gs.openb := by
  obtain ⟨s0, c, hP0, hdone, heq⟩ :=
    runAlg_done (fun s c hs => dfsStep_inv hs) (fun s hs => dfsTick_inv hs) cs
      (dfsInit genInit start) (dfsInit_inv hstart) (by rw [hrun])
  have hspan := dfsStep_done hP0 (Prod.ext rfl hdone)
  have hs1 : s1 = (dfsStep w h s0 c).1 := by
    have h2 := heq.symm
    rw [hrun] at h2
    exact h2.symm
  rw [hs1]
  exact hspan

/-! #### Prim -/

theorem swapRemoveL_mem {α : Type} {l : List α} {i : Nat} {x : α}
    (hx : x ∈ swapRemoveL l i) : x ∈ l := by
  unfold swapRemoveL at hx
  cases hl : l.getLast? with
  | none => rw [hl] at hx; exact hx
  | some last =>
    rw [hl] at hx
    have hx2 : x ∈ l.set i last := List.dropLast_subset _ hx
    rcases List.mem_or_eq_of_mem_set hx2 with h2 | h2
    · exact h2
    · subst h2
      exact List.mem_of_mem_getLast? hl

theorem swapRemoveL_cover {α : Type} {l : List α} {i : Nat} {x : α} (d : α)
    (hi : i < l.length) (hx : x ∈ l) :
    x = l.getD i d ∨ x ∈ swapRemoveL l i := by
  have hne : l ≠ [] := by
    intro hc
    rw [hc] at hi
    simp at hi
  have hgd : l.getD i d = l[i] := List.getD_eq_getElem l d hi
  obtain ⟨j, hj, hxj⟩ := List.mem_iff_getElem.mp hx
  have hlast : l.getLast? = some (l.getLast hne) := List.getLast?_eq_getLast l hne
  have hb1 : l.length - 1 < l.length := by omega
  have hlastval : l.getLast hne = l[l.length - 1] :=
    List.getLast_eq_getElem l hne
  have hsw : swapRemoveL l i = (l.set i (l.getLast hne)).dropLast := by
    unfold swapRemoveL
    rw [hlast]
  by_cases hji : j = i
  · subst hji
    left
    rw [hgd, hxj]
  · right
    rw [hsw]
    by_cases hjlast : j = l.length - 1
    · have hilt : i < l.length - 1 := by omega
      have hb2 : i < (l.set i (l.getLast hne)).dropLast.length := by
        simp
        omega
      have hget : (l.set i (l.getLast hne)).dropLast[i] = x := by
        rw [List.getElem_dropLast, List.getElem_set_eq (by simpa using hi)]
        rw [hlastval, ← hxj]
        congr 1
        omega
      rw [← hget]
      exact List.getElem_mem _
    · have hjlt : j < l.length - 1 := by omega
      have hb3 : j < (l.set i (l.getLast hne)).dropLast.length := by
        simp
        omega
      have hget : (l.set i (l.getLast hne)).dropLast[j] = x := by
        rw [List.getElem_dropLast, List.getElem_set_ne (by omega) (by simpa using hj)]
        exact hxj
      rw [← hget]
      exact List.getElem_mem _

theorem neighboursL_nil {w h : Nat} {n : Node} (hv : validNode w h n = true)
    (hnil : neighboursL w h n = []) :
    ∀ m : Node, validNode w h m = true → m = n := by
  have h1 := valid_fst hv
  have h2 := valid_snd hv
  have hno : ∀ (d : Direction) (e : Edge), mazeEdge w h n d ≠ some e := by
    intro d e hme
    have hmem : e ∈ neighboursL w h n := neighboursL_mem.mpr ⟨d, hme⟩
    rw [hnil] at hmem
    cases hmem
  have hsouth : ¬ validNode w h (n.1, n.2 + 1) = true := by
    intro hv2
    exact hno .south ⟨n, (n.1, n.2 + 1), .south⟩ (mazeEdge_south.mpr ⟨hv2, rfl⟩)
  have heast : ¬ validNode w h (n.1 + 1, n.2) = true := by
    intro hv2
    exact hno .east ⟨n, (n.1 + 1, n.2), .east⟩ (mazeEdge_east.mpr ⟨hv2, rfl⟩)
  have hn2 : n.2 = 0 := by
    by_contra hc
    have hv2 : validNode w h (n.1, n.2 - 1) = true := by
      simp [validNode]
      omega
    exact hno .north ⟨n, (n.1, n.2 - 1), .north⟩
      (mazeEdge_north.mpr ⟨hc, hv2, rfl⟩)
  have hn1 : n.1 = 0 := by
    by_contra hc
    have hv2 : validNode w h (n.1 - 1, n.2) = true := by
      simp [validNode]
      omega
    exact hno .west ⟨n, (n.1 - 1, n.2), .west⟩
      (mazeEdge_west.mpr ⟨hc, hv2, rfl⟩)
  simp [validNode] at hsouth heast
  have hw1 : w = 1 := by omega
  have hh1 : h = 1 := by omega
  intro m hm
  have hm1 := valid_fst hm
  have hm2 := valid_snd hm
  refine Prod.ext ?_ ?_
  · omega
  · omega

theorem visitG2_isVisited {w : Nat} {g : GState} {a b n : Node} :
    isVisitedG w (visitG w (visitG w g a) b) n = true ↔
      isVisitedG w g n = true ∨ nodeSlot w n = nodeSlot w a ∨
        nodeSlot w n = nodeSlot w b := by
  rw [visitG_isVisited, visitG_isVisited]
  tauto

theorem primStep_eq_discard {w h : Nat} {s : PrimState} {c : Nat} {e : Edge}
    (hq : s.queue ≠ [])
    (he : s.queue.getD (c % s.queue.length) (identityE (0, 0)) = e)
    (hf : isVisitedG w s.gs e.efrom = true)
    (ht : isVisitedG w s.gs e.eto = true) :
    primStep w h s c = (⟨visitG w (visitG w s.gs e.efrom) e.eto,
      swapRemoveL s.queue (c % s.queue.length)⟩, .cont) := by
  unfold primStep
  rw [if_neg hq]
  simp only [he, hf, ht]

theorem primStep_eq_attach {w h : Nat} {s : PrimState} {c : Nat} {e : Edge}
    (hq : s.queue ≠ [])
    (he : s.queue.getD (c % s.queue.length) (identityE (0, 0)) = e)
    (hf : isVisitedG w s.gs e.efrom = true)
    (ht : isVisitedG w s.gs e.eto = false) :
    primStep w h s c = (⟨setOpen w (visitG w (visitG w s.gs e.efrom) e.eto) e true,
      swapRemoveL s.queue (c % s.queue.length) ++ neighboursL w h e.eto⟩, .cont) := by
  unfold primStep
  rw [if_neg hq]
  simp only [he, hf, ht]

theorem primInit_inv {w h : Nat} {start : Node}
    (hstart : validNode w h start = true) :
    PrimInv w h start (primInit w h genInit start) := by
  have hvF : visitedF w h genInit = ∅ := by
    ext x
    rw [mem_visitedF]
    simp [genInit, isVisitedG]
  refine ⟨?_, ?_, ?_, ?_, fun _ => none, fun _ => 0, ?_⟩
  · intro e he
    have he2 : e ∈ neighboursL w h start := he
    obtain ⟨d, hme⟩ := neighboursL_mem.mp he2
    have hfrom : e.efrom = start := (mazeEdge_fields hme).1
    refine ⟨⟨start, d, hstart, hme⟩, hfrom ▸ hstart, ?_⟩
    exact visitG_isVisited.mpr (Or.inr (by rw [hfrom]))
  · intro i hi
    exact absurd hi (by exact Bool.noConfusion)
  · intro v hv hvis e2 he2
    have hvs : v = start := by
      rcases visitG_isVisited.mp hvis with hold | hslot
      · exfalso
        have : (genInit.age (nodeSlot w v)).isSome = true := hold
        simp [genInit] at this
      · exact nodeSlot_inj (valid_fst hv) (valid_fst hstart) hslot
    subst hvs
    exact Or.inr he2
  · intro hnil m hm
    have hnil2 : neighboursL w h start = [] := hnil
    have hms : m = start := neighboursL_nil hstart hnil2 m hm
    subst hms
    exact visitG_isVisited.mpr (Or.inr rfl)
  · show GhostForest w h (visitG w genInit start).openb
      (visitedF w h (visitG w genInit start)) _ _ {start}
    rw [visitedF_visit hstart, hvF]
    refine ⟨⟨?_, ?_, ?_⟩, ?_, ?_, ?_⟩
    · intro n hn
      simp at hn
      subst hn
      exact hstart
    · intro n p hnp
      cases hnp
    · intro u v hadj
      exfalso
      unfold openAdjB at hadj
      rw [List.any_eq_true] at hadj
      obtain ⟨e, he, hc⟩ := hadj
      rw [Bool.and_eq_true] at hc
      have hop2 : genInit.openb (normaliseE w e) = true := hc.2
      simp [genInit] at hop2
    · intro x hx
      rw [Finset.mem_singleton] at hx
      subst hx
      simp
    · intro n hn
      simp at hn
      subst hn
      refine ⟨fun _ => by simp, fun _ => rfl⟩
    · intro n hn
      simp at hn
      subst hn
      exact ⟨n, Finset.mem_singleton_self n, Relation.ReflTransGen.refl⟩

theorem primStep_inv {w h : Nat} {start : Node} {s : PrimState} {c : Nat}
    (hs : PrimInv w h start s) : PrimInv w h start (primStep w h s c).1 := by
  obtain ⟨hqe, hwf, hcov, hemp, par, dpt, hg⟩ := hs
  by_cases hq : s.queue = []
  · have hstep : primStep w h s c = (s, .done) := by
      unfold primStep
      rw [if_pos hq]
    rw [hstep]
    exact ⟨hqe, hwf, hcov, hemp, par, dpt, hg⟩
  · have hilt : c % s.queue.length < s.queue.length :=
      Nat.mod_lt _ (List.length_pos.mpr hq)
    obtain ⟨e, he⟩ : ∃ e0, s.queue.getD (c % s.queue.length) (identityE (0, 0)) = e0 :=
      ⟨_, rfl⟩
    have hemem : e ∈ s.queue := by
      rw [← he, List.getD_eq_getElem s.queue _ hilt]
      exact List.getElem_mem hilt
    obtain ⟨hok, hfv, hfvis⟩ := hqe e hemem
    obtain ⟨n0, d0, hn0, hme⟩ := hok
    have hev : validNode w h e.eto = true := (mazeEdge_fields hme).2.2
    have hmono2 : ∀ m : Node, isVisitedG w s.gs m = true →
        isVisitedG w (visitG w (visitG w s.gs e.efrom) e.eto) m = true := by
      intro m hm
      exact visitG2_isVisited.mpr (Or.inl hm)
    cases hvt : isVisitedG w s.gs e.eto with
    | true =>
      rw [primStep_eq_discard hq he hfvis hvt]
      have hviss : ∀ m : Node, validNode w h m = true →
          isVisitedG w (visitG w (visitG w s.gs e.efrom) e.eto) m = true →
          isVisitedG w s.gs m = true := by
        intro m hm hvm
        rcases visitG2_isVisited.mp hvm with hold | hsl | hsl
        · exact hold
        · rw [nodeSlot_inj (valid_fst hm) (valid_fst hfv) hsl]
          exact hfvis
        · rw [nodeSlot_inj (valid_fst hm) (valid_fst hev) hsl]
          exact hvt
      refine ⟨?_, hwf, ?_, ?_, par, dpt, ?_⟩
      · intro e2 he2
        have he2q : e2 ∈ s.queue := swapRemoveL_mem he2
        obtain ⟨hok2, hfv2, hfvis2⟩ := hqe e2 he2q
        exact ⟨hok2, hfv2, hmono2 _ hfvis2⟩
      · intro v hv hvis e2 he2
        have hvis2 : isVisitedG w s.gs v = true := hviss v hv hvis
        rcases hcov v hv hvis2 e2 he2 with hto | hq2
        · exact Or.inl (hmono2 _ hto)
        · rcases swapRemoveL_cover (identityE (0, 0)) hilt hq2 with heq2 | hrem
          · rw [heq2, he]
            exact Or.inl (visitG2_isVisited.mpr (Or.inr (Or.inr rfl)))
          · exact Or.inr hrem
      · intro hnil n hn
        have hnil2 : swapRemoveL s.queue (c % s.queue.length) = [] := hnil
        have hclosed : ∀ v : Node, validNode w h v = true →
            isVisitedG w (visitG w (visitG w s.gs e.efrom) e.eto) v = true →
            ∀ e2 ∈ neighboursL w h v,
              isVisitedG w (visitG w (visitG w s.gs e.efrom) e.eto) e2.eto = true := by
          intro v hv hvis e2 he2
          have hvis2 : isVisitedG w s.gs v = true := hviss v hv hvis
          rcases hcov v hv hvis2 e2 he2 with hto | hq2
          · exact hmono2 _ hto
          · rcases swapRemoveL_cover (identityE (0, 0)) hilt hq2 with heq2 | hrem
            · rw [heq2, he]
              exact visitG2_isVisited.mpr (Or.inr (Or.inr rfl))
            · rw [hnil2] at hrem
              cases hrem
        refine lattice_fill
          (S := fun v => isVisitedG w (visitG w (visitG w s.gs e.efrom) e.eto) v = true)
          hclosed (w + w + h + h) e.efrom hfv (hmono2 _ hfvis) n hn ?_
        have ha1 := valid_fst hn
        have ha2 := valid_snd hn
        have ha3 := valid_fst hfv
        have ha4 := valid_snd hfv
        omega
      · show GhostForest w h (visitG w (visitG w s.gs e.efrom) e.eto).openb
          (visitedF w h (visitG w (visitG w s.gs e.efrom) e.eto)) par dpt {start}
        rw [visitedF_visit hev, visitedF_visit hfv,
          Finset.insert_eq_self.mpr (mem_visitedF.mpr ⟨hfv, hfvis⟩),
          Finset.insert_eq_self.mpr (mem_visitedF.mpr ⟨hev, hvt⟩)]
        exact hg
    | false =>
      rw [primStep_eq_attach hq he hfvis hvt]
      have hviss : ∀ m : Node, validNode w h m = true →
          isVisitedG w (visitG w (visitG w s.gs e.efrom) e.eto) m = true →
          isVisitedG w s.gs m = true ∨ m = e.eto := by
        intro m hm hvm
        rcases visitG2_isVisited.mp hvm with hold | hsl | hsl
        · exact Or.inl hold
        · rw [nodeSlot_inj (valid_fst hm) (valid_fst hfv) hsl]
          exact Or.inl hfvis
        · exact Or.inr (nodeSlot_inj (valid_fst hm) (valid_fst hev) hsl)
      refine ⟨?_, ?_, ?_, ?_, ?_, ?_, ?_⟩
      · intro e2 he2
        rcases List.mem_append.mp he2 with hl | hr
        · have he2q : e2 ∈ s.queue := swapRemoveL_mem hl
          obtain ⟨hok2, hfv2, hfvis2⟩ := hqe e2 he2q
          exact ⟨hok2, hfv2, hmono2 _ hfvis2⟩
        · obtain ⟨d2, hme2⟩ := neighboursL_mem.mp hr
          have hfrom2 : e2.efrom = e.eto := (mazeEdge_fields hme2).1
          refine ⟨⟨e.eto, d2, hev, hme2⟩, hfrom2 ▸ hev, ?_⟩
          show isVisitedG w (visitG w (visitG w s.gs e.efrom) e.eto) e2.efrom = true
          exact visitG_isVisited.mpr (Or.inr (by rw [hfrom2]))
      · show OpenWF w h
          (updB (visitG w (visitG w s.gs e.efrom) e.eto).openb (normaliseE w e) true)
        exact openWF_setOpen hwf hme hn0
      · intro v hv hvis e2 he2
        rcases hviss v hv hvis with hvis2 | hveq
        · rcases hcov v hv hvis2 e2 he2 with hto | hq2
          · exact Or.inl (hmono2 _ hto)
          · rcases swapRemoveL_cover (identityE (0, 0)) hilt hq2 with heq2 | hrem
            · rw [heq2, he]
              exact Or.inl (visitG2_isVisited.mpr (Or.inr (Or.inr rfl)))
            · exact Or.inr (List.mem_append_left _ hrem)
        · subst hveq
          exact Or.inr (List.mem_append_right _ he2)
      · intro hnil0 n hn
        have hnil : swapRemoveL s.queue (c % s.queue.length) ++
            neighboursL w h e.eto = [] := hnil0
        rw [List.append_eq_nil] at hnil
        have hclosed : ∀ v : Node, validNode w h v = true →
            isVisitedG w (visitG w (visitG w s.gs e.efrom) e.eto) v = true →
            ∀ e2 ∈ neighboursL w h v,
              isVisitedG w (visitG w (visitG w s.gs e.efrom) e.eto) e2.eto = true := by
          intro v hv hvis e2 he2
          rcases hviss v hv hvis with hvis2 | hveq
          · rcases hcov v hv hvis2 e2 he2 with hto | hq2
            · exact hmono2 _ hto
            · rcases swapRemoveL_cover (identityE (0, 0)) hilt hq2 with heq2 | hrem
              · rw [heq2, he]
                exact visitG2_isVisited.mpr (Or.inr (Or.inr rfl))
              · rw [hnil.1] at hrem
                cases hrem
          · exfalso
            rw [hveq, hnil.2] at he2
            cases he2
        refine lattice_fill
          (S := fun v => isVisitedG w (visitG w (visitG w s.gs e.efrom) e.eto) v = true)
          hclosed (w + w + h + h) e.efrom hfv (hmono2 _ hfvis) n hn ?_
        have ha1 := valid_fst hn
        have ha2 := valid_snd hn
        have ha3 := valid_fst hfv
        have ha4 := valid_snd hfv
        omega
      · exact fun x => if x = e.eto then some e.efrom else par x
      · exact fun x => if x = e.eto then dpt e.efrom + 1 else dpt x
      · have hzV : e.eto ∉ visitedF w h s.gs := by
          intro hc
          rw [(mem_visitedF.mp hc).2] at hvt
          cases hvt
        have hattach := ghost_attach hg hme hn0 (Or.inl ⟨rfl, rfl⟩)
          (mem_visitedF.mpr ⟨hfv, hfvis⟩) hzV hev
        show GhostForest w h
          (setOpen w (visitG w (visitG w s.gs e.efrom) e.eto) e true).openb
          (visitedF w h (setOpen w (visitG w (visitG w s.gs e.efrom) e.eto) e true))
          _ _ {start}
        rw [visitedF_setOpen, visitedF_visit hev, visitedF_visit hfv,
          Finset.insert_eq_self.mpr (mem_visitedF.mpr ⟨hfv, hfvis⟩)]
        exact hattach

theorem primTick_inv {w h : Nat} {start : Node} {s : PrimState}
    (hs : PrimInv w h start s) : PrimInv w h start (primTick s) := by
  obtain ⟨hqe, hwf, hcov, hemp, par, dpt, hg⟩ := hs
  have hage : ∀ n : Node, isVisitedG w (ageTickG s.gs) n = isVisitedG w s.gs n :=
    fun n => ageTick_visited
  refine ⟨?_, hwf, ?_, ?_, par, dpt, ?_⟩
  · intro e2 he2
    obtain ⟨hok2, hfv2, hfvis2⟩ := hqe e2 he2
    refine ⟨hok2, hfv2, ?_⟩
    rw [show isVisitedG w (primTick s).gs e2.efrom = isVisitedG w s.gs e2.efrom from
      hage e2.efrom]
    exact hfvis2
  · intro v hv hvis e2 he2
    have hvis2 : isVisitedG w s.gs v = true := by
      rw [← hage v]
      exact hvis
    rcases hcov v hv hvis2 e2 he2 with hto | hq2
    · refine Or.inl ?_
      rw [show isVisitedG w (primTick s).gs e2.eto = isVisitedG w s.gs e2.eto from
        hage e2.eto]
      exact hto
    · exact Or.inr hq2
  · intro hnil n hn
    rw [show isVisitedG w (primTick s).gs n = isVisitedG w s.gs n from hage n]
    exact hemp hnil n hn
  · show GhostForest w h (ageTickG s.gs).openb
      (visitedF w h (ageTickG s.gs)) par dpt {start}
    rw [visitedF_ageTick]
    exact hg

theorem primStep_done {w h : Nat} {start : Node} {s : PrimState} {c : Nat}
    {s1 : PrimState} (hs : PrimInv w h start s)
    (hdone : primStep w h s c = (s1, Signal.done)) :
    SpanningTreeG w h s1.gs.openb := by
  obtain ⟨hqe, hwf, hcov, hemp, par, dpt, hg⟩ := hs
  by_cases hq : s.queue = []
  · have hstep : primStep w h s c = (s, .done) := by
      unfold primStep
      rw [if_pos hq]
    rw [hstep] at hdone
    injection hdone with h1 h2
    subst h1
    have hall := hemp hq
    have hW : visitedF w h s.gs = (nodesList w h).toFinset := visitedF_all hall
    rw [hW] at hg
    exact ghost_spanning hg
  · exfalso
    have hilt : c % s.queue.length < s.queue.length :=
      Nat.mod_lt _ (List.length_pos.mpr hq)
    obtain ⟨e, he⟩ : ∃ e0, s.queue.getD (c % s.queue.length) (identityE (0, 0)) = e0 :=
      ⟨_, rfl⟩
    have hemem : e ∈ s.queue := by
      rw [← he, List.getD_eq_getElem s.queue _ hilt]
      exact List.getElem_mem hilt
    obtain ⟨hok, hfv, hfvis⟩ := hqe e hemem
    cases hvt : isVisitedG w s.gs e.eto with
    | true =>
      rw [primStep_eq_discard hq he hfvis hvt] at hdone
      injection hdone with h1 h2
      exact Signal.noConfusion h2
    | false =>
      rw [primStep_eq_attach hq he hfvis hvt] at hdone
      injection hdone with h1 h2
      exact Signal.noConfusion h2

theorem prim_run_spanning {w h : Nat} {start : Node}
    (hstart : validNode w h start = true) (cs : List Nat) {s1 : PrimState}
    (hrun : runAlg (primStep w h) primTick (primInit w h genInit start) cs =
      (s1, true)) :
    SpanningTreeG w h s1.gs.openb := by
  obtain ⟨s0, c, hP0, hdone, heq⟩ :=
    runAlg_done (fun s c hs => primStep_inv hs) (fun s hs => primTick_inv hs) cs
      (primInit w h genInit start) (primInit_inv hstart) (by rw [hrun])
  have hspan := primStep_done hP0 (Prod.ext rfl hdone)
  have hs1 : s1 = (primStep w h s0 c).1 := by
    have h2 := heq.symm
    rw [hrun] at h2
    exact h2.symm
  rw [hs1]
  exact hspan

/-! #### Kruskal: root tracking through compression and union -/

theorem rootOf_unique {w : Nat} {pars : Nat → Node} {n r1 r2 : Node}
    (h1 : RootOf w pars n r1) (h2 : RootOf w pars n r2) : r1 = r2 := by
  obtain ⟨l1, hc1, hr1⟩ := h1
  obtain ⟨l2, hc2, hr2⟩ := h2
  obtain rfl := pchain_unique hc1 hc2
  rw [hr1] at hr2
  exact Option.some.inj hr2

theorem rootOf_exists {w h : Nat} {pars : Nat → Node} (hinv : UFInvD w h pars)
    {n : Node} (hv : validNode w h n = true) : ∃ r, RootOf w pars n r := by
  obtain ⟨dpt, hdpt⟩ := hinv
  obtain ⟨l, hl⟩ := chain_exists hdpt (dpt n) n hv le_rfl
  obtain ⟨r, hr, -⟩ := pchain_getLast_root hl
  exact ⟨r, l, hl, hr⟩

theorem rootOf_isRoot {w : Nat} {pars : Nat → Node} {n r : Node}
    (h1 : RootOf w pars n r) : IsRootP w pars r := by
  obtain ⟨l, hc, hr⟩ := h1
  obtain ⟨r2, hr2, hroot⟩ := pchain_getLast_root hc
  rw [hr] at hr2
  obtain rfl := Option.some.inj hr2
  exact hroot

theorem rootOf_mem {w : Nat} {pars : Nat → Node} {n r : Node} {l : List Node}
    (hc : PChain w pars n l) (hr : l.getLast? = some r) : r ∈ l := by
  obtain ⟨hh, he⟩ := List.mem_getLast?_eq_getLast (show r ∈ l.getLast? from hr)
  rw [he]
  exact List.getLast_mem hh

theorem rootOf_valid {w h : Nat} {pars : Nat → Node} (hinv : UFInvD w h pars)
    {n r : Node} (hv : validNode w h n = true) (h1 : RootOf w pars n r) :
    validNode w h r = true := by
  obtain ⟨dpt, hdpt⟩ := hinv
  obtain ⟨l, hc, hr⟩ := h1
  exact (pchain_dpt hdpt hc hv r (rootOf_mem hc hr)).1

theorem rootOf_root {w : Nat} {pars : Nat → Node} {r : Node}
    (hr : IsRootP w pars r) : RootOf w pars r r :=
  ⟨[r], .root r hr, rfl⟩

theorem pchain_congrP {w : Nat} {pars pars2 : Nat → Node} {m : Node} {l : List Node}
    (hc : PChain w pars m l)
    (hagree : ∀ x ∈ l, pars2 (nodeSlot w x) = pars (nodeSlot w x)) :
    PChain w pars2 m l := by
  induction hc with
  | root n hr =>
    refine .root n ?_
    show pars2 (nodeSlot w n) = n
    rw [hagree n (by simp)]
    exact hr
  | step n p l hp hne hc ih =>
    refine .step n p l ?_ hne (ih ?_)
    · rw [hagree n (by simp)]
      exact hp
    · intro x hx
      exact hagree x (by simp [hx])

theorem pchain_dropLast_no_root {w : Nat} {pars : Nat → Node} {m : Node}
    {l : List Node} (hc : PChain w pars m l) :
    ∀ x ∈ l.dropLast, ¬ IsRootP w pars x := by
  induction hc with
  | root n hr =>
    intro x hx
    simp at hx
  | step n p l hp hne hc ih =>
    intro x hx
    obtain ⟨t, rfl⟩ := pchain_head hc
    rw [List.dropLast_cons₂, List.mem_cons] at hx
    rcases hx with rfl | hx
    · intro hroot
      have : pars (nodeSlot w x) = x := hroot
      rw [hp] at this
      exact hne this.symm
    · exact ih x hx

/-- Path compression preserves every root assignment: `find_root` on `n`
rewires chain slots straight to their root without changing any node's
root. -/
theorem compress_RootOf {w h : Nat} {pars : Nat → Node} (hinv : UFInvD w h pars)
    {n : Node} (hn : validNode w h n = true) :
    ∀ {m r : Node}, validNode w h m = true → RootOf w pars m r →
      RootOf w (findRootF w (w * h) pars n).1 m r := by
  obtain ⟨dpt, hdpt⟩ := hinv
  obtain ⟨l, hl⟩ := chain_exists hdpt (dpt n) n hn le_rfl
  have hnodup : l.Nodup := pchain_nodup hdpt hl hn
  have hlval : ∀ x ∈ l, validNode w h x = true :=
    fun x hx => (pchain_dpt hdpt hl hn x hx).1
  obtain ⟨rn, hrn, hrnroot⟩ := pchain_getLast_root hl
  have hlen : l.length ≤ w * h := valid_list_length_le hnodup hlval
  have heq := findRootF_eq hl (w * h) hlen rn hrn
  rw [heq]
  have hrnd : rn ∉ l.dropLast := getLast_not_mem_dropLast hnodup hrn
  have hrnval : validNode w h rn = true := hlval rn (rootOf_mem hl hrn)
  have hdlval : ∀ x ∈ l.dropLast, validNode w h x = true := fun x hx =>
    hlval x (List.dropLast_subset l hx)
  have hslotmem : ∀ m : Node, validNode w h m = true →
      (nodeSlot w m ∈ l.dropLast.map (nodeSlot w) ↔ m ∈ l.dropLast) := by
    intro m hmv
    constructor
    · intro hmem
      obtain ⟨m', hm', hs⟩ := List.mem_map.mp hmem
      obtain rfl : m' = m :=
        nodeSlot_inj (valid_fst (hdlval m' hm')) (valid_fst hmv) hs
      exact hm'
    · intro hmem
      exact List.mem_map.mpr ⟨m, hmem, rfl⟩
  have hrnroot2 : IsRootP w (compressP pars (l.dropLast.map (nodeSlot w)) rn) rn := by
    show compressP pars (l.dropLast.map (nodeSlot w)) rn (nodeSlot w rn) = rn
    simp only [compressP]
    rw [if_neg ((hslotmem rn hrnval).not.mpr hrnd)]
    exact hrnroot
  have hmain : ∀ (m : Node) (lm : List Node), PChain w pars m lm →
      validNode w h m = true → ∀ r, lm.getLast? = some r →
      RootOf w (compressP pars (l.dropLast.map (nodeSlot w)) rn) m r := by
    intro m lm hlm
    induction hlm with
    | root a hroot =>
      intro hav r hr
      have har : a = r := by simpa using hr
      rw [← har]
      have hnot : a ∉ l.dropLast := fun hmem =>
        pchain_dropLast_no_root hl a hmem hroot
      refine ⟨[a], .root a ?_, rfl⟩
      show compressP pars (l.dropLast.map (nodeSlot w)) rn (nodeSlot w a) = a
      simp only [compressP]
      rw [if_neg ((hslotmem a hav).not.mpr hnot)]
      exact hroot
    | step a p lp hp hne hlp ih =>
      intro hav r hr
      have hpv : validNode w h p = true := by
        have := (hdpt a hav).1
        rw [hp] at this
        exact this
      by_cases hmem : a ∈ l.dropLast
      · have hreq : r = rn := by
          obtain ⟨la, hla, hlast⟩ :=
            pchain_mem_chain hl a (List.dropLast_subset l hmem)
          obtain rfl := pchain_unique (.step a p lp hp hne hlp) hla
          rw [hrn] at hlast
          rw [hr] at hlast
          exact Option.some.inj hlast
        rw [hreq]
        have hane : a ≠ rn := fun hc => hrnd (hc ▸ hmem)
        refine ⟨[a, rn], .step a rn [rn] ?_ hane (.root rn hrnroot2), rfl⟩
        show compressP pars (l.dropLast.map (nodeSlot w)) rn (nodeSlot w a) = rn
        simp only [compressP]
        rw [if_pos ((hslotmem a hav).mpr hmem)]
      · obtain ⟨t, rfl⟩ := pchain_head hlp
        have hr2 : (p :: t).getLast? = some r := by simpa using hr
        obtain ⟨lp2, hlp2, hlast2⟩ := ih hpv r hr2
        obtain ⟨t2, rfl⟩ := pchain_head hlp2
        refine ⟨a :: p :: t2, .step a p (p :: t2) ?_ hne hlp2, by simpa using hlast2⟩
        show compressP pars (l.dropLast.map (nodeSlot w)) rn (nodeSlot w a) = p
        simp only [compressP]
        rw [if_neg ((hslotmem a hav).not.mpr hmem)]
        exact hp
  intro m r hmv hroot
  obtain ⟨lm, hlm, hlast⟩ := hroot
  exact hmain m lm hlm hmv r hlast

theorem findRootF_RootOf {w h : Nat} {pars : Nat → Node} (hinv : UFInvD w h pars)
    {n : Node} (hn : validNode w h n = true) :
    RootOf w pars n (findRootF w (w * h) pars n).2 := by
  obtain ⟨dpt, hdpt⟩ := hinv
  obtain ⟨l, hl⟩ := chain_exists hdpt (dpt n) n hn le_rfl
  have hnodup : l.Nodup := pchain_nodup hdpt hl hn
  have hlval : ∀ x ∈ l, validNode w h x = true :=
    fun x hx => (pchain_dpt hdpt hl hn x hx).1
  obtain ⟨rn, hrn, -⟩ := pchain_getLast_root hl
  have hlen : l.length ≤ w * h := valid_list_length_le hnodup hlval
  have heq := findRootF_eq hl (w * h) hlen rn hrn
  rw [heq]
  exact ⟨l, hl, hrn⟩

theorem compress_UFSame {w h : Nat} {pars : Nat → Node} (hinv : UFInvD w h pars)
    {n : Node} (hn : validNode w h n = true) {u v : Node}
    (hu : validNode w h u = true) (hv : validNode w h v = true) :
    UFSame w (findRootF w (w * h) pars n).1 u v ↔ UFSame w pars u v := by
  constructor
  · rintro ⟨r, h1, h2⟩
    obtain ⟨ru, hru⟩ := rootOf_exists hinv hu
    obtain ⟨rv, hrv⟩ := rootOf_exists hinv hv
    have h1' := compress_RootOf hinv hn hu hru
    have h2' := compress_RootOf hinv hn hv hrv
    obtain rfl := rootOf_unique h1 h1'
    obtain rfl := rootOf_unique h2 h2'
    exact ⟨r, hru, hrv⟩
  · rintro ⟨r, h1, h2⟩
    exact ⟨r, compress_RootOf hinv hn hu h1, compress_RootOf hinv hn hv h2⟩

theorem pchain_snoc {w : Nat} {pars pars2 : Nat → Node} {rb : Node} :
    ∀ {m : Node} {l : List Node}, PChain w pars m l →
      (∀ x ∈ l.dropLast, pars2 (nodeSlot w x) = pars (nodeSlot w x)) →
      ∀ ra, l.getLast? = some ra → pars2 (nodeSlot w ra) = rb → ra ≠ rb →
      IsRootP w pars2 rb → PChain w pars2 m (l ++ [rb]) := by
  intro m l hc
  induction hc with
  | root a hroot =>
    intro hagree ra hra hstep hne hroot2
    have har : a = ra := by simpa using hra
    subst har
    exact .step a rb [rb] hstep hne (.root rb hroot2)
  | step a p lp hp hne hlp ih =>
    intro hagree ra hra hstep hne2 hroot2
    obtain ⟨t, rfl⟩ := pchain_head hlp
    have hagree2 : ∀ x ∈ (p :: t).dropLast,
        pars2 (nodeSlot w x) = pars (nodeSlot w x) := by
      intro x hx
      refine hagree x ?_
      rw [List.dropLast_cons₂, List.mem_cons]
      exact Or.inr hx
    have hra2 : (p :: t).getLast? = some ra := by simpa using hra
    have hstep2 : pars2 (nodeSlot w a) = p := by
      rw [hagree a (by rw [List.dropLast_cons₂]; simp)]
      exact hp
    exact .step a p ((p :: t) ++ [rb]) hstep2 hne (ih hagree2 ra hra2 hstep hne2 hroot2)

theorem union_RootOf_keep {w h : Nat} {pars : Nat → Node} (hinv : UFInvD w h pars)
    {ra rb : Node} (hrav : validNode w h ra = true) (hra : IsRootP w pars ra)
    {m r : Node} (hm : validNode w h m = true)
    (h1 : RootOf w pars m r) (hne : r ≠ ra) :
    RootOf w (updP pars (nodeSlot w ra) rb) m r := by
  obtain ⟨dpt, hdpt⟩ := hinv
  obtain ⟨l, hc, hr⟩ := h1
  have hlval : ∀ x ∈ l, validNode w h x = true :=
    fun x hx => (pchain_dpt hdpt hc hm x hx).1
  have hnotin : ra ∉ l := by
    intro hmem
    obtain ⟨la, hla, hlast⟩ := pchain_mem_chain hc ra hmem
    obtain rfl := pchain_unique hla (.root ra hra)
    simp at hlast
    rw [hr] at hlast
    exact hne (Option.some.inj hlast).symm
  refine ⟨l, pchain_congrP hc ?_, hr⟩
  intro x hx
  have hxra : x ≠ ra := fun hcx => hnotin (hcx ▸ hx)
  have hslot : nodeSlot w x ≠ nodeSlot w ra := fun hcs =>
    hxra (nodeSlot_inj (valid_fst (hlval x hx)) (valid_fst hrav) hcs)
  simp [updP, hslot]

theorem union_RootOf_move {w h : Nat} {pars : Nat → Node} (hinv : UFInvD w h pars)
    {ra rb : Node} (hrav : validNode w h ra = true) (hrbv : validNode w h rb = true)
    (hra : IsRootP w pars ra) (hrb : IsRootP w pars rb) (hab : ra ≠ rb)
    {m : Node} (hm : validNode w h m = true) (h1 : RootOf w pars m ra) :
    RootOf w (updP pars (nodeSlot w ra) rb) m rb := by
  obtain ⟨dpt, hdpt⟩ := hinv
  obtain ⟨l, hc, hr⟩ := h1
  have hlval : ∀ x ∈ l, validNode w h x = true :=
    fun x hx => (pchain_dpt hdpt hc hm x hx).1
  have hrbslot : nodeSlot w rb ≠ nodeSlot w ra := fun hcs =>
    hab (nodeSlot_inj (valid_fst hrbv) (valid_fst hrav) hcs).symm
  have hroot2 : IsRootP w (updP pars (nodeSlot w ra) rb) rb := by
    show updP pars (nodeSlot w ra) rb (nodeSlot w rb) = rb
    simp only [updP]
    rw [if_neg hrbslot]
    exact hrb
  have hstep : updP pars (nodeSlot w ra) rb (nodeSlot w ra) = rb := by
    simp [updP]
  refine ⟨l ++ [rb], pchain_snoc hc ?_ ra hr hstep hab hroot2, by simp⟩
  intro x hx
  have hxroot := pchain_dropLast_no_root hc x hx
  have hxra : x ≠ ra := fun hcx => hxroot (hcx ▸ hra)
  have hxval : validNode w h x = true := hlval x (List.dropLast_subset l hx)
  have hslot : nodeSlot w x ≠ nodeSlot w ra := fun hcs =>
    hxra (nodeSlot_inj (valid_fst hxval) (valid_fst hrav) hcs)
  simp [updP, hslot]

theorem union_RootOf_cases {w h : Nat} {pars : Nat → Node} (hinv : UFInvD w h pars)
    {ra rb : Node} (hrav : validNode w h ra = true) (hrbv : validNode w h rb = true)
    (hra : IsRootP w pars ra) (hrb : IsRootP w pars rb) (hab : ra ≠ rb)
    {m r2 : Node} (hm : validNode w h m = true)
    (h1 : RootOf w (updP pars (nodeSlot w ra) rb) m r2) :
    (RootOf w pars m r2 ∧ r2 ≠ ra) ∨ (RootOf w pars m ra ∧ r2 = rb) := by
  obtain ⟨r, hroot⟩ := rootOf_exists hinv hm
  by_cases hreq : r = ra
  · subst hreq
    have h2 := union_RootOf_move hinv hrav hrbv hra hrb hab hm hroot
    obtain rfl := rootOf_unique h1 h2
    exact Or.inr ⟨hroot, rfl⟩
  · have h2 : RootOf w (updP pars (nodeSlot w ra) rb) m r :=
      union_RootOf_keep hinv hrav hra hm hroot hreq
    obtain rfl := rootOf_unique h1 h2
    exact Or.inl ⟨hroot, hreq⟩

theorem union_UFSame {w h : Nat} {pars : Nat → Node} (hinv : UFInvD w h pars)
    {ra rb : Node} (hrav : validNode w h ra = true) (hrbv : validNode w h rb = true)
    (hra : IsRootP w pars ra) (hrb : IsRootP w pars rb) (hab : ra ≠ rb)
    {u v : Node} (hu : validNode w h u = true) (hv : validNode w h v = true) :
    UFSame w (updP pars (nodeSlot w ra) rb) u v ↔
      (UFSame w pars u v ∨ (RootOf w pars u ra ∧ RootOf w pars v rb) ∨
        (RootOf w pars u rb ∧ RootOf w pars v ra)) := by
  constructor
  · rintro ⟨r, h1, h2⟩
    rcases union_RootOf_cases hinv hrav hrbv hra hrb hab hu h1 with
      ⟨hu2, hune⟩ | ⟨hu2, rfl⟩
    · rcases union_RootOf_cases hinv hrav hrbv hra hrb hab hv h2 with
        ⟨hv2, -⟩ | ⟨hv2, rfl⟩
      · exact Or.inl ⟨r, hu2, hv2⟩
      · exact Or.inr (Or.inr ⟨hu2, hv2⟩)
    · rcases union_RootOf_cases hinv hrav hrbv hra hrb hab hv h2 with
        ⟨hv2, hvne⟩ | ⟨hv2, heq2⟩
      · exact Or.inr (Or.inl ⟨hu2, hv2⟩)
      · exact Or.inl ⟨ra, hu2, hv2⟩
  · rintro (⟨r, h1, h2⟩ | ⟨h1, h2⟩ | ⟨h1, h2⟩)
    · by_cases hreq : r = ra
      · subst hreq
        exact ⟨rb, union_RootOf_move hinv hrav hrbv hra hrb hab hu h1,
          union_RootOf_move hinv hrav hrbv hra hrb hab hv h2⟩
      · exact ⟨r, union_RootOf_keep hinv hrav hra hu h1 hreq,
          union_RootOf_keep hinv hrav hra hv h2 hreq⟩
    · exact ⟨rb, union_RootOf_move hinv hrav hrbv hra hrb hab hu h1,
        union_RootOf_keep hinv hrav hra hv h2 (fun hc => hab hc.symm)⟩
    · exact ⟨rb, union_RootOf_keep hinv hrav hra hu h1 (fun hc => hab hc.symm),
        union_RootOf_move hinv hrav hrbv hra hrb hab hv h2⟩

/-! #### Kruskal: ghost-forest re-rooting -/

theorem ghostSame_symm {par : Node → Option Node} {u v : Node}
    (h1 : GhostSame par u v) : GhostSame par v u := by
  obtain ⟨g, h1, h2, h3⟩ := h1
  exact ⟨g, h2, h1, h3⟩

theorem ghostSame_trans {par : Node → Option Node} {u v x : Node}
    (h1 : GhostSame par u v) (h2 : GhostSame par v x) : GhostSame par u x := by
  obtain ⟨g1, hu, hv, hg1⟩ := h1
  obtain ⟨g2, hv2, hx, hg2⟩ := h2
  have hgg : g1 = g2 := parReach_unique v g1 g2 hv hg1 hv2 hg2
  rw [hgg] at hu hg1
  exact ⟨g2, hu, hx, hg2⟩

theorem ghostSame_root {par : Node → Option Node} {x z : Node}
    (hz : par z = none) : GhostSame par x z ↔ ParReach par x z := by
  constructor
  · rintro ⟨g, hx, hzg, hgn⟩
    have hgz : g = z := parReach_none hzg hz
    rw [hgz] at hx
    exact hx
  · intro hx
    exact ⟨z, hx, Relation.ReflTransGen.refl, hz⟩

theorem parReach_flip {par : Node → Option Node} {p z : Node}
    (hzp : par z = some p) (hpn : par p = none) :
    ∀ {x r : Node}, ParReach par x r → par r = none →
      ParReach (fun x2 => if x2 = p then some z else if x2 = z then none else par x2)
        x (if r = p then z else r) := by
  intro x r hxr
  induction hxr using Relation.ReflTransGen.head_induction_on with
  | refl =>
    intro hrn
    by_cases hrp : r = p
    · rw [if_pos hrp]
      refine Relation.ReflTransGen.single ?_
      show (if r = p then some z else if r = z then none else par r) = some z
      rw [if_pos hrp]
    · rw [if_neg hrp]
      exact Relation.ReflTransGen.refl
  | head hlink hrest ih =>
    rename_i a b
    intro hrn
    by_cases haz : a = z
    · have hbp : b = p := by
        rw [haz, hzp] at hlink
        exact (Option.some.inj hlink).symm
      have hrp : r = p := parReach_none (hbp ▸ hrest) hpn
      rw [if_pos hrp, haz]
      exact Relation.ReflTransGen.refl
    · have hap : a ≠ p := by
        intro hc
        rw [hc, hpn] at hlink
        cases hlink
      refine Relation.ReflTransGen.head ?_ (ih hrn)
      show (if a = p then some z else if a = z then none else par a) = some b
      rw [if_neg hap, if_neg haz]
      exact hlink

theorem ghost_flip {w h : Nat} {f : Nat → Bool} {V : Finset Node}
    {par : Node → Option Node} {dpt : Node → Nat} {R : Finset Node}
    (hg : GhostForest w h f V par dpt R) {p z : Node}
    (hp : p ∈ R) (hzp : par z = some p) :
    GhostForest w h f V
      (fun x => if x = p then some z else if x = z then none else par x)
      (fun x => if x = z then 0 else dpt x + dpt z + 1)
      (insert z (R.erase p)) ∧
    (∀ u v, GhostSame par u v ↔
      GhostSame (fun x => if x = p then some z else if x = z then none else par x)
        u v) := by
  obtain ⟨⟨hF1, hF2, hF3⟩, hRV, hroot, hreach⟩ := hg
  obtain ⟨hzV, hpV, hadjpz, hlt⟩ := hF2 z p hzp
  have hpn : par p = none := (hroot p (hRV hp)).mpr hp
  have hpz : p ≠ z := by
    intro hc
    rw [hc] at hpn
    rw [hpn] at hzp
    cases hzp
  have hpn2 : (fun x => if x = p then some z else if x = z then none else par x) p
      = some z := by
    show (if p = p then some z else if p = z then none else par p) = some z
    rw [if_pos rfl]
  have hzn2 : (fun x => if x = p then some z else if x = z then none else par x) z
      = none := by
    show (if z = p then some z else if z = z then none else par z) = none
    rw [if_neg (fun hc => hpz hc.symm), if_pos rfl]
  refine ⟨⟨⟨hF1, ?_, ?_⟩, ?_, ?_, ?_⟩, ?_⟩
  · intro n q hnq
    have hnq2 : (if n = p then some z else if n = z then none else par n) = some q :=
      hnq
    by_cases hnp : n = p
    · rw [if_pos hnp] at hnq2
      have hqz : q = z := (Option.some.inj hnq2).symm
      rw [hqz, hnp]
      refine ⟨hpV, hzV, openAdj_symmB hadjpz (hF1 p hpV), ?_⟩
      show (if z = z then 0 else dpt z + dpt z + 1) <
        (if p = z then 0 else dpt p + dpt z + 1)
      rw [if_pos rfl, if_neg hpz]
      omega
    · rw [if_neg hnp] at hnq2
      by_cases hnz : n = z
      · rw [if_pos hnz] at hnq2
        cases hnq2
      · rw [if_neg hnz] at hnq2
        obtain ⟨hnV, hqV, hadj, hdlt⟩ := hF2 n q hnq2
        refine ⟨hnV, hqV, hadj, ?_⟩
        show (if q = z then 0 else dpt q + dpt z + 1) <
          (if n = z then 0 else dpt n + dpt z + 1)
        rw [if_neg hnz]
        by_cases hqz : q = z
        · rw [if_pos hqz]
          omega
        · rw [if_neg hqz]
          omega
  · intro u v hadj
    rcases hF3 u v hadj with hc | hc
    · by_cases huz : u = z
      · have hvp : v = p := by
          rw [huz, hzp] at hc
          exact (Option.some.inj hc).symm
        right
        show (if v = p then some z else if v = z then none else par v) = some u
        rw [if_pos hvp, huz]
      · have hup : u ≠ p := by
          intro hc2
          rw [hc2, hpn] at hc
          cases hc
        left
        show (if u = p then some z else if u = z then none else par u) = some v
        rw [if_neg hup, if_neg huz]
        exact hc
    · by_cases hvz : v = z
      · have hup : u = p := by
          rw [hvz, hzp] at hc
          exact (Option.some.inj hc).symm
        left
        show (if u = p then some z else if u = z then none else par u) = some v
        rw [if_pos hup, hvz]
      · have hvp : v ≠ p := by
          intro hc2
          rw [hc2, hpn] at hc
          cases hc
        right
        show (if v = p then some z else if v = z then none else par v) = some u
        rw [if_neg hvp, if_neg hvz]
        exact hc
  · intro x hx
    rcases Finset.mem_insert.mp hx with rfl | hx2
    · exact hzV
    · exact hRV (Finset.mem_of_mem_erase hx2)
  · intro n hn
    by_cases hnp : n = p
    · subst hnp
      constructor
      · intro hc
        rw [hpn2] at hc
        cases hc
      · intro hc
        rcases Finset.mem_insert.mp hc with hc2 | hc2
        · exact absurd hc2 hpz
        · exact absurd rfl (Finset.mem_erase.mp hc2).1
    · by_cases hnz : n = z
      · subst hnz
        constructor
        · intro hc
          exact Finset.mem_insert_self _ _
        · intro hc
          exact hzn2
      · have heq : (fun x => if x = p then some z else if x = z then none else par x) n
            = par n := by
          show (if n = p then some z else if n = z then none else par n) = par n
          rw [if_neg hnp, if_neg hnz]
        rw [heq]
        rw [hroot n hn]
        constructor
        · intro hc
          exact Finset.mem_insert_of_mem (Finset.mem_erase.mpr ⟨hnp, hc⟩)
        · intro hc
          rcases Finset.mem_insert.mp hc with hc2 | hc2
          · exact absurd hc2 hnz
          · exact (Finset.mem_erase.mp hc2).2
  · intro n hn
    obtain ⟨r, hrR, hnr⟩ := hreach n hn
    have hrn : par r = none := (hroot r (hRV hrR)).mpr hrR
    have hflip := parReach_flip hzp hpn hnr hrn
    by_cases hrp : r = p
    · rw [if_pos hrp] at hflip
      exact ⟨z, Finset.mem_insert_self _ _, hflip⟩
    · rw [if_neg hrp] at hflip
      exact ⟨r, Finset.mem_insert_of_mem (Finset.mem_erase.mpr ⟨hrp, hrR⟩), hflip⟩
  · intro u v
    constructor
    · rintro ⟨g, hug, hvg, hgn⟩
      have h1 := parReach_flip hzp hpn hug hgn
      have h2 := parReach_flip hzp hpn hvg hgn
      by_cases hgp : g = p
      · rw [if_pos hgp] at h1 h2
        exact ⟨z, h1, h2, hzn2⟩
      · rw [if_neg hgp] at h1 h2
        refine ⟨g, h1, h2, ?_⟩
        show (if g = p then some z else if g = z then none else par g) = none
        rw [if_neg hgp]
        by_cases hgz : g = z
        · rw [if_pos hgz]
        · rw [if_neg hgz]
          exact hgn
    · rintro ⟨g, hug, hvg, hgn⟩
      have hback : (fun x2 => if x2 = z then some p else if x2 = p then none else
          (fun x3 => if x3 = p then some z else if x3 = z then none else par x3) x2)
          = par := by
        funext x2
        by_cases h1 : x2 = z
        · rw [if_pos h1, h1, hzp]
        · rw [if_neg h1]
          by_cases h2 : x2 = p
          · rw [if_pos h2, h2, hpn]
          · rw [if_neg h2]
            show (if x2 = p then some z else if x2 = z then none else par x2) = par x2
            rw [if_neg h2, if_neg h1]
      have h1 := parReach_flip hpn2 hzn2 hug hgn
      have h2 := parReach_flip hpn2 hzn2 hvg hgn
      rw [hback] at h1 h2
      by_cases hgz : g = z
      · rw [if_pos hgz] at h1 h2
        exact ⟨p, h1, h2, hpn⟩
      · rw [if_neg hgz] at h1 h2
        refine ⟨g, h1, h2, ?_⟩
        have hgp : g ≠ p := by
          intro hc
          rw [hc, hpn2] at hgn
          cases hgn
        have h3 : (if g = p then some z else if g = z then none else par g) = none :=
          hgn
        rw [if_neg hgp, if_neg hgz] at h3
        exact h3

theorem ghost_reroot {w h : Nat} {f : Nat → Bool} {V : Finset Node} :
    ∀ (k : Nat) (par : Node → Option Node) (dpt : Node → Nat) (R : Finset Node)
      (z : Node), GhostForest w h f V par dpt R → z ∈ V → dpt z ≤ k →
      ∃ par2 dpt2 g, g ∈ R ∧ ParReach par z g ∧
        GhostForest w h f V par2 dpt2 (insert z (R.erase g)) ∧
        par2 z = none ∧
        (∀ x : Node, dpt z < dpt x → par2 x = par x) ∧
        (∀ u v, GhostSame par u v ↔ GhostSame par2 u v) := by
  intro k
  induction k with
  | zero =>
    intro par dpt R z hg hz hk
    cases hpz : par z with
    | none =>
      have hzR : z ∈ R := (hg.2.2.1 z hz).mp hpz
      refine ⟨par, dpt, z, hzR, Relation.ReflTransGen.refl, ?_, hpz,
        fun x _ => rfl, fun u v => Iff.rfl⟩
      rw [Finset.insert_erase hzR]
      exact hg
    | some p =>
      exfalso
      have := (hg.1.2.1 z p hpz).2.2.2
      omega
  | succ k ih =>
    intro par dpt R z hg hz hk
    cases hpz : par z with
    | none =>
      have hzR : z ∈ R := (hg.2.2.1 z hz).mp hpz
      refine ⟨par, dpt, z, hzR, Relation.ReflTransGen.refl, ?_, hpz,
        fun x _ => rfl, fun u v => Iff.rfl⟩
      rw [Finset.insert_erase hzR]
      exact hg
    | some p =>
      obtain ⟨hzV, hpV, hadj, hlt⟩ := hg.1.2.1 z p hpz
      obtain ⟨par2, dpt2, g, hgR, hgreach, hg2, hp2n, hpay, hsame⟩ :=
        ih par dpt R p hg hpV (by omega)
      have hz2 : par2 z = some p := by
        rw [hpay z hlt]
        exact hpz
      obtain ⟨hgf3, hsame3⟩ :=
        ghost_flip hg2 (Finset.mem_insert_self p (R.erase g)) hz2
      have hpnotin : p ∉ R.erase g := by
        by_cases hpR : p ∈ R
        · have hpnone : par p = none := (hg.2.2.1 p hpV).mpr hpR
          have hgp : g = p := parReach_none hgreach hpnone
          rw [hgp]
          simp
        · intro hc
          exact hpR (Finset.mem_of_mem_erase hc)
      have hRe : (insert p (R.erase g)).erase p = R.erase g :=
        Finset.erase_insert hpnotin
      rw [hRe] at hgf3
      have hzp2 : z ≠ p := by
        intro hc
        rw [hc] at hlt
        omega
      refine ⟨_, _, g, hgR, Relation.ReflTransGen.head hpz hgreach, hgf3, ?_, ?_, ?_⟩
      · show (if z = p then some z else if z = z then none else par2 z) = none
        rw [if_neg hzp2, if_pos rfl]
      · intro x hx
        show (if x = p then some z else if x = z then none else par2 x) = par x
        have hxp : x ≠ p := by
          intro hc
          rw [hc] at hx
          omega
        have hxz : x ≠ z := by
          intro hc
          rw [hc] at hx
          omega
        rw [if_neg hxp, if_neg hxz]
        exact hpay x (by omega)
      · intro u v
        exact (hsame u v).trans (hsame3 u v)

theorem parReach_through {par : Node → Option Node} {y z : Node}
    (hzn : par z = none) :
    ∀ {x r2 : Node},
      ParReach (fun x2 => if x2 = z then some y else par x2) x r2 →
      (fun x2 => if x2 = z then some y else par x2) r2 = none →
      (¬ ParReach par x z → ParReach par x r2) ∧
      (ParReach par x z → ParReach par y r2) := by
  intro x r2 hx
  induction hx using Relation.ReflTransGen.head_induction_on with
  | refl =>
    intro hr2
    have hr2z : r2 ≠ z := by
      intro hc
      have h3 : (if r2 = z then some y else par r2) = none := hr2
      rw [if_pos hc] at h3
      cases h3
    have hpr2 : par r2 = none := by
      have h3 : (if r2 = z then some y else par r2) = none := hr2
      rw [if_neg hr2z] at h3
      exact h3
    constructor
    · intro hnxz
      exact Relation.ReflTransGen.refl
    · intro hxz
      exact absurd (parReach_none hxz hpr2).symm hr2z
  | head hlink hrest ih =>
    rename_i a b
    intro hr2
    obtain ⟨h1, h2⟩ := ih hr2
    by_cases haz : a = z
    · have hby : b = y := by
        have h3 : (if a = z then some y else par a) = some b := hlink
        rw [if_pos haz] at h3
        exact (Option.some.inj h3).symm
      constructor
      · intro hnaz
        refine absurd ?_ hnaz
        rw [haz]
        exact Relation.ReflTransGen.refl
      · intro haz2
        by_cases hyz : ParReach par b z
        · exact hby ▸ h2 hyz
        · exact hby ▸ h1 hyz
    · have hpab : par a = some b := by
        have h3 : (if a = z then some y else par a) = some b := hlink
        rw [if_neg haz] at h3
        exact h3
      constructor
      · intro hnaz
        have hnbz : ¬ ParReach par b z := fun hc =>
          hnaz (Relation.ReflTransGen.head hpab hc)
        exact Relation.ReflTransGen.head hpab (h1 hnbz)
      · intro haz2
        have hbz : ParReach par b z := by
          rcases Relation.ReflTransGen.cases_head haz2 with heq | ⟨c, hc, hrest2⟩
          · exact absurd heq haz
          · rw [hpab] at hc
            obtain rfl := Option.some.inj hc
            exact hrest2
        exact h2 hbz

theorem ghost_link {w h : Nat} {f : Nat → Bool} {V : Finset Node}
    {par : Node → Option Node} {dpt : Node → Nat} {R : Finset Node}
    (hg : GhostForest w h f V par dpt R)
    {n0 : Node} {d0 : Direction} {e : Edge}
    (hme : mazeEdge w h n0 d0 = some e) (hn0 : validNode w h n0 = true)
    {y z : Node}
    (hyz : (y = e.efrom ∧ z = e.eto) ∨ (y = e.eto ∧ z = e.efrom))
    (hyV : y ∈ V) (hzV : z ∈ V) (hzR : z ∈ R)
    (hnyz : ¬ ParReach par y z) :
    ∃ dpt2, GhostForest w h (updB f (normaliseE w e) true) V
      (fun x => if x = z then some y else par x) dpt2 (R.erase z) ∧
    (∀ u v, GhostSame (fun x => if x = z then some y else par x) u v ↔
      (GhostSame par u v ∨ (GhostSame par u y ∧ GhostSame par v z) ∨
        (GhostSame par u z ∧ GhostSame par v y))) := by
  classical
  obtain ⟨⟨hF1, hF2, hF3⟩, hRV, hroot, hreach⟩ := hg
  have hzn : par z = none := (hroot z hzV).mpr hzR
  have hlinks : ∀ a b, par a = some b →
      (fun x => if x = z then some y else par x) a = some b := by
    intro a b hab
    have haz : a ≠ z := by
      intro hc
      rw [hc, hzn] at hab
      cases hab
    show (if a = z then some y else par a) = some b
    rw [if_neg haz]
    exact hab
  have hz2y : (fun x => if x = z then some y else par x) z = some y := by
    show (if z = z then some y else par z) = some y
    rw [if_pos rfl]
  obtain ⟨gy, hgyR, hygy⟩ := hreach y hyV
  have hgyn : par gy = none := (hroot gy (hRV hgyR)).mpr hgyR
  have hgyz : gy ≠ z := by
    intro hc
    rw [hc] at hygy
    exact hnyz hygy
  have hadjself := @setOpen_adj_self w h f n0 d0 e hme hn0
  have hadjyz : openAdjB w h (updB f (normaliseE w e) true) y z = true := by
    rcases hyz with ⟨rfl, rfl⟩ | ⟨rfl, rfl⟩
    · exact hadjself.1
    · exact hadjself.2
  refine ⟨fun x => if ParReach par x z then dpt x + dpt y + 1 else dpt x,
    ⟨⟨hF1, ?_, ?_⟩, ?_, ?_, ?_⟩, ?_⟩
  · intro n q hnq
    have hnq2 : (if n = z then some y else par n) = some q := hnq
    by_cases hnz : n = z
    · rw [if_pos hnz] at hnq2
      have hqy : q = y := (Option.some.inj hnq2).symm
      rw [hqy, hnz]
      refine ⟨hzV, hyV, hadjyz, ?_⟩
      show (if ParReach par y z then dpt y + dpt y + 1 else dpt y) <
        (if ParReach par z z then dpt z + dpt y + 1 else dpt z)
      rw [if_neg hnyz, if_pos (show ParReach par z z from Relation.ReflTransGen.refl)]
      omega
    · rw [if_neg hnz] at hnq2
      obtain ⟨hnV, hqV, hadj, hdlt⟩ := hF2 n q hnq2
      refine ⟨hnV, hqV, openAdj_mono updB_mono hadj, ?_⟩
      show (if ParReach par q z then dpt q + dpt y + 1 else dpt q) <
        (if ParReach par n z then dpt n + dpt y + 1 else dpt n)
      by_cases hqz : ParReach par q z
      · rw [if_pos hqz,
          if_pos (show ParReach par n z from Relation.ReflTransGen.head hnq2 hqz)]
        omega
      · have hnz2 : ¬ ParReach par n z := by
          intro hc
          rcases Relation.ReflTransGen.cases_head hc with heq | ⟨c, hc2, hrest2⟩
          · exact hnz heq
          · rw [hnq2] at hc2
            obtain rfl := Option.some.inj hc2
            exact hqz hrest2
        rw [if_neg hqz, if_neg hnz2]
        exact hdlt
  · intro u v hadj
    rcases setOpen_adj_cases hme hadj with hold | hnew
    · rcases hF3 u v hold with hc | hc
      · left
        exact hlinks u v hc
      · right
        exact hlinks v u hc
    · have hcases : (u = y ∧ v = z) ∨ (u = z ∧ v = y) := by
        rcases hyz with ⟨hy2, hz2⟩ | ⟨hy2, hz2⟩ <;>
          rcases hnew with ⟨hu2, hv2⟩ | ⟨hu2, hv2⟩
        · exact Or.inl ⟨by rw [hu2, hy2], by rw [hv2, hz2]⟩
        · exact Or.inr ⟨by rw [hu2, hz2], by rw [hv2, hy2]⟩
        · exact Or.inr ⟨by rw [hu2, hz2], by rw [hv2, hy2]⟩
        · exact Or.inl ⟨by rw [hu2, hy2], by rw [hv2, hz2]⟩
      rcases hcases with ⟨rfl, rfl⟩ | ⟨rfl, rfl⟩
      · right
        exact hz2y
      · left
        exact hz2y
  · intro x hx
    exact hRV (Finset.mem_of_mem_erase hx)
  · intro n hn
    by_cases hnz : n = z
    · subst hnz
      constructor
      · intro hc
        rw [hz2y] at hc
        cases hc
      · intro hc
        exact absurd rfl (Finset.mem_erase.mp hc).1
    · have heq : (fun x => if x = z then some y else par x) n = par n := by
        show (if n = z then some y else par n) = par n
        rw [if_neg hnz]
      rw [heq, hroot n hn]
      constructor
      · intro hc
        exact Finset.mem_erase.mpr ⟨hnz, hc⟩
      · intro hc
        exact (Finset.mem_erase.mp hc).2
  · intro n hn
    obtain ⟨r, hrR, hnr⟩ := hreach n hn
    have hrn : par r = none := (hroot r (hRV hrR)).mpr hrR
    by_cases hrz : r = z
    · subst hrz
      refine ⟨gy, Finset.mem_erase.mpr ⟨hgyz, hgyR⟩, ?_⟩
      refine Relation.ReflTransGen.trans (parReach_congr hlinks hnr) ?_
      refine Relation.ReflTransGen.head hz2y (parReach_congr hlinks hygy)
    · exact ⟨r, Finset.mem_erase.mpr ⟨hrz, hrR⟩, parReach_congr hlinks hnr⟩
  · intro u v
    constructor
    · rintro ⟨g, hug, hvg, hgn⟩
      have hgz : g ≠ z := by
        intro hc
        rw [hc, hz2y] at hgn
        cases hgn
      have hgn2 : par g = none := by
        have h3 : (if g = z then some y else par g) = none := hgn
        rw [if_neg hgz] at h3
        exact h3
      obtain ⟨hu1, hu2⟩ := parReach_through hzn hug hgn
      obtain ⟨hv1, hv2⟩ := parReach_through hzn hvg hgn
      by_cases hcu : ParReach par u z <;> by_cases hcv : ParReach par v z
      · exact Or.inl ⟨z, hcu, hcv, hzn⟩
      · exact Or.inr (Or.inr ⟨⟨z, hcu, Relation.ReflTransGen.refl, hzn⟩,
          ⟨g, hv1 hcv, hu2 hcu, hgn2⟩⟩)
      · exact Or.inr (Or.inl ⟨⟨g, hu1 hcu, hv2 hcv, hgn2⟩,
          ⟨z, hcv, Relation.ReflTransGen.refl, hzn⟩⟩)
      · exact Or.inl ⟨g, hu1 hcu, hv1 hcv, hgn2⟩
    · have hthrough : ∀ x : Node, ParReach par x z →
          ParReach (fun x2 => if x2 = z then some y else par x2) x gy := by
        intro x hx
        refine Relation.ReflTransGen.trans (parReach_congr hlinks hx) ?_
        exact Relation.ReflTransGen.head hz2y (parReach_congr hlinks hygy)
      have hgy2 : (fun x2 => if x2 = z then some y else par x2) gy = none := by
        show (if gy = z then some y else par gy) = none
        rw [if_neg hgyz]
        exact hgyn
      rintro (⟨g, hug, hvg, hgn⟩ | ⟨⟨g, hug, hyg, hgn⟩, hvz⟩ |
        ⟨huz, ⟨g, hvg, hyg, hgn⟩⟩)
      · by_cases hgz : g = z
        · subst hgz
          exact ⟨gy, hthrough u hug, hthrough v hvg, hgy2⟩
        · refine ⟨g, parReach_congr hlinks hug, parReach_congr hlinks hvg, ?_⟩
          show (if g = z then some y else par g) = none
          rw [if_neg hgz]
          exact hgn
      · have hgz : g ≠ z := by
          intro hc
          rw [hc] at hyg
          exact hnyz hyg
        have hvz2 : ParReach par v z := (ghostSame_root hzn).mp hvz
        refine ⟨g, parReach_congr hlinks hug, ?_, ?_⟩
        · refine Relation.ReflTransGen.trans (parReach_congr hlinks hvz2) ?_
          exact Relation.ReflTransGen.head hz2y (parReach_congr hlinks hyg)
        · show (if g = z then some y else par g) = none
          rw [if_neg hgz]
          exact hgn
      · have hgz : g ≠ z := by
          intro hc
          rw [hc] at hyg
          exact hnyz hyg
        have huz2 : ParReach par u z := (ghostSame_root hzn).mp huz
        refine ⟨g, ?_, parReach_congr hlinks hvg, ?_⟩
        · refine Relation.ReflTransGen.trans (parReach_congr hlinks huz2) ?_
          exact Relation.ReflTransGen.head hz2y (parReach_congr hlinks hyg)
        · show (if g = z then some y else par g) = none
          rw [if_neg hgz]
          exact hgn

/-! #### Kruskal: the step recursion and the run -/

theorem ghost_single_root {w h : Nat} {f : Nat → Bool} {par : Node → Option Node}
    {dpt : Node → Nat} {R : Finset Node} (hw : 0 < w) (hh : 0 < h)
    (hg : GhostForest w h f (nodesList w h).toFinset par dpt R)
    (hall : ∀ pe ∈ edgesList w h, GhostSame par pe.efrom pe.eto) :
    ∃ r, GhostForest w h f (nodesList w h).toFinset par dpt {r} := by
  obtain ⟨⟨hF1, hF2, hF3⟩, hRV, hroot, hreach⟩ := hg
  have hu0 : validNode w h ((0, 0) : Node) = true := by
    simp [validNode]
    omega
  have hu0V : ((0, 0) : Node) ∈ (nodesList w h).toFinset :=
    List.mem_toFinset.mpr (nodesList_mem.mpr hu0)
  obtain ⟨r0, hr0R, hreach0⟩ := hreach (0, 0) hu0V
  have hr0n : par r0 = none := (hroot r0 (hRV hr0R)).mpr hr0R
  have hclosed : ∀ v : Node, validNode w h v = true →
      GhostSame par (0, 0) v →
      ∀ e2 ∈ neighboursL w h v, GhostSame par (0, 0) e2.eto := by
    intro v hv hS e2 he2
    obtain ⟨d2, hme2⟩ := neighboursL_mem.mp he2
    obtain ⟨pe, hpe, -, hends⟩ := edgesList_canon hme2 hv
    have hfrome2 : e2.efrom = v := (mazeEdge_fields hme2).1
    have hpeS := hall pe hpe
    have hS2 : GhostSame par v e2.eto := by
      rcases hends with ⟨ha, hb⟩ | ⟨ha, hb⟩
      · rw [ha, hfrome2] at hpeS
        rw [hb] at hpeS
        exact hpeS
      · rw [hb, hfrome2] at hpeS
        rw [ha] at hpeS
        exact ghostSame_symm hpeS
    exact ghostSame_trans hS hS2
  have hS0 : GhostSame par (0, 0) (0, 0) := ⟨r0, hreach0, hreach0, hr0n⟩
  have hallS : ∀ v : Node, validNode w h v = true → GhostSame par (0, 0) v := by
    intro v hv
    refine lattice_fill
      (S := fun v2 => GhostSame par (0, 0) v2)
      hclosed (w + w + h + h) (0, 0) hu0 hS0 v hv ?_
    have h1 := valid_fst hv
    have h2 := valid_snd hv
    omega
  have hRsub : ∀ r2 ∈ R, r2 = r0 := by
    intro r2 hr2
    have hr2V : r2 ∈ (nodesList w h).toFinset := hRV hr2
    have hr2v : validNode w h r2 = true := hF1 r2 hr2V
    have hr2n : par r2 = none := (hroot r2 hr2V).mpr hr2
    obtain ⟨g, h1, h2, hgn⟩ := hallS r2 hr2v
    have hgr2 : g = r2 := parReach_none h2 hr2n
    rw [hgr2] at h1
    exact parReach_unique (0, 0) r2 r0 h1 hr2n hreach0 hr0n
  have hr0 : R = {r0} := by
    ext x
    rw [Finset.mem_singleton]
    constructor
    · intro hx
      exact hRsub x hx
    · intro hx
      rw [hx]
      exact hr0R
  rw [hr0] at hRV hroot hreach
  exact ⟨r0, ⟨hF1, hF2, hF3⟩, hRV, hroot, hreach⟩

theorem kruskalGo_spec {w h : Nat} :
    ∀ (q : List Edge) (gs : GState) (pars : Nat → Node),
      UFInvD w h pars →
      (∀ e ∈ q, EdgeOK w h e) →
      OpenWF w h gs.openb →
      (∀ pe ∈ edgesList w h, pe ∈ q ∨ UFSame w pars pe.efrom pe.eto) →
      (∃ par dpt R, GhostForest w h gs.openb (nodesList w h).toFinset par dpt R ∧
        (∀ u v : Node, validNode w h u = true → validNode w h v = true →
          (UFSame w pars u v ↔ GhostSame par u v))) →
      UFInvD w h (kruskalGo w h gs pars q).2.1 ∧
      (∀ e ∈ (kruskalGo w h gs pars q).2.2.1, EdgeOK w h e) ∧
      OpenWF w h (kruskalGo w h gs pars q).1.openb ∧
      (∀ pe ∈ edgesList w h, pe ∈ (kruskalGo w h gs pars q).2.2.1 ∨
        UFSame w (kruskalGo w h gs pars q).2.1 pe.efrom pe.eto) ∧
      (∃ par dpt R, GhostForest w h (kruskalGo w h gs pars q).1.openb
          (nodesList w h).toFinset par dpt R ∧
        (∀ u v : Node, validNode w h u = true → validNode w h v = true →
          (UFSame w (kruskalGo w h gs pars q).2.1 u v ↔ GhostSame par u v))) ∧
      ((kruskalGo w h gs pars q).2.2.2 = Signal.done →
        (kruskalGo w h gs pars q).2.2.1 = []) := by
  intro q
  induction q with
  | nil =>
    intro gs pars hinv hq hwf h4 hghost
    refine ⟨hinv, ?_, hwf, ?_, hghost, fun _ => rfl⟩
    · intro e2 he2
      cases (show e2 ∈ ([] : List Edge) from he2)
    · intro pe hpe
      rcases h4 pe hpe with hc | hc
      · cases hc
      · exact Or.inr hc
  | cons e rest ih =>
    intro gs pars hinv hq hwf h4 hghost
    obtain ⟨n, d, hnv, hme⟩ := hq e (by simp)
    have hefv : validNode w h e.efrom = true := by
      rw [(mazeEdge_fields hme).1]
      exact hnv
    have hetov : validNode w h e.eto = true := (mazeEdge_fields hme).2.2
    obtain ⟨hinv1, hroot1, hval1, hpres1⟩ := findRoot_spec hinv hefv
    obtain ⟨hinv2, hroot2, hval2, hpres2⟩ := findRoot_spec hinv1 hetov
    have hrest : ∀ e' ∈ rest, EdgeOK w h e' := fun e' he' => hq e' (by simp [he'])
    have hRa0 : RootOf w pars e.efrom (findRootF w (w * h) pars e.efrom).2 :=
      findRootF_RootOf hinv hefv
    have hRb0 : RootOf w (findRootF w (w * h) pars e.efrom).1 e.eto
        (findRootF w (w * h) (findRootF w (w * h) pars e.efrom).1 e.eto).2 :=
      findRootF_RootOf hinv1 hetov
    have hRa1 : RootOf w (findRootF w (w * h) pars e.efrom).1 e.efrom
        (findRootF w (w * h) pars e.efrom).2 :=
      compress_RootOf hinv hefv hefv hRa0
    have hRa2 : RootOf w
        (findRootF w (w * h) (findRootF w (w * h) pars e.efrom).1 e.eto).1 e.efrom
        (findRootF w (w * h) pars e.efrom).2 :=
      compress_RootOf hinv1 hetov hefv hRa1
    have hRb2 : RootOf w
        (findRootF w (w * h) (findRootF w (w * h) pars e.efrom).1 e.eto).1 e.eto
        (findRootF w (w * h) (findRootF w (w * h) pars e.efrom).1 e.eto).2 :=
      compress_RootOf hinv1 hetov hetov hRb0
    have hra : IsRootP w
        (findRootF w (w * h) (findRootF w (w * h) pars e.efrom).1 e.eto).1
        (findRootF w (w * h) pars e.efrom).2 :=
      hpres2 _ hval1 hroot1
    have hRpeto : RootOf w pars e.eto
        (findRootF w (w * h) (findRootF w (w * h) pars e.efrom).1 e.eto).2 := by
      obtain ⟨re, hre⟩ := rootOf_exists hinv hetov
      have hre1 : RootOf w (findRootF w (w * h) pars e.efrom).1 e.eto re :=
        compress_RootOf hinv hefv hetov hre
      obtain rfl := rootOf_unique hRb0 hre1
      exact hre
    unfold kruskalGo
    by_cases heq : (findRootF w (w * h) (findRootF w (w * h) pars e.efrom).1 e.eto).2 =
        (findRootF w (w * h) pars e.efrom).2
    · rw [if_pos heq]
      refine ih gs _ hinv2 hrest hwf ?_ ?_
      · intro pe hpe
        rcases h4 pe hpe with hc | hc
        · rcases List.mem_cons.mp hc with rfl | hc2
          · exact Or.inr ⟨(findRootF w (w * h) pars pe.efrom).2, hRa2, heq ▸ hRb2⟩
          · exact Or.inl hc2
        · obtain ⟨n2, d2, hn2v, hme2⟩ := edgesList_mem_ok hpe
          have hpef : validNode w h pe.efrom = true := by
            rw [(mazeEdge_fields hme2).1]
            exact hn2v
          have hpet := (mazeEdge_fields hme2).2.2
          refine Or.inr ?_
          rw [compress_UFSame hinv1 hetov hpef hpet,
            compress_UFSame hinv hefv hpef hpet]
          exact hc
      · obtain ⟨par, dpt, R, hgf, hcorr⟩ := hghost
        refine ⟨par, dpt, R, hgf, ?_⟩
        intro u v hu hv
        rw [compress_UFSame hinv1 hetov hu hv, compress_UFSame hinv hefv hu hv]
        exact hcorr u v hu hv
    · rw [if_neg heq]
      have hab : (findRootF w (w * h) pars e.efrom).2 ≠
          (findRootF w (w * h) (findRootF w (w * h) pars e.efrom).1 e.eto).2 :=
        fun hc => heq hc.symm
      have hnsame : ¬ UFSame w pars e.efrom e.eto := by
        rintro ⟨r, h1', h2'⟩
        obtain rfl := rootOf_unique h1' hRa0
        exact heq (rootOf_unique h2' hRpeto).symm
      obtain ⟨par, dpt, R, hgf, hcorr⟩ := hghost
      have hefromV : e.efrom ∈ (nodesList w h).toFinset :=
        List.mem_toFinset.mpr (nodesList_mem.mpr hefv)
      have hetoV : e.eto ∈ (nodesList w h).toFinset :=
        List.mem_toFinset.mpr (nodesList_mem.mpr hetov)
      obtain ⟨par2, dpt2, g, hgR, hgreach, hgf2, hz2none, hpay, hsame2⟩ :=
        ghost_reroot (dpt e.eto) par dpt R e.eto hgf hetoV le_rfl
      have hnreach : ¬ ParReach par2 e.efrom e.eto := by
        intro hc
        have hgsame2 : GhostSame par2 e.efrom e.eto :=
          (ghostSame_root hz2none).mpr hc
        have hgsame : GhostSame par e.efrom e.eto :=
          (hsame2 e.efrom e.eto).mpr hgsame2
        exact hnsame ((hcorr e.efrom e.eto hefv hetov).mpr hgsame)
      obtain ⟨dpt3, hgf3, hsame3⟩ :=
        ghost_link hgf2 hme hnv (Or.inl ⟨rfl, rfl⟩) hefromV hetoV
          (Finset.mem_insert_self e.eto (R.erase g)) hnreach
      have hUG : ∀ a b : Node, validNode w h a = true → validNode w h b = true →
          (UFSame w (findRootF w (w * h) (findRootF w (w * h) pars e.efrom).1 e.eto).1
            a b ↔ GhostSame par2 a b) := by
        intro a b ha hb
        rw [compress_UFSame hinv1 hetov ha hb, compress_UFSame hinv hefv ha hb]
        exact (hcorr a b ha hb).trans (hsame2 a b)
      have hiffA : ∀ x : Node, validNode w h x = true →
          (RootOf w (findRootF w (w * h) (findRootF w (w * h) pars e.efrom).1 e.eto).1
            x (findRootF w (w * h) pars e.efrom).2 ↔
          UFSame w (findRootF w (w * h) (findRootF w (w * h) pars e.efrom).1 e.eto).1
            x e.efrom) := by
        intro x hx
        constructor
        · intro h1'
          exact ⟨_, h1', hRa2⟩
        · rintro ⟨r, h1', h2'⟩
          obtain rfl := rootOf_unique h2' hRa2
          exact h1'
      have hiffB : ∀ x : Node, validNode w h x = true →
          (RootOf w (findRootF w (w * h) (findRootF w (w * h) pars e.efrom).1 e.eto).1
            x (findRootF w (w * h) (findRootF w (w * h) pars e.efrom).1 e.eto).2 ↔
          UFSame w (findRootF w (w * h) (findRootF w (w * h) pars e.efrom).1 e.eto).1
            x e.eto) := by
        intro x hx
        constructor
        · intro h1'
          exact ⟨_, h1', hRb2⟩
        · rintro ⟨r, h1', h2'⟩
          obtain rfl := rootOf_unique h2' hRb2
          exact h1'
      refine ⟨?_, hrest, ?_, ?_, ?_, ?_⟩
      · exact union_UFInv hinv2 hval1 hval2 hra hroot2 (fun hc => heq hc.symm)
      · exact openWF_setOpen hwf hme hnv
      · intro pe hpe
        rcases h4 pe hpe with hc | hc
        · rcases List.mem_cons.mp hc with rfl | hc2
          · refine Or.inr ⟨(findRootF w (w * h)
              (findRootF w (w * h) pars pe.efrom).1 pe.eto).2, ?_, ?_⟩
            · exact union_RootOf_move hinv2 hval1 hval2 hra hroot2 hab hefv hRa2
            · exact union_RootOf_keep hinv2 hval1 hra hetov hRb2
                (fun hc3 => heq hc3)
          · exact Or.inl hc2
        · obtain ⟨n2, d2, hn2v, hme2⟩ := edgesList_mem_ok hpe
          have hpef : validNode w h pe.efrom = true := by
            rw [(mazeEdge_fields hme2).1]
            exact hn2v
          have hpet := (mazeEdge_fields hme2).2.2
          refine Or.inr ?_
          rw [union_UFSame hinv2 hval1 hval2 hra hroot2 hab hpef hpet]
          refine Or.inl ?_
          rw [compress_UFSame hinv1 hetov hpef hpet,
            compress_UFSame hinv hefv hpef hpet]
          exact hc
      · refine ⟨_, dpt3, _, hgf3, ?_⟩
        intro u v hu hv
        rw [union_UFSame hinv2 hval1 hval2 hra hroot2 hab hu hv, hsame3 u v]
        have h1 := hUG u v hu hv
        have h2 := (hiffA u hu).trans (hUG u e.efrom hu hefv)
        have h3 := (hiffB v hv).trans (hUG v e.eto hv hetov)
        have h4' := (hiffB u hu).trans (hUG u e.eto hu hetov)
        have h5 := (hiffA v hv).trans (hUG v e.efrom hv hefv)
        tauto
      · intro hc
        exact Signal.noConfusion hc

theorem kruskalStep_inv {w h : Nat} {s : KrusState}
    (hs : KrusInv w h s) : KrusInv w h (kruskalStep w h s ()).1 := by
  obtain ⟨hinv, hq, hwf, h4, par, dpt, R, hgf, hcorr⟩ := hs
  obtain ⟨h1, h2, h3, h5, h6, -⟩ :=
    kruskalGo_spec s.queue s.gs s.pars hinv hq hwf h4 ⟨par, dpt, R, hgf, hcorr⟩
  exact ⟨h1, h2, h3, h5, h6⟩

theorem krusTick_inv {w h : Nat} {s : KrusState}
    (hs : KrusInv w h s) : KrusInv w h (krusTick s) := by
  obtain ⟨hinv, hq, hwf, h4, par, dpt, R, hgf, hcorr⟩ := hs
  exact ⟨hinv, hq, hwf, h4, par, dpt, R, hgf, hcorr⟩

theorem kruskalStep_done {w h : Nat} (hw : 0 < w) (hh : 0 < h) {s : KrusState}
    {s1 : KrusState} (hs : KrusInv w h s)
    (hdone : kruskalStep w h s () = (s1, Signal.done)) :
    SpanningTreeG w h s1.gs.openb := by
  obtain ⟨hinv, hq, hwf, h4, par, dpt, R, hgf, hcorr⟩ := hs
  obtain ⟨h1, h2, h3, h5, ⟨par2, dpt2, R2, hgf2, hcorr2⟩, hdq⟩ :=
    kruskalGo_spec s.queue s.gs s.pars hinv hq hwf h4 ⟨par, dpt, R, hgf, hcorr⟩
  have hsig : (kruskalGo w h s.gs s.pars s.queue).2.2.2 = Signal.done :=
    congrArg Prod.snd hdone
  have hqnil := hdq hsig
  have hall : ∀ pe ∈ edgesList w h, GhostSame par2 pe.efrom pe.eto := by
    intro pe hpe
    rcases h5 pe hpe with hc | hc
    · rw [hqnil] at hc
      cases hc
    · obtain ⟨n2, d2, hn2v, hme2⟩ := edgesList_mem_ok hpe
      have hpef : validNode w h pe.efrom = true := by
        rw [(mazeEdge_fields hme2).1]
        exact hn2v
      have hpet := (mazeEdge_fields hme2).2.2
      exact (hcorr2 pe.efrom pe.eto hpef hpet).mp hc
  obtain ⟨r0, hgf3⟩ := ghost_single_root hw hh hgf2 hall
  have hfst : (kruskalStep w h s ()).1 = s1 := congrArg Prod.fst hdone
  rw [← hfst]
  exact ghost_spanning hgf3

theorem kruskal_run_spanning {w h : Nat} (hw : 0 < w) (hh : 0 < h)
    {queue0 : List Edge} (hq0 : ∀ e ∈ queue0, EdgeOK w h e)
    (hall0 : ∀ pe ∈ edgesList w h, pe ∈ queue0)
    (cs : List Unit) {s1 : KrusState}
    (hrun : runAlg (kruskalStep w h) krusTick (kruskalInit w genInit queue0) cs =
      (s1, true)) :
    SpanningTreeG w h s1.gs.openb := by
  have hinit : KrusInv w h (kruskalInit w genInit queue0) := by
    refine ⟨kruskalInit_inv genInit queue0, hq0, ?_, ?_, fun _ => none, fun _ => 0,
      (nodesList w h).toFinset, ?_, ?_⟩
    · intro i hi
      exact absurd hi (by exact Bool.noConfusion)
    · intro pe hpe
      exact Or.inl (hall0 pe hpe)
    · refine ⟨⟨?_, ?_, ?_⟩, fun x hx => hx, ?_, ?_⟩
      · intro n hn
        exact nodesList_mem.mp (List.mem_toFinset.mp hn)
      · intro n p hnp
        cases hnp
      · intro u v hadj
        exfalso
        unfold openAdjB at hadj
        rw [List.any_eq_true] at hadj
        obtain ⟨e2, he2, hc⟩ := hadj
        rw [Bool.and_eq_true] at hc
        have hop2 : genInit.openb (normaliseE w e2) = true := hc.2
        simp [genInit] at hop2
      · intro n hn
        exact Iff.intro (fun _ => hn) (fun _ => rfl)
      · intro n hn
        exact ⟨n, hn, Relation.ReflTransGen.refl⟩
    · intro u v hu hv
      constructor
      · rintro ⟨r, hur, hvr⟩
        have hrtu : IsRootP w (kruskalInit w genInit queue0).pars u :=
          unslot_nodeSlot (valid_fst hu)
        have hrtv : IsRootP w (kruskalInit w genInit queue0).pars v :=
          unslot_nodeSlot (valid_fst hv)
        have hru : u = r := by
          obtain ⟨l, hc, hl⟩ := hur
          obtain rfl := pchain_unique hc (.root u hrtu)
          simpa using hl
        have hrv : v = r := by
          obtain ⟨l, hc, hl⟩ := hvr
          obtain rfl := pchain_unique hc (.root v hrtv)
          simpa using hl
        rw [hru, hrv]
        exact ⟨r, Relation.ReflTransGen.refl, Relation.ReflTransGen.refl, rfl⟩
      · rintro ⟨g, h1, h2, -⟩
        have hgu : g = u := parReach_none h1 rfl
        have hgv : g = v := parReach_none h2 rfl
        have hrtu : IsRootP w (kruskalInit w genInit queue0).pars u :=
          unslot_nodeSlot (valid_fst hu)
        refine ⟨u, rootOf_root hrtu, ?_⟩
        rw [← hgv, hgu]
        exact rootOf_root hrtu
  obtain ⟨s0, c, hP0, hdone, heq⟩ :=
    runAlg_done (fun s c hs => kruskalStep_inv hs) (fun s hs => krusTick_inv hs) cs
      (kruskalInit w genInit queue0) hinit (by rw [hrun])
  have hspan := kruskalStep_done hw hh hP0 (Prod.ext rfl hdone)
  have hs1 : s1 = (kruskalStep w h s0 c).1 := by
    have h2 := heq.symm
    rw [hrun] at h2
    exact h2.symm
  rw [hs1]
  exact hspan

/-! #### Wilson: helpers -/

theorem neighboursL_ne_nil {w h : Nat} (hw : 2 ≤ w) {n : Node}
    (hn : validNode w h n = true) : neighboursL w h n ≠ [] := by
  intro hnil
  have h1 := valid_fst hn
  have h2 := valid_snd hn
  by_cases hx : n.1 + 1 < w
  · have hv2 : validNode w h (n.1 + 1, n.2) = true := by
      simp [validNode]
      omega
    have hmem : (⟨n, (n.1 + 1, n.2), .east⟩ : Edge) ∈ neighboursL w h n :=
      neighboursL_mem.mpr ⟨.east, mazeEdge_east.mpr ⟨hv2, rfl⟩⟩
    rw [hnil] at hmem
    cases hmem
  · have hx0 : n.1 ≠ 0 := by omega
    have hv2 : validNode w h (n.1 - 1, n.2) = true := by
      simp [validNode]
      omega
    have hmem : (⟨n, (n.1 - 1, n.2), .west⟩ : Edge) ∈ neighboursL w h n :=
      neighboursL_mem.mpr ⟨.west, mazeEdge_west.mpr ⟨hx0, hv2, rfl⟩⟩
    rw [hnil] at hmem
    cases hmem

theorem parReach_stays {par : Node → Option Node} {T : Finset Node}
    (hcl : ∀ n ∈ T, ∀ p, par n = some p → p ∈ T) :
    ∀ {y g : Node}, ParReach par y g → y ∈ T → g ∈ T := by
  intro y g hr
  induction hr using Relation.ReflTransGen.head_induction_on with
  | refl => exact fun hy => hy
  | head hlink hrest ih =>
    rename_i a b
    intro ha
    exact ih (hcl a ha b hlink)

theorem parReach_agree {par par2 : Node → Option Node} {T : Finset Node}
    (hcl : ∀ n ∈ T, ∀ p, par n = some p → p ∈ T)
    (hagree : ∀ n ∈ T, par2 n = par n) :
    ∀ {x g : Node}, ParReach par x g → x ∈ T → ParReach par2 x g := by
  intro x g hr
  induction hr using Relation.ReflTransGen.head_induction_on with
  | refl => exact fun _ => Relation.ReflTransGen.refl
  | head hlink hrest ih =>
    rename_i a b
    intro ha
    refine Relation.ReflTransGen.head ?_ (ih (hcl a ha b hlink))
    rw [hagree a ha]
    exact hlink

/-- The erasure fold rewrites exactly the drained edges' open slots to
closed and their targets' age and index entries to absent. -/
theorem wilErase_fold {w : Nat} :
    ∀ (l : List Edge) (s : GState × (Nat → Option Nat)),
      ((l.foldl (wilErase1 w) s).1.openb = fun i =>
        if l.any fun e2 => normaliseE w e2 = i then false else s.1.openb i) ∧
      ((l.foldl (wilErase1 w) s).1.age = fun j =>
        if l.any fun e2 => nodeSlot w e2.eto = j then none else s.1.age j) ∧
      ((l.foldl (wilErase1 w) s).2 = fun j =>
        if l.any fun e2 => nodeSlot w e2.eto = j then none else s.2 j) := by
  intro l
  induction l with
  | nil =>
    intro s
    refine ⟨?_, ?_, ?_⟩ <;> funext i <;> simp
  | cons e l ih =>
    intro s
    obtain ⟨ih1, ih2, ih3⟩ := ih (wilErase1 w s e)
    refine ⟨?_, ?_, ?_⟩
    · rw [List.foldl_cons, ih1]
      funext i
      by_cases hl : (l.any fun e2 => normaliseE w e2 = i) = true
      · rw [if_pos hl]
        rw [if_pos (by simp [hl])]
      · rw [if_neg hl]
        by_cases he : normaliseE w e = i
        · rw [if_pos (by simp [he])]
          show updB (unvisitG w s.1 e.eto).openb (normaliseE w e) false i = false
          unfold updB
          rw [if_pos he.symm]
        · rw [if_neg (by simp [he, hl])]
          show updB (unvisitG w s.1 e.eto).openb (normaliseE w e) false i = s.1.openb i
          unfold updB
          rw [if_neg (fun hc => he hc.symm)]
          rfl
    · rw [List.foldl_cons, ih2]
      funext j
      by_cases hl : (l.any fun e2 => nodeSlot w e2.eto = j) = true
      · rw [if_pos hl]
        rw [if_pos (by simp [hl])]
      · rw [if_neg hl]
        by_cases he : nodeSlot w e.eto = j
        · rw [if_pos (by simp [he])]
          show updO s.1.age (nodeSlot w e.eto) none j = none
          unfold updO
          rw [if_pos he.symm]
        · rw [if_neg (by simp [he, hl])]
          show updO s.1.age (nodeSlot w e.eto) none j = s.1.age j
          unfold updO
          rw [if_neg (fun hc => he hc.symm)]
    · rw [List.foldl_cons, ih3]
      funext j
      by_cases hl : (l.any fun e2 => nodeSlot w e2.eto = j) = true
      · rw [if_pos hl]
        rw [if_pos (by simp [hl])]
      · rw [if_neg hl]
        by_cases he : nodeSlot w e.eto = j
        · rw [if_pos (by simp [he])]
          show updO s.2 (nodeSlot w e.eto) none j = none
          unfold updO
          rw [if_pos he.symm]
        · rw [if_neg (by simp [he, hl])]
          show updO s.2 (nodeSlot w e.eto) none j = s.2 j
          unfold updO
          rw [if_neg (fun hc => he hc.symm)]

theorem wilsonStep_eq_done {w h : Nat} {s : WilState} {c : Nat × Nat}
    (hlast : s.path.getLast? = none)
    (hch : chooseL ((nodesList w h).filter fun n => !isVisitedG w s.gs n) c.1 =
      none) :
    wilsonStep w h s c = (s, .done) := by
  unfold wilsonStep
  rw [hlast]
  dsimp only
  rw [hch]

theorem wilsonStep_begin {w h : Nat} {s : WilState} {c : Nat × Nat} {first : Node}
    (hlast : s.path.getLast? = none)
    (hch : chooseL ((nodesList w h).filter fun n => !isVisitedG w s.gs n) c.1 =
      some first) :
    wilsonStep w h s c = wilsonStep w h { s with path := [identityE first] } c := by
  conv_lhs => unfold wilsonStep
  conv_rhs => unfold wilsonStep
  rw [hlast]
  dsimp only
  rw [hch]
  rfl

theorem wilsonStep_eq_stutter {w h : Nat} {s : WilState} {c : Nat × Nat}
    {last : Edge} (hlast : s.path.getLast? = some last)
    (hch : chooseL (neighboursL w h last.eto) c.2 = none) :
    wilsonStep w h s c = (⟨visitG w s.gs last.eto, s.path,
      updO s.idx (nodeSlot w last.eto) (some s.path.length)⟩, .cont) := by
  unfold wilsonStep
  rw [hlast]
  dsimp only
  rw [hch]

theorem wilsonStep_eq_extend {w h : Nat} {s : WilState} {c : Nat × Nat}
    {last e : Edge} (hlast : s.path.getLast? = some last)
    (hch : chooseL (neighboursL w h last.eto) c.2 = some e)
    (hidx : updO s.idx (nodeSlot w last.eto) (some s.path.length)
      (nodeSlot w e.eto) = none)
    (hvis : isVisitedG w (visitG w s.gs last.eto) e.eto = false) :
    wilsonStep w h s c = (⟨setOpen w (visitG w s.gs last.eto) e true,
      s.path ++ [e],
      updO s.idx (nodeSlot w last.eto) (some s.path.length)⟩, .cont) := by
  unfold wilsonStep
  rw [hlast]
  dsimp only
  rw [hch]
  dsimp only
  rw [hidx, hvis]

theorem wilsonStep_eq_commit {w h : Nat} {s : WilState} {c : Nat × Nat}
    {last e : Edge} (hlast : s.path.getLast? = some last)
    (hch : chooseL (neighboursL w h last.eto) c.2 = some e)
    (hidx : updO s.idx (nodeSlot w last.eto) (some s.path.length)
      (nodeSlot w e.eto) = none)
    (hvis : isVisitedG w (visitG w s.gs last.eto) e.eto = true) :
    wilsonStep w h s c = (⟨setOpen w (visitG w s.gs last.eto) e true,
      [], fun _ => none⟩, .cont) := by
  unfold wilsonStep
  rw [hlast]
  dsimp only
  rw [hch]
  dsimp only
  rw [hidx, hvis]

theorem wilsonStep_eq_erase {w h : Nat} {s : WilState} {c : Nat × Nat}
    {last e : Edge} {loopStart : Nat} (hlast : s.path.getLast? = some last)
    (hch : chooseL (neighboursL w h last.eto) c.2 = some e)
    (hidx : updO s.idx (nodeSlot w last.eto) (some s.path.length)
      (nodeSlot w e.eto) = some loopStart) :
    wilsonStep w h s c =
      (⟨((s.path.drop loopStart).foldl (wilErase1 w)
          (visitG w s.gs last.eto,
            updO s.idx (nodeSlot w last.eto) (some s.path.length))).1,
        s.path.take loopStart,
        ((s.path.drop loopStart).foldl (wilErase1 w)
          (visitG w s.gs last.eto,
            updO s.idx (nodeSlot w last.eto) (some s.path.length))).2⟩, .cont) := by
  unfold wilsonStep
  rw [hlast]
  dsimp only
  rw [hch]
  dsimp only
  rw [hidx]

theorem wilNodes_mem {s : WilState} {n : Node} :
    n ∈ wilNodes s ↔ ∃ j, j < s.path.length ∧
      (s.path.getD j (identityE (0, 0))).eto = n := by
  unfold wilNodes
  rw [List.mem_map]
  constructor
  · rintro ⟨e2, he2, rfl⟩
    obtain ⟨j, hj, hj2⟩ := List.mem_iff_getElem.mp he2
    exact ⟨j, hj, by rw [List.getD_eq_getElem _ _ hj, hj2]⟩
  · rintro ⟨j, hj, hn⟩
    refine ⟨s.path.getD j (identityE (0, 0)), ?_, hn⟩
    rw [List.getD_eq_getElem _ _ hj]
    exact List.getElem_mem hj

theorem wilNodes_inj {s : WilState} (hnd : (wilNodes s).Nodup) {i j : Nat}
    (hi : i < s.path.length) (hj : j < s.path.length)
    (heq : (s.path.getD i (identityE (0, 0))).eto =
      (s.path.getD j (identityE (0, 0))).eto) : i = j := by
  have hlen : (wilNodes s).length = s.path.length := by
    unfold wilNodes
    simp
  have hbi : i < (wilNodes s).length := by omega
  have hbj : j < (wilNodes s).length := by omega
  have hbi2 : i < (s.path.map Edge.eto).length := by simpa using hi
  have hbj2 : j < (s.path.map Edge.eto).length := by simpa using hj
  have hgi : (wilNodes s)[i] =
      (s.path.getD i (identityE (0, 0))).eto := by
    show (s.path.map Edge.eto)[i] = _
    rw [List.getElem_map, List.getD_eq_getElem _ _ hi]
  have hgj : (wilNodes s)[j] =
      (s.path.getD j (identityE (0, 0))).eto := by
    show (s.path.map Edge.eto)[j] = _
    rw [List.getElem_map, List.getD_eq_getElem _ _ hj]
  exact (List.Nodup.getElem_inj_iff hnd).mp (by rw [hgi, hgj, heq])

theorem path_last_getD {s : WilState} {last : Edge}
    (hlast : s.path.getLast? = some last) :
    s.path.getD (s.path.length - 1) (identityE (0, 0)) = last := by
  rw [List.getLast?_eq_getElem?] at hlast
  rw [List.getD_eq_getElem?_getD, hlast]
  rfl

theorem path_pos_of_last {s : WilState} {last : Edge}
    (hlast : s.path.getLast? = some last) : 0 < s.path.length := by
  cases hp : s.path with
  | nil =>
    rw [hp] at hlast
    cases hlast
  | cons a t =>
    simp

theorem wilsonInit_inv {w h : Nat} {goal : Node}
    (hgoal : validNode w h goal = true) :
    WilInv w h goal (wilsonInit w genInit goal) := by
  refine ⟨{goal}, ?_, ?_, ?_, by simp [wilNodes, wilsonInit], ?_, ?_, ?_, ?_, ?_,
    ?_, ?_, ⟨hgoal, by simp⟩, fun _ => none, fun _ => 0, ?_, ?_, ?_, ?_⟩
  · intro n hn
    rw [Finset.mem_singleton] at hn
    subst hn
    exact ⟨hgoal, visitG_isVisited.mpr (Or.inr rfl)⟩
  · intro n hv hvis
    left
    rw [Finset.mem_singleton]
    rcases visitG_isVisited.mp hvis with hold | hslot
    · exfalso
      have hdead : (genInit.age (nodeSlot w n)).isSome = true := hold
      simp [genInit] at hdead
    · exact nodeSlot_inj (valid_fst hv) (valid_fst hgoal) hslot
  · intro n hn
    cases (show n ∈ ([] : List Node) from hn)
  · intro i hi
    exact absurd hi (by exact Bool.noConfusion)
  · intro hlen
    have hc : (1 : Nat) ≤ 0 := hlen
    omega
  · intro j h1 h2
    have hc : j < 0 := h2
    omega
  · intro j hj
    have hc : j + 1 < 0 := hj
    omega
  · intro n j hn hj
    exact Option.noConfusion hj
  · intro j h1 h2
    have hc : j + 1 ≤ 0 := h2
    omega
  · intro j h1 h2
    have hc : j + 1 ≤ 0 := h2
    omega
  · show GhostForest w h (visitG w genInit goal).openb ({goal} ∪ ∅) _ _ {goal}
    refine ⟨⟨?_, ?_, ?_⟩, ?_, ?_, ?_⟩
    · intro n hn
      simp at hn
      subst hn
      exact hgoal
    · intro n p hnp
      cases hnp
    · intro u v hadj
      exfalso
      unfold openAdjB at hadj
      rw [List.any_eq_true] at hadj
      obtain ⟨e2, he2, hc⟩ := hadj
      rw [Bool.and_eq_true] at hc
      have hop2 : genInit.openb (normaliseE w e2) = true := hc.2
      simp [genInit] at hop2
    · intro x hx
      simp at hx
      simp [hx]
    · intro n hn
      exact Iff.intro (fun _ => by simpa using hn) (fun _ => rfl)
    · intro n hn
      simp at hn
      subst hn
      exact ⟨n, Finset.mem_singleton_self n, Relation.ReflTransGen.refl⟩
  · intro n hn p hp
    cases hp
  · intro t ht
    have hc : t + 1 < 0 := ht
    omega
  · intro lst hlst
    cases hlst

theorem wilTick_inv {w h : Nat} {r : Node} {s : WilState}
    (hs : WilInv w h r s) : WilInv w h r (wilTick s) := by
  obtain ⟨treeV, c1, c2, c3, c4, c5, c6, c7, c8, c9, c10, c11, c12, par, dpt,
    hgf, c13b, c13c, c13d⟩ := hs
  have hage : ∀ n : Node, isVisitedG w (ageTickG s.gs) n = isVisitedG w s.gs n :=
    fun n => ageTick_visited
  refine ⟨treeV, ?_, ?_, c3, c4, c5, c6, c7, c8, c9, c10, ?_, c12, par, dpt,
    ?_, c13b, c13c, c13d⟩
  · intro n hn
    refine ⟨(c1 n hn).1, ?_⟩
    rw [show isVisitedG w (wilTick s).gs n = isVisitedG w s.gs n from hage n]
    exact (c1 n hn).2
  · intro n hv hvis
    refine c2 n hv ?_
    rw [← hage n]
    exact hvis
  · intro j h1 h2
    show isVisitedG w (ageTickG s.gs)
      ((s.path.getD (j - 1) (identityE (0, 0))).eto) = true
    rw [hage _]
    exact c11 j h1 h2
  · show GhostForest w h (ageTickG s.gs).openb _ par dpt _
    exact hgf

theorem wilInv_begin {w h : Nat} {r : Node} {s : WilState} {first : Node}
    (hs : WilInv w h r s) (hpath : s.path = [])
    (hfv : validNode w h first = true)
    (hfun : isVisitedG w s.gs first = false) :
    WilInv w h r { s with path := [identityE first] } := by
  obtain ⟨treeV, c1, c2, c3, c4, c5, c6, c7, c8, c9, c10, c11, c12, par, dpt,
    hgf, c13b, c13c, c13d⟩ := hs
  have hft : first ∉ treeV := by
    intro hc
    rw [(c1 first hc).2] at hfun
    cases hfun
  have hV : treeV ∪ (wilNodes s).toFinset = treeV := by
    unfold wilNodes
    rw [hpath]
    simp
  have hR : (match s.path.getLast? with
      | none => ({r} : Finset Node)
      | some lst => {r, lst.eto}) = ({r} : Finset Node) := by
    rw [hpath]
    rfl
  rw [hV, hR] at hgf
  have hparf : par first = none := by
    cases hpf : par first with
    | none => rfl
    | some p =>
      exfalso
      have hmem := (hgf.1.2.1 first p hpf).1
      exact hft hmem
  have hwn : wilNodes { s with path := [identityE first] } = [first] := rfl
  refine ⟨treeV, c1, ?_, ?_, by rw [hwn]; simp, c5, ?_, ?_, ?_, ?_, ?_, ?_, c12,
    par, dpt, ?_, c13b, ?_, ?_⟩
  · intro n hv hvis
    rcases c2 n hv hvis with hc | hc
    · exact Or.inl hc
    · exfalso
      unfold wilNodes at hc
      rw [hpath] at hc
      cases hc
  · intro n hn
    rw [hwn, List.mem_singleton] at hn
    subst hn
    exact ⟨hfv, hft⟩
  · intro hlen
    rfl
  · intro j h1 h2
    have hc : j < ([identityE first] : List Edge).length := h2
    simp at hc
    omega
  · intro j hj
    have hc : j + 1 < ([identityE first] : List Edge).length := hj
    simp at hc
  · intro n j hn hj
    have hj2 := c9 n j hn hj
    rw [hpath] at hj2
    simp at hj2
    omega
  · intro j h1 h2
    have hc : j + 1 ≤ ([identityE first] : List Edge).length := h2
    simp at hc
    omega
  · intro j h1 h2
    have hc : j + 1 ≤ ([identityE first] : List Edge).length := h2
    simp at hc
    omega
  · show GhostForest w h s.gs.openb (treeV ∪ ({first} : Finset Node)) par dpt
      {r, first}
    obtain ⟨⟨hF1, hF2, hF3⟩, hRV, hroot, hreach⟩ := hgf
    refine ⟨⟨?_, ?_, hF3⟩, ?_, ?_, ?_⟩
    · intro n hn
      rcases Finset.mem_union.mp hn with hc | hc
      · exact hF1 n hc
      · rw [Finset.mem_singleton] at hc
        subst hc
        exact hfv
    · intro n p hnp
      obtain ⟨hnV, hpV, hadj, hd⟩ := hF2 n p hnp
      exact ⟨Finset.mem_union_left _ hnV, Finset.mem_union_left _ hpV, hadj, hd⟩
    · intro x hx
      rcases Finset.mem_insert.mp hx with rfl | hx2
      · exact Finset.mem_union_left _ (hRV (Finset.mem_singleton_self x))
      · rw [Finset.mem_singleton] at hx2
        subst hx2
        exact Finset.mem_union_right _ (Finset.mem_singleton_self x)
    · intro n hn
      rcases Finset.mem_union.mp hn with hc | hc
      · rw [hroot n hc]
        rw [Finset.mem_singleton]
        constructor
        · intro h2
          exact Finset.mem_insert.mpr (Or.inl h2)
        · intro h2
          rcases Finset.mem_insert.mp h2 with h3 | h3
          · exact h3
          · rw [Finset.mem_singleton] at h3
            exact absurd (h3 ▸ hc) hft
      · rw [Finset.mem_singleton] at hc
        subst hc
        constructor
        · intro h2
          exact Finset.mem_insert.mpr (Or.inr (Finset.mem_singleton_self n))
        · intro h2
          exact hparf
    · intro n hn
      rcases Finset.mem_union.mp hn with hc | hc
      · obtain ⟨g, hgR, hreach2⟩ := hreach n hc
        rw [Finset.mem_singleton] at hgR
        subst hgR
        exact ⟨g, Finset.mem_insert_self g _, hreach2⟩
      · rw [Finset.mem_singleton] at hc
        subst hc
        exact ⟨n, Finset.mem_insert.mpr (Or.inr (Finset.mem_singleton_self n)),
          Relation.ReflTransGen.refl⟩
  · intro t ht
    have hc : t + 1 < ([identityE first] : List Edge).length := ht
    simp at hc
  · intro lst hlst
    have hl2 : identityE first = lst := by simpa using hlst
    rw [← hl2]
    exact hparf

/-- Attaching a fresh node as the new root above an old root along a newly
opened edge. -/
theorem ghost_attach_root {w h : Nat} {f : Nat → Bool} {V : Finset Node}
    {par : Node → Option Node} {dpt : Node → Nat} {R : Finset Node}
    (hg : GhostForest w h f V par dpt R)
    {n0 : Node} {d0 : Direction} {e : Edge}
    (hme : mazeEdge w h n0 d0 = some e) (hn0 : validNode w h n0 = true)
    {y z : Node}
    (hyz : (y = e.efrom ∧ z = e.eto) ∨ (y = e.eto ∧ z = e.efrom))
    (hyV : y ∈ V) (hyR : y ∈ R) (hzV : z ∉ V) (hzval : validNode w h z = true) :
    GhostForest w h (updB f (normaliseE w e) true) (insert z V)
      (fun x => if x = y then some z else par x)
      (fun x => if x = z then 0 else dpt x + 1)
      (insert z (R.erase y)) := by
  obtain ⟨⟨hF1, hF2, hF3⟩, hRV, hroot, hreach⟩ := hg
  have hyn : par y = none := (hroot y hyV).mpr hyR
  have hyzne : y ≠ z := fun hc => hzV (hc ▸ hyV)
  have hzn : par z = none := by
    cases hpz : par z with
    | none => rfl
    | some p => exact absurd (hF2 z p hpz).1 hzV
  have hlinks : ∀ a b, par a = some b →
      (fun x => if x = y then some z else par x) a = some b := by
    intro a b hab
    have hay : a ≠ y := by
      intro hc
      rw [hc, hyn] at hab
      cases hab
    show (if a = y then some z else par a) = some b
    rw [if_neg hay]
    exact hab
  have hy2z : (fun x => if x = y then some z else par x) y = some z := by
    show (if y = y then some z else par y) = some z
    rw [if_pos rfl]
  have hadjself := @setOpen_adj_self w h f n0 d0 e hme hn0
  have hadjzy : openAdjB w h (updB f (normaliseE w e) true) z y = true := by
    rcases hyz with ⟨rfl, rfl⟩ | ⟨rfl, rfl⟩
    · exact hadjself.2
    · exact hadjself.1
  refine ⟨⟨?_, ?_, ?_⟩, ?_, ?_, ?_⟩
  · intro n hn
    rcases Finset.mem_insert.mp hn with rfl | hn2
    · exact hzval
    · exact hF1 n hn2
  · intro n q hnq
    have hnq2 : (if n = y then some z else par n) = some q := hnq
    by_cases hny : n = y
    · rw [if_pos hny] at hnq2
      have hqz : q = z := (Option.some.inj hnq2).symm
      rw [hqz, hny]
      refine ⟨Finset.mem_insert_of_mem hyV, Finset.mem_insert_self _ _, hadjzy, ?_⟩
      show (if z = z then 0 else dpt z + 1) < (if y = z then 0 else dpt y + 1)
      rw [if_pos rfl, if_neg hyzne]
      omega
    · rw [if_neg hny] at hnq2
      obtain ⟨hnV, hqV, hadj, hd⟩ := hF2 n q hnq2
      have hqz : q ≠ z := fun hc => hzV (hc ▸ hqV)
      have hnz : n ≠ z := fun hc => hzV (hc ▸ hnV)
      refine ⟨Finset.mem_insert_of_mem hnV, Finset.mem_insert_of_mem hqV,
        openAdj_mono updB_mono hadj, ?_⟩
      show (if q = z then 0 else dpt q + 1) < (if n = z then 0 else dpt n + 1)
      rw [if_neg hqz, if_neg hnz]
      omega
  · intro u v hadj
    rcases setOpen_adj_cases hme hadj with hold | hnew
    · rcases hF3 u v hold with hc | hc
      · left
        exact hlinks u v hc
      · right
        exact hlinks v u hc
    · have hcases : (u = y ∧ v = z) ∨ (u = z ∧ v = y) := by
        rcases hyz with ⟨hy2, hz2⟩ | ⟨hy2, hz2⟩ <;>
          rcases hnew with ⟨hu2, hv2⟩ | ⟨hu2, hv2⟩
        · exact Or.inl ⟨by rw [hu2, hy2], by rw [hv2, hz2]⟩
        · exact Or.inr ⟨by rw [hu2, hz2], by rw [hv2, hy2]⟩
        · exact Or.inr ⟨by rw [hu2, hz2], by rw [hv2, hy2]⟩
        · exact Or.inl ⟨by rw [hu2, hy2], by rw [hv2, hz2]⟩
      rcases hcases with ⟨rfl, rfl⟩ | ⟨rfl, rfl⟩
      · left
        exact hy2z
      · right
        exact hy2z
  · intro x hx
    rcases Finset.mem_insert.mp hx with rfl | hx2
    · exact Finset.mem_insert_self _ _
    · exact Finset.mem_insert_of_mem (hRV (Finset.mem_of_mem_erase hx2))
  · intro n hn
    by_cases hnz : n = z
    · constructor
      · intro h2
        rw [hnz]
        exact Finset.mem_insert_self _ _
      · intro h2
        show (if n = y then some z else par n) = none
        rw [if_neg (show ¬n = y from fun hc => hyzne (hc.symm.trans hnz))]
        rw [hnz]
        exact hzn
    · have hnV : n ∈ V := by
        rcases Finset.mem_insert.mp hn with hc | hc
        · exact absurd hc hnz
        · exact hc
      by_cases hny : n = y
      · constructor
        · intro h2
          rw [show (fun x => if x = y then some z else par x) n = some z from by
            rw [hny]; exact hy2z] at h2
          cases h2
        · intro h2
          exfalso
          rcases Finset.mem_insert.mp h2 with hc | hc
          · exact hnz hc
          · exact (Finset.mem_erase.mp hc).1 hny
      · have heqn : (fun x => if x = y then some z else par x) n = par n := by
          show (if n = y then some z else par n) = par n
          rw [if_neg hny]
        rw [heqn, hroot n hnV]
        constructor
        · intro h2
          exact Finset.mem_insert_of_mem (Finset.mem_erase.mpr ⟨hny, h2⟩)
        · intro h2
          rcases Finset.mem_insert.mp h2 with hc | hc
          · exact absurd hc hnz
          · exact (Finset.mem_erase.mp hc).2
  · intro n hn
    rcases Finset.mem_insert.mp hn with rfl | hnV
    · exact ⟨n, Finset.mem_insert_self _ _, Relation.ReflTransGen.refl⟩
    · obtain ⟨g, hgR, hr⟩ := hreach n hnV
      by_cases hgy : g = y
      · refine ⟨z, Finset.mem_insert_self _ _, ?_⟩
        refine Relation.ReflTransGen.trans (parReach_congr hlinks hr) ?_
        rw [hgy]
        exact Relation.ReflTransGen.single hy2z
      · exact ⟨g, Finset.mem_insert_of_mem (Finset.mem_erase.mpr ⟨hgy, hgR⟩),
          parReach_congr hlinks hr⟩

theorem wilInv_extend {w h : Nat} {r : Node} {s : WilState} {last e : Edge}
    {d0 : Direction}
    (hs : WilInv w h r s) (hlast : s.path.getLast? = some last)
    (hme : mazeEdge w h last.eto d0 = some e)
    (hvis : isVisitedG w (visitG w s.gs last.eto) e.eto = false) :
    WilInv w h r ⟨setOpen w (visitG w s.gs last.eto) e true,
      s.path ++ [e], updO s.idx (nodeSlot w last.eto) (some s.path.length)⟩ := by
  obtain ⟨treeV, c1, c2, c3, c4, c5, c6, c7, c8, c9, c10, c11, c12, par, dpt,
    hgf, c13b, c13c, c13d⟩ := hs
  have hlen0 : 0 < s.path.length := path_pos_of_last hlast
  have hlastD : s.path.getD (s.path.length - 1) (identityE (0, 0)) = last :=
    path_last_getD hlast
  have hheadw : last.eto ∈ wilNodes s :=
    wilNodes_mem.mpr ⟨s.path.length - 1, by omega, by rw [hlastD]⟩
  obtain ⟨hheadv, hheadt⟩ := c3 last.eto hheadw
  have hfrom : e.efrom = last.eto := (mazeEdge_fields hme).1
  have hetov : validNode w h e.eto = true := (mazeEdge_fields hme).2.2
  have hetoh : e.eto ≠ last.eto := fun hc => mazeEdge_eto_ne hme (hc.trans hfrom.symm)
  have hetonv : isVisitedG w s.gs e.eto = false := by
    cases hb : isVisitedG w s.gs e.eto with
    | false => rfl
    | true =>
      exfalso
      have hvv : isVisitedG w (visitG w s.gs last.eto) e.eto = true :=
        visitG_isVisited.mpr (Or.inl hb)
      rw [hvis] at hvv
      cases hvv
  have hetot : e.eto ∉ treeV := by
    intro hc
    rw [(c1 e.eto hc).2] at hetonv
    cases hetonv
  have hetonw : e.eto ∉ wilNodes s := by
    intro hc
    obtain ⟨j, hj, hjeq⟩ := wilNodes_mem.mp hc
    by_cases hjl : j = s.path.length - 1
    · rw [hjl, hlastD] at hjeq
      exact hetoh hjeq.symm
    · have hvj := c11 (j + 1) (by omega) (by omega)
      rw [show j + 1 - 1 = j from by omega, hjeq] at hvj
      rw [hvj] at hetonv
      cases hetonv
  have hgetl : ∀ j, j < s.path.length →
      (s.path ++ [e]).getD j (identityE (0, 0)) =
        s.path.getD j (identityE (0, 0)) := by
    intro j hj
    rw [List.getD_eq_getElem _ _ (by simp; omega), List.getD_eq_getElem _ _ hj]
    exact List.getElem_append_left hj
  have hgete : (s.path ++ [e]).getD s.path.length (identityE (0, 0)) = e := by
    rw [List.getD_eq_getElem _ _ (by simp)]
    simp
  have hwn2 : wilNodes ⟨setOpen w (visitG w s.gs last.eto) e true,
      s.path ++ [e], updO s.idx (nodeSlot w last.eto) (some s.path.length)⟩ =
      wilNodes s ++ [e.eto] := by
    unfold wilNodes
    simp
  have hsloteh : nodeSlot w e.eto ≠ nodeSlot w last.eto := fun hc =>
    hetoh (nodeSlot_inj (valid_fst hetov) (valid_fst hheadv) hc)
  have hpareto : par e.eto = none := by
    cases hpz : par e.eto with
    | none => rfl
    | some p =>
      exfalso
      have hmemV := (hgf.1.2.1 e.eto p hpz).1
      rcases Finset.mem_union.mp hmemV with hc | hc
      · exact hetot hc
      · exact hetonw (List.mem_toFinset.mp hc)
  refine ⟨treeV, ?_, ?_, ?_, ?_, ?_, ?_, ?_, ?_, ?_, ?_, ?_, c12, ?_⟩
  · intro n hn
    have hvv : isVisitedG w (visitG w s.gs last.eto) n = true :=
      visitG_isVisited.mpr (Or.inl (c1 n hn).2)
    exact ⟨(c1 n hn).1, hvv⟩
  · intro n hv hvisn
    have hvisn2 : isVisitedG w (visitG w s.gs last.eto) n = true := hvisn
    rcases visitG_isVisited.mp hvisn2 with hold | hslot
    · rcases c2 n hv hold with hc | hc
      · exact Or.inl hc
      · refine Or.inr ?_
        rw [hwn2]
        rw [List.mem_append]
        exact Or.inl hc
    · have hnh : n = last.eto := nodeSlot_inj (valid_fst hv) (valid_fst hheadv) hslot
      refine Or.inr ?_
      rw [hwn2, List.mem_append]
      refine Or.inl ?_
      rw [hnh]
      exact hheadw
  · intro n hn
    rw [hwn2, List.mem_append] at hn
    rcases hn with hc | hc
    · exact c3 n hc
    · rw [List.mem_singleton] at hc
      subst hc
      exact ⟨hetov, hetot⟩
  · rw [hwn2, List.nodup_append]
    refine ⟨c4, by simp, ?_⟩
    intro a ha hb
    rw [List.mem_singleton] at hb
    subst hb
    exact hetonw ha
  · show OpenWF w h (setOpen w (visitG w s.gs last.eto) e true).openb
    exact openWF_setOpen c5 hme hheadv
  · intro hlen
    show ((s.path ++ [e]).getD 0 (identityE (0, 0))).efrom =
      ((s.path ++ [e]).getD 0 (identityE (0, 0))).eto
    rw [hgetl 0 hlen0]
    exact c6 (by omega)
  · intro j h1 h2
    have h2' : j < (s.path ++ [e]).length := h2
    rw [List.length_append, List.length_singleton] at h2'
    by_cases hjl : j < s.path.length
    · rw [show ((⟨setOpen w (visitG w s.gs last.eto) e true, s.path ++ [e],
        updO s.idx (nodeSlot w last.eto) (some s.path.length)⟩ :
          WilState)).path.getD j (identityE (0, 0)) =
        s.path.getD j (identityE (0, 0)) from hgetl j hjl]
      obtain ⟨hok, hop⟩ := c7 j h1 hjl
      refine ⟨hok, ?_⟩
      show updB (visitG w s.gs last.eto).openb (normaliseE w e) true
        (normaliseE w (s.path.getD j (identityE (0, 0)))) = true
      unfold updB
      by_cases hc : normaliseE w (s.path.getD j (identityE (0, 0))) = normaliseE w e
      · rw [if_pos hc]
      · rw [if_neg hc]
        exact hop
    · have hjeq : j = s.path.length := by omega
      rw [show ((⟨setOpen w (visitG w s.gs last.eto) e true, s.path ++ [e],
        updO s.idx (nodeSlot w last.eto) (some s.path.length)⟩ :
          WilState)).path.getD j (identityE (0, 0)) = e from by
        rw [hjeq]; exact hgete]
      refine ⟨⟨last.eto, d0, hheadv, hme⟩, ?_⟩
      show updB (visitG w s.gs last.eto).openb (normaliseE w e) true
        (normaliseE w e) = true
      unfold updB
      rw [if_pos rfl]
  · intro j hj
    have hj' : j + 1 < (s.path ++ [e]).length := hj
    rw [List.length_append, List.length_singleton] at hj'
    show ((s.path ++ [e]).getD j (identityE (0, 0))).eto =
      ((s.path ++ [e]).getD (j + 1) (identityE (0, 0))).efrom
    by_cases hjl : j + 1 < s.path.length
    · rw [hgetl j (by omega), hgetl (j + 1) hjl]
      exact c8 j hjl
    · have hjeq : j + 1 = s.path.length := by omega
      rw [hgetl j (by omega), show j + 1 = s.path.length from hjeq, hgete]
      rw [show j = s.path.length - 1 from by omega, hlastD, hfrom]
  · intro n j hn hj
    have hj2 : updO s.idx (nodeSlot w last.eto) (some s.path.length)
        (nodeSlot w n) = some j := hj
    unfold updO at hj2
    by_cases hc : nodeSlot w n = nodeSlot w last.eto
    · rw [if_pos hc] at hj2
      have hjlen : j = s.path.length := (Option.some.inj hj2).symm
      have hnh : n = last.eto := nodeSlot_inj (valid_fst hn) (valid_fst hheadv) hc
      refine ⟨by omega, by simp [hjlen], ?_⟩
      rw [show (⟨setOpen w (visitG w s.gs last.eto) e true, s.path ++ [e],
        updO s.idx (nodeSlot w last.eto) (some s.path.length)⟩ :
          WilState).path.getD (j - 1) (identityE (0, 0)) =
        s.path.getD (j - 1) (identityE (0, 0)) from hgetl (j - 1) (by omega)]
      rw [hjlen, hlastD, hnh]
    · rw [if_neg hc] at hj2
      obtain ⟨h1, h2, h3⟩ := c9 n j hn hj2
      refine ⟨h1, by simp; omega, ?_⟩
      rw [show (⟨setOpen w (visitG w s.gs last.eto) e true, s.path ++ [e],
        updO s.idx (nodeSlot w last.eto) (some s.path.length)⟩ :
          WilState).path.getD (j - 1) (identityE (0, 0)) =
        s.path.getD (j - 1) (identityE (0, 0)) from hgetl (j - 1) (by omega)]
      exact h3
  · intro j h1 h2
    have h2' : j + 1 ≤ (s.path ++ [e]).length := h2
    rw [List.length_append, List.length_singleton] at h2'
    show updO s.idx (nodeSlot w last.eto) (some s.path.length)
      (nodeSlot w ((s.path ++ [e]).getD (j - 1) (identityE (0, 0))).eto) = some j
    by_cases hjl : j = s.path.length
    · rw [show (s.path ++ [e]).getD (j - 1) (identityE (0, 0)) =
        s.path.getD (j - 1) (identityE (0, 0)) from hgetl (j - 1) (by omega)]
      rw [show j - 1 = s.path.length - 1 from by omega, hlastD]
      unfold updO
      rw [if_pos rfl, hjl]
    · have hjl2 : j + 1 ≤ s.path.length := by omega
      rw [show (s.path ++ [e]).getD (j - 1) (identityE (0, 0)) =
        s.path.getD (j - 1) (identityE (0, 0)) from hgetl (j - 1) (by omega)]
      have hne : (s.path.getD (j - 1) (identityE (0, 0))).eto ≠ last.eto := by
        intro hc
        rw [← hlastD] at hc
        have := wilNodes_inj c4 (by omega) (by omega) hc
        omega
      have hnv : validNode w h (s.path.getD (j - 1) (identityE (0, 0))).eto = true :=
        (c3 _ (wilNodes_mem.mpr ⟨j - 1, by omega, rfl⟩)).1
      unfold updO
      rw [if_neg (fun hc => hne (nodeSlot_inj (valid_fst hnv) (valid_fst hheadv) hc))]
      exact c10 j h1 hjl2
  · intro j h1 h2
    have h2' : j + 1 ≤ (s.path ++ [e]).length := h2
    rw [List.length_append, List.length_singleton] at h2'
    show isVisitedG w (visitG w s.gs last.eto)
      ((s.path ++ [e]).getD (j - 1) (identityE (0, 0))).eto = true
    by_cases hjl : j = s.path.length
    · rw [show (s.path ++ [e]).getD (j - 1) (identityE (0, 0)) =
        s.path.getD (j - 1) (identityE (0, 0)) from hgetl (j - 1) (by omega)]
      rw [show j - 1 = s.path.length - 1 from by omega, hlastD]
      exact visitG_isVisited.mpr (Or.inr rfl)
    · rw [show (s.path ++ [e]).getD (j - 1) (identityE (0, 0)) =
        s.path.getD (j - 1) (identityE (0, 0)) from hgetl (j - 1) (by omega)]
      exact visitG_isVisited.mpr (Or.inl (c11 j h1 (by omega)))
  · have hgf2 : GhostForest w h s.gs.openb (treeV ∪ (wilNodes s).toFinset) par dpt
        {r, last.eto} := by
      have hR : (match s.path.getLast? with
          | none => ({r} : Finset Node)
          | some lst => {r, lst.eto}) = ({r, last.eto} : Finset Node) := by
        rw [hlast]
      rw [← hR]
      exact hgf
    have hheadV : last.eto ∈ treeV ∪ (wilNodes s).toFinset :=
      Finset.mem_union_right _ (List.mem_toFinset.mpr hheadw)
    have hzV : e.eto ∉ treeV ∪ (wilNodes s).toFinset := by
      intro hc
      rcases Finset.mem_union.mp hc with hc2 | hc2
      · exact hetot hc2
      · exact hetonw (List.mem_toFinset.mp hc2)
    have hattach := ghost_attach_root hgf2 hme hheadv
      (Or.inl ⟨hfrom.symm, rfl⟩) hheadV
      (Finset.mem_insert.mpr (Or.inr (Finset.mem_singleton_self _))) hzV hetov
    have hrh : r ≠ last.eto := by
      intro hc
      rw [← hc] at hheadt
      exact hheadt c12.2
    have hVeq : insert e.eto (treeV ∪ (wilNodes s).toFinset) =
        treeV ∪ (wilNodes s ++ [e.eto]).toFinset := by
      ext x
      simp only [Finset.mem_insert, Finset.mem_union, List.mem_toFinset,
        List.mem_append, List.mem_singleton]
      tauto
    have hReq : insert e.eto (({r, last.eto} : Finset Node).erase last.eto) =
        ({r, e.eto} : Finset Node) := by
      ext x
      simp only [Finset.mem_insert, Finset.mem_erase, Finset.mem_singleton]
      constructor
      · rintro (rfl | ⟨hx1, hx2 | hx2⟩)
        · exact Or.inr rfl
        · exact Or.inl hx2
        · exact absurd hx2 hx1
      · rintro (rfl | rfl)
        · exact Or.inr ⟨hrh, Or.inl rfl⟩
        · exact Or.inl rfl
    have hfinal : GhostForest w h (updB s.gs.openb (normaliseE w e) true)
        (treeV ∪ (wilNodes s ++ [e.eto]).toFinset)
        (fun x => if x = last.eto then some e.eto else par x)
        (fun x => if x = e.eto then 0 else dpt x + 1)
        ({r, e.eto} : Finset Node) := by
      rw [← hVeq, ← hReq]
      exact hattach
    refine ⟨fun x => if x = last.eto then some e.eto else par x,
      fun x => if x = e.eto then 0 else dpt x + 1, ?_, ?_, ?_, ?_⟩
    · show GhostForest w h
        (updB (visitG w s.gs last.eto).openb (normaliseE w e) true)
        (treeV ∪ (wilNodes ⟨setOpen w (visitG w s.gs last.eto) e true,
          s.path ++ [e],
          updO s.idx (nodeSlot w last.eto) (some s.path.length)⟩).toFinset) _ _
        (match (s.path ++ [e]).getLast? with
          | none => ({r} : Finset Node)
          | some lst => {r, lst.eto})
      rw [hwn2, List.getLast?_concat]
      exact hfinal
    · intro n hn p hp
      have hp2 : (if n = last.eto then some e.eto else par n) = some p := hp
      rw [if_neg (show ¬n = last.eto from fun hc =>
        hheadt (show last.eto ∈ treeV from hc ▸ hn))] at hp2
      exact c13b n hn p hp2
    · intro t ht
      have ht' : t + 1 < (s.path ++ [e]).length := ht
      rw [List.length_append, List.length_singleton] at ht'
      by_cases htl : t + 1 < s.path.length
      · rw [show (⟨setOpen w (visitG w s.gs last.eto) e true, s.path ++ [e],
          updO s.idx (nodeSlot w last.eto) (some s.path.length)⟩ :
            WilState).path.getD t (identityE (0, 0)) =
          s.path.getD t (identityE (0, 0)) from hgetl t (by omega),
          show (⟨setOpen w (visitG w s.gs last.eto) e true, s.path ++ [e],
          updO s.idx (nodeSlot w last.eto) (some s.path.length)⟩ :
            WilState).path.getD (t + 1) (identityE (0, 0)) =
          s.path.getD (t + 1) (identityE (0, 0)) from hgetl (t + 1) htl]
        have hne : (s.path.getD t (identityE (0, 0))).eto ≠ last.eto := by
          intro hc
          rw [← hlastD] at hc
          have := wilNodes_inj c4 (by omega) (by omega) hc
          omega
        show (if (s.path.getD t (identityE (0, 0))).eto = last.eto then some e.eto
          else par (s.path.getD t (identityE (0, 0))).eto) = _
        rw [if_neg hne]
        exact c13c t htl
      · have hteq : t + 1 = s.path.length := by omega
        rw [show (⟨setOpen w (visitG w s.gs last.eto) e true, s.path ++ [e],
          updO s.idx (nodeSlot w last.eto) (some s.path.length)⟩ :
            WilState).path.getD t (identityE (0, 0)) =
          s.path.getD t (identityE (0, 0)) from hgetl t (by omega),
          show (⟨setOpen w (visitG w s.gs last.eto) e true, s.path ++ [e],
          updO s.idx (nodeSlot w last.eto) (some s.path.length)⟩ :
            WilState).path.getD (t + 1) (identityE (0, 0)) = e from by
          rw [hteq]; exact hgete]
        rw [show t = s.path.length - 1 from by omega, hlastD]
        show (if last.eto = last.eto then some e.eto else par last.eto) = some e.eto
        rw [if_pos rfl]
    · intro lst hlst
      have hlst2 : (s.path ++ [e]).getLast? = some lst := hlst
      rw [List.getLast?_concat] at hlst2
      obtain rfl := Option.some.inj hlst2
      show (if e.eto = last.eto then some e.eto else par e.eto) = none
      rw [if_neg hetoh]
      exact hpareto

theorem wilInv_commit {w h : Nat} {r : Node} {s : WilState} {last e : Edge}
    {d0 : Direction}
    (hs : WilInv w h r s) (hlast : s.path.getLast? = some last)
    (hme : mazeEdge w h last.eto d0 = some e)
    (hidx : updO s.idx (nodeSlot w last.eto) (some s.path.length)
      (nodeSlot w e.eto) = none)
    (hvis : isVisitedG w (visitG w s.gs last.eto) e.eto = true) :
    WilInv w h r ⟨setOpen w (visitG w s.gs last.eto) e true,
      [], fun _ => none⟩ := by
  obtain ⟨treeV, c1, c2, c3, c4, c5, c6, c7, c8, c9, c10, c11, c12, par, dpt,
    hgf, c13b, c13c, c13d⟩ := hs
  have hlen0 : 0 < s.path.length := path_pos_of_last hlast
  have hlastD : s.path.getD (s.path.length - 1) (identityE (0, 0)) = last :=
    path_last_getD hlast
  have hheadw : last.eto ∈ wilNodes s :=
    wilNodes_mem.mpr ⟨s.path.length - 1, by omega, by rw [hlastD]⟩
  obtain ⟨hheadv, hheadt⟩ := c3 last.eto hheadw
  have hfrom : e.efrom = last.eto := (mazeEdge_fields hme).1
  have hetov : validNode w h e.eto = true := (mazeEdge_fields hme).2.2
  have hetoh : e.eto ≠ last.eto := fun hc => mazeEdge_eto_ne hme (hc.trans hfrom.symm)
  have hsne : nodeSlot w e.eto ≠ nodeSlot w last.eto := fun hc =>
    hetoh (nodeSlot_inj (valid_fst hetov) (valid_fst hheadv) hc)
  have hidxs : s.idx (nodeSlot w e.eto) = none := by
    have h2 : (if nodeSlot w e.eto = nodeSlot w last.eto then some s.path.length
      else s.idx (nodeSlot w e.eto)) = none := hidx
    rwa [if_neg hsne] at h2
  have hetovis : isVisitedG w s.gs e.eto = true := by
    rcases visitG_isVisited.mp hvis with hc | hc
    · exact hc
    · exact absurd hc hsne
  have hetonw : e.eto ∉ wilNodes s := by
    intro hc
    obtain ⟨j, hj, hjeq⟩ := wilNodes_mem.mp hc
    by_cases hjl : j = s.path.length - 1
    · rw [hjl, hlastD] at hjeq
      exact hetoh hjeq.symm
    · have := c10 (j + 1) (by omega) (by omega)
      rw [show j + 1 - 1 = j from rfl, hjeq] at this
      rw [hidxs] at this
      cases this
  have hetoT : e.eto ∈ treeV := by
    rcases c2 e.eto hetov hetovis with hc | hc
    · exact hc
    · exact absurd hc hetonw
  have hwilvis : ∀ n ∈ wilNodes s,
      isVisitedG w (visitG w s.gs last.eto) n = true := by
    intro n hn
    obtain ⟨j, hj, hjeq⟩ := wilNodes_mem.mp hn
    by_cases hjl : j = s.path.length - 1
    · refine visitG_isVisited.mpr (Or.inr ?_)
      rw [← hjeq, hjl, hlastD]
    · have := c11 (j + 1) (by omega) (by omega)
      rw [show j + 1 - 1 = j from rfl, hjeq] at this
      exact visitG_isVisited.mpr (Or.inl this)
  have hrh : r ≠ last.eto := by
    intro hc
    rw [← hc] at hheadt
    exact hheadt c12.2
  have hgf2 : GhostForest w h s.gs.openb (treeV ∪ (wilNodes s).toFinset) par dpt
      {r, last.eto} := by
    have hR : (match s.path.getLast? with
        | none => ({r} : Finset Node)
        | some lst => {r, lst.eto}) = ({r, last.eto} : Finset Node) := by
      rw [hlast]
    rw [← hR]
    exact hgf
  have hnyz : ¬ ParReach par e.eto last.eto := by
    intro hc
    exact hheadt (parReach_stays c13b hc hetoT)
  obtain ⟨dpt2, hg2, -⟩ := ghost_link hgf2 hme hheadv
    (Or.inr ⟨rfl, hfrom.symm⟩) (Finset.mem_union_left _ hetoT)
    (Finset.mem_union_right _ (List.mem_toFinset.mpr hheadw))
    (Finset.mem_insert.mpr (Or.inr (Finset.mem_singleton_self _))) hnyz
  have hReq : (({r, last.eto} : Finset Node).erase last.eto) =
      ({r} : Finset Node) := by
    ext x
    simp only [Finset.mem_erase, Finset.mem_insert, Finset.mem_singleton]
    constructor
    · rintro ⟨hx1, rfl | rfl⟩
      · rfl
      · exact absurd rfl hx1
    · rintro rfl
      exact ⟨hrh, Or.inl rfl⟩
  have hfinal : GhostForest w h (updB s.gs.openb (normaliseE w e) true)
      (treeV ∪ (wilNodes s).toFinset)
      (fun x => if x = last.eto then some e.eto else par x) dpt2
      ({r} : Finset Node) := by
    rw [← hReq]
    exact hg2
  refine ⟨treeV ∪ (wilNodes s).toFinset, ?_, ?_, ?_, ?_, ?_, ?_, ?_, ?_, ?_,
    ?_, ?_, ?_, ?_⟩
  · intro n hn
    rcases Finset.mem_union.mp hn with hc | hc
    · have hvv : isVisitedG w (visitG w s.gs last.eto) n = true :=
        visitG_isVisited.mpr (Or.inl (c1 n hc).2)
      exact ⟨(c1 n hc).1, hvv⟩
    · have hc2 := List.mem_toFinset.mp hc
      have hvv : isVisitedG w (visitG w s.gs last.eto) n = true := hwilvis n hc2
      exact ⟨(c3 n hc2).1, hvv⟩
  · intro n hv hvisn
    have hvisn2 : isVisitedG w (visitG w s.gs last.eto) n = true := hvisn
    rcases visitG_isVisited.mp hvisn2 with hold | hslot
    · rcases c2 n hv hold with hc | hc
      · exact Or.inl (Finset.mem_union_left _ hc)
      · exact Or.inl (Finset.mem_union_right _ (List.mem_toFinset.mpr hc))
    · have hnh : n = last.eto := nodeSlot_inj (valid_fst hv) (valid_fst hheadv) hslot
      refine Or.inl (Finset.mem_union_right _ (List.mem_toFinset.mpr ?_))
      rw [hnh]
      exact hheadw
  · intro n hn
    simp [wilNodes] at hn
  · simp [wilNodes]
  · show OpenWF w h (setOpen w (visitG w s.gs last.eto) e true).openb
    exact openWF_setOpen c5 hme hheadv
  · intro hlen
    have hlen2 : ([] : List Edge).length ≥ 1 := hlen
    simp at hlen2
  · intro j h1 h2
    have h2' : j < ([] : List Edge).length := h2
    simp at h2'
  · intro j hj
    have hj' : j + 1 < ([] : List Edge).length := hj
    simp at hj'
  · intro n j hn hj
    have hj2 : (none : Option Nat) = some j := hj
    cases hj2
  · intro j h1 h2
    have h2' : j + 1 ≤ ([] : List Edge).length := h2
    simp at h2'
  · intro j h1 h2
    have h2' : j + 1 ≤ ([] : List Edge).length := h2
    simp at h2'
  · exact ⟨c12.1, Finset.mem_union_left _ c12.2⟩
  · refine ⟨fun x => if x = last.eto then some e.eto else par x, dpt2,
      ?_, ?_, ?_, ?_⟩
    · show GhostForest w h
        (updB (visitG w s.gs last.eto).openb (normaliseE w e) true)
        ((treeV ∪ (wilNodes s).toFinset) ∪ (∅ : Finset Node)) _ _
        ({r} : Finset Node)
      rw [Finset.union_empty]
      exact hfinal
    · intro n hn p hp
      have hp2 : (if n = last.eto then some e.eto else par n) = some p := hp
      by_cases hnh : n = last.eto
      · rw [if_pos hnh] at hp2
        obtain rfl : e.eto = p := Option.some.inj hp2
        exact Finset.mem_union_left _ hetoT
      · rw [if_neg hnh] at hp2
        rcases Finset.mem_union.mp hn with hc | hc
        · exact Finset.mem_union_left _ (c13b n hc p hp2)
        · obtain ⟨j, hj, hjeq⟩ := wilNodes_mem.mp (List.mem_toFinset.mp hc)
          by_cases hjl : j = s.path.length - 1
          · rw [hjl, hlastD] at hjeq
            exact absurd hjeq.symm hnh
          · have hlink := c13c j (by omega)
            rw [hjeq, hp2] at hlink
            obtain rfl : p = (s.path.getD (j + 1) (identityE (0, 0))).eto :=
              Option.some.inj hlink
            exact Finset.mem_union_right _ (List.mem_toFinset.mpr
              (wilNodes_mem.mpr ⟨j + 1, by omega, rfl⟩))
    · intro t ht
      have ht2 : t + 1 < ([] : List Edge).length := ht
      simp at ht2
    · intro lst hlst
      have hl2 : (none : Option Edge) = some lst := hlst
      cases hl2

/-- Two produced edges with the same unordered endpoint pair share the same
normalised slot (converse of the injectivity lemma). -/
theorem normaliseE_pair_eq {w h : Nat} {n₁ n₂ : Node} {d₁ d₂ : Direction}
    {e₁ e₂ : Edge} (h1 : mazeEdge w h n₁ d₁ = some e₁)
    (h2 : mazeEdge w h n₂ d₂ = some e₂)
    (hpair : (e₁.efrom = e₂.efrom ∧ e₁.eto = e₂.eto) ∨
      (e₁.efrom = e₂.eto ∧ e₁.eto = e₂.efrom)) :
    normaliseE w e₁ = normaliseE w e₂ := by
  obtain ⟨a, hav, hca⟩ := edge_canon h1
  obtain ⟨b, hbv, hcb⟩ := edge_canon h2
  obtain ⟨hpf, hpt⟩ | ⟨hpf, hpt⟩ := hpair <;>
    obtain ⟨hs1, hp1⟩ | ⟨hs1, hp1⟩ := hca <;>
    obtain ⟨hs2, hp2⟩ | ⟨hs2, hp2⟩ := hcb <;>
    rw [hs1, hs2] <;>
    obtain ⟨hf1, ht1⟩ | ⟨hf1, ht1⟩ := hp1 <;>
    obtain ⟨hf2, ht2⟩ | ⟨hf2, ht2⟩ := hp2 <;>
    (simp only [hf1, ht1, hf2, ht2, Prod.ext_iff] at hpf hpt
     first
      | (exfalso; omega)
      | (have hab : a = b := Prod.ext (by omega) (by omega)
         rw [hab]))

theorem wilInv_erase {w h : Nat} {r : Node} {s : WilState} {last e : Edge}
    {d0 : Direction} {loopStart : Nat}
    (hs : WilInv w h r s) (hlast : s.path.getLast? = some last)
    (hme : mazeEdge w h last.eto d0 = some e)
    (hidx : updO s.idx (nodeSlot w last.eto) (some s.path.length)
      (nodeSlot w e.eto) = some loopStart) :
    WilInv w h r ⟨((s.path.drop loopStart).foldl (wilErase1 w)
        (visitG w s.gs last.eto,
          updO s.idx (nodeSlot w last.eto) (some s.path.length))).1,
      s.path.take loopStart,
      ((s.path.drop loopStart).foldl (wilErase1 w)
        (visitG w s.gs last.eto,
          updO s.idx (nodeSlot w last.eto) (some s.path.length))).2⟩ := by
  obtain ⟨treeV, c1, c2, c3, c4, c5, c6, c7, c8, c9, c10, c11, c12, par, dpt,
    hgf, c13b, c13c, c13d⟩ := hs
  have hlen0 : 0 < s.path.length := path_pos_of_last hlast
  have hlastD : s.path.getD (s.path.length - 1) (identityE (0, 0)) = last :=
    path_last_getD hlast
  have hheadw : last.eto ∈ wilNodes s :=
    wilNodes_mem.mpr ⟨s.path.length - 1, by omega, by rw [hlastD]⟩
  obtain ⟨hheadv, hheadt⟩ := c3 last.eto hheadw
  have hfrom : e.efrom = last.eto := (mazeEdge_fields hme).1
  have hetov : validNode w h e.eto = true := (mazeEdge_fields hme).2.2
  have hetoh : e.eto ≠ last.eto := fun hc => mazeEdge_eto_ne hme (hc.trans hfrom.symm)
  have hsne : nodeSlot w e.eto ≠ nodeSlot w last.eto := fun hc =>
    hetoh (nodeSlot_inj (valid_fst hetov) (valid_fst hheadv) hc)
  have hidxs : s.idx (nodeSlot w e.eto) = some loopStart := by
    have h2 : (if nodeSlot w e.eto = nodeSlot w last.eto then some s.path.length
      else s.idx (nodeSlot w e.eto)) = some loopStart := hidx
    rwa [if_neg hsne] at h2
  obtain ⟨hls1, hlsle, hlseq⟩ := c9 e.eto loopStart hetov hidxs
  have hlslt : loopStart < s.path.length := by
    rcases Nat.lt_or_ge loopStart s.path.length with hc | hc
    · exact hc
    · exfalso
      have hle : loopStart = s.path.length := by omega
      rw [hle, hlastD] at hlseq
      exact hetoh hlseq.symm
  obtain ⟨hofold, hafold, hifold⟩ := wilErase_fold (s.path.drop loopStart)
    (visitG w s.gs last.eto, updO s.idx (nodeSlot w last.eto) (some s.path.length))
  generalize hFP : (s.path.drop loopStart).foldl (wilErase1 w)
    (visitG w s.gs last.eto,
      updO s.idx (nodeSlot w last.eto) (some s.path.length)) = FP
  rw [hFP] at hofold hafold hifold
  have hopen2 : ∀ i, FP.1.openb i =
      (if (s.path.drop loopStart).any (fun e2 => normaliseE w e2 = i) then false
       else s.gs.openb i) := fun i => congrFun hofold i
  have hage2 : ∀ j, FP.1.age j =
      (if (s.path.drop loopStart).any (fun e2 => nodeSlot w e2.eto = j) then none
       else (visitG w s.gs last.eto).age j) := fun j => congrFun hafold j
  have hidx2 : ∀ j, FP.2 j =
      (if (s.path.drop loopStart).any (fun e2 => nodeSlot w e2.eto = j) then none
       else updO s.idx (nodeSlot w last.eto) (some s.path.length) j) :=
    fun j => congrFun hifold j
  have hdroplen : (s.path.drop loopStart).length = s.path.length - loopStart := by
    simp
  have hdropget : ∀ t, t < s.path.length - loopStart →
      (s.path.drop loopStart).getD t (identityE (0, 0)) =
        s.path.getD (loopStart + t) (identityE (0, 0)) := by
    intro t ht
    rw [List.getD_eq_getElem _ _ (by simp; omega), List.getD_eq_getElem _ _ (by omega)]
    exact List.getElem_drop _
  have hdropmem : ∀ t, loopStart ≤ t → t < s.path.length →
      s.path.getD t (identityE (0, 0)) ∈ s.path.drop loopStart := by
    intro t h1 h2
    have hg : (s.path.drop loopStart).getD (t - loopStart) (identityE (0, 0)) =
        s.path.getD t (identityE (0, 0)) := by
      rw [hdropget (t - loopStart) (by omega)]
      congr 1
      omega
    rw [← hg, List.getD_eq_getElem _ _ (by rw [hdroplen]; omega)]
    exact List.getElem_mem _
  have htakelen : (s.path.take loopStart).length = loopStart := by
    simp
    omega
  have htakeget : ∀ j, j < loopStart →
      (s.path.take loopStart).getD j (identityE (0, 0)) =
        s.path.getD j (identityE (0, 0)) := by
    intro j hj
    rw [List.getD_eq_getElem _ _ (by simp; omega), List.getD_eq_getElem _ _ (by omega)]
    exact List.getElem_take _
  have hEmem : ∀ x : Node, x ∈ (s.path.drop loopStart).map Edge.eto ↔
      ∃ t, loopStart ≤ t ∧ t < s.path.length ∧
        (s.path.getD t (identityE (0, 0))).eto = x := by
    intro x
    constructor
    · intro hx
      obtain ⟨pe, hpe, hpex⟩ := List.mem_map.mp hx
      obtain ⟨t0, ht0, hpet⟩ := List.mem_iff_getElem.mp hpe
      have ht02 : t0 < s.path.length - loopStart := by rw [hdroplen] at ht0; exact ht0
      refine ⟨loopStart + t0, by omega, by omega, ?_⟩
      rw [← hdropget t0 ht02, List.getD_eq_getElem _ _ ht0, hpet]
      exact hpex
    · rintro ⟨t, h1, h2, h3⟩
      refine List.mem_map.mpr ⟨s.path.getD t (identityE (0, 0)), hdropmem t h1 h2, h3⟩
  have hanyslot : ∀ jj : Nat,
      ((s.path.drop loopStart).any fun e2 => nodeSlot w e2.eto = jj) = true ↔
      ∃ t, loopStart ≤ t ∧ t < s.path.length ∧
        nodeSlot w (s.path.getD t (identityE (0, 0))).eto = jj := by
    intro jj
    rw [List.any_eq_true]
    constructor
    · rintro ⟨pe, hpe, hc⟩
      rw [decide_eq_true_eq] at hc
      obtain ⟨t0, ht0, hpet⟩ := List.mem_iff_getElem.mp hpe
      have ht02 : t0 < s.path.length - loopStart := by rw [hdroplen] at ht0; exact ht0
      refine ⟨loopStart + t0, by omega, by omega, ?_⟩
      rw [← hdropget t0 ht02, List.getD_eq_getElem _ _ ht0, hpet]
      exact hc
    · rintro ⟨t, h1, h2, h3⟩
      exact ⟨s.path.getD t (identityE (0, 0)), hdropmem t h1 h2,
        by rw [decide_eq_true_eq]; exact h3⟩
  have hkeptpos : ∀ x : Node,
      (x ∈ treeV ∨ ∃ j, j < loopStart ∧
        (s.path.getD j (identityE (0, 0))).eto = x) →
      ∀ t, loopStart ≤ t → t < s.path.length →
        (s.path.getD t (identityE (0, 0))).eto ≠ x := by
    intro x hx t h1 h2 heq
    rcases hx with hc | ⟨j, hj1, hj2⟩
    · exact (c3 x (wilNodes_mem.mpr ⟨t, h2, heq⟩)).2 hc
    · rw [← hj2] at heq
      have := wilNodes_inj c4 h2 (by omega) heq
      omega
  have hkeptslot : ∀ x : Node, validNode w h x = true →
      (x ∈ treeV ∨ ∃ j, j < loopStart ∧
        (s.path.getD j (identityE (0, 0))).eto = x) →
      ((s.path.drop loopStart).any fun e2 => nodeSlot w e2.eto = nodeSlot w x)
        = false := by
    intro x hxv hx
    cases hb : ((s.path.drop loopStart).any fun e2 =>
        nodeSlot w e2.eto = nodeSlot w x) with
    | false => rfl
    | true =>
      exfalso
      obtain ⟨t, h1, h2, h3⟩ := (hanyslot _).mp hb
      have hvt : validNode w h (s.path.getD t (identityE (0, 0))).eto = true :=
        (c3 _ (wilNodes_mem.mpr ⟨t, h2, rfl⟩)).1
      exact hkeptpos x hx t h1 h2 (nodeSlot_inj (valid_fst hvt) (valid_fst hxv) h3)
  have hviskeep : ∀ x : Node, validNode w h x = true →
      (x ∈ treeV ∨ ∃ j, j < loopStart ∧
        (s.path.getD j (identityE (0, 0))).eto = x) →
      isVisitedG w FP.1 x = isVisitedG w (visitG w s.gs last.eto) x := by
    intro x hxv hx
    unfold isVisitedG
    rw [hage2, hkeptslot x hxv hx, if_neg (by simp)]
  have hviserased : ∀ t, loopStart ≤ t → t < s.path.length →
      isVisitedG w FP.1 ((s.path.getD t (identityE (0, 0))).eto) = false := by
    intro t h1 h2
    unfold isVisitedG
    rw [hage2, (hanyslot _).mpr ⟨t, h1, h2, rfl⟩, if_pos rfl]
    rfl
  have hsurv : ∀ (n2 : Node) (d2 : Direction) (e2 : Edge),
      mazeEdge w h n2 d2 = some e2 →
      (e2.eto ∈ treeV ∨ ∃ j, j < loopStart ∧
        (s.path.getD j (identityE (0, 0))).eto = e2.eto) →
      (e2.efrom ∈ treeV ∨ ∃ j, j < loopStart ∧
        (s.path.getD j (identityE (0, 0))).eto = e2.efrom) →
      ((s.path.drop loopStart).any fun pe =>
        normaliseE w pe = normaliseE w e2) = false := by
    intro n2 d2 e2 hme2 hkt hkf
    cases hb : ((s.path.drop loopStart).any fun pe =>
        normaliseE w pe = normaliseE w e2) with
    | false => rfl
    | true =>
      exfalso
      rw [List.any_eq_true] at hb
      obtain ⟨pe, hpemem, hpeeq⟩ := hb
      rw [decide_eq_true_eq] at hpeeq
      obtain ⟨t0, ht0, hpet⟩ := List.mem_iff_getElem.mp hpemem
      have ht02 : t0 < s.path.length - loopStart := by rw [hdroplen] at ht0; exact ht0
      have hpe2 : pe = s.path.getD (loopStart + t0) (identityE (0, 0)) := by
        rw [← hdropget t0 ht02, List.getD_eq_getElem _ _ ht0, hpet]
      obtain ⟨⟨n3, d3, hv3, hme3⟩, -⟩ := c7 (loopStart + t0) (by omega) (by omega)
      rw [← hpe2] at hme3
      rcases normaliseE_phys_inj hme3 hme2 hpeeq with ⟨hf, ht⟩ | ⟨hf, ht⟩
      · have ht2 : (s.path.getD (loopStart + t0) (identityE (0, 0))).eto = e2.eto := by
          rw [← hpe2]
          exact ht
        exact hkeptpos e2.eto hkt (loopStart + t0) (by omega) (by omega) ht2
      · have ht2 : (s.path.getD (loopStart + t0) (identityE (0, 0))).eto = e2.efrom := by
          rw [← hpe2]
          exact ht
        exact hkeptpos e2.efrom hkf (loopStart + t0) (by omega) (by omega) ht2
  have hwnK : ∀ x : Node,
      x ∈ wilNodes ⟨FP.1, s.path.take loopStart, FP.2⟩ ↔
      ∃ j, j < loopStart ∧ (s.path.getD j (identityE (0, 0))).eto = x := by
    intro x
    constructor
    · intro hx
      obtain ⟨j, hj, hjeq⟩ := wilNodes_mem.mp hx
      have hj2 : j < (s.path.take loopStart).length := hj
      rw [htakelen] at hj2
      have hjeq2 : ((s.path.take loopStart).getD j (identityE (0, 0))).eto = x := hjeq
      rw [htakeget j hj2] at hjeq2
      exact ⟨j, hj2, hjeq2⟩
    · rintro ⟨j, hj, hjeq⟩
      refine wilNodes_mem.mpr ⟨j, ?_, ?_⟩
      · show j < (s.path.take loopStart).length
        rw [htakelen]
        exact hj
      · show ((s.path.take loopStart).getD j (identityE (0, 0))).eto = x
        rw [htakeget j hj]
        exact hjeq
  have hVmem : ∀ x : Node,
      x ∈ treeV ∪ (wilNodes ⟨FP.1, s.path.take loopStart, FP.2⟩).toFinset ↔
      (x ∈ treeV ∨ ∃ j, j < loopStart ∧
        (s.path.getD j (identityE (0, 0))).eto = x) := by
    intro x
    rw [Finset.mem_union, List.mem_toFinset]
    constructor
    · rintro (hc | hc)
      · exact Or.inl hc
      · exact Or.inr ((hwnK x).mp hc)
    · rintro (hc | hc)
      · exact Or.inl hc
      · exact Or.inr ((hwnK x).mpr hc)
  have hKlast : (s.path.take loopStart).getLast? =
      some (s.path.getD (loopStart - 1) (identityE (0, 0))) := by
    rw [List.getLast?_eq_getElem?, htakelen]
    rw [(List.getElem?_eq_some_getElem_iff _ _ (by rw [htakelen]; omega)).mpr trivial]
    rw [← List.getD_eq_getElem (s.path.take loopStart) (identityE (0, 0))
      (by rw [htakelen]; omega)]
    rw [htakeget (loopStart - 1) (by omega)]
  have hgf2 : GhostForest w h s.gs.openb (treeV ∪ (wilNodes s).toFinset) par dpt
      {r, last.eto} := by
    have hR : (match s.path.getLast? with
        | none => ({r} : Finset Node)
        | some lst => {r, lst.eto}) = ({r, last.eto} : Finset Node) := by
      rw [hlast]
    rw [← hR]
    exact hgf
  obtain ⟨⟨hF1, hF2, hF3⟩, hRV, hroot, hreach⟩ := hgf2
  have hclr : ∀ x : Node,
      (x = e.eto ∨ x ∈ (s.path.drop loopStart).map Edge.eto) ↔
      (x = e.eto ∨ ∃ t, loopStart ≤ t ∧ t < s.path.length ∧
        (s.path.getD t (identityE (0, 0))).eto = x) := by
    intro x
    rw [hEmem x]
  have htreeclr : ∀ x ∈ treeV,
      ¬(x = e.eto ∨ x ∈ (s.path.drop loopStart).map Edge.eto) := by
    intro x hx hcc
    rcases (hclr x).mp hcc with rfl | ⟨t, h1, h2, h3⟩
    · exact (c3 _ (wilNodes_mem.mpr ⟨loopStart - 1, by omega, hlseq⟩)).2 hx
    · exact (c3 _ (wilNodes_mem.mpr ⟨t, h2, h3⟩)).2 hx
  have hposclr : ∀ j, j < loopStart - 1 →
      ¬((s.path.getD j (identityE (0, 0))).eto = e.eto ∨
        (s.path.getD j (identityE (0, 0))).eto ∈
          (s.path.drop loopStart).map Edge.eto) := by
    intro j hj hcc
    rcases (hclr _).mp hcc with hc | ⟨t, h1, h2, h3⟩
    · rw [← hlseq] at hc
      have := wilNodes_inj c4 (by omega) (by omega) hc
      omega
    · have := wilNodes_inj c4 h2 (by omega) h3
      omega
  have hadjkeep : ∀ u v : Node,
      (u ∈ treeV ∨ ∃ j, j < loopStart ∧
        (s.path.getD j (identityE (0, 0))).eto = u) →
      (v ∈ treeV ∨ ∃ j, j < loopStart ∧
        (s.path.getD j (identityE (0, 0))).eto = v) →
      openAdjB w h s.gs.openb u v = true →
      openAdjB w h FP.1.openb u v = true := by
    intro u v hu hv hadj
    unfold openAdjB at hadj ⊢
    rw [List.any_eq_true] at hadj ⊢
    obtain ⟨e2, he2, hc2⟩ := hadj
    rw [Bool.and_eq_true, decide_eq_true_eq] at hc2
    obtain ⟨d2, hme2⟩ := neighboursL_mem.mp he2
    have hfrom2 : e2.efrom = u := (mazeEdge_fields hme2).1
    refine ⟨e2, he2, ?_⟩
    rw [Bool.and_eq_true, decide_eq_true_eq]
    refine ⟨hc2.1, ?_⟩
    rw [hopen2,
      hsurv u d2 e2 hme2 (by rw [hc2.1]; exact hv) (by rw [hfrom2]; exact hu)]
    exact hc2.2
  have hsrc : ∀ (u v n2 : Node) (d2 : Direction) (e2 : Edge),
      mazeEdge w h n2 d2 = some e2 → e2.efrom = u → e2.eto = v →
      ((s.path.drop loopStart).any fun pe =>
        normaliseE w pe = normaliseE w e2) = false →
      ∀ x y : Node, ((x = u ∧ y = v) ∨ (x = v ∧ y = u)) → par x = some y →
      ¬(x = e.eto ∨ x ∈ (s.path.drop loopStart).map Edge.eto) := by
    intro u v n2 d2 e2 hme2 hfrom2 hto2 hner x y hxy hlink hcc
    rcases (hclr x).mp hcc with hxe | ⟨t, h1, h2, h3⟩
    · have hl2 := c13c (loopStart - 1) (by omega)
      rw [show loopStart - 1 + 1 = loopStart from by omega, hlseq] at hl2
      rw [← hxe, hlink] at hl2
      obtain rfl : y = (s.path.getD loopStart (identityE (0, 0))).eto :=
        Option.some.inj hl2
      obtain ⟨⟨n3, d3, hv3, hme3⟩, -⟩ := c7 loopStart (by omega) (by omega)
      have hpefrom : (s.path.getD loopStart (identityE (0, 0))).efrom = e.eto := by
        have h8 := c8 (loopStart - 1) (by omega)
        rw [show loopStart - 1 + 1 = loopStart from by omega, hlseq] at h8
        exact h8.symm
      have hpair : ((s.path.getD loopStart (identityE (0, 0))).efrom = e2.efrom ∧
          (s.path.getD loopStart (identityE (0, 0))).eto = e2.eto) ∨
          ((s.path.getD loopStart (identityE (0, 0))).efrom = e2.eto ∧
          (s.path.getD loopStart (identityE (0, 0))).eto = e2.efrom) := by
        rcases hxy with ⟨hx1, hy1⟩ | ⟨hx1, hy1⟩
        · exact Or.inl ⟨by rw [hpefrom, ← hxe, hx1, hfrom2], by rw [hy1, hto2]⟩
        · exact Or.inr ⟨by rw [hpefrom, ← hxe, hx1, hto2], by rw [hy1, hfrom2]⟩
      have hany : ((s.path.drop loopStart).any fun pe =>
          normaliseE w pe = normaliseE w e2) = true := by
        rw [List.any_eq_true]
        exact ⟨s.path.getD loopStart (identityE (0, 0)),
          hdropmem loopStart (by omega) (by omega),
          by rw [decide_eq_true_eq]; exact normaliseE_pair_eq hme3 hme2 hpair⟩
      rw [hner] at hany
      cases hany
    · by_cases htl : t + 1 < s.path.length
      · have hl2 := c13c t htl
        rw [h3, hlink] at hl2
        obtain rfl : y = (s.path.getD (t + 1) (identityE (0, 0))).eto :=
          Option.some.inj hl2
        obtain ⟨⟨n3, d3, hv3, hme3⟩, -⟩ := c7 (t + 1) (by omega) (by omega)
        have hpefrom : (s.path.getD (t + 1) (identityE (0, 0))).efrom = x := by
          have h8 := c8 t htl
          rw [h3] at h8
          exact h8.symm
        have hpair : ((s.path.getD (t + 1) (identityE (0, 0))).efrom = e2.efrom ∧
            (s.path.getD (t + 1) (identityE (0, 0))).eto = e2.eto) ∨
            ((s.path.getD (t + 1) (identityE (0, 0))).efrom = e2.eto ∧
            (s.path.getD (t + 1) (identityE (0, 0))).eto = e2.efrom) := by
          rcases hxy with ⟨hx1, hy1⟩ | ⟨hx1, hy1⟩
          · exact Or.inl ⟨by rw [hpefrom, hx1, hfrom2], by rw [hy1, hto2]⟩
          · exact Or.inr ⟨by rw [hpefrom, hx1, hto2], by rw [hy1, hfrom2]⟩
        have hany : ((s.path.drop loopStart).any fun pe =>
            normaliseE w pe = normaliseE w e2) = true := by
          rw [List.any_eq_true]
          exact ⟨s.path.getD (t + 1) (identityE (0, 0)),
            hdropmem (t + 1) (by omega) (by omega),
            by rw [decide_eq_true_eq]; exact normaliseE_pair_eq hme3 hme2 hpair⟩
        rw [hner] at hany
        cases hany
      · have hxh : x = last.eto := by
          rw [← h3, show t = s.path.length - 1 from by omega, hlastD]
        have hnone := c13d last hlast
        rw [← hxh, hlink] at hnone
        cases hnone
  have hfinal : GhostForest w h FP.1.openb
      (treeV ∪ (wilNodes ⟨FP.1, s.path.take loopStart, FP.2⟩).toFinset)
      (fun x2 => if x2 = e.eto ∨ x2 ∈ (s.path.drop loopStart).map Edge.eto
        then none else par x2)
      dpt ({r, e.eto} : Finset Node) := by
    refine ⟨⟨?_, ?_, ?_⟩, ?_, ?_, ?_⟩
    · intro n hn
      rcases (hVmem n).mp hn with hc | ⟨j, hj, hjeq⟩
      · exact (c1 n hc).1
      · rw [← hjeq]
        exact (c3 _ (wilNodes_mem.mpr ⟨j, by omega, rfl⟩)).1
    · intro n p hnp
      have hnp2 : (if n = e.eto ∨ n ∈ (s.path.drop loopStart).map Edge.eto
          then none else par n) = some p := hnp
      by_cases hcn : n = e.eto ∨ n ∈ (s.path.drop loopStart).map Edge.eto
      · rw [if_pos hcn] at hnp2
        cases hnp2
      · rw [if_neg hcn] at hnp2
        obtain ⟨hnV, hpV, hadj, hd⟩ := hF2 n p hnp2
        have hnV' : n ∈ treeV ∨ ∃ j, j < loopStart ∧
            (s.path.getD j (identityE (0, 0))).eto = n := by
          rcases Finset.mem_union.mp hnV with hc | hc
          · exact Or.inl hc
          · obtain ⟨j, hj, hjeq⟩ := wilNodes_mem.mp (List.mem_toFinset.mp hc)
            have hjls : j < loopStart := by
              by_contra hcj
              exact hcn (Or.inr ((hEmem n).mpr ⟨j, by omega, hj, hjeq⟩))
            exact Or.inr ⟨j, hjls, hjeq⟩
        have hpP : p ∈ treeV ∨ ∃ j, j < loopStart ∧
            (s.path.getD j (identityE (0, 0))).eto = p := by
          rcases hnV' with hc | ⟨j, hj, hjeq⟩
          · exact Or.inl (c13b n hc p hnp2)
          · have hjne : j ≠ loopStart - 1 := by
              intro hcc
              apply hcn
              left
              rw [← hjeq, hcc]
              exact hlseq
            have hlink2 := c13c j (by omega)
            rw [hjeq, hnp2] at hlink2
            obtain rfl : p = (s.path.getD (j + 1) (identityE (0, 0))).eto :=
              Option.some.inj hlink2
            exact Or.inr ⟨j + 1, by omega, rfl⟩
        exact ⟨(hVmem n).mpr hnV', (hVmem p).mpr hpP,
          hadjkeep p n hpP hnV' hadj, hd⟩
    · intro u v hadj'
      have hadj2 : openAdjB w h FP.1.openb u v = true := hadj'
      unfold openAdjB at hadj2
      rw [List.any_eq_true] at hadj2
      obtain ⟨e2, he2, hc2⟩ := hadj2
      rw [Bool.and_eq_true, decide_eq_true_eq] at hc2
      obtain ⟨d2, hme2⟩ := neighboursL_mem.mp he2
      have hfrom2 : e2.efrom = u := (mazeEdge_fields hme2).1
      have hop3 : FP.1.openb (normaliseE w e2) = true := hc2.2
      rw [hopen2] at hop3
      have hner : ((s.path.drop loopStart).any fun pe =>
          normaliseE w pe = normaliseE w e2) = false := by
        cases hb : ((s.path.drop loopStart).any fun pe =>
            normaliseE w pe = normaliseE w e2) with
        | false => rfl
        | true =>
          rw [hb, if_pos rfl] at hop3
          cases hop3
      rw [hner, if_neg (by simp)] at hop3
      have hadjold : openAdjB w h s.gs.openb u v = true := by
        unfold openAdjB
        rw [List.any_eq_true]
        refine ⟨e2, he2, ?_⟩
        rw [Bool.and_eq_true, decide_eq_true_eq]
        exact ⟨hc2.1, hop3⟩
      rcases hF3 u v hadjold with hc | hc
      · left
        have hnc := hsrc u v u d2 e2 hme2 hfrom2 hc2.1 hner u v
          (Or.inl ⟨rfl, rfl⟩) hc
        show (if u = e.eto ∨ u ∈ (s.path.drop loopStart).map Edge.eto
          then none else par u) = some v
        rw [if_neg hnc]
        exact hc
      · right
        have hnc := hsrc u v u d2 e2 hme2 hfrom2 hc2.1 hner v u
          (Or.inr ⟨rfl, rfl⟩) hc
        show (if v = e.eto ∨ v ∈ (s.path.drop loopStart).map Edge.eto
          then none else par v) = some u
        rw [if_neg hnc]
        exact hc
    · intro x hx
      rcases Finset.mem_insert.mp hx with h3 | h3
      · rw [h3]
        exact (hVmem r).mpr (Or.inl c12.2)
      · rw [Finset.mem_singleton] at h3
        rw [h3]
        exact (hVmem e.eto).mpr (Or.inr ⟨loopStart - 1, by omega, hlseq⟩)
    · intro n hn
      rcases (hVmem n).mp hn with hc | ⟨j, hj, hjeq⟩
      · have hncl := htreeclr n hc
        show (if n = e.eto ∨ n ∈ (s.path.drop loopStart).map Edge.eto
          then none else par n) = none ↔ n ∈ ({r, e.eto} : Finset Node)
        rw [if_neg hncl]
        rw [hroot n (Finset.mem_union_left _ hc)]
        have hnh : n ≠ last.eto := fun hcc => (c3 _ hheadw).2 (hcc ▸ hc)
        have hne : n ≠ e.eto := fun hcc =>
          (c3 _ (wilNodes_mem.mpr ⟨loopStart - 1, by omega, hlseq⟩)).2 (hcc ▸ hc)
        constructor
        · intro h2
          rcases Finset.mem_insert.mp h2 with h3 | h3
          · rw [h3]
            exact Finset.mem_insert_self _ _
          · rw [Finset.mem_singleton] at h3
            exact absurd h3 hnh
        · intro h2
          rcases Finset.mem_insert.mp h2 with h3 | h3
          · rw [h3]
            exact Finset.mem_insert_self _ _
          · rw [Finset.mem_singleton] at h3
            exact absurd h3 hne
      · by_cases hjj : j = loopStart - 1
        · have hne2 : n = e.eto := by
            rw [← hjeq, hjj]
            exact hlseq
          constructor
          · intro h2
            rw [hne2]
            exact Finset.mem_insert_of_mem (Finset.mem_singleton_self _)
          · intro h2
            show (if n = e.eto ∨ n ∈ (s.path.drop loopStart).map Edge.eto
              then none else par n) = none
            rw [if_pos (Or.inl hne2)]
        · have hncl := hposclr j (by omega)
          rw [hjeq] at hncl
          have hlink2 := c13c j (by omega)
          rw [hjeq] at hlink2
          constructor
          · intro h2
            exfalso
            have h3 : (if n = e.eto ∨ n ∈ (s.path.drop loopStart).map Edge.eto
              then none else par n) = none := h2
            rw [if_neg hncl, hlink2] at h3
            cases h3
          · intro h2
            exfalso
            rcases Finset.mem_insert.mp h2 with h3 | h3
            · rw [h3] at hjeq
              exact (c3 _ (wilNodes_mem.mpr ⟨j, by omega, hjeq⟩)).2 c12.2
            · rw [Finset.mem_singleton] at h3
              exact hncl (Or.inl h3)
    · intro n hn
      rcases (hVmem n).mp hn with hc | ⟨j, hj, hjeq⟩
      · refine ⟨r, Finset.mem_insert_self _ _, ?_⟩
        obtain ⟨g, hg, hr0⟩ := hreach n (Finset.mem_union_left _ hc)
        have hgT : g ∈ treeV := parReach_stays c13b hr0 hc
        have hgr : g = r := by
          rcases Finset.mem_insert.mp hg with h3 | h3
          · exact h3
          · rw [Finset.mem_singleton] at h3
            exfalso
            rw [h3] at hgT
            exact (c3 _ hheadw).2 hgT
        rw [← hgr]
        exact parReach_agree c13b
          (fun x hx => if_neg (htreeclr x hx)) hr0 hc
      · refine ⟨e.eto, Finset.mem_insert_of_mem (Finset.mem_singleton_self _), ?_⟩
        rw [← hjeq]
        have hchain : ∀ k j2, j2 < loopStart → loopStart - 1 - j2 = k →
            ParReach (fun x2 => if x2 = e.eto ∨
              x2 ∈ (s.path.drop loopStart).map Edge.eto then none else par x2)
              ((s.path.getD j2 (identityE (0, 0))).eto) e.eto := by
          intro k
          induction k with
          | zero =>
            intro j2 hj2 hk
            have hj3 : j2 = loopStart - 1 := by omega
            rw [hj3, hlseq]
            exact Relation.ReflTransGen.refl
          | succ k ih =>
            intro j2 hj2 hk
            have hj3 : j2 < loopStart - 1 := by omega
            refine Relation.ReflTransGen.head ?_ (ih (j2 + 1) (by omega) (by omega))
            show (if (s.path.getD j2 (identityE (0, 0))).eto = e.eto ∨
              (s.path.getD j2 (identityE (0, 0))).eto ∈
                (s.path.drop loopStart).map Edge.eto then none
              else par (s.path.getD j2 (identityE (0, 0))).eto) =
              some ((s.path.getD (j2 + 1) (identityE (0, 0))).eto)
            rw [if_neg (hposclr j2 hj3)]
            exact c13c j2 (by omega)
        exact hchain (loopStart - 1 - j) j hj rfl
  refine ⟨treeV, ?_, ?_, ?_, ?_, ?_, ?_, ?_, ?_, ?_, ?_, ?_, c12, ?_⟩
  · intro n hn
    have h2 : isVisitedG w FP.1 n = true := by
      rw [hviskeep n (c1 n hn).1 (Or.inl hn)]
      exact visitG_isVisited.mpr (Or.inl (c1 n hn).2)
    exact ⟨(c1 n hn).1, h2⟩
  · intro n hv hvisn
    have hvisn2 : (FP.1.age (nodeSlot w n)).isSome = true := hvisn
    rw [hage2] at hvisn2
    have hnoter : ((s.path.drop loopStart).any fun e2 =>
        nodeSlot w e2.eto = nodeSlot w n) = false := by
      cases hb : ((s.path.drop loopStart).any fun e2 =>
          nodeSlot w e2.eto = nodeSlot w n) with
      | false => rfl
      | true =>
        rw [hb, if_pos rfl] at hvisn2
        simp at hvisn2
    rw [hnoter, if_neg (by simp)] at hvisn2
    have hvisg1 : isVisitedG w (visitG w s.gs last.eto) n = true := hvisn2
    rcases visitG_isVisited.mp hvisg1 with hold | hslot
    · rcases c2 n hv hold with hc | hc
      · exact Or.inl hc
      · obtain ⟨j, hj, hjeq⟩ := wilNodes_mem.mp hc
        by_cases hjl : j < loopStart
        · exact Or.inr ((hwnK n).mpr ⟨j, hjl, hjeq⟩)
        · exfalso
          have hb2 : ((s.path.drop loopStart).any fun e2 =>
              nodeSlot w e2.eto = nodeSlot w n) = true :=
            (hanyslot _).mpr ⟨j, by omega, hj, by rw [hjeq]⟩
          rw [hnoter] at hb2
          cases hb2
    · exfalso
      have hb2 : ((s.path.drop loopStart).any fun e2 =>
          nodeSlot w e2.eto = nodeSlot w n) = true :=
        (hanyslot _).mpr ⟨s.path.length - 1, by omega, by omega,
          by rw [hlastD]; exact hslot.symm⟩
      rw [hnoter] at hb2
      cases hb2
  · intro n hn
    obtain ⟨j, hj, hjeq⟩ := (hwnK n).mp hn
    have hmem : n ∈ wilNodes s := wilNodes_mem.mpr ⟨j, by omega, hjeq⟩
    exact c3 n hmem
  · have hwneq : wilNodes ⟨FP.1, s.path.take loopStart, FP.2⟩ =
        (wilNodes s).take loopStart := by
      show (s.path.take loopStart).map Edge.eto =
        (s.path.map Edge.eto).take loopStart
      exact List.map_take _ _ _
    rw [hwneq]
    exact List.Nodup.sublist (List.take_sublist _ _) c4
  · show OpenWF w h FP.1.openb
    intro i hi
    rw [hopen2] at hi
    by_cases hb : ((s.path.drop loopStart).any fun e2 =>
        normaliseE w e2 = i) = true
    · rw [if_pos hb] at hi
      cases hi
    · rw [if_neg hb] at hi
      exact c5 i hi
  · intro hlen
    show ((s.path.take loopStart).getD 0 (identityE (0, 0))).efrom =
      ((s.path.take loopStart).getD 0 (identityE (0, 0))).eto
    rw [htakeget 0 (by omega)]
    exact c6 (by omega)
  · intro j h1 h2
    have h2' : j < (s.path.take loopStart).length := h2
    rw [htakelen] at h2'
    show EdgeOK w h ((s.path.take loopStart).getD j (identityE (0, 0))) ∧
      FP.1.openb (normaliseE w
        ((s.path.take loopStart).getD j (identityE (0, 0)))) = true
    rw [htakeget j h2']
    obtain ⟨hok, hop⟩ := c7 j h1 (by omega)
    refine ⟨hok, ?_⟩
    rw [hopen2]
    obtain ⟨nj, dj, hvj, hmej⟩ := hok
    have hfromj : (s.path.getD j (identityE (0, 0))).efrom =
        (s.path.getD (j - 1) (identityE (0, 0))).eto := by
      have h8 := c8 (j - 1) (by omega)
      rw [show j - 1 + 1 = j from by omega] at h8
      exact h8.symm
    rw [hsurv nj dj _ hmej (Or.inr ⟨j, h2', rfl⟩)
      (Or.inr ⟨j - 1, by omega, hfromj.symm⟩)]
    exact hop
  · intro j hj
    have hj' : j + 1 < (s.path.take loopStart).length := hj
    rw [htakelen] at hj'
    show ((s.path.take loopStart).getD j (identityE (0, 0))).eto =
      ((s.path.take loopStart).getD (j + 1) (identityE (0, 0))).efrom
    rw [htakeget j (by omega), htakeget (j + 1) hj']
    exact c8 j (by omega)
  · intro n j hn hj
    have hj2 : FP.2 (nodeSlot w n) = some j := hj
    rw [hidx2] at hj2
    by_cases hb : ((s.path.drop loopStart).any fun e2 =>
        nodeSlot w e2.eto = nodeSlot w n) = true
    · rw [if_pos hb] at hj2
      cases hj2
    · rw [if_neg hb] at hj2
      have hj3 : (if nodeSlot w n = nodeSlot w last.eto
        then some s.path.length else s.idx (nodeSlot w n)) = some j := hj2
      by_cases hc : nodeSlot w n = nodeSlot w last.eto
      · exfalso
        have hb2 : ((s.path.drop loopStart).any fun e2 =>
            nodeSlot w e2.eto = nodeSlot w n) = true :=
          (hanyslot _).mpr ⟨s.path.length - 1, by omega, by omega,
            by rw [hlastD, hc]⟩
        exact absurd hb2 hb
      · rw [if_neg hc] at hj3
        obtain ⟨h1, h2, h3⟩ := c9 n j hn hj3
        have hjls : j ≤ loopStart := by
          by_contra hcj
          have hb2 : ((s.path.drop loopStart).any fun e2 =>
              nodeSlot w e2.eto = nodeSlot w n) = true :=
            (hanyslot _).mpr ⟨j - 1, by omega, by omega, by rw [h3]⟩
          exact absurd hb2 hb
        refine ⟨h1, ?_, ?_⟩
        · show j ≤ (s.path.take loopStart).length
          rw [htakelen]
          exact hjls
        · show ((s.path.take loopStart).getD (j - 1) (identityE (0, 0))).eto = n
          rw [htakeget (j - 1) (by omega)]
          exact h3
  · intro j h1 h2
    have h2' : j + 1 ≤ (s.path.take loopStart).length := h2
    rw [htakelen] at h2'
    show FP.2 (nodeSlot w
      ((s.path.take loopStart).getD (j - 1) (identityE (0, 0))).eto) = some j
    rw [htakeget (j - 1) (by omega), hidx2]
    have hvj : validNode w h (s.path.getD (j - 1) (identityE (0, 0))).eto = true :=
      (c3 _ (wilNodes_mem.mpr ⟨j - 1, by omega, rfl⟩)).1
    rw [hkeptslot _ hvj (Or.inr ⟨j - 1, by omega, rfl⟩), if_neg (by simp)]
    have hnh : (s.path.getD (j - 1) (identityE (0, 0))).eto ≠ last.eto := by
      intro hcc
      rw [← hlastD] at hcc
      have := wilNodes_inj c4 (by omega) (by omega) hcc
      omega
    show (if nodeSlot w (s.path.getD (j - 1) (identityE (0, 0))).eto =
        nodeSlot w last.eto then some s.path.length
      else s.idx (nodeSlot w (s.path.getD (j - 1) (identityE (0, 0))).eto)) =
      some j
    rw [if_neg (fun hcc => hnh
      (nodeSlot_inj (valid_fst hvj) (valid_fst hheadv) hcc))]
    exact c10 j h1 (by omega)
  · intro j h1 h2
    have h2' : j + 1 ≤ (s.path.take loopStart).length := h2
    rw [htakelen] at h2'
    show isVisitedG w FP.1
      ((s.path.take loopStart).getD (j - 1) (identityE (0, 0))).eto = true
    rw [htakeget (j - 1) (by omega)]
    have hvj : validNode w h (s.path.getD (j - 1) (identityE (0, 0))).eto = true :=
      (c3 _ (wilNodes_mem.mpr ⟨j - 1, by omega, rfl⟩)).1
    rw [hviskeep _ hvj (Or.inr ⟨j - 1, by omega, rfl⟩)]
    exact visitG_isVisited.mpr (Or.inl (c11 j h1 (by omega)))
  · refine ⟨fun x2 => if x2 = e.eto ∨ x2 ∈ (s.path.drop loopStart).map Edge.eto
      then none else par x2, dpt, ?_, ?_, ?_, ?_⟩
    · show GhostForest w h FP.1.openb
        (treeV ∪ (wilNodes ⟨FP.1, s.path.take loopStart, FP.2⟩).toFinset) _ _
        (match (s.path.take loopStart).getLast? with
          | none => ({r} : Finset Node)
          | some lst => {r, lst.eto})
      rw [hKlast]
      show GhostForest w h FP.1.openb
        (treeV ∪ (wilNodes ⟨FP.1, s.path.take loopStart, FP.2⟩).toFinset) _ _
        ({r, (s.path.getD (loopStart - 1) (identityE (0, 0))).eto} : Finset Node)
      rw [hlseq]
      exact hfinal
    · intro n hn p hp
      have hp2 : (if n = e.eto ∨ n ∈ (s.path.drop loopStart).map Edge.eto
        then none else par n) = some p := hp
      rw [if_neg (htreeclr n hn)] at hp2
      exact c13b n hn p hp2
    · intro t ht
      have ht' : t + 1 < (s.path.take loopStart).length := ht
      rw [htakelen] at ht'
      show (if ((s.path.take loopStart).getD t (identityE (0, 0))).eto = e.eto ∨
          ((s.path.take loopStart).getD t (identityE (0, 0))).eto ∈
            (s.path.drop loopStart).map Edge.eto then none
        else par ((s.path.take loopStart).getD t (identityE (0, 0))).eto) =
        some (((s.path.take loopStart).getD (t + 1) (identityE (0, 0))).eto)
      rw [htakeget t (by omega), htakeget (t + 1) ht']
      rw [if_neg (hposclr t (by omega))]
      exact c13c t (by omega)
    · intro lst hlst
      have hl2 : (s.path.take loopStart).getLast? = some lst := hlst
      rw [hKlast] at hl2
      obtain rfl := Option.some.inj hl2
      show (if (s.path.getD (loopStart - 1) (identityE (0, 0))).eto = e.eto ∨
          (s.path.getD (loopStart - 1) (identityE (0, 0))).eto ∈
            (s.path.drop loopStart).map Edge.eto then none
        else par (s.path.getD (loopStart - 1) (identityE (0, 0))).eto) = none
      rw [if_pos (Or.inl hlseq)]

theorem wilsonStep_core {w h : Nat} {r : Node} {s : WilState} {c : Nat × Nat}
    (hw : 2 ≤ w) {last : Edge} (hlast : s.path.getLast? = some last)
    (hs : WilInv w h r s) : WilInv w h r (wilsonStep w h s c).1 := by
  have hlen0 : 0 < s.path.length := path_pos_of_last hlast
  have hlastD := path_last_getD hlast
  have hheadw : last.eto ∈ wilNodes s :=
    wilNodes_mem.mpr ⟨s.path.length - 1, by omega, by rw [hlastD]⟩
  have hheadv : validNode w h last.eto = true := by
    obtain ⟨tV, -, -, hc3, -, -, -, -, -, -, -, -, -, -, -, -, -, -, -⟩ := hs
    exact (hc3 last.eto hheadw).1
  cases hch : chooseL (neighboursL w h last.eto) c.2 with
  | none =>
    exfalso
    exact neighboursL_ne_nil hw hheadv (chooseL_none hch)
  | some e =>
    obtain ⟨d2, hme⟩ := neighboursL_mem.mp (chooseL_mem hch)
    cases hidx : updO s.idx (nodeSlot w last.eto) (some s.path.length)
        (nodeSlot w e.eto) with
    | some loopStart =>
      rw [wilsonStep_eq_erase hlast hch hidx]
      exact wilInv_erase hs hlast hme hidx
    | none =>
      cases hvis : isVisitedG w (visitG w s.gs last.eto) e.eto with
      | true =>
        rw [wilsonStep_eq_commit hlast hch hidx hvis]
        exact wilInv_commit hs hlast hme hidx hvis
      | false =>
        rw [wilsonStep_eq_extend hlast hch hidx hvis]
        exact wilInv_extend hs hlast hme hvis

theorem wilsonStep_inv {w h : Nat} {r : Node} {s : WilState} {c : Nat × Nat}
    (hw : 2 ≤ w) (hs : WilInv w h r s) : WilInv w h r (wilsonStep w h s c).1 := by
  cases hlast : s.path.getLast? with
  | some last => exact wilsonStep_core hw hlast hs
  | none =>
    have hpath : s.path = [] := by
      cases hp : s.path with
      | nil => rfl
      | cons a t =>
        rw [hp] at hlast
        simp at hlast
    cases hch : chooseL ((nodesList w h).filter fun n => !isVisitedG w s.gs n)
        c.1 with
    | none =>
      rw [wilsonStep_eq_done hlast hch]
      exact hs
    | some first =>
      have hmem := chooseL_mem hch
      have hfv : validNode w h first = true :=
        nodesList_mem.mp (List.mem_of_mem_filter hmem)
      have hfun : isVisitedG w s.gs first = false := by
        have h2 := List.of_mem_filter hmem
        simpa using h2
      rw [wilsonStep_begin hlast hch]
      have hlast2 : ({ s with path := [identityE first] } : WilState).path.getLast?
          = some (identityE first) := rfl
      exact wilsonStep_core hw hlast2 (wilInv_begin hs hpath hfv hfun)

theorem wilsonStep_cont_of_last {w h : Nat} {s : WilState} {c : Nat × Nat}
    {last : Edge} (hlast : s.path.getLast? = some last) :
    (wilsonStep w h s c).2 = Signal.cont := by
  cases hch : chooseL (neighboursL w h last.eto) c.2 with
  | none =>
    rw [wilsonStep_eq_stutter hlast hch]
  | some e =>
    cases hidx : updO s.idx (nodeSlot w last.eto) (some s.path.length)
        (nodeSlot w e.eto) with
    | some loopStart =>
      rw [wilsonStep_eq_erase hlast hch hidx]
    | none =>
      cases hvis : isVisitedG w (visitG w s.gs last.eto) e.eto with
      | true =>
        rw [wilsonStep_eq_commit hlast hch hidx hvis]
      | false =>
        rw [wilsonStep_eq_extend hlast hch hidx hvis]

theorem wilsonStep_done {w h : Nat} {r : Node} {s : WilState} {c : Nat × Nat}
    {s1 : WilState} (hs : WilInv w h r s)
    (hdone : wilsonStep w h s c = (s1, Signal.done)) :
    SpanningTreeG w h s1.gs.openb := by
  cases hlast : s.path.getLast? with
  | some last =>
    exfalso
    have hcont := @wilsonStep_cont_of_last w h s c last hlast
    rw [hdone] at hcont
    cases hcont
  | none =>
    cases hch : chooseL ((nodesList w h).filter fun n => !isVisitedG w s.gs n)
        c.1 with
    | some first =>
      exfalso
      rw [wilsonStep_begin hlast hch] at hdone
      have hlast2 : ({ s with path := [identityE first] } : WilState).path.getLast?
          = some (identityE first) := rfl
      have hcont := @wilsonStep_cont_of_last w h
        { s with path := [identityE first] } c (identityE first) hlast2
      rw [hdone] at hcont
      cases hcont
    | none =>
      rw [wilsonStep_eq_done hlast hch] at hdone
      injection hdone with h1 h2
      subst h1
      have hfilter : ((nodesList w h).filter fun n => !isVisitedG w s.gs n) = [] :=
        chooseL_none hch
      have hallvis : ∀ n : Node, validNode w h n = true →
          isVisitedG w s.gs n = true := by
        intro n hn
        have hnin : n ∉ (nodesList w h).filter fun n => !isVisitedG w s.gs n := by
          rw [hfilter]
          simp
        cases hb : isVisitedG w s.gs n with
        | true => rfl
        | false =>
          exfalso
          apply hnin
          rw [List.mem_filter]
          refine ⟨nodesList_mem.mpr hn, ?_⟩
          rw [hb]
          rfl
      obtain ⟨treeV, c1, c2, c3, c4, c5, c6, c7, c8, c9, c10, c11, c12, par, dpt,
        hgf, c13b, c13c, c13d⟩ := hs
      have hpath : s.path = [] := by
        cases hp : s.path with
        | nil => rfl
        | cons a t =>
          rw [hp] at hlast
          simp at hlast
      have hwn : wilNodes s = [] := by
        unfold wilNodes
        rw [hpath]
        rfl
      have hVeq : treeV ∪ (wilNodes s).toFinset = (nodesList w h).toFinset := by
        ext x
        simp only [Finset.mem_union, List.mem_toFinset]
        constructor
        · rintro (hc | hc)
          · exact nodesList_mem.mpr (c1 x hc).1
          · rw [hwn] at hc
            cases hc
        · intro hc
          have hv := nodesList_mem.mp hc
          rcases c2 x hv (hallvis x hv) with h2 | h2
          · exact Or.inl h2
          · rw [hwn] at h2
            cases h2
      have hgf2 : GhostForest w h s.gs.openb (nodesList w h).toFinset par dpt
          {r} := by
        rw [← hVeq]
        have hR : (match s.path.getLast? with
            | none => ({r} : Finset Node)
            | some lst => {r, lst.eto}) = ({r} : Finset Node) := by
          rw [hlast]
        rw [← hR]
        exact hgf
      exact ghost_spanning hgf2

theorem wilson_run_spanning {w h : Nat} {goal : Node} (hw : 2 ≤ w)
    (hgoal : validNode w h goal = true) (cs : List (Nat × Nat)) {s1 : WilState}
    (hrun : runAlg (wilsonStep w h) wilTick (wilsonInit w genInit goal) cs =
      (s1, true)) :
    SpanningTreeG w h s1.gs.openb := by
  obtain ⟨s0, c, hP0, hdone, heq⟩ :=
    runAlg_done (fun s c hs => wilsonStep_inv hw hs) (fun s hs => wilTick_inv hs)
      cs (wilsonInit w genInit goal) (wilsonInit_inv hgoal) (by rw [hrun])
  have hspan := wilsonStep_done hP0 (Prod.ext rfl hdone)
  have hs1 : s1 = (wilsonStep w h s0 c).1 := by
    have h2 := heq.symm
    rw [hrun] at h2
    exact h2.symm
  rw [hs1]
  exact hspan

/-- C1: on every `w × h` grid with `w, h ≥ 2`, each of the five generation
algorithms — Aldous-Broder, DFS, Kruskal, Prim and Wilson — satisfies: for
every stream of random choices, if the driving loop reports that the step
function signalled `Done`, the final state's open-edge set forms a spanning
tree of the grid (exactly `w·h − 1` open edges, all `w·h` nodes mutually
reachable through open edges, and no cycle). The start/goal node may be any
in-bounds node, and Kruskal's initial queue may be any queue of produced
edges covering every physical edge (as `Kruskal::new` builds it, in any
shuffle order). -/
theorem spanning_tree_all_generators {w h : Nat} (hw : 2 ≤ w) (hh : 2 ≤ h)
    {start goal : Node} (hstart : validNode w h start = true)
    (hgoal : validNode w h goal = true)
    {queue0 : List Edge} (hq0 : ∀ e ∈ queue0, EdgeOK w h e)
    (hall0 : ∀ pe ∈ edgesList w h, pe ∈ queue0) :
    (∀ (cs : List Nat) (s1 : ABState),
      runAlg (abStep w h) abTick (abInit genInit start) cs = (s1, true) →
      SpanningTreeG w h s1.gs.openb) ∧
    (∀ (cs : List Nat) (s1 : DfsState),
      runAlg (dfsStep w h) dfsTick (dfsInit genInit start) cs = (s1, true) →
      SpanningTreeG w h s1.gs.openb) ∧
    (∀ (cs : List Unit) (s1 : KrusState),
      runAlg (kruskalStep w h) krusTick (kruskalInit w genInit queue0) cs =
        (s1, true) →
      SpanningTreeG w h s1.gs.openb) ∧
    (∀ (cs : List Nat) (s1 : PrimState),
      runAlg (primStep w h) primTick (primInit w h genInit start) cs =
        (s1, true) →
      SpanningTreeG w h s1.gs.openb) ∧
    (∀ (cs : List (Nat × Nat)) (s1 : WilState),
      runAlg (wilsonStep w h) wilTick (wilsonInit w genInit goal) cs =
        (s1, true) →
      SpanningTreeG w h s1.gs.openb) :=
  ⟨fun cs s1 hrun => ab_run_spanning hstart cs hrun,
    fun cs s1 hrun => dfs_run_spanning hstart cs hrun,
    fun cs s1 hrun => kruskal_run_spanning (by omega) (by omega) hq0 hall0 cs hrun,
    fun cs s1 hrun => prim_run_spanning hstart cs hrun,
    fun cs s1 hrun => wilson_run_spanning hw hgoal cs hrun⟩

/-- Witness for C1 on the concrete 2 × 2 grid with start and goal `(0, 0)`
and the full produced-edge list as Kruskal queue. -/
theorem spanning_tree_all_generators_witness :
    (2 ≤ 2 ∧ validNode 2 2 (0, 0) = true) ∧
    ((∀ (cs : List Nat) (s1 : ABState),
      runAlg (abStep 2 2) abTick (abInit genInit (0, 0)) cs = (s1, true) →
      SpanningTreeG 2 2 s1.gs.openb) ∧
    (∀ (cs : List Nat) (s1 : DfsState),
      runAlg (dfsStep 2 2) dfsTick (dfsInit genInit (0, 0)) cs = (s1, true) →
      SpanningTreeG 2 2 s1.gs.openb) ∧
    (∀ (cs : List Unit) (s1 : KrusState),
      runAlg (kruskalStep 2 2) krusTick
        (kruskalInit 2 genInit (edgesList 2 2)) cs = (s1, true) →
      SpanningTreeG 2 2 s1.gs.openb) ∧
    (∀ (cs : List Nat) (s1 : PrimState),
      runAlg (primStep 2 2) primTick (primInit 2 2 genInit (0, 0)) cs =
        (s1, true) →
      SpanningTreeG 2 2 s1.gs.openb) ∧
    (∀ (cs : List (Nat × Nat)) (s1 : WilState),
      runAlg (wilsonStep 2 2) wilTick (wilsonInit 2 genInit (0, 0)) cs =
        (s1, true) →
      SpanningTreeG 2 2 s1.gs.openb)) :=
  ⟨⟨by decide, by decide⟩,
    spanning_tree_all_generators (by decide) (by decide) (by decide) (by decide)
      (fun e he => edgesList_mem_ok he) (fun pe hpe => hpe)⟩

end Overlook
